import Mathlib

/-!
# Recursive bilateral filter (`include/rbf.hpp`)

A shallow embedding of `_recursive_bf` and `recursive_bf`.

* `unsigned char *` storage is a map `Nat → Nat`, `float *` storage a map
  `Nat → K`; a pointer is an index into such a map.
* The sweeps are written over any type `K` that has the operations the code uses
  (`+`, `-`, `*`, `/`, conversion from integers, `1`), so every statement proved for all
  `K` holds with the rounded operations of `float`.
* `F32` is the type `float`: IEEE-754 binary32 with round to nearest, ties to even, after
  every operation. The entry points in this arithmetic are `_recursive_bf_f32` and
  `recursive_bf_f32`; statements about stored values and returned samples are made there.
* `_recursive_bf` and `recursive_bf` are the same functions in exact arithmetic over `ℝ`;
  they serve the statements that do not depend on rounding.
* Every loop of the source is a `loopUp` / `loopDown` over a state record that
  holds the storage together with the pointers and registers the loop moves.
-/

namespace RBF

/-! ## Storage and loops -/

/-- Assignment `p[i] = v`. -/
def store {α : Type} (m : Nat → α) (i : Nat) (v : α) : Nat → α :=
  fun k => if k = i then v else m k

/-- Library call `memcpy(dst, src, n * sizeof(elem))` inside one storage area. -/
def memcpy {α : Type} (m : Nat → α) (dst src n : Nat) : Nat → α :=
  fun k => if dst ≤ k ∧ k < dst + n then m (src + (k - dst)) else m k

/-- Loop `for (i = lo; i < lo + n; i++) s = body i s`. -/
def loopUp {σ : Type} (lo : Nat) (body : Nat → σ → σ) : Nat → σ → σ
  | 0, s => s
  | n + 1, s => body (lo + n) (loopUp lo body n s)

/-- Loop `for (i = n - 1; i >= 0; i--) s = body i s`. -/
def loopDown {σ : Type} (body : Nat → σ → σ) : Nat → σ → σ
  | 0, s => s
  | n + 1, s => loopDown body n (body n s)

/-! ## Range distance -/

/-- Statement `unsigned char d = abs(a - b);` on two `unsigned char` values. -/
def abs_diff (a b : Nat) : Nat := Int.natAbs ((a : Int) - (b : Int)) % 256

/-- Expression `(((dr << 1) + dg + db) >> 2)`. -/
def range_dist (dr dg db : Nat) : Nat := ((dr <<< 1) + dg + db) >>> 2

/-! ## Scratch buffer layout (lines 83-99) -/

/-- Start offsets of the eight regions carved from `buffer`. -/
structure Layout where
  img_out_f : Nat
  img_temp : Nat
  map_factor_a : Nat
  map_factor_b : Nat
  slice_factor_a : Nat
  slice_factor_b : Nat
  line_factor_a : Nat
  line_factor_b : Nat
deriving Repr, DecidableEq

/-- Number of floats of the scratch buffer, as allocated at line 89 and in the usage comment. -/
def buffer_size (width height channel : Nat) : Nat :=
  let width_height := width * height
  let width_channel := width * channel
  let width_height_channel := width * height * channel
  (width_height_channel + width_height + width_channel + width) * 2

/-- Pointer assignments of lines 92-99. -/
def layout (width height channel : Nat) : Layout :=
  let width_height := width * height
  let width_channel := width * channel
  let width_height_channel := width * height * channel
  let img_out_f := 0
  let img_temp := img_out_f + width_height_channel
  let map_factor_a := img_temp + width_height_channel
  let map_factor_b := map_factor_a + width_height
  let slice_factor_a := map_factor_b + width_height
  let slice_factor_b := slice_factor_a + width_channel
  let line_factor_a := slice_factor_b + width_channel
  let line_factor_b := line_factor_a + width
  { img_out_f := img_out_f, img_temp := img_temp, map_factor_a := map_factor_a,
    map_factor_b := map_factor_b, slice_factor_a := slice_factor_a,
    slice_factor_b := slice_factor_b, line_factor_a := line_factor_a,
    line_factor_b := line_factor_b }

/-- The eight regions as (start, length) pairs, in the order of lines 92-99. -/
def regions (width height channel : Nat) : List (Nat × Nat) :=
  let l := layout width height channel
  [(l.img_out_f, width * height * channel), (l.img_temp, width * height * channel),
   (l.map_factor_a, width * height), (l.map_factor_b, width * height),
   (l.slice_factor_a, width * channel), (l.slice_factor_b, width * channel),
   (l.line_factor_a, width), (l.line_factor_b, width)]

/-! ## Horizontal pass (lines 107-184) -/

/-- Variables live in one row of the horizontal pass. -/
structure HRow (K : Type) where
  buf : Nat → K
  temp_x : Nat
  in_x : Nat
  texture_x : Nat
  temp_factor_x : Nat
  tpr : Nat
  tpg : Nat
  tpb : Nat
  ypr : K
  ypg : K
  ypb : K
  fp : K

section Horizontal

variable {K : Type} [Add K] [Sub K] [Mul K] [Div K] [NatCast K] [One K]

/-- Lines 113-124: pointers of row `y` and the seed of the left-to-right sweep.
`temp_x0 = &img_temp[y * width_channel]`, `in_x0 = &img[y * width_channel]`,
`factor_x0 = &map_factor_a[y * width]`. -/
def h_init (img : Nat → Nat) (temp_x0 in_x0 factor_x0 : Nat) (buf : Nat → K) : HRow K :=
  let temp_x := temp_x0
  let in_x := in_x0
  let texture_x := in_x0
  let ypr : K := (img in_x : K)
  let buf := store buf temp_x ypr
  let ypg : K := (img (in_x + 1) : K)
  let buf := store buf (temp_x + 1) ypg
  let ypb : K := (img (in_x + 2) : K)
  let buf := store buf (temp_x + 2) ypb
  let tpr := img texture_x
  let tpg := img (texture_x + 1)
  let tpb := img (texture_x + 2)
  let temp_factor_x := factor_x0
  let fp : K := 1
  let buf := store buf temp_factor_x fp
  { buf := buf, temp_x := temp_x + 3, in_x := in_x + 3, texture_x := texture_x + 3,
    temp_factor_x := temp_factor_x + 1, tpr := tpr, tpg := tpg, tpb := tpb,
    ypr := ypr, ypg := ypg, ypb := ypb, fp := fp }

/-- Lines 129-144: one iteration of the left-to-right loop. -/
def h_fwd_step (img : Nat → Nat) (range_table : Nat → K) (alpha inv_alpha_ : K)
    (s : HRow K) : HRow K :=
  let tcr := img s.texture_x
  let tcg := img (s.texture_x + 1)
  let tcb := img (s.texture_x + 2)
  let dr := abs_diff tcr s.tpr
  let dg := abs_diff tcg s.tpg
  let db := abs_diff tcb s.tpb
  let weight := range_table (range_dist dr dg db)
  let alpha_ := weight * alpha
  let ycr := inv_alpha_ * (img s.in_x : K) + alpha_ * s.ypr
  let buf := store s.buf s.temp_x ycr
  let ycg := inv_alpha_ * (img (s.in_x + 1) : K) + alpha_ * s.ypg
  let buf := store buf (s.temp_x + 1) ycg
  let ycb := inv_alpha_ * (img (s.in_x + 2) : K) + alpha_ * s.ypb
  let buf := store buf (s.temp_x + 2) ycb
  let fc := inv_alpha_ + alpha_ * s.fp
  let buf := store buf s.temp_factor_x fc
  { buf := buf, temp_x := s.temp_x + 3, in_x := s.in_x + 3, texture_x := s.texture_x + 3,
    temp_factor_x := s.temp_factor_x + 1, tpr := tcr, tpg := tcg, tpb := tcb,
    ypr := ycr, ypg := ycg, ypb := ycb, fp := fc }

/-- Lines 146-155: the last column is averaged with the input, and the registers of the
right-to-left sweep are loaded. The pointers are pre-decremented, so `tpr` receives the
sample at `texture_x - 1`, and the three `yp` registers all receive `*in_x`. -/
def h_turn (img : Nat → Nat) (s : HRow K) : HRow K :=
  let buf := store s.buf (s.temp_x - 1) ((1 / 2 : K) * (s.buf (s.temp_x - 1) + (img (s.in_x - 1) : K)))
  let buf := store buf (s.temp_x - 2) ((1 / 2 : K) * (buf (s.temp_x - 2) + (img (s.in_x - 2) : K)))
  let buf := store buf (s.temp_x - 3) ((1 / 2 : K) * (buf (s.temp_x - 3) + (img (s.in_x - 3) : K)))
  let temp_x := s.temp_x - 3
  let in_x := s.in_x - 3
  let tpr := img (s.texture_x - 1)
  let tpg := img (s.texture_x - 2)
  let tpb := img (s.texture_x - 3)
  let texture_x := s.texture_x - 3
  let ypr : K := (img in_x : K)
  let ypg : K := (img in_x : K)
  let ypb : K := (img in_x : K)
  let temp_factor_x := s.temp_factor_x - 1
  let buf := store buf temp_factor_x ((1 / 2 : K) * (buf temp_factor_x + 1))
  let fp : K := 1
  { buf := buf, temp_x := temp_x, in_x := in_x, texture_x := texture_x,
    temp_factor_x := temp_factor_x, tpr := tpr, tpg := tpg, tpb := tpb,
    ypr := ypr, ypg := ypg, ypb := ypb, fp := fp }

/-- Lines 160-182: one iteration of the right-to-left loop. -/
def h_bwd_step (img : Nat → Nat) (range_table : Nat → K) (alpha inv_alpha_ : K)
    (s : HRow K) : HRow K :=
  let tcr := img (s.texture_x - 1)
  let tcg := img (s.texture_x - 2)
  let tcb := img (s.texture_x - 3)
  let dr := abs_diff tcr s.tpr
  let dg := abs_diff tcg s.tpg
  let db := abs_diff tcb s.tpb
  let weight := range_table (range_dist dr dg db)
  let alpha_ := weight * alpha
  let ycr := inv_alpha_ * (img (s.in_x - 1) : K) + alpha_ * s.ypr
  let ycg := inv_alpha_ * (img (s.in_x - 2) : K) + alpha_ * s.ypg
  let ycb := inv_alpha_ * (img (s.in_x - 3) : K) + alpha_ * s.ypb
  let buf := store s.buf (s.temp_x - 1) ((1 / 2 : K) * (s.buf (s.temp_x - 1) + ycr))
  let buf := store buf (s.temp_x - 2) ((1 / 2 : K) * (buf (s.temp_x - 2) + ycg))
  let buf := store buf (s.temp_x - 3) ((1 / 2 : K) * (buf (s.temp_x - 3) + ycb))
  let fc := inv_alpha_ + alpha_ * s.fp
  let temp_factor_x := s.temp_factor_x - 1
  let buf := store buf temp_factor_x ((1 / 2 : K) * (buf temp_factor_x + fc))
  { buf := buf, temp_x := s.temp_x - 3, in_x := s.in_x - 3, texture_x := s.texture_x - 3,
    temp_factor_x := temp_factor_x, tpr := tcr, tpg := tcg, tpb := tcb,
    ypr := ycr, ypg := ycg, ypb := ycb, fp := fc }

/-- Lines 113-145: the left-to-right sweep of row `y`; the state on leaving the loop. -/
def h_ltr (img : Nat → Nat) (range_table : Nat → K) (alpha inv_alpha_ : K)
    (width : Nat) (temp_x0 in_x0 factor_x0 : Nat) (buf : Nat → K) : HRow K :=
  let s := h_init img temp_x0 in_x0 factor_x0 buf
  loopUp 1 (fun _ s => h_fwd_step img range_table alpha inv_alpha_ s) (width - 1) s

/-- Body of the loop over `y` (lines 113-183): both sweeps of row `y`. -/
def h_row (img : Nat → Nat) (range_table : Nat → K) (alpha inv_alpha_ : K)
    (width : Nat) (temp_x0 in_x0 factor_x0 : Nat) (buf : Nat → K) : Nat → K :=
  let s := h_ltr img range_table alpha inv_alpha_ width temp_x0 in_x0 factor_x0 buf
  let s := h_turn img s
  let s := loopDown (fun _ s => h_bwd_step img range_table alpha inv_alpha_ s) (width - 1) s
  s.buf

/-- Lines 110-184: the horizontal pass over all rows. -/
def h_pass (img : Nat → Nat) (range_table : Nat → K) (alpha : K)
    (width height channel : Nat) (buf : Nat → K) : Nat → K :=
  let l := layout width height channel
  let width_channel := width * channel
  let inv_alpha_ := 1 - alpha
  loopUp 0 (fun y buf =>
    h_row img range_table alpha inv_alpha_ width
      (l.img_temp + y * width_channel) (y * width_channel) (l.map_factor_a + y * width) buf)
    height buf

end Horizontal

/-! ## Vertical pass (lines 185-273) -/

/-- Pointers of one row of the top-to-bottom sweep. -/
structure VFwd (K : Type) where
  buf : Nat → K
  tpy : Nat
  tcy : Nat
  xcy : Nat
  ypy : Nat
  ycy : Nat
  xcf : Nat
  ypf : Nat
  ycf : Nat

/-- Storage and the running index `k` of the last-row loop (lines 228-234). -/
structure VLast (K : Type) where
  buf : Nat → K
  k : Nat

/-- Pointers of one row of the bottom-to-top sweep. -/
structure VBwd (K : Type) where
  buf : Nat → K
  tpy : Nat
  tcy : Nat
  xcy : Nat
  ycy_ : Nat
  ypy_ : Nat
  out_ : Nat
  xcf : Nat
  ycf_ : Nat
  ypf_ : Nat
  factor_ : Nat

section Vertical

variable {K : Type} [Add K] [Sub K] [Mul K] [Div K] [NatCast K] [One K]

/-- Lines 189-193: row 0 of `img_temp` and of `map_factor_a` is copied to `img_out_f`
and `map_factor_b`. -/
def v_init (width height channel : Nat) (buf : Nat → K) : Nat → K :=
  let l := layout width height channel
  let width_channel := width * channel
  let buf := memcpy buf l.img_out_f l.img_temp width_channel
  let in_factor := l.map_factor_a
  memcpy buf l.map_factor_b in_factor width

/-- Line 214: one iteration of the loop over `c`. -/
def v_fwd_chan (inv_alpha_ alpha_ : K) (s : VFwd K) : VFwd K :=
  { s with buf := store s.buf s.ycy (inv_alpha_ * s.buf s.xcy + alpha_ * s.buf s.ypy),
           ycy := s.ycy + 1, xcy := s.xcy + 1, ypy := s.ypy + 1 }

/-- Lines 207-215: one iteration of the loop over `x` in the top-to-bottom sweep. -/
def v_fwd_step (img : Nat → Nat) (range_table : Nat → K) (alpha inv_alpha_ : K)
    (channel : Nat) (s : VFwd K) : VFwd K :=
  let dr := abs_diff (img s.tcy) (img s.tpy)
  let dg := abs_diff (img (s.tcy + 1)) (img (s.tpy + 1))
  let db := abs_diff (img (s.tcy + 2)) (img (s.tpy + 2))
  let s := { s with tcy := s.tcy + 3, tpy := s.tpy + 3 }
  let weight := range_table (range_dist dr dg db)
  let alpha_ := weight * alpha
  let s := loopUp 0 (fun _ s => v_fwd_chan inv_alpha_ alpha_ s) channel s
  { s with buf := store s.buf s.ycf (inv_alpha_ * s.buf s.xcf + alpha_ * s.buf s.ypf),
           ycf := s.ycf + 1, xcf := s.xcf + 1, ypf := s.ypf + 1 }

/-- Lines 196-216: row `y` of the top-to-bottom sweep. -/
def v_fwd_row (img : Nat → Nat) (range_table : Nat → K) (alpha inv_alpha_ : K)
    (width height channel : Nat) (y : Nat) (buf : Nat → K) : Nat → K :=
  let l := layout width height channel
  let width_channel := width * channel
  let in_factor := l.map_factor_a
  let s : VFwd K :=
    { buf := buf,
      tpy := (y - 1) * width_channel,
      tcy := y * width_channel,
      xcy := l.img_temp + y * width_channel,
      ypy := l.img_out_f + (y - 1) * width_channel,
      ycy := l.img_out_f + y * width_channel,
      xcf := in_factor + y * width,
      ypf := l.map_factor_b + (y - 1) * width,
      ycf := l.map_factor_b + y * width }
  (loopUp 0 (fun _ s => v_fwd_step img range_table alpha inv_alpha_ channel s) width s).buf

/-- Lines 194-217: the top-to-bottom sweep, rows `1 .. height - 1`. -/
def v_fwd_pass (img : Nat → Nat) (range_table : Nat → K) (alpha : K)
    (width height channel : Nat) (buf : Nat → K) : Nat → K :=
  let inv_alpha_ := 1 - alpha
  loopUp 1 (fun y buf => v_fwd_row img range_table alpha inv_alpha_ width height channel y buf)
    (height - 1) buf

/-- Line 232: one iteration of the loop over `c` in the last row. -/
def v_last_chan (width height channel : Nat) (x c : Nat) (s : VLast K) : VLast K :=
  let l := layout width height channel
  let h1 := height - 1
  let ypy := l.slice_factor_b
  let idx := (h1 * width + x) * channel + c
  { buf := store s.buf (l.img_out_f + idx)
      ((1 / 2 : K) * (s.buf (l.img_out_f + idx) + s.buf (ypy + s.k))
        / s.buf (l.map_factor_b + (h1 * width + x))),
    k := s.k + 1 }

/-- Lines 218-234: the last row: factors averaged with the horizontal factors, colours
averaged with the horizontal colours and divided by the averaged factor. -/
def v_last_row (width height channel : Nat) (buf : Nat → K) : Nat → K :=
  let l := layout width height channel
  let width_channel := width * channel
  let in_factor := l.map_factor_a
  let h1 := height - 1
  let ypf := l.line_factor_b
  let buf := memcpy buf ypf (in_factor + h1 * width) width
  let buf := loopUp 0 (fun x buf =>
    store buf (l.map_factor_b + (h1 * width + x))
      ((1 / 2 : K) * (buf (l.map_factor_b + (h1 * width + x)) + buf (ypf + x)))) width buf
  let ypy := l.slice_factor_b
  let buf := memcpy buf ypy (l.img_temp + h1 * width_channel) width_channel
  let s : VLast K := { buf := buf, k := 0 }
  (loopUp 0 (fun x s => loopUp 0 (fun c s => v_last_chan width height channel x c s) channel s)
    width s).buf

/-- Lines 264-267: one iteration of the loop over `c` in the bottom-to-top sweep. -/
def v_bwd_chan (inv_alpha_ alpha_ : K) (s : VBwd K) : VBwd K :=
  let ycc := inv_alpha_ * s.buf s.xcy + alpha_ * s.buf s.ypy_
  let buf := store s.buf s.ycy_ ycc
  let buf := store buf s.out_ ((1 / 2 : K) * (buf s.out_ + ycc) / buf s.factor_)
  { s with buf := buf, xcy := s.xcy + 1, ypy_ := s.ypy_ + 1, ycy_ := s.ycy_ + 1,
           out_ := s.out_ + 1 }

/-- Lines 251-269: one iteration of the loop over `x` in the bottom-to-top sweep. -/
def v_bwd_step (img : Nat → Nat) (range_table : Nat → K) (alpha inv_alpha_ : K)
    (channel : Nat) (s : VBwd K) : VBwd K :=
  let dr := abs_diff (img s.tcy) (img s.tpy)
  let dg := abs_diff (img (s.tcy + 1)) (img (s.tpy + 1))
  let db := abs_diff (img (s.tcy + 2)) (img (s.tpy + 2))
  let s := { s with tcy := s.tcy + 3, tpy := s.tpy + 3 }
  let weight := range_table (range_dist dr dg db)
  let alpha_ := weight * alpha
  let fcc := inv_alpha_ * s.buf s.xcf + alpha_ * s.buf s.ypf_
  let buf := store s.buf s.ycf_ fcc
  let buf := store buf s.factor_ ((1 / 2 : K) * (buf s.factor_ + fcc))
  let s := { s with buf := buf, xcf := s.xcf + 1, ypf_ := s.ypf_ + 1, ycf_ := s.ycf_ + 1 }
  let s := loopUp 0 (fun _ s => v_bwd_chan inv_alpha_ alpha_ s) channel s
  { s with factor_ := s.factor_ + 1 }

/-- Lines 238-272: row `y` of the bottom-to-top sweep. -/
def v_bwd_row (img : Nat → Nat) (range_table : Nat → K) (alpha inv_alpha_ : K)
    (width height channel : Nat) (y : Nat) (buf : Nat → K) : Nat → K :=
  let l := layout width height channel
  let width_channel := width * channel
  let in_factor := l.map_factor_a
  let ycf := l.line_factor_a
  let ypf := l.line_factor_b
  let ycy := l.slice_factor_a
  let ypy := l.slice_factor_b
  let s : VBwd K :=
    { buf := buf,
      tpy := (y + 1) * width_channel,
      tcy := y * width_channel,
      xcy := l.img_temp + y * width_channel,
      ycy_ := ycy,
      ypy_ := ypy,
      out_ := l.img_out_f + y * width_channel,
      xcf := in_factor + y * width,
      ycf_ := ycf,
      ypf_ := ypf,
      factor_ := l.map_factor_b + y * width }
  let s := loopUp 0 (fun _ s => v_bwd_step img range_table alpha inv_alpha_ channel s) width s
  let buf := memcpy s.buf ypy ycy width_channel
  memcpy buf ypf ycf width

/-- Lines 236-273: the bottom-to-top sweep, rows `height - 2` down to `0`. -/
def v_bwd_pass (img : Nat → Nat) (range_table : Nat → K) (alpha : K)
    (width height channel : Nat) (buf : Nat → K) : Nat → K :=
  let inv_alpha_ := 1 - alpha
  let h1 := height - 1
  loopDown (fun y buf => v_bwd_row img range_table alpha inv_alpha_ width height channel y buf)
    h1 buf

end Vertical

/-! ## Quantization and the whole filter -/

section Sweeps

variable {K : Type} [Add K] [Sub K] [Mul K] [Div K] [NatCast K] [One K]

/-- Scratch buffer on reaching line 275: all four sweeps done, given the range table and the
decay coefficients of the horizontal and of the vertical pass. -/
def sweeps (img : Nat → Nat) (range_table : Nat → K) (alpha_h alpha_v : K)
    (width height channel : Nat) (buf : Nat → K) : Nat → K :=
  let buf := h_pass img range_table alpha_h width height channel buf
  let buf := v_init width height channel buf
  let buf := v_fwd_pass img range_table alpha_v width height channel buf
  let buf := v_last_row width height channel buf
  v_bwd_pass img range_table alpha_v width height channel buf

end Sweeps

section Whole

variable {K : Type} [LinearOrderedField K] [FloorRing K]

/-- Conversion `static_cast<unsigned char>(v)` of a value that is not negative: truncation,
kept in 8 bits. -/
def to_uchar (v : K) : Nat := ⌊v⌋₊ % 256

/-- Lines 275-276: the float image is written back over `img`. -/
def quantize (width height channel : Nat) (img : Nat → Nat) (buf : Nat → K) : Nat → Nat :=
  let l := layout width height channel
  let width_height_channel := width * height * channel
  loopUp 0 (fun i img => store img i (to_uchar (buf (l.img_out_f + i)))) width_height_channel img

/-- Lines 107-276 of `_recursive_bf`, given the range table and the two decay coefficients:
the image on return. -/
def filter_passes (img : Nat → Nat) (range_table : Nat → K) (alpha_h alpha_v : K)
    (width height channel : Nat) (buf : Nat → K) : Nat → Nat :=
  quantize width height channel img
    (sweeps img range_table alpha_h alpha_v width height channel buf)

end Whole

/-- Lines 102-105 in exact arithmetic: the lookup table,
`range_table[i] = exp(-i * inv_sigma_range)`; see `range_table_f32` for `float`. -/
noncomputable def range_table (sigma_range : ℝ) (i : Nat) : ℝ :=
  let inv_sigma_range := 1 / (sigma_range * 255)
  Real.exp (-(i : ℝ) * inv_sigma_range)

/-- Lines 107 and 185 in exact arithmetic: `alpha = exp(-sqrt(2.0) / (sigma_spatial * n))`,
with `n` the width for the horizontal pass and the height for the vertical pass; see
`decay_f32` for `float`. -/
noncomputable def decay (sigma_spatial : ℝ) (n : Nat) : ℝ :=
  Real.exp (-Real.sqrt 2 / (sigma_spatial * (n : ℝ)))

/-- Function `_recursive_bf` in exact arithmetic: filters `img` in place. `buffer` is the
optional external scratch buffer; `fresh` is the indeterminate content of the storage that
`new float[...]` returns when no buffer is passed. The result is the content of `img` on
return. -/
noncomputable def _recursive_bf (img : Nat → Nat) (sigma_spatial sigma_range : ℝ)
    (width height channel : Nat) (buffer : Option (Nat → ℝ)) (fresh : Nat → ℝ) : Nat → Nat :=
  let buffer := match buffer with
    | none => fresh
    | some b => b
  filter_passes img (range_table sigma_range) (decay sigma_spatial width)
    (decay sigma_spatial height) width height channel buffer

/-- Function `recursive_bf` in exact arithmetic: copies `img_in` to `img_out` (allocated when
null, its previous content being `out0` either way) and filters the copy. The result is the
content of `img_out` on return. -/
noncomputable def recursive_bf (img_in : Nat → Nat) (out0 : Nat → Nat)
    (sigma_spatial sigma_range : ℝ) (width height channel : Nat)
    (buffer : Option (Nat → ℝ)) (fresh : Nat → ℝ) : Nat → Nat :=
  let img_out := loopUp 0 (fun i out => store out i (img_in i)) (width * height * channel) out0
  _recursive_bf img_out sigma_spatial sigma_range width height channel buffer fresh

/-! ## Closed forms of the values the sweeps store

The loops above are characterised by recurrences over pixel coordinates. Rows of the image
start at `in_x0 = y * (width * 3)`; sample `c` of pixel `x` of that row is `img (in_x0 + 3 * x + c)`.
-/

section Closed

variable {K : Type} [Add K] [Sub K] [Mul K] [Div K] [NatCast K] [One K]

/-- Decay `alpha_` between the pixel at offset `p` (current) and the pixel at offset `q`
(previous), with the three samples of both pixels read in increasing order. -/
def decay_at (img : Nat → Nat) (tbl : Nat → K) (alpha : K) (p q : Nat) : K :=
  tbl (range_dist (abs_diff (img p) (img q)) (abs_diff (img (p + 1)) (img (q + 1)))
    (abs_diff (img (p + 2)) (img (q + 2)))) * alpha

/-- Decay `alpha_` of the right-to-left sweep: the samples of both pixels are read in
decreasing order, so the doubled difference is the one of the third sample. -/
def decay_rev (img : Nat → Nat) (tbl : Nat → K) (alpha : K) (p q : Nat) : K :=
  tbl (range_dist (abs_diff (img (p + 2)) (img (q + 2))) (abs_diff (img (p + 1)) (img (q + 1)))
    (abs_diff (img p) (img q))) * alpha

/-- Value the left-to-right sweep stores for sample `c` of column `x`. -/
def ltr_col (img : Nat → Nat) (tbl : Nat → K) (alpha : K) (R c : Nat) : Nat → K
  | 0 => (img (R + c) : K)
  | x + 1 => (1 - alpha) * (img (R + 3 * (x + 1) + c) : K)
      + decay_at img tbl alpha (R + 3 * (x + 1)) (R + 3 * x) * ltr_col img tbl alpha R c x

/-- Factor the left-to-right sweep stores for column `x`. -/
def ltr_fac (img : Nat → Nat) (tbl : Nat → K) (alpha : K) (R : Nat) : Nat → K
  | 0 => 1
  | x + 1 => (1 - alpha)
      + decay_at img tbl alpha (R + 3 * (x + 1)) (R + 3 * x) * ltr_fac img tbl alpha R x

/-- Value the right-to-left sweep computes for sample `c` of column `width - 1 - j`. Its seed
is the first sample of the last pixel, whatever `c` is. -/
def rtl_col (img : Nat → Nat) (tbl : Nat → K) (alpha : K) (width R c : Nat) : Nat → K
  | 0 => (img (R + 3 * (width - 1)) : K)
  | j + 1 => (1 - alpha) * (img (R + 3 * (width - 2 - j) + c) : K)
      + decay_rev img tbl alpha (R + 3 * (width - 2 - j)) (R + 3 * (width - 1 - j))
        * rtl_col img tbl alpha width R c j

/-- Factor the right-to-left sweep computes for column `width - 1 - j`. -/
def rtl_fac (img : Nat → Nat) (tbl : Nat → K) (alpha : K) (width R : Nat) : Nat → K
  | 0 => 1
  | j + 1 => (1 - alpha)
      + decay_rev img tbl alpha (R + 3 * (width - 2 - j)) (R + 3 * (width - 1 - j))
        * rtl_fac img tbl alpha width R j

/-- Colour in `img_temp` after the horizontal pass: sample `c` of column `x` of the row at `R`. -/
def h_col (img : Nat → Nat) (tbl : Nat → K) (alpha : K) (width R x c : Nat) : K :=
  if x + 1 = width then
    (1 / 2 : K) * (ltr_col img tbl alpha R c x + (img (R + 3 * x + c) : K))
  else
    (1 / 2 : K) * (ltr_col img tbl alpha R c x + rtl_col img tbl alpha width R c (width - 1 - x))

/-- Factor in `map_factor_a` after the horizontal pass: column `x` of the row at `R`. -/
def h_fac (img : Nat → Nat) (tbl : Nat → K) (alpha : K) (width R x : Nat) : K :=
  (1 / 2 : K) * (ltr_fac img tbl alpha R x + rtl_fac img tbl alpha width R (width - 1 - x))

/-- Value the top-to-bottom sweep stores in `img_out_f` for sample `c` of pixel `(x, y)`. -/
def ttb_col (img : Nat → Nat) (tbl : Nat → K) (alpha_h alpha_v : K) (width x c : Nat) : Nat → K
  | 0 => h_col img tbl alpha_h width 0 x c
  | y + 1 => (1 - alpha_v) * h_col img tbl alpha_h width ((y + 1) * (width * 3)) x c
      + decay_at img tbl alpha_v ((y + 1) * (width * 3) + 3 * x) (y * (width * 3) + 3 * x)
        * ttb_col img tbl alpha_h alpha_v width x c y

/-- Factor the top-to-bottom sweep stores in `map_factor_b` for pixel `(x, y)`. -/
def ttb_fac (img : Nat → Nat) (tbl : Nat → K) (alpha_h alpha_v : K) (width x : Nat) : Nat → K
  | 0 => h_fac img tbl alpha_h width 0 x
  | y + 1 => (1 - alpha_v) * h_fac img tbl alpha_h width ((y + 1) * (width * 3)) x
      + decay_at img tbl alpha_v ((y + 1) * (width * 3) + 3 * x) (y * (width * 3) + 3 * x)
        * ttb_fac img tbl alpha_h alpha_v width x y

/-- Value the bottom-to-top sweep computes for sample `c` of pixel `(x, height - 1 - j)`;
its seed is the horizontal colour of the last row. -/
def btt_col (img : Nat → Nat) (tbl : Nat → K) (alpha_h alpha_v : K) (width height x c : Nat) :
    Nat → K
  | 0 => h_col img tbl alpha_h width ((height - 1) * (width * 3)) x c
  | j + 1 => (1 - alpha_v) * h_col img tbl alpha_h width ((height - 2 - j) * (width * 3)) x c
      + decay_at img tbl alpha_v ((height - 2 - j) * (width * 3) + 3 * x)
          ((height - 2 - j + 1) * (width * 3) + 3 * x)
        * btt_col img tbl alpha_h alpha_v width height x c j

/-- Factor the bottom-to-top sweep computes for pixel `(x, height - 1 - j)`. -/
def btt_fac (img : Nat → Nat) (tbl : Nat → K) (alpha_h alpha_v : K) (width height x : Nat) :
    Nat → K
  | 0 => h_fac img tbl alpha_h width ((height - 1) * (width * 3)) x
  | j + 1 => (1 - alpha_v) * h_fac img tbl alpha_h width ((height - 2 - j) * (width * 3)) x
      + decay_at img tbl alpha_v ((height - 2 - j) * (width * 3) + 3 * x)
          ((height - 2 - j + 1) * (width * 3) + 3 * x)
        * btt_fac img tbl alpha_h alpha_v width height x j

/-- Final content of `map_factor_b` at pixel `(x, y)`: the divisor of the normalisation. -/
def out_fac (img : Nat → Nat) (tbl : Nat → K) (alpha_h alpha_v : K) (width height y x : Nat) : K :=
  (1 / 2 : K) * (ttb_fac img tbl alpha_h alpha_v width x y
    + btt_fac img tbl alpha_h alpha_v width height x (height - 1 - y))

/-- Final content of `img_out_f` for sample `c` of pixel `(x, y)`. -/
def out_col (img : Nat → Nat) (tbl : Nat → K) (alpha_h alpha_v : K) (width height y x c : Nat) :
    K :=
  (1 / 2 : K) * (ttb_col img tbl alpha_h alpha_v width x c y
    + btt_col img tbl alpha_h alpha_v width height x c (height - 1 - y))
    / out_fac img tbl alpha_h alpha_v width height y x

end Closed

/-! ## Loop invariants -/

/-- Invariant of the left-to-right loop of one row, after column `n`: `T`, `R`, `A` are the
starts of the row in `img_temp`, `img` and `map_factor_a`, `buf0` the buffer on entry. -/
structure FwdInv {K : Type} [Add K] [Sub K] [Mul K] [Div K] [NatCast K] [One K] (img : Nat → Nat) (tbl : Nat → K) (alpha : K)
    (T R A : Nat) (buf0 : Nat → K) (n : Nat) (s : HRow K) : Prop where
  temp_x : s.temp_x = T + 3 * (n + 1)
  in_x : s.in_x = R + 3 * (n + 1)
  texture_x : s.texture_x = R + 3 * (n + 1)
  temp_factor_x : s.temp_factor_x = A + (n + 1)
  tpr : s.tpr = img (R + 3 * n)
  tpg : s.tpg = img (R + 3 * n + 1)
  tpb : s.tpb = img (R + 3 * n + 2)
  ypr : s.ypr = ltr_col img tbl alpha R 0 n
  ypg : s.ypg = ltr_col img tbl alpha R 1 n
  ypb : s.ypb = ltr_col img tbl alpha R 2 n
  fp : s.fp = ltr_fac img tbl alpha R n
  col : ∀ x c, x ≤ n → c < 3 → s.buf (T + 3 * x + c) = ltr_col img tbl alpha R c x
  fac : ∀ x, x ≤ n → s.buf (A + x) = ltr_fac img tbl alpha R x
  frame : ∀ k, (k < T ∨ T + 3 * (n + 1) ≤ k) → (k < A ∨ A + (n + 1) ≤ k) → s.buf k = buf0 k

/-- Invariant of the right-to-left loop of one row, after `j` iterations. -/
structure BwdInv {K : Type} [Add K] [Sub K] [Mul K] [Div K] [NatCast K] [One K] (img : Nat → Nat) (tbl : Nat → K) (alpha : K)
    (W T R A : Nat) (buf0 : Nat → K) (j : Nat) (s : HRow K) : Prop where
  temp_x : s.temp_x = T + 3 * (W - 1 - j)
  in_x : s.in_x = R + 3 * (W - 1 - j)
  texture_x : s.texture_x = R + 3 * (W - 1 - j)
  temp_factor_x : s.temp_factor_x = A + (W - 1 - j)
  tpr : s.tpr = img (R + 3 * (W - 1 - j) + 2)
  tpg : s.tpg = img (R + 3 * (W - 1 - j) + 1)
  tpb : s.tpb = img (R + 3 * (W - 1 - j))
  ypr : s.ypr = rtl_col img tbl alpha W R 2 j
  ypg : s.ypg = rtl_col img tbl alpha W R 1 j
  ypb : s.ypb = rtl_col img tbl alpha W R 0 j
  fp : s.fp = rtl_fac img tbl alpha W R j
  col_done : ∀ x c, W - 1 - j ≤ x → x < W → c < 3 →
    s.buf (T + 3 * x + c) = h_col img tbl alpha W R x c
  col_todo : ∀ x c, x < W - 1 - j → c < 3 → s.buf (T + 3 * x + c) = ltr_col img tbl alpha R c x
  fac_done : ∀ x, W - 1 - j ≤ x → x < W → s.buf (A + x) = h_fac img tbl alpha W R x
  fac_todo : ∀ x, x < W - 1 - j → s.buf (A + x) = ltr_fac img tbl alpha R x
  frame : ∀ k, (k < T ∨ T + 3 * W ≤ k) → (k < A ∨ A + W ≤ k) → s.buf k = buf0 k

/-- Separation of the cells one row of the top-to-bottom sweep writes from those it reads. -/
structure VFwdSep {K : Type} (s0 : VFwd K) (W : Nat) : Prop where
  d1 : s0.ypy + 3 * W ≤ s0.ycy
  d2 : s0.ycy + 3 * W ≤ s0.xcy
  d3 : s0.xcy + 3 * W ≤ s0.xcf
  d4 : s0.xcf + W ≤ s0.ypf
  d5 : s0.ypf + W ≤ s0.ycf

/-- Invariant of the loop over `x` in one row of the top-to-bottom sweep. -/
structure VFwdInv {K : Type} [Add K] [Sub K] [Mul K] [Div K] [NatCast K] [One K] (img : Nat → Nat) (tbl : Nat → K) (alpha : K)
    (s0 : VFwd K) (x : Nat) (s : VFwd K) : Prop where
  tpy : s.tpy = s0.tpy + 3 * x
  tcy : s.tcy = s0.tcy + 3 * x
  xcy : s.xcy = s0.xcy + 3 * x
  ypy : s.ypy = s0.ypy + 3 * x
  ycy : s.ycy = s0.ycy + 3 * x
  xcf : s.xcf = s0.xcf + x
  ypf : s.ypf = s0.ypf + x
  ycf : s.ycf = s0.ycf + x
  col : ∀ i c, i < x → c < 3 → s.buf (s0.ycy + 3 * i + c)
    = (1 - alpha) * s0.buf (s0.xcy + 3 * i + c)
      + decay_at img tbl alpha (s0.tcy + 3 * i) (s0.tpy + 3 * i) * s0.buf (s0.ypy + 3 * i + c)
  fac : ∀ i, i < x → s.buf (s0.ycf + i)
    = (1 - alpha) * s0.buf (s0.xcf + i)
      + decay_at img tbl alpha (s0.tcy + 3 * i) (s0.tpy + 3 * i) * s0.buf (s0.ypf + i)
  frame : ∀ k, (k < s0.ycy ∨ s0.ycy + 3 * x ≤ k) → (k < s0.ycf ∨ s0.ycf + x ≤ k) →
    s.buf k = s0.buf k

/-- The horizontal pass has left its colours in `img_temp` and its factors in `map_factor_a`. -/
structure HDone {K : Type} [Add K] [Sub K] [Mul K] [Div K] [NatCast K] [One K] (img : Nat → Nat) (tbl : Nat → K) (alpha_h : K)
    (W H : Nat) (b : Nat → K) : Prop where
  col : ∀ y x c, y < H → x < W → c < 3 →
    b (W * H * 3 + y * (W * 3) + 3 * x + c) = h_col img tbl alpha_h W (y * (W * 3)) x c
  fac : ∀ y x, y < H → x < W →
    b (W * H * 3 + W * H * 3 + y * W + x) = h_fac img tbl alpha_h W (y * (W * 3)) x

/-- Rows `0 .. n - 1` of `img_out_f` and `map_factor_b` hold the top-to-bottom values. -/
structure TtbDone {K : Type} [Add K] [Sub K] [Mul K] [Div K] [NatCast K] [One K] (img : Nat → Nat) (tbl : Nat → K)
    (alpha_h alpha_v : K) (W H n : Nat) (b : Nat → K) : Prop where
  col : ∀ y x c, y < n → x < W → c < 3 →
    b (y * (W * 3) + 3 * x + c) = ttb_col img tbl alpha_h alpha_v W x c y
  fac : ∀ y x, y < n → x < W →
    b (W * H * 3 + W * H * 3 + W * H + y * W + x) = ttb_fac img tbl alpha_h alpha_v W x y

/-- Address order of the eight row areas one row of the bottom-to-top sweep touches. -/
structure VBwdSep {K : Type} (s0 : VBwd K) (W : Nat) : Prop where
  d1 : s0.out_ + 3 * W ≤ s0.xcy
  d2 : s0.xcy + 3 * W ≤ s0.xcf
  d3 : s0.xcf + W ≤ s0.factor_
  d4 : s0.factor_ + W ≤ s0.ycy_
  d5 : s0.ycy_ + 3 * W ≤ s0.ypy_
  d6 : s0.ypy_ + 3 * W ≤ s0.ycf_
  d7 : s0.ycf_ + W ≤ s0.ypf_

/-- Factor `fcc` computed at column `i` of one row of the bottom-to-top sweep. -/
def bwd_fcc {K : Type} [Add K] [Sub K] [Mul K] [Div K] [NatCast K] [One K] (img : Nat → Nat) (tbl : Nat → K) (alpha : K)
    (s0 : VBwd K) (i : Nat) : K :=
  (1 - alpha) * s0.buf (s0.xcf + i)
    + decay_at img tbl alpha (s0.tcy + 3 * i) (s0.tpy + 3 * i) * s0.buf (s0.ypf_ + i)

/-- Colour `ycc` computed for sample `c` at column `i` of one row of the bottom-to-top sweep. -/
def bwd_ycc {K : Type} [Add K] [Sub K] [Mul K] [Div K] [NatCast K] [One K] (img : Nat → Nat) (tbl : Nat → K) (alpha : K)
    (s0 : VBwd K) (i c : Nat) : K :=
  (1 - alpha) * s0.buf (s0.xcy + 3 * i + c)
    + decay_at img tbl alpha (s0.tcy + 3 * i) (s0.tpy + 3 * i) * s0.buf (s0.ypy_ + 3 * i + c)

/-- Invariant of the loop over `x` in one row of the bottom-to-top sweep. -/
structure VBwdInv {K : Type} [Add K] [Sub K] [Mul K] [Div K] [NatCast K] [One K] (img : Nat → Nat) (tbl : Nat → K) (alpha : K)
    (s0 : VBwd K) (x : Nat) (s : VBwd K) : Prop where
  tpy : s.tpy = s0.tpy + 3 * x
  tcy : s.tcy = s0.tcy + 3 * x
  xcy : s.xcy = s0.xcy + 3 * x
  ycy_ : s.ycy_ = s0.ycy_ + 3 * x
  ypy_ : s.ypy_ = s0.ypy_ + 3 * x
  out_ : s.out_ = s0.out_ + 3 * x
  xcf : s.xcf = s0.xcf + x
  ycf_ : s.ycf_ = s0.ycf_ + x
  ypf_ : s.ypf_ = s0.ypf_ + x
  factor_ : s.factor_ = s0.factor_ + x
  line : ∀ i, i < x → s.buf (s0.ycf_ + i) = bwd_fcc img tbl alpha s0 i
  fac : ∀ i, i < x → s.buf (s0.factor_ + i)
    = (1 / 2 : K) * (s0.buf (s0.factor_ + i) + bwd_fcc img tbl alpha s0 i)
  slice : ∀ i c, i < x → c < 3 → s.buf (s0.ycy_ + 3 * i + c) = bwd_ycc img tbl alpha s0 i c
  col : ∀ i c, i < x → c < 3 → s.buf (s0.out_ + 3 * i + c)
    = (1 / 2 : K) * (s0.buf (s0.out_ + 3 * i + c) + bwd_ycc img tbl alpha s0 i c)
      / ((1 / 2 : K) * (s0.buf (s0.factor_ + i) + bwd_fcc img tbl alpha s0 i))
  frame : ∀ k, (k < s0.out_ ∨ s0.out_ + 3 * x ≤ k) → (k < s0.factor_ ∨ s0.factor_ + x ≤ k) →
    (k < s0.ycy_ ∨ s0.ycy_ + 3 * x ≤ k) → (k < s0.ycf_ ∨ s0.ycf_ + x ≤ k) → s.buf k = s0.buf k

/-- State of the scratch buffer after the last row and `j` further rows of the bottom-to-top
sweep: rows `height - 1 - j ..` are final, `slice_factor_b` and `line_factor_b` hold the
values of the sweep at row `height - 1 - j`. -/
structure BttInv {K : Type} [Add K] [Sub K] [Mul K] [Div K] [NatCast K] [One K] (img : Nat → Nat) (tbl : Nat → K)
    (alpha_h alpha_v : K) (W H j : Nat) (b : Nat → K) : Prop where
  hd : HDone img tbl alpha_h W H b
  col_todo : ∀ y x c, y + j + 1 < H → x < W → c < 3 →
    b (y * (W * 3) + 3 * x + c) = ttb_col img tbl alpha_h alpha_v W x c y
  fac_todo : ∀ y x, y + j + 1 < H → x < W →
    b (W * H * 3 + W * H * 3 + W * H + y * W + x) = ttb_fac img tbl alpha_h alpha_v W x y
  col_done : ∀ y x c, y < H → H ≤ y + j + 1 → x < W → c < 3 →
    b (y * (W * 3) + 3 * x + c) = out_col img tbl alpha_h alpha_v W H y x c
  fac_done : ∀ y x, y < H → H ≤ y + j + 1 → x < W →
    b (W * H * 3 + W * H * 3 + W * H + y * W + x) = out_fac img tbl alpha_h alpha_v W H y x
  line : ∀ x, x < W →
    b (W * H * 3 + W * H * 3 + W * H + W * H + W * 3 + W * 3 + W + x)
      = btt_fac img tbl alpha_h alpha_v W H x j
  slice : ∀ x c, x < W → c < 3 →
    b (W * H * 3 + W * H * 3 + W * H + W * H + W * 3 + 3 * x + c)
      = btt_col img tbl alpha_h alpha_v W H x c j

/-! ## Concrete inputs -/

/-- The image of width 2 and height 1 with pixels (0,0,0) and (255,255,255). -/
def img_step : Nat → Nat := fun i => if i < 3 then 0 else 255

/-- The uniform image of colour (255,0,0). -/
def img_red : Nat → Nat := fun i => if i % 3 = 0 then 255 else 0

/-- The uniform image of colour (0,0,255). -/
def img_blue : Nat → Nat := fun i => if i % 3 = 2 then 255 else 0

/-! ## Range distances of the horizontal sweeps -/

/-- Lines 129-135: the range distance one iteration of the left-to-right loop computes from
the samples at `texture_x` and the registers `tpr`, `tpg`, `tpb`. -/
def h_fwd_range_dist {K : Type} (img : Nat → Nat) (s : HRow K) : Nat :=
  let tcr := img s.texture_x
  let tcg := img (s.texture_x + 1)
  let tcb := img (s.texture_x + 2)
  let dr := abs_diff tcr s.tpr
  let dg := abs_diff tcg s.tpg
  let db := abs_diff tcb s.tpb
  range_dist dr dg db

/-- Lines 160-166: the range distance one iteration of the right-to-left loop computes; the
pointer is pre-decremented, so `tcr` is the sample at `texture_x - 1`. -/
def h_bwd_range_dist {K : Type} (img : Nat → Nat) (s : HRow K) : Nat :=
  let tcr := img (s.texture_x - 1)
  let tcg := img (s.texture_x - 2)
  let tcb := img (s.texture_x - 3)
  let dr := abs_diff tcr s.tpr
  let dg := abs_diff tcg s.tpg
  let db := abs_diff tcb s.tpb
  range_dist dr dg db

/-- Distance `(2 * dr + dg + db) / 4` between the pixels at offsets `p` and `q` of `img`, with
`dr`, `dg`, `db` the absolute differences of their first (red), second (green) and third
(blue) samples. -/
def pixel_dist (img : Nat → Nat) (p q : Nat) : Nat :=
  range_dist (abs_diff (img p) (img q)) (abs_diff (img (p + 1)) (img (q + 1)))
    (abs_diff (img (p + 2)) (img (q + 2)))

/-- Distance with the roles of the first and the third sample exchanged:
`(2 * db + dg + dr) / 4`. -/
def pixel_dist_rev (img : Nat → Nat) (p q : Nat) : Nat :=
  range_dist (abs_diff (img (p + 2)) (img (q + 2))) (abs_diff (img (p + 1)) (img (q + 1)))
    (abs_diff (img p) (img q))

/-! ## Mirrored and flipped images -/

/-- Left-right mirror of a 3-channel image of width `W`: the pixel order is reversed within
every row, the samples of a pixel keep their order. -/
def mirror_lr (W : Nat) (img : Nat → Nat) : Nat → Nat :=
  fun i => img (i / (W * 3) * (W * 3) + 3 * (W - 1 - i % (W * 3) / 3) + i % 3)

/-- Top-bottom flip of a 3-channel image of width `W` and height `H`: the rows are put in
reverse order. -/
def flip_tb (W H : Nat) (img : Nat → Nat) : Nat → Nat :=
  fun i => img ((H - 1 - i / (W * 3)) * (W * 3) + i % (W * 3))

/-- The image of width 2 and height 1 with pixels (0,0,0) and (4,0,0). -/
def img_r4 : Nat → Nat := fun i => if i = 3 then 4 else 0

/-! ## Single-precision floating point -/

/-- Values of the type `float` (IEEE-754 binary32): the finite values, as rationals, the two
infinities and NaN. The two zeros are identified. -/
inductive F32 where
  | fin (q : ℚ)
  | pinf
  | ninf
  | nan
  deriving DecidableEq

section Rounding

variable {K : Type} [LinearOrderedField K] [FloorRing K]

/-- Nearest integer, a tie going to the even one. -/
def round_even (x : K) : ℤ :=
  if x - ⌊x⌋ < 1 / 2 then ⌊x⌋
  else if 1 / 2 < x - ⌊x⌋ then ⌊x⌋ + 1
  else if ⌊x⌋ % 2 = 0 then ⌊x⌋ else ⌊x⌋ + 1

/-- Exponent of the unit in the last place of binary32 at `x`: 24 significant bits, the
smallest exponent of a normal value being -126 (below it the spacing stays `2 ^ (-149)`). -/
def ulp_exp (x : K) : ℤ := max (Int.log 2 |x|) (-126) - 23

/-- Conversion to `float`: round to nearest, ties to even, with gradual underflow; a result
of magnitude `2 ^ 128` or more is an infinity. -/
def round32 (x : K) : F32 :=
  let r : ℚ := (round_even (x / (2 : K) ^ ulp_exp x) : ℚ) * (2 : ℚ) ^ ulp_exp x
  if (2 : ℚ) ^ (128 : ℤ) ≤ |r| then (if 0 < x then F32.pinf else F32.ninf) else F32.fin r

end Rounding

namespace F32

/-- Negation. -/
def neg : F32 → F32
  | fin a => fin (-a)
  | pinf => ninf
  | ninf => pinf
  | nan => nan

/-- Addition of two floats, rounded. -/
def add : F32 → F32 → F32
  | fin a, fin b => round32 (a + b)
  | nan, _ => nan
  | _, nan => nan
  | pinf, ninf => nan
  | ninf, pinf => nan
  | pinf, _ => pinf
  | _, pinf => pinf
  | ninf, _ => ninf
  | _, ninf => ninf

/-- Subtraction of two floats, rounded. -/
def sub (x y : F32) : F32 := add x (neg y)

/-- Sign of the product or quotient of an infinity and a finite value `b` that is not 0. -/
def signed_inf (positive : Bool) : F32 := if positive then pinf else ninf

/-- Multiplication of two floats, rounded. -/
def mul : F32 → F32 → F32
  | fin a, fin b => round32 (a * b)
  | nan, _ => nan
  | _, nan => nan
  | pinf, fin b => if b = 0 then nan else signed_inf (0 < b)
  | ninf, fin b => if b = 0 then nan else signed_inf (b < 0)
  | fin a, pinf => if a = 0 then nan else signed_inf (0 < a)
  | fin a, ninf => if a = 0 then nan else signed_inf (a < 0)
  | pinf, pinf => pinf
  | ninf, ninf => pinf
  | pinf, ninf => ninf
  | ninf, pinf => ninf

/-- Division of two floats, rounded; a zero divisor is taken as `+0`. -/
def div : F32 → F32 → F32
  | fin a, fin b =>
    if b = 0 then (if a = 0 then nan else signed_inf (0 < a)) else round32 (a / b)
  | nan, _ => nan
  | _, nan => nan
  | fin _, pinf => fin 0
  | fin _, ninf => fin 0
  | pinf, fin b => signed_inf (0 ≤ b)
  | ninf, fin b => signed_inf (b < 0)
  | pinf, pinf => nan
  | pinf, ninf => nan
  | ninf, pinf => nan
  | ninf, ninf => nan

instance : Add F32 := ⟨add⟩
instance : Sub F32 := ⟨sub⟩
instance : Mul F32 := ⟨mul⟩
instance : Div F32 := ⟨div⟩
instance : One F32 := ⟨fin 1⟩
instance : NatCast F32 := ⟨fun n => round32 (n : ℚ)⟩

end F32

/-- The non-negative finite values of binary32. -/
def Rep (c : ℚ) : Prop :=
  ∃ (M : ℕ) (k : ℤ), M < 2 ^ 24 ∧ -149 ≤ k ∧ c = (M : ℚ) * (2 : ℚ) ^ k
    ∧ c < (2 : ℚ) ^ (128 : ℤ)

namespace F32

/-- A float in `[0, 1]`, with its value. -/
def In01 (x : F32) (q : ℚ) : Prop := x = fin q ∧ Rep q ∧ q ≤ 1

end F32

/-! ## The filter in `float` arithmetic -/

/-- Call `exp(x)` on a `float` argument, the result cast to `float`. The value of `exp` is
taken as exact before the cast. -/
noncomputable def exp_f32 : F32 → F32
  | F32.fin x => round32 (Real.exp (x : ℝ))
  | F32.pinf => F32.pinf
  | F32.ninf => F32.fin 0
  | F32.nan => F32.nan

/-- Lines 102-105 in `float` arithmetic: `inv_sigma_range = 1.0f / (sigma_range * 255)` and
`range_table[i] = static_cast<float>(exp(-i * inv_sigma_range))`. -/
noncomputable def range_table_f32 (sigma_range : F32) (i : Nat) : F32 :=
  let inv_sigma_range := (1 : F32) / (sigma_range * ((255 : Nat) : F32))
  exp_f32 (F32.neg ((i : Nat) : F32) * inv_sigma_range)

/-- Lines 107 and 185 in `float` arithmetic:
`alpha = static_cast<float>(exp(-sqrt(2.0) / (sigma_spatial * n)))`. The product is a `float`
product; the square root, the quotient and `exp` are `double` operations, taken as exact
before the cast. A zero product is `+0`. -/
noncomputable def decay_f32 (sigma_spatial : F32) (n : Nat) : F32 :=
  match sigma_spatial * ((n : Nat) : F32) with
  | F32.fin p => if p = 0 then F32.fin 0 else round32 (Real.exp (-Real.sqrt 2 / (p : ℝ)))
  | F32.pinf => F32.fin 1
  | F32.ninf => F32.fin 1
  | F32.nan => F32.nan

/-- Conversion `static_cast<unsigned char>(v)` of a `float`: truncation towards zero; the
behaviour is undefined (`none`) unless the truncated value is in 0..255. -/
def to_uchar_f32 : F32 → Option Nat
  | F32.fin q => if -1 < q ∧ q < 256 then some ⌊q⌋₊ else none
  | _ => none

/-- Lines 275-276 in `float` arithmetic: the float image is written back over `img`;
`none` when a conversion is undefined. -/
def quantize_f32 (width height channel : Nat) (img : Nat → Nat) (buf : Nat → F32) :
    Option (Nat → Nat) :=
  let l := layout width height channel
  let width_height_channel := width * height * channel
  loopUp 0 (fun i r => r.bind fun img =>
      (to_uchar_f32 (buf (l.img_out_f + i))).map fun v => store img i v)
    width_height_channel (some img)

/-- Lines 107-276 of `_recursive_bf` in `float` arithmetic, given the range table and the
two decay coefficients: the image on return. -/
def filter_passes_f32 (img : Nat → Nat) (range_table : Nat → F32) (alpha_h alpha_v : F32)
    (width height channel : Nat) (buf : Nat → F32) : Option (Nat → Nat) :=
  quantize_f32 width height channel img
    (sweeps img range_table alpha_h alpha_v width height channel buf)

/-- Function `_recursive_bf` in `float` arithmetic; see `_recursive_bf`. -/
noncomputable def _recursive_bf_f32 (img : Nat → Nat) (sigma_spatial sigma_range : F32)
    (width height channel : Nat) (buffer : Option (Nat → F32)) (fresh : Nat → F32) :
    Option (Nat → Nat) :=
  let buffer := match buffer with
    | none => fresh
    | some b => b
  filter_passes_f32 img (range_table_f32 sigma_range) (decay_f32 sigma_spatial width)
    (decay_f32 sigma_spatial height) width height channel buffer

/-- Function `recursive_bf` in `float` arithmetic; see `recursive_bf`. -/
noncomputable def recursive_bf_f32 (img_in : Nat → Nat) (out0 : Nat → Nat)
    (sigma_spatial sigma_range : F32) (width height channel : Nat)
    (buffer : Option (Nat → F32)) (fresh : Nat → F32) : Option (Nat → Nat) :=
  let img_out := loopUp 0 (fun i out => store out i (img_in i)) (width * height * channel) out0
  _recursive_bf_f32 img_out sigma_spatial sigma_range width height channel buffer fresh

/-- Pixels `p` and `q` of `img` have the same three samples. -/
def same_pixel (img : Nat → Nat) (p q : Nat) : Prop :=
  img p = img q ∧ img (p + 1) = img (q + 1) ∧ img (p + 2) = img (q + 2)

/-- All pixels of the row at `R` are equal. -/
def uniform_row (img : Nat → Nat) (W R : Nat) : Prop :=
  ∀ x x', x < W → x' < W → same_pixel img (R + 3 * x) (R + 3 * x')

/-- All pixels of the image are equal. -/
def uniform_image (img : Nat → Nat) (W H : Nat) : Prop :=
  ∀ y y' x x', y < H → y' < H → x < W → x' < W →
    same_pixel img (y * (W * 3) + 3 * x) (y' * (W * 3) + 3 * x')

/-- Image of width 3 and height 1 with pixels (0,0,0), (255,255,255), (0,0,0). -/
def img_spike : Nat → Nat := fun i => if i / 3 = 1 then 255 else 0

/-! ## Sizes and offsets in 32-bit `int` arithmetic -/

/-- Value of an `int` (32 bits, two's complement) after an operation whose mathematical
result is `z`: the result wraps around, as compiled code computes it. -/
def wrap32 (z : Int) : Int := (z + 2147483648) % 4294967296 - 2147483648

/-- The `int` values of lines 83-85 and the element count of the allocation at line 89. -/
structure Sizes32 where
  width_height : Int
  width_channel : Int
  width_height_channel : Int
  count : Int
deriving Repr, DecidableEq

/-- Lines 83-85 and the operand of `new float[...]` at line 89, each operation on `int`. -/
def sizes32 (width height channel : Int) : Sizes32 :=
  let width_height := wrap32 (width * height)
  let width_channel := wrap32 (width * channel)
  let width_height_channel := wrap32 (wrap32 (width * height) * channel)
  Sizes32.mk width_height width_channel width_height_channel
    (wrap32 (wrap32 (wrap32 (wrap32 (width_height_channel + width_height)
      + width_channel) + width) * 2))

/-- Element offsets from `buffer` of the eight pointers of lines 92-99, computed from the
`int` sizes, in the order of the assignments. -/
def layout32 (width height channel : Int) : List Int :=
  let s := sizes32 width height channel
  let img_out_f := 0
  let img_temp := img_out_f + s.width_height_channel
  let map_factor_a := img_temp + s.width_height_channel
  let map_factor_b := map_factor_a + s.width_height
  let slice_factor_a := map_factor_b + s.width_height
  let slice_factor_b := slice_factor_a + s.width_channel
  let line_factor_a := slice_factor_b + s.width_channel
  let line_factor_b := line_factor_a + width
  [img_out_f, img_temp, map_factor_a, map_factor_b, slice_factor_a, slice_factor_b,
    line_factor_a, line_factor_b]

/-! ## Simulation: the loops compute the closed forms -/

section Simulation

variable {K : Type} [Add K] [Sub K] [Mul K] [Div K] [NatCast K] [One K]

theorem store_ne {α : Type} (m : Nat → α) {i k : Nat} (v : α) (h : k ≠ i) :
    store m i v k = m k := by
  simp [store, h]

theorem store_eq {α : Type} (m : Nat → α) {i k : Nat} (v : α) (h : k = i) :
    store m i v k = v := by
  simp [store, h]

theorem loopUp_inv {σ : Type} (P : Nat → σ → Prop) (lo : Nat) (body : Nat → σ → σ) (n : Nat)
    (s : σ) (h0 : P 0 s) (hstep : ∀ i s, i < n → P i s → P (i + 1) (body (lo + i) s)) :
    P n (loopUp lo body n s) := by
  induction n with
  | zero => exact h0
  | succ n ih =>
    exact hstep n _ (Nat.lt_succ_self n) (ih (fun i s hi hp => hstep i s (Nat.lt_succ_of_lt hi) hp))

theorem loopDown_inv {σ : Type} (P : Nat → σ → Prop) (body : Nat → σ → σ) (n : Nat)
    (s : σ) (h0 : P n s) (hstep : ∀ i s, i < n → P (i + 1) s → P i (body i s)) :
    P 0 (loopDown body n s) := by
  induction n generalizing s with
  | zero => exact h0
  | succ n ih =>
    exact ih _ (hstep n s (Nat.lt_succ_self n) h0)
      (fun i s hi hp => hstep i s (Nat.lt_succ_of_lt hi) hp)

theorem h_init_inv (img : Nat → Nat) (tbl : Nat → K) (alpha : K) (T R A : Nat) (buf0 : Nat → K)
    (hd : T + 3 ≤ A) : FwdInv img tbl alpha T R A buf0 0 (h_init img T R A buf0) := by
  constructor
  · rfl
  · rfl
  · rfl
  · rfl
  · rfl
  · rfl
  · rfl
  · simp [h_init, ltr_col]
  · simp [h_init, ltr_col]
  · simp [h_init, ltr_col]
  · simp [h_init, ltr_fac]
  · intro x c hx hc
    obtain rfl : x = 0 := by omega
    simp only [h_init, ltr_col]
    interval_cases c
    · rw [store_ne _ _ (by omega), store_ne _ _ (by omega), store_ne _ _ (by omega), store_eq _ _ (by omega)]
      rfl
    · rw [store_ne _ _ (by omega), store_ne _ _ (by omega), store_eq _ _ (by omega)]
    · rw [store_ne _ _ (by omega), store_eq _ _ (by omega)]
  · intro x hx
    obtain rfl : x = 0 := by omega
    simp only [h_init, ltr_fac]
    rw [store_eq _ _ (by omega)]
  · intro k h1 h2
    simp only [h_init]
    rw [store_ne _ _ (by omega), store_ne _ _ (by omega), store_ne _ _ (by omega),
      store_ne _ _ (by omega)]

theorem h_fwd_step_inv (img : Nat → Nat) (tbl : Nat → K) (alpha : K) (T R A : Nat)
    (buf0 : Nat → K) (n : Nat) (s : HRow K) (hd : T + 3 * (n + 2) ≤ A)
    (h : FwdInv img tbl alpha T R A buf0 n s) :
    FwdInv img tbl alpha T R A buf0 (n + 1) (h_fwd_step img tbl alpha (1 - alpha) s) := by
  have e0 : (h_fwd_step img tbl alpha (1 - alpha) s).ypr = ltr_col img tbl alpha R 0 (n + 1) := by
    simp [h_fwd_step, ltr_col, decay_at, h.in_x, h.texture_x, h.tpr, h.tpg, h.tpb, h.ypr]
  have e1 : (h_fwd_step img tbl alpha (1 - alpha) s).ypg = ltr_col img tbl alpha R 1 (n + 1) := by
    simp [h_fwd_step, ltr_col, decay_at, h.in_x, h.texture_x, h.tpr, h.tpg, h.tpb, h.ypg]
  have e2 : (h_fwd_step img tbl alpha (1 - alpha) s).ypb = ltr_col img tbl alpha R 2 (n + 1) := by
    simp [h_fwd_step, ltr_col, decay_at, h.in_x, h.texture_x, h.tpr, h.tpg, h.tpb, h.ypb]
  have ef : (h_fwd_step img tbl alpha (1 - alpha) s).fp = ltr_fac img tbl alpha R (n + 1) := by
    simp [h_fwd_step, ltr_fac, decay_at, h.in_x, h.texture_x, h.tpr, h.tpg, h.tpb, h.fp]
  have eb : (h_fwd_step img tbl alpha (1 - alpha) s).buf
      = store (store (store (store s.buf (T + 3 * (n + 1))
          (h_fwd_step img tbl alpha (1 - alpha) s).ypr) (T + 3 * (n + 1) + 1)
          (h_fwd_step img tbl alpha (1 - alpha) s).ypg) (T + 3 * (n + 1) + 2)
          (h_fwd_step img tbl alpha (1 - alpha) s).ypb) (A + (n + 1))
          (h_fwd_step img tbl alpha (1 - alpha) s).fp := by
    simp [h_fwd_step, h.temp_x, h.temp_factor_x]
  constructor
  · simp only [h_fwd_step, h.temp_x]; omega
  · simp only [h_fwd_step, h.in_x]; omega
  · simp only [h_fwd_step, h.texture_x]; omega
  · simp only [h_fwd_step, h.temp_factor_x]; omega
  · simp [h_fwd_step, h.texture_x]
  · simp [h_fwd_step, h.texture_x]
  · simp [h_fwd_step, h.texture_x]
  · exact e0
  · exact e1
  · exact e2
  · exact ef
  · intro x c hx hc
    rw [eb, e0, e1, e2, ef]
    rcases Nat.lt_or_ge x (n + 1) with hlt | hge
    · rw [store_ne _ _ (by omega), store_ne _ _ (by omega), store_ne _ _ (by omega),
        store_ne _ _ (by omega)]
      exact h.col x c (by omega) hc
    · obtain rfl : x = n + 1 := by omega
      interval_cases c
      · rw [store_ne _ _ (by omega), store_ne _ _ (by omega), store_ne _ _ (by omega), store_eq _ _ (by omega)]
      · rw [store_ne _ _ (by omega), store_ne _ _ (by omega), store_eq _ _ (by omega)]
      · rw [store_ne _ _ (by omega), store_eq _ _ (by omega)]
  · intro x hx
    rw [eb, e0, e1, e2, ef]
    rcases Nat.lt_or_ge x (n + 1) with hlt | hge
    · rw [store_ne _ _ (by omega), store_ne _ _ (by omega), store_ne _ _ (by omega),
        store_ne _ _ (by omega)]
      exact h.fac x (by omega)
    · obtain rfl : x = n + 1 := by omega
      rw [store_eq _ _ (by omega)]
  · intro k h1 h2
    rw [eb]
    rw [store_ne _ _ (by omega), store_ne _ _ (by omega), store_ne _ _ (by omega),
      store_ne _ _ (by omega)]
    exact h.frame k (by omega) (by omega)

theorem h_turn_inv (img : Nat → Nat) (tbl : Nat → K) (alpha : K) (W T R A : Nat)
    (buf0 : Nat → K) (s : HRow K) (hW : 1 ≤ W) (hd : T + 3 * W ≤ A)
    (h : FwdInv img tbl alpha T R A buf0 (W - 1) s) :
    BwdInv img tbl alpha W T R A buf0 0 (h_turn img s) := by
  have t1 : s.temp_x - 1 = T + 3 * (W - 1) + 2 := by rw [h.temp_x]; omega
  have t2 : s.temp_x - 2 = T + 3 * (W - 1) + 1 := by rw [h.temp_x]; omega
  have t3 : s.temp_x - 3 = T + 3 * (W - 1) := by rw [h.temp_x]; omega
  have i1 : s.in_x - 1 = R + 3 * (W - 1) + 2 := by rw [h.in_x]; omega
  have i2 : s.in_x - 2 = R + 3 * (W - 1) + 1 := by rw [h.in_x]; omega
  have i3 : s.in_x - 3 = R + 3 * (W - 1) := by rw [h.in_x]; omega
  have x1 : s.texture_x - 1 = R + 3 * (W - 1) + 2 := by rw [h.texture_x]; omega
  have x2 : s.texture_x - 2 = R + 3 * (W - 1) + 1 := by rw [h.texture_x]; omega
  have x3 : s.texture_x - 3 = R + 3 * (W - 1) := by rw [h.texture_x]; omega
  have f1 : s.temp_factor_x - 1 = A + (W - 1) := by rw [h.temp_factor_x]; omega
  have hW1 : W - 1 + 1 = W := by omega
  have eb : (h_turn img s).buf
      = store (store (store (store s.buf (T + 3 * (W - 1) + 2) (h_col img tbl alpha W R (W - 1) 2))
          (T + 3 * (W - 1) + 1) (h_col img tbl alpha W R (W - 1) 1))
          (T + 3 * (W - 1)) (h_col img tbl alpha W R (W - 1) 0))
          (A + (W - 1)) (h_fac img tbl alpha W R (W - 1)) := by
    simp only [h_turn, t1, t2, t3, i1, i2, i3, f1]
    rw [store_ne _ _ (by omega), store_ne _ _ (by omega), store_ne _ _ (by omega),
      store_ne _ _ (by omega), store_ne _ _ (by omega), store_ne _ _ (by omega)]
    rw [h.col (W - 1) 2 (le_refl _) (by omega), h.col (W - 1) 1 (le_refl _) (by omega),
      h.fac (W - 1) (le_refl _)]
    have := h.col (W - 1) 0 (le_refl _) (by omega)
    rw [Nat.add_zero] at this
    rw [this]
    simp only [h_col, h_fac, hW1, if_true, Nat.sub_self, rtl_fac, Nat.add_zero]
  constructor
  · simp only [h_turn, t3]; rfl
  · simp only [h_turn, i3]; rfl
  · simp only [h_turn, x3]; rfl
  · simp only [h_turn, f1]; rfl
  · simp only [h_turn, x1]; rfl
  · simp only [h_turn, x2]; rfl
  · simp only [h_turn, x3]; rfl
  · simp only [h_turn, i3, rtl_col]
  · simp only [h_turn, i3, rtl_col]
  · simp only [h_turn, i3, rtl_col]
  · simp only [h_turn, rtl_fac]
  · intro x c h1 h2 hc
    obtain rfl : x = W - 1 := by omega
    rw [eb]
    interval_cases c
    · rw [store_ne _ _ (by omega), store_eq _ _ (by omega)]
    · rw [store_ne _ _ (by omega), store_ne _ _ (by omega), store_eq _ _ (by omega)]
    · rw [store_ne _ _ (by omega), store_ne _ _ (by omega), store_ne _ _ (by omega),
        store_eq _ _ (by omega)]
  · intro x c h1 hc
    rw [eb, store_ne _ _ (by omega), store_ne _ _ (by omega), store_ne _ _ (by omega),
      store_ne _ _ (by omega)]
    exact h.col x c (by omega) hc
  · intro x h1 h2
    obtain rfl : x = W - 1 := by omega
    rw [eb, store_eq _ _ (by omega)]
  · intro x h1
    rw [eb, store_ne _ _ (by omega), store_ne _ _ (by omega), store_ne _ _ (by omega),
      store_ne _ _ (by omega)]
    exact h.fac x (by omega)
  · intro k h1 h2
    rw [eb, store_ne _ _ (by omega), store_ne _ _ (by omega), store_ne _ _ (by omega),
      store_ne _ _ (by omega)]
    exact h.frame k (by omega) (by omega)

theorem h_bwd_step_inv (img : Nat → Nat) (tbl : Nat → K) (alpha : K) (W T R A : Nat)
    (buf0 : Nat → K) (j : Nat) (s : HRow K) (hj : j + 2 ≤ W) (hd : T + 3 * W ≤ A)
    (h : BwdInv img tbl alpha W T R A buf0 j s) :
    BwdInv img tbl alpha W T R A buf0 (j + 1) (h_bwd_step img tbl alpha (1 - alpha) s) := by
  have hm : W - 1 - j = (W - 2 - j) + 1 := by omega
  have hm' : W - 1 - (j + 1) = W - 2 - j := by omega
  have t1 : s.temp_x - 1 = T + 3 * (W - 2 - j) + 2 := by rw [h.temp_x]; omega
  have t2 : s.temp_x - 2 = T + 3 * (W - 2 - j) + 1 := by rw [h.temp_x]; omega
  have t3 : s.temp_x - 3 = T + 3 * (W - 2 - j) := by rw [h.temp_x]; omega
  have i1 : s.in_x - 1 = R + 3 * (W - 2 - j) + 2 := by rw [h.in_x]; omega
  have i2 : s.in_x - 2 = R + 3 * (W - 2 - j) + 1 := by rw [h.in_x]; omega
  have i3 : s.in_x - 3 = R + 3 * (W - 2 - j) := by rw [h.in_x]; omega
  have x1 : s.texture_x - 1 = R + 3 * (W - 2 - j) + 2 := by rw [h.texture_x]; omega
  have x2 : s.texture_x - 2 = R + 3 * (W - 2 - j) + 1 := by rw [h.texture_x]; omega
  have x3 : s.texture_x - 3 = R + 3 * (W - 2 - j) := by rw [h.texture_x]; omega
  have f1 : s.temp_factor_x - 1 = A + (W - 2 - j) := by rw [h.temp_factor_x]; omega
  have e2 : (h_bwd_step img tbl alpha (1 - alpha) s).ypr = rtl_col img tbl alpha W R 2 (j + 1) := by
    simp only [h_bwd_step, rtl_col, decay_rev, i1, x1, x2, x3, h.tpr, h.tpg, h.tpb, h.ypr]
  have e1 : (h_bwd_step img tbl alpha (1 - alpha) s).ypg = rtl_col img tbl alpha W R 1 (j + 1) := by
    simp only [h_bwd_step, rtl_col, decay_rev, i2, x1, x2, x3, h.tpr, h.tpg, h.tpb, h.ypg]
  have e0 : (h_bwd_step img tbl alpha (1 - alpha) s).ypb = rtl_col img tbl alpha W R 0 (j + 1) := by
    simp only [h_bwd_step, rtl_col, decay_rev, i3, x1, x2, x3, h.tpr, h.tpg, h.tpb, h.ypb,
      Nat.add_zero]
  have ef : (h_bwd_step img tbl alpha (1 - alpha) s).fp = rtl_fac img tbl alpha W R (j + 1) := by
    simp only [h_bwd_step, rtl_fac, decay_rev, x1, x2, x3, h.tpr, h.tpg, h.tpb, h.fp]
  have hne : ¬ (W - 2 - j + 1 = W) := by omega
  have hsub : W - 1 - (W - 2 - j) = j + 1 := by omega
  have eb : (h_bwd_step img tbl alpha (1 - alpha) s).buf
      = store (store (store (store s.buf (T + 3 * (W - 2 - j) + 2)
          (h_col img tbl alpha W R (W - 2 - j) 2))
          (T + 3 * (W - 2 - j) + 1) (h_col img tbl alpha W R (W - 2 - j) 1))
          (T + 3 * (W - 2 - j)) (h_col img tbl alpha W R (W - 2 - j) 0))
          (A + (W - 2 - j)) (h_fac img tbl alpha W R (W - 2 - j)) := by
    have c2 := h.col_todo (W - 2 - j) 2 (by omega) (by omega)
    have c1 := h.col_todo (W - 2 - j) 1 (by omega) (by omega)
    have c0 := h.col_todo (W - 2 - j) 0 (by omega) (by omega)
    have cf := h.fac_todo (W - 2 - j) (by omega)
    rw [Nat.add_zero] at c0
    simp only [h_col, h_fac, if_neg hne, hsub, ← e0, ← e1, ← e2, ← ef]
    simp only [h_bwd_step, t1, t2, t3, f1]
    rw [store_ne _ _ (by omega), store_ne _ _ (by omega), store_ne _ _ (by omega),
      store_ne _ _ (by omega), store_ne _ _ (by omega), store_ne _ _ (by omega), c2, c1, c0, cf]
  constructor
  · simp only [h_bwd_step, t3, hm']
  · simp only [h_bwd_step, i3, hm']
  · simp only [h_bwd_step, x3, hm']
  · simp only [h_bwd_step, f1, hm']
  · simp only [h_bwd_step, x1, hm']
  · simp only [h_bwd_step, x2, hm']
  · simp only [h_bwd_step, x3, hm']
  · exact e2
  · exact e1
  · exact e0
  · exact ef
  · intro x c h1 h2 hc
    rw [eb]
    rcases Nat.lt_or_ge (W - 2 - j) x with hlt | hge
    · rw [store_ne _ _ (by omega), store_ne _ _ (by omega), store_ne _ _ (by omega),
        store_ne _ _ (by omega)]
      exact h.col_done x c (by omega) h2 hc
    · obtain rfl : x = W - 2 - j := by omega
      interval_cases c
      · rw [store_ne _ _ (by omega), store_eq _ _ (by omega)]
      · rw [store_ne _ _ (by omega), store_ne _ _ (by omega), store_eq _ _ (by omega)]
      · rw [store_ne _ _ (by omega), store_ne _ _ (by omega), store_ne _ _ (by omega),
          store_eq _ _ (by omega)]
  · intro x c h1 hc
    rw [eb, store_ne _ _ (by omega), store_ne _ _ (by omega), store_ne _ _ (by omega),
      store_ne _ _ (by omega)]
    exact h.col_todo x c (by omega) hc
  · intro x h1 h2
    rw [eb]
    rcases Nat.lt_or_ge (W - 2 - j) x with hlt | hge
    · rw [store_ne _ _ (by omega), store_ne _ _ (by omega), store_ne _ _ (by omega),
        store_ne _ _ (by omega)]
      exact h.fac_done x (by omega) h2
    · obtain rfl : x = W - 2 - j := by omega
      rw [store_eq _ _ (by omega)]
  · intro x h1
    rw [eb, store_ne _ _ (by omega), store_ne _ _ (by omega), store_ne _ _ (by omega),
      store_ne _ _ (by omega)]
    exact h.fac_todo x (by omega)
  · intro k h1 h2
    rw [eb, store_ne _ _ (by omega), store_ne _ _ (by omega), store_ne _ _ (by omega),
      store_ne _ _ (by omega)]
    exact h.frame k h1 h2

/-- State on leaving the left-to-right loop of one row. -/
theorem h_ltr_inv (img : Nat → Nat) (tbl : Nat → K) (alpha : K) (W T R A : Nat)
    (buf0 : Nat → K) (hW : 1 ≤ W) (hd : T + 3 * W ≤ A) :
    FwdInv img tbl alpha T R A buf0 (W - 1) (h_ltr img tbl alpha (1 - alpha) W T R A buf0) := by
  apply loopUp_inv (fun n s => FwdInv img tbl alpha T R A buf0 n s)
  · exact h_init_inv img tbl alpha T R A buf0 (by omega)
  · intro i s hi hs
    exact h_fwd_step_inv img tbl alpha T R A buf0 i s (by omega) hs

/-- Effect of both sweeps of one row on the scratch buffer. -/
theorem h_row_spec (img : Nat → Nat) (tbl : Nat → K) (alpha : K) (W T R A : Nat)
    (buf0 : Nat → K) (hW : 1 ≤ W) (hd : T + 3 * W ≤ A) :
    (∀ x c, x < W → c < 3 →
      h_row img tbl alpha (1 - alpha) W T R A buf0 (T + 3 * x + c) = h_col img tbl alpha W R x c)
    ∧ (∀ x, x < W → h_row img tbl alpha (1 - alpha) W T R A buf0 (A + x) = h_fac img tbl alpha W R x)
    ∧ (∀ k, (k < T ∨ T + 3 * W ≤ k) → (k < A ∨ A + W ≤ k) →
      h_row img tbl alpha (1 - alpha) W T R A buf0 k = buf0 k) := by
  have hf := h_ltr_inv img tbl alpha W T R A buf0 hW hd
  have ht := h_turn_inv img tbl alpha W T R A buf0 _ hW hd hf
  have hb : BwdInv img tbl alpha W T R A buf0 (W - 1)
      (loopDown (fun _ s => h_bwd_step img tbl alpha (1 - alpha) s) (W - 1)
        (h_turn img (h_ltr img tbl alpha (1 - alpha) W T R A buf0))) := by
    apply loopDown_inv (fun i s => BwdInv img tbl alpha W T R A buf0 (W - 1 - i) s)
    · rw [Nat.sub_self]; exact ht
    · intro i s hi hs
      have := h_bwd_step_inv img tbl alpha W T R A buf0 (W - 1 - (i + 1)) s (by omega) hd hs
      have e : W - 1 - (i + 1) + 1 = W - 1 - i := by omega
      rw [e] at this
      exact this
  refine ⟨?_, ?_, ?_⟩
  · intro x c hx hc
    exact hb.col_done x c (by omega) hx hc
  · intro x hx
    exact hb.fac_done x (by omega) hx
  · intro k h1 h2
    exact hb.frame k h1 h2

theorem layout_img_out_f (W H C : Nat) : (layout W H C).img_out_f = 0 := rfl

theorem layout_img_temp (W H C : Nat) : (layout W H C).img_temp = W * H * C := by
  simp [layout]

theorem layout_map_factor_a (W H C : Nat) :
    (layout W H C).map_factor_a = W * H * C + W * H * C := by
  simp [layout]

theorem layout_map_factor_b (W H C : Nat) :
    (layout W H C).map_factor_b = W * H * C + W * H * C + W * H := by
  simp [layout]

theorem layout_slice_factor_a (W H C : Nat) :
    (layout W H C).slice_factor_a = W * H * C + W * H * C + W * H + W * H := by
  simp [layout]

theorem layout_slice_factor_b (W H C : Nat) :
    (layout W H C).slice_factor_b = W * H * C + W * H * C + W * H + W * H + W * C := by
  simp [layout]

theorem layout_line_factor_a (W H C : Nat) :
    (layout W H C).line_factor_a = W * H * C + W * H * C + W * H + W * H + W * C + W * C := by
  simp [layout]

theorem layout_line_factor_b (W H C : Nat) :
    (layout W H C).line_factor_b
      = W * H * C + W * H * C + W * H + W * H + W * C + W * C + W := by
  simp [layout]

theorem row_le {y n : Nat} (m : Nat) (h : y < n) : y * m + m ≤ n * m := by
  have := Nat.mul_le_mul_right m (Nat.succ_le_of_lt h)
  rw [Nat.succ_mul] at this
  exact this

theorem rows_total (W H : Nat) : H * (W * 3) = W * H * 3 := by ring

theorem rows_total1 (W H : Nat) : H * W = W * H := by ring

/-- State of the scratch buffer after `n` rows of the horizontal pass. -/
theorem h_rows_spec (img : Nat → Nat) (tbl : Nat → K) (alpha : K) (W H : Nat) (buf0 : Nat → K)
    (hW : 1 ≤ W) (n : Nat) (hn : n ≤ H) :
    (∀ y x c, y < n → x < W → c < 3 →
      loopUp 0 (fun y buf => h_row img tbl alpha (1 - alpha) W (W * H * 3 + y * (W * 3))
        (y * (W * 3)) (W * H * 3 + W * H * 3 + y * W) buf) n buf0
        (W * H * 3 + y * (W * 3) + 3 * x + c) = h_col img tbl alpha W (y * (W * 3)) x c)
    ∧ (∀ y x, y < n → x < W →
      loopUp 0 (fun y buf => h_row img tbl alpha (1 - alpha) W (W * H * 3 + y * (W * 3))
        (y * (W * 3)) (W * H * 3 + W * H * 3 + y * W) buf) n buf0
        (W * H * 3 + W * H * 3 + y * W + x) = h_fac img tbl alpha W (y * (W * 3)) x)
    ∧ (∀ k, (k < W * H * 3 ∨ W * H * 3 + n * (W * 3) ≤ k) →
        (k < W * H * 3 + W * H * 3 ∨ W * H * 3 + W * H * 3 + n * W ≤ k) →
      loopUp 0 (fun y buf => h_row img tbl alpha (1 - alpha) W (W * H * 3 + y * (W * 3))
        (y * (W * 3)) (W * H * 3 + W * H * 3 + y * W) buf) n buf0 k = buf0 k) := by
  induction n with
  | zero =>
    refine ⟨?_, ?_, ?_⟩
    · intro y x c hy; omega
    · intro y x hy; omega
    · intro k _ _; rfl
  | succ n ih =>
    obtain ⟨ih1, ih2, ih3⟩ := ih (by omega)
    have hH := rows_total W H
    have hnH := row_le (W * 3) (show n < H by omega)
    have hnH' := row_le W (show n < H by omega)
    have hH' := rows_total1 W H
    obtain ⟨r1, r2, r3⟩ := h_row_spec img tbl alpha W (W * H * 3 + n * (W * 3)) (n * (W * 3))
      (W * H * 3 + W * H * 3 + n * W)
      (loopUp 0 (fun y buf => h_row img tbl alpha (1 - alpha) W (W * H * 3 + y * (W * 3))
        (y * (W * 3)) (W * H * 3 + W * H * 3 + y * W) buf) n buf0) hW (by omega)
    have e : ∀ k, loopUp 0 (fun y buf => h_row img tbl alpha (1 - alpha) W
        (W * H * 3 + y * (W * 3)) (y * (W * 3)) (W * H * 3 + W * H * 3 + y * W) buf) (n + 1) buf0 k
        = h_row img tbl alpha (1 - alpha) W (W * H * 3 + n * (W * 3)) (n * (W * 3))
          (W * H * 3 + W * H * 3 + n * W)
          (loopUp 0 (fun y buf => h_row img tbl alpha (1 - alpha) W (W * H * 3 + y * (W * 3))
            (y * (W * 3)) (W * H * 3 + W * H * 3 + y * W) buf) n buf0) k := by
      intro k
      simp only [loopUp, Nat.zero_add]
    have hsn : (n + 1) * (W * 3) = n * (W * 3) + W * 3 := Nat.succ_mul _ _
    have hsn' : (n + 1) * W = n * W + W := Nat.succ_mul _ _
    refine ⟨?_, ?_, ?_⟩
    · intro y x c hy hx hc
      rw [e]
      rcases Nat.lt_or_ge y n with hlt | hge
      · have := row_le (W * 3) hlt
        rw [r3 _ (by omega) (by omega)]
        exact ih1 y x c hlt hx hc
      · obtain rfl : y = n := by omega
        exact r1 x c hx hc
    · intro y x hy hx
      rw [e]
      rcases Nat.lt_or_ge y n with hlt | hge
      · have := row_le W hlt
        rw [r3 _ (by omega) (by omega)]
        exact ih2 y x hlt hx
      · obtain rfl : y = n := by omega
        exact r2 x hx
    · intro k h1 h2
      rw [e, r3 _ (by omega) (by omega)]
      exact ih3 k (by omega) (by omega)

/-- State of the scratch buffer after the horizontal pass. -/
theorem h_pass_spec (img : Nat → Nat) (tbl : Nat → K) (alpha : K) (W H : Nat) (buf0 : Nat → K)
    (hW : 1 ≤ W) :
    (∀ y x c, y < H → x < W → c < 3 →
      h_pass img tbl alpha W H 3 buf0 (W * H * 3 + y * (W * 3) + 3 * x + c)
        = h_col img tbl alpha W (y * (W * 3)) x c)
    ∧ (∀ y x, y < H → x < W →
      h_pass img tbl alpha W H 3 buf0 (W * H * 3 + W * H * 3 + y * W + x)
        = h_fac img tbl alpha W (y * (W * 3)) x)
    ∧ (∀ k, (k < W * H * 3 ∨ W * H * 3 + W * H * 3 + W * H ≤ k) →
      h_pass img tbl alpha W H 3 buf0 k = buf0 k) := by
  have h := h_rows_spec img tbl alpha W H buf0 hW H (le_refl _)
  have hH := rows_total W H
  have hH' := rows_total1 W H
  simp only [h_pass, layout_img_temp, layout_map_factor_a]
  refine ⟨h.1, h.2.1, ?_⟩
  intro k hk
  exact h.2.2 k (by omega) (by omega)

theorem v_fwd_step_inv (img : Nat → Nat) (tbl : Nat → K) (alpha : K) (W : Nat)
    (s0 : VFwd K) (x : Nat) (s : VFwd K) (hx : x < W) (hsep : VFwdSep s0 W)
    (h : VFwdInv img tbl alpha s0 x s) :
    VFwdInv img tbl alpha s0 (x + 1) (v_fwd_step img tbl alpha (1 - alpha) 3 s) := by
  obtain ⟨d1, d2, d3, d4, d5⟩ := hsep
  have eb : (v_fwd_step img tbl alpha (1 - alpha) 3 s).buf
      = store (store (store (store s.buf (s0.ycy + 3 * x)
          ((1 - alpha) * s0.buf (s0.xcy + 3 * x)
            + decay_at img tbl alpha (s0.tcy + 3 * x) (s0.tpy + 3 * x) * s0.buf (s0.ypy + 3 * x)))
          (s0.ycy + 3 * x + 1)
          ((1 - alpha) * s0.buf (s0.xcy + 3 * x + 1)
            + decay_at img tbl alpha (s0.tcy + 3 * x) (s0.tpy + 3 * x)
              * s0.buf (s0.ypy + 3 * x + 1)))
          (s0.ycy + 3 * x + 2)
          ((1 - alpha) * s0.buf (s0.xcy + 3 * x + 2)
            + decay_at img tbl alpha (s0.tcy + 3 * x) (s0.tpy + 3 * x)
              * s0.buf (s0.ypy + 3 * x + 2)))
          (s0.ycf + x)
          ((1 - alpha) * s0.buf (s0.xcf + x)
            + decay_at img tbl alpha (s0.tcy + 3 * x) (s0.tpy + 3 * x) * s0.buf (s0.ypf + x)) := by
    simp only [v_fwd_step, loopUp, v_fwd_chan, decay_at, h.tpy, h.tcy, h.xcy, h.ypy, h.ycy, h.xcf,
      h.ypf, h.ycf]
    rw [store_ne _ _ (by omega), store_ne _ _ (by omega), store_ne _ _ (by omega),
      store_ne _ _ (by omega), store_ne _ _ (by omega), store_ne _ _ (by omega),
      store_ne _ _ (by omega), store_ne _ _ (by omega), store_ne _ _ (by omega),
      store_ne _ _ (by omega), store_ne _ _ (by omega), store_ne _ _ (by omega)]
    rw [h.frame (s0.xcy + 3 * x) (by omega) (by omega),
      h.frame (s0.xcy + 3 * x + 1) (by omega) (by omega),
      h.frame (s0.xcy + 3 * x + 1 + 1) (by omega) (by omega),
      h.frame (s0.ypy + 3 * x) (by omega) (by omega),
      h.frame (s0.ypy + 3 * x + 1) (by omega) (by omega),
      h.frame (s0.ypy + 3 * x + 1 + 1) (by omega) (by omega),
      h.frame (s0.xcf + x) (by omega) (by omega),
      h.frame (s0.ypf + x) (by omega) (by omega)]
  constructor
  · simp only [v_fwd_step, loopUp, v_fwd_chan, h.tpy]; omega
  · simp only [v_fwd_step, loopUp, v_fwd_chan, h.tcy]; omega
  · simp only [v_fwd_step, loopUp, v_fwd_chan, h.xcy]; omega
  · simp only [v_fwd_step, loopUp, v_fwd_chan, h.ypy]; omega
  · simp only [v_fwd_step, loopUp, v_fwd_chan, h.ycy]; omega
  · simp only [v_fwd_step, loopUp, v_fwd_chan, h.xcf]; omega
  · simp only [v_fwd_step, loopUp, v_fwd_chan, h.ypf]; omega
  · simp only [v_fwd_step, loopUp, v_fwd_chan, h.ycf]; omega
  · intro i c hi hc
    rw [eb]
    rcases Nat.lt_or_ge i x with hlt | hge
    · rw [store_ne _ _ (by omega), store_ne _ _ (by omega), store_ne _ _ (by omega),
        store_ne _ _ (by omega)]
      exact h.col i c hlt hc
    · obtain rfl : i = x := by omega
      interval_cases c
      · rw [store_ne _ _ (by omega), store_ne _ _ (by omega), store_ne _ _ (by omega),
          store_eq _ _ (by omega)]
        rfl
      · rw [store_ne _ _ (by omega), store_ne _ _ (by omega), store_eq _ _ (by omega)]
      · rw [store_ne _ _ (by omega), store_eq _ _ (by omega)]
  · intro i hi
    rw [eb]
    rcases Nat.lt_or_ge i x with hlt | hge
    · rw [store_ne _ _ (by omega), store_ne _ _ (by omega), store_ne _ _ (by omega),
        store_ne _ _ (by omega)]
      exact h.fac i hlt
    · obtain rfl : i = x := by omega
      rw [store_eq _ _ (by omega)]
  · intro k h1 h2
    rw [eb, store_ne _ _ (by omega), store_ne _ _ (by omega), store_ne _ _ (by omega),
      store_ne _ _ (by omega)]
    exact h.frame k (by omega) (by omega)

/-- Effect of the loop over `x` of one row of the top-to-bottom sweep. -/
theorem v_fwd_loop_spec (img : Nat → Nat) (tbl : Nat → K) (alpha : K) (W : Nat)
    (s0 : VFwd K) (hsep : VFwdSep s0 W) :
    VFwdInv img tbl alpha s0 W
      (loopUp 0 (fun _ s => v_fwd_step img tbl alpha (1 - alpha) 3 s) W s0) := by
  apply loopUp_inv (fun n s => VFwdInv img tbl alpha s0 n s)
  · constructor
    · rfl
    · rfl
    · rfl
    · rfl
    · rfl
    · rfl
    · rfl
    · rfl
    · intro i c hi; omega
    · intro i hi; omega
    · intro k _ _; rfl
  · intro i s hi hs
    exact v_fwd_step_inv img tbl alpha W s0 i s hi hsep hs

theorem memcpy_in {α : Type} (m : Nat → α) (dst src n : Nat) {k : Nat} (h1 : dst ≤ k)
    (h2 : k < dst + n) : memcpy m dst src n k = m (src + (k - dst)) := by
  simp [memcpy, h1, h2]

theorem memcpy_out {α : Type} (m : Nat → α) (dst src n : Nat) {k : Nat}
    (h : k < dst ∨ dst + n ≤ k) : memcpy m dst src n k = m k := by
  have : ¬ (dst ≤ k ∧ k < dst + n) := by omega
  simp [memcpy, this]

theorem buf_congr {α : Type} (b : Nat → α) {i j : Nat} (h : i = j) : b i = b j := by rw [h]

theorem v_init_spec (img : Nat → Nat) (tbl : Nat → K) (alpha_h alpha_v : K) (W H : Nat)
    (b : Nat → K) (hH : 1 ≤ H) (hb : HDone img tbl alpha_h W H b) :
    HDone img tbl alpha_h W H (v_init W H 3 b)
    ∧ TtbDone img tbl alpha_h alpha_v W H 1 (v_init W H 3 b) := by
  have hH3 := rows_total W H
  have hH1 := rows_total1 W H
  have h0 := row_le (W * 3) (show 0 < H by omega)
  have h0' := row_le W (show 0 < H by omega)
  have hz : 0 * (W * 3) = 0 := Nat.zero_mul _
  have hz' : 0 * W = 0 := Nat.zero_mul _
  have e : ∀ k, v_init W H 3 b k
      = memcpy (memcpy b 0 (W * H * 3) (W * 3)) (W * H * 3 + W * H * 3 + W * H)
          (W * H * 3 + W * H * 3) W k := by
    intro k
    simp only [v_init, layout_img_out_f, layout_img_temp, layout_map_factor_a,
      layout_map_factor_b]
  refine ⟨⟨?_, ?_⟩, ⟨?_, ?_⟩⟩
  · intro y x c hy hx hc
    have := row_le (W * 3) hy
    rw [e, memcpy_out _ _ _ _ (by omega), memcpy_out _ _ _ _ (by omega)]
    exact hb.col y x c hy hx hc
  · intro y x hy hx
    have := row_le W hy
    rw [e, memcpy_out _ _ _ _ (by omega), memcpy_out _ _ _ _ (by omega)]
    exact hb.fac y x hy hx
  · intro y x c hy hx hc
    obtain rfl : y = 0 := by omega
    rw [e, memcpy_out _ _ _ _ (by omega), memcpy_in _ _ _ _ (by omega) (by omega)]
    have := hb.col 0 x c (by omega) hx hc
    rw [hz] at this
    simp only [ttb_col]
    rw [← this]
    exact buf_congr b (by omega)
  · intro y x hy hx
    obtain rfl : y = 0 := by omega
    rw [e, memcpy_in _ _ _ _ (by omega) (by omega), memcpy_out _ _ _ _ (by omega)]
    have := hb.fac 0 x (by omega) hx
    rw [hz] at this
    simp only [ttb_fac]
    rw [← this]
    exact buf_congr b (by omega)

theorem v_fwd_row_spec (img : Nat → Nat) (tbl : Nat → K) (alpha_h alpha_v : K) (W H : Nat)
    (b : Nat → K) (n : Nat) (hn : n + 1 < H) (hb : HDone img tbl alpha_h W H b)
    (ht : TtbDone img tbl alpha_h alpha_v W H (n + 1) b) :
    HDone img tbl alpha_h W H (v_fwd_row img tbl alpha_v (1 - alpha_v) W H 3 (n + 1) b)
    ∧ TtbDone img tbl alpha_h alpha_v W H (n + 2)
        (v_fwd_row img tbl alpha_v (1 - alpha_v) W H 3 (n + 1) b) := by
  have hH3 := rows_total W H
  have hH1 := rows_total1 W H
  have h1 := row_le (W * 3) (show n + 1 < H by omega)
  have h1' := row_le W (show n + 1 < H by omega)
  have h2 : (n + 1) * (W * 3) = n * (W * 3) + W * 3 := Nat.succ_mul _ _
  have h2' : (n + 1) * W = n * W + W := Nat.succ_mul _ _
  have hs := v_fwd_loop_spec img tbl alpha_v W
    ({ buf := b, tpy := n * (W * 3), tcy := (n + 1) * (W * 3),
       xcy := W * H * 3 + (n + 1) * (W * 3), ypy := n * (W * 3),
       ycy := (n + 1) * (W * 3), xcf := W * H * 3 + W * H * 3 + (n + 1) * W,
       ypf := W * H * 3 + W * H * 3 + W * H + n * W,
       ycf := W * H * 3 + W * H * 3 + W * H + (n + 1) * W } : VFwd K)
    (by
      constructor <;> simp only <;> omega)
  have e : v_fwd_row img tbl alpha_v (1 - alpha_v) W H 3 (n + 1) b
      = (loopUp 0 (fun _ s => v_fwd_step img tbl alpha_v (1 - alpha_v) 3 s) W
        ({ buf := b, tpy := n * (W * 3), tcy := (n + 1) * (W * 3),
           xcy := W * H * 3 + (n + 1) * (W * 3), ypy := n * (W * 3),
           ycy := (n + 1) * (W * 3), xcf := W * H * 3 + W * H * 3 + (n + 1) * W,
           ypf := W * H * 3 + W * H * 3 + W * H + n * W,
           ycf := W * H * 3 + W * H * 3 + W * H + (n + 1) * W } : VFwd K)).buf := by
    simp only [v_fwd_row, layout_img_out_f, layout_img_temp, layout_map_factor_a,
      layout_map_factor_b, Nat.add_sub_cancel, Nat.zero_add]
  rw [e]
  obtain ⟨-, -, -, -, -, -, -, -, hcol, hfac, hframe⟩ := hs
  simp only at hcol hfac hframe
  refine ⟨⟨?_, ?_⟩, ⟨?_, ?_⟩⟩
  · intro y x c hy hx hc
    have := row_le (W * 3) hy
    rw [hframe _ (by omega) (by omega)]
    exact hb.col y x c hy hx hc
  · intro y x hy hx
    have := row_le W hy
    rw [hframe _ (by omega) (by omega)]
    exact hb.fac y x hy hx
  · intro y x c hy hx hc
    rcases Nat.lt_or_ge y (n + 1) with hlt | hge
    · have := row_le (W * 3) hlt
      rw [hframe _ (by omega) (by omega)]
      exact ht.col y x c hlt hx hc
    · obtain rfl : y = n + 1 := by omega
      rw [hcol x c hx hc, hb.col (n + 1) x c (by omega) hx hc, ht.col n x c (by omega) hx hc]
      simp only [ttb_col]
  · intro y x hy hx
    rcases Nat.lt_or_ge y (n + 1) with hlt | hge
    · have := row_le W hlt
      rw [hframe _ (by omega) (by omega)]
      exact ht.fac y x hlt hx
    · obtain rfl : y = n + 1 := by omega
      rw [hfac x hx, hb.fac (n + 1) x (by omega) hx, ht.fac n x (by omega) hx]
      simp only [ttb_fac]

/-- State of the scratch buffer after the top-to-bottom sweep. -/
theorem v_fwd_pass_spec (img : Nat → Nat) (tbl : Nat → K) (alpha_h alpha_v : K) (W H : Nat)
    (b : Nat → K) (hH : 1 ≤ H) (hb : HDone img tbl alpha_h W H b) :
    HDone img tbl alpha_h W H (v_fwd_pass img tbl alpha_v W H 3 (v_init W H 3 b))
    ∧ TtbDone img tbl alpha_h alpha_v W H H
        (v_fwd_pass img tbl alpha_v W H 3 (v_init W H 3 b)) := by
  have key : HDone img tbl alpha_h W H (loopUp 1 (fun y buf =>
        v_fwd_row img tbl alpha_v (1 - alpha_v) W H 3 y buf) (H - 1) (v_init W H 3 b))
      ∧ TtbDone img tbl alpha_h alpha_v W H (H - 1 + 1) (loopUp 1 (fun y buf =>
        v_fwd_row img tbl alpha_v (1 - alpha_v) W H 3 y buf) (H - 1) (v_init W H 3 b)) := by
    apply loopUp_inv (fun n s => HDone img tbl alpha_h W H s
      ∧ TtbDone img tbl alpha_h alpha_v W H (n + 1) s)
    · exact v_init_spec img tbl alpha_h alpha_v W H b hH hb
    · intro i s hi hs
      rw [Nat.add_comm 1 i]
      exact v_fwd_row_spec img tbl alpha_h alpha_v W H s i (by omega) hs.1 hs.2
  have e : H - 1 + 1 = H := by omega
  rw [e] at key
  exact key

theorem v_bwd_step_inv (img : Nat → Nat) (tbl : Nat → K) (alpha : K) (W : Nat)
    (s0 : VBwd K) (x : Nat) (s : VBwd K) (hx : x < W) (hsep : VBwdSep s0 W)
    (h : VBwdInv img tbl alpha s0 x s) :
    VBwdInv img tbl alpha s0 (x + 1) (v_bwd_step img tbl alpha (1 - alpha) 3 s) := by
  obtain ⟨d1, d2, d3, d4, d5, d6, d7⟩ := hsep
  have hfr := h.frame
  have eb : (v_bwd_step img tbl alpha (1 - alpha) 3 s).buf
      = store (store (store (store (store (store (store (store s.buf
          (s0.ycf_ + x) (bwd_fcc img tbl alpha s0 x))
          (s0.factor_ + x) ((1 / 2 : K) * (s0.buf (s0.factor_ + x) + bwd_fcc img tbl alpha s0 x)))
          (s0.ycy_ + 3 * x) (bwd_ycc img tbl alpha s0 x 0))
          (s0.out_ + 3 * x)
            ((1 / 2 : K) * (s0.buf (s0.out_ + 3 * x) + bwd_ycc img tbl alpha s0 x 0)
              / ((1 / 2 : K) * (s0.buf (s0.factor_ + x) + bwd_fcc img tbl alpha s0 x))))
          (s0.ycy_ + 3 * x + 1) (bwd_ycc img tbl alpha s0 x 1))
          (s0.out_ + 3 * x + 1)
            ((1 / 2 : K) * (s0.buf (s0.out_ + 3 * x + 1) + bwd_ycc img tbl alpha s0 x 1)
              / ((1 / 2 : K) * (s0.buf (s0.factor_ + x) + bwd_fcc img tbl alpha s0 x))))
          (s0.ycy_ + 3 * x + 1 + 1) (bwd_ycc img tbl alpha s0 x 2))
          (s0.out_ + 3 * x + 1 + 1)
            ((1 / 2 : K) * (s0.buf (s0.out_ + 3 * x + 1 + 1) + bwd_ycc img tbl alpha s0 x 2)
              / ((1 / 2 : K) * (s0.buf (s0.factor_ + x) + bwd_fcc img tbl alpha s0 x))) := by
    simp only [v_bwd_step, loopUp, v_bwd_chan, h.tpy, h.tcy, h.xcy, h.ycy_, h.ypy_, h.out_,
      h.xcf, h.ycf_, h.ypf_, h.factor_]
    simp (disch := omega) only [store_ne, store_eq]
    simp (disch := omega) only [hfr]
    simp only [bwd_fcc, bwd_ycc, decay_at, Nat.add_zero, Nat.add_assoc]
  constructor
  · simp only [v_bwd_step, loopUp, v_bwd_chan, h.tpy]; omega
  · simp only [v_bwd_step, loopUp, v_bwd_chan, h.tcy]; omega
  · simp only [v_bwd_step, loopUp, v_bwd_chan, h.xcy]; omega
  · simp only [v_bwd_step, loopUp, v_bwd_chan, h.ycy_]; omega
  · simp only [v_bwd_step, loopUp, v_bwd_chan, h.ypy_]; omega
  · simp only [v_bwd_step, loopUp, v_bwd_chan, h.out_]; omega
  · simp only [v_bwd_step, loopUp, v_bwd_chan, h.xcf]; omega
  · simp only [v_bwd_step, loopUp, v_bwd_chan, h.ycf_]; omega
  · simp only [v_bwd_step, loopUp, v_bwd_chan, h.ypf_]; omega
  · simp only [v_bwd_step, loopUp, v_bwd_chan, h.factor_]; omega
  · intro i hi
    rw [eb]
    rcases Nat.lt_or_ge i x with hlt | hge
    · simp (disch := omega) only [store_ne]
      exact h.line i hlt
    · obtain rfl : i = x := by omega
      simp (disch := omega) only [store_ne, store_eq]
  · intro i hi
    rw [eb]
    rcases Nat.lt_or_ge i x with hlt | hge
    · simp (disch := omega) only [store_ne]
      exact h.fac i hlt
    · obtain rfl : i = x := by omega
      simp (disch := omega) only [store_ne, store_eq]
  · intro i c hi hc
    rw [eb]
    rcases Nat.lt_or_ge i x with hlt | hge
    · simp (disch := omega) only [store_ne]
      exact h.slice i c hlt hc
    · obtain rfl : i = x := by omega
      interval_cases c <;> simp (disch := omega) only [store_ne, store_eq]
  · intro i c hi hc
    rw [eb]
    rcases Nat.lt_or_ge i x with hlt | hge
    · simp (disch := omega) only [store_ne]
      exact h.col i c hlt hc
    · obtain rfl : i = x := by omega
      interval_cases c <;> simp (disch := omega) only [store_ne, store_eq, Nat.add_zero]
  · intro k h1 h2 h3 h4
    rw [eb]
    simp (disch := omega) only [store_ne]
    exact h.frame k (by omega) (by omega) (by omega) (by omega)

/-- Effect of the loop over `x` of one row of the bottom-to-top sweep. -/
theorem v_bwd_loop_spec (img : Nat → Nat) (tbl : Nat → K) (alpha : K) (W : Nat)
    (s0 : VBwd K) (hsep : VBwdSep s0 W) :
    VBwdInv img tbl alpha s0 W
      (loopUp 0 (fun _ s => v_bwd_step img tbl alpha (1 - alpha) 3 s) W s0) := by
  apply loopUp_inv (fun n s => VBwdInv img tbl alpha s0 n s)
  · constructor
    · rfl
    · rfl
    · rfl
    · rfl
    · rfl
    · rfl
    · rfl
    · rfl
    · rfl
    · rfl
    · intro i hi; omega
    · intro i hi; omega
    · intro i c hi; omega
    · intro i c hi; omega
    · intro k _ _ _ _; rfl
  · intro i s hi hs
    exact v_bwd_step_inv img tbl alpha W s0 i s hi hsep hs

omit [Sub K] in
theorem avg_loop_spec (b : Nat → K) (P m Q n : Nat) (hsep : P + (m + n) ≤ Q ∨ Q + n ≤ P + m) :
    (∀ x, x < n → loopUp 0 (fun x buf => store buf (P + (m + x))
        ((1 / 2 : K) * (buf (P + (m + x)) + buf (Q + x)))) n b (P + (m + x))
        = (1 / 2 : K) * (b (P + (m + x)) + b (Q + x)))
    ∧ (∀ k, (k < P + m ∨ P + (m + n) ≤ k) → loopUp 0 (fun x buf => store buf (P + (m + x))
        ((1 / 2 : K) * (buf (P + (m + x)) + buf (Q + x)))) n b k = b k) := by
  induction n with
  | zero =>
    refine ⟨?_, ?_⟩
    · intro x hx; omega
    · intro k _; rfl
  | succ n ih =>
    obtain ⟨ih1, ih2⟩ := ih (by omega)
    refine ⟨?_, ?_⟩
    · intro x hx
      simp only [loopUp, Nat.zero_add]
      rcases Nat.lt_or_ge x n with hlt | hge
      · rw [store_ne _ _ (by omega)]
        exact ih1 x hlt
      · obtain rfl : x = n := by omega
        rw [store_eq _ _ rfl, ih2 _ (by omega), ih2 _ (by omega)]
    · intro k hk
      simp only [loopUp, Nat.zero_add]
      rw [store_ne _ _ (by omega)]
      exact ih2 k (by omega)

omit [Sub K] in
theorem last_loop_spec (W H : Nat) (b : Nat → K) (hH : 1 ≤ H) (n : Nat) (hn : n ≤ W) :
    (loopUp 0 (fun x s => loopUp 0 (fun c s => v_last_chan W H 3 x c s) 3 s) n
        ({ buf := b, k := 0 } : VLast K)).k = 3 * n
    ∧ (∀ x c, x < n → c < 3 →
      (loopUp 0 (fun x s => loopUp 0 (fun c s => v_last_chan W H 3 x c s) 3 s) n
        ({ buf := b, k := 0 } : VLast K)).buf (((H - 1) * W + x) * 3 + c)
      = (1 / 2 : K) * (b (((H - 1) * W + x) * 3 + c)
          + b (W * H * 3 + W * H * 3 + W * H + W * H + W * 3 + (3 * x + c)))
        / b (W * H * 3 + W * H * 3 + W * H + ((H - 1) * W + x)))
    ∧ (∀ k, (k < (H - 1) * W * 3 ∨ ((H - 1) * W + n) * 3 ≤ k) →
      (loopUp 0 (fun x s => loopUp 0 (fun c s => v_last_chan W H 3 x c s) 3 s) n
        ({ buf := b, k := 0 } : VLast K)).buf k = b k) := by
  have hA := row_le W (show H - 1 < H by omega)
  have hB := rows_total1 W H
  induction n with
  | zero =>
    refine ⟨rfl, ?_, ?_⟩
    · intro x c hx; omega
    · intro k _; rfl
  | succ n ih =>
    obtain ⟨ihk, ih1, ih2⟩ := ih (by omega)
    have e : loopUp 0 (fun x s => loopUp 0 (fun c s => v_last_chan W H 3 x c s) 3 s) (n + 1)
        ({ buf := b, k := 0 } : VLast K)
        = v_last_chan W H 3 n 2 (v_last_chan W H 3 n 1 (v_last_chan W H 3 n 0
          (loopUp 0 (fun x s => loopUp 0 (fun c s => v_last_chan W H 3 x c s) 3 s) n
            ({ buf := b, k := 0 } : VLast K)))) := by
      simp only [loopUp, Nat.zero_add]
    rw [e]
    generalize loopUp 0 (fun x s => loopUp 0 (fun c s => v_last_chan W H 3 x c s) 3 s) n
      ({ buf := b, k := 0 } : VLast K) = s at ihk ih1 ih2 ⊢
    refine ⟨?_, ?_, ?_⟩
    · simp only [v_last_chan, ihk]; omega
    · intro x c hx hc
      simp only [v_last_chan, layout_img_out_f, layout_map_factor_b, layout_slice_factor_b, ihk,
        Nat.zero_add]
      rcases Nat.lt_or_ge x n with hlt | hge
      · simp (disch := omega) only [store_ne]
        exact ih1 x c hlt hc
      · obtain rfl : x = n := by omega
        interval_cases c
        · simp (disch := omega) only [store_ne, store_eq]
          rw [ih2 _ (by omega), ih2 _ (by omega), ih2 _ (by omega)]
          rfl
        · simp (disch := omega) only [store_ne, store_eq]
          rw [ih2 _ (by omega), ih2 _ (by omega), ih2 _ (by omega)]
        · simp (disch := omega) only [store_ne, store_eq]
          rw [ih2 _ (by omega), ih2 _ (by omega), ih2 _ (by omega)]
    · intro k hk
      simp only [v_last_chan, layout_img_out_f, layout_map_factor_b, layout_slice_factor_b, ihk,
        Nat.zero_add]
      simp (disch := omega) only [store_ne]
      exact ih2 k (by omega)

/-- State of the scratch buffer after the last-row block (lines 218-234). -/
theorem v_last_row_spec (img : Nat → Nat) (tbl : Nat → K) (alpha_h alpha_v : K) (W H : Nat)
    (b : Nat → K) (hH : 1 ≤ H) (hb : HDone img tbl alpha_h W H b)
    (ht : TtbDone img tbl alpha_h alpha_v W H H b) :
    BttInv img tbl alpha_h alpha_v W H 0 (v_last_row W H 3 b) := by
  have hH3 := rows_total W H
  have hH1 := rows_total1 W H
  have hA := row_le W (show H - 1 < H by omega)
  have hA3 := row_le (W * 3) (show H - 1 < H by omega)
  have hm : (H - 1) * (W * 3) = 3 * ((H - 1) * W) := by ring
  have hsub : H - 1 - (H - 1) = 0 := Nat.sub_self _
  obtain ⟨b1, hb1⟩ : ∃ b1, b1 = memcpy b (W * H * 3 + W * H * 3 + W * H + W * H + W * 3 + W * 3 + W)
    (W * H * 3 + W * H * 3 + (H - 1) * W) W := ⟨_, rfl⟩
  obtain ⟨b2, hb2⟩ : ∃ b2, b2 = loopUp 0 (fun x buf =>
      store buf (W * H * 3 + W * H * 3 + W * H + ((H - 1) * W + x))
        ((1 / 2 : K) * (buf (W * H * 3 + W * H * 3 + W * H + ((H - 1) * W + x))
          + buf (W * H * 3 + W * H * 3 + W * H + W * H + W * 3 + W * 3 + W + x)))) W b1 :=
    ⟨_, rfl⟩
  obtain ⟨b3, hb3⟩ : ∃ b3, b3 = memcpy b2 (W * H * 3 + W * H * 3 + W * H + W * H + W * 3)
    (W * H * 3 + (H - 1) * (W * 3)) (W * 3) := ⟨_, rfl⟩
  have e : v_last_row W H 3 b
      = (loopUp 0 (fun x s => loopUp 0 (fun c s => v_last_chan W H 3 x c s) 3 s) W
        ({ buf := b3, k := 0 } : VLast K)).buf := by
    simp only [v_last_row, layout_map_factor_a, layout_map_factor_b, layout_img_temp,
      layout_slice_factor_b, layout_line_factor_b, hb3, hb2, hb1]
  obtain ⟨-, r1, r2⟩ := last_loop_spec W H b3 hH W (le_refl _)
  rw [← e] at r1 r2
  generalize v_last_row W H 3 b = r at r1 r2 ⊢
  -- the four stages, as rewriting rules
  have f1 : ∀ k, (k < W * H * 3 + W * H * 3 + W * H + W * H + W * 3 + W * 3 + W
      ∨ W * H * 3 + W * H * 3 + W * H + W * H + W * 3 + W * 3 + W + W ≤ k) → b1 k = b k := by
    intro k hk
    rw [hb1, memcpy_out _ _ _ _ hk]
  have g1 : ∀ x, x < W → b1 (W * H * 3 + W * H * 3 + W * H + W * H + W * 3 + W * 3 + W + x)
      = h_fac img tbl alpha_h W ((H - 1) * (W * 3)) x := by
    intro x hx
    rw [hb1, memcpy_in _ _ _ _ (by omega) (by omega), ← hb.fac (H - 1) x (by omega) hx]
    exact buf_congr b (by omega)
  obtain ⟨g2, f2⟩ := avg_loop_spec b1 (W * H * 3 + W * H * 3 + W * H) ((H - 1) * W)
    (W * H * 3 + W * H * 3 + W * H + W * H + W * 3 + W * 3 + W) W (by omega)
  rw [← hb2] at g2 f2
  have f3 : ∀ k, (k < W * H * 3 + W * H * 3 + W * H + W * H + W * 3
      ∨ W * H * 3 + W * H * 3 + W * H + W * H + W * 3 + W * 3 ≤ k) → b3 k = b2 k := by
    intro k hk
    rw [hb3, memcpy_out _ _ _ _ hk]
  have g3 : ∀ x c, x < W → c < 3 →
      b3 (W * H * 3 + W * H * 3 + W * H + W * H + W * 3 + (3 * x + c))
      = h_col img tbl alpha_h W ((H - 1) * (W * 3)) x c := by
    intro x c hx hc
    rw [hb3, memcpy_in _ _ _ _ (by omega) (by omega), f2 _ (by omega), f1 _ (by omega),
      ← hb.col (H - 1) x c (by omega) hx hc]
    exact buf_congr b (by omega)
  have gfac : ∀ x, x < W → b3 (W * H * 3 + W * H * 3 + W * H + ((H - 1) * W + x))
      = out_fac img tbl alpha_h alpha_v W H (H - 1) x := by
    intro x hx
    rw [f3 _ (by omega), g2 x hx, g1 x hx, f1 _ (by omega)]
    simp only [out_fac, hsub, btt_fac]
    rw [← ht.fac (H - 1) x (by omega) hx]
    congr 3
    omega
  constructor
  · constructor
    · intro y x c hy hx hc
      have := row_le (W * 3) hy
      rw [r2 _ (by omega), f3 _ (by omega), f2 _ (by omega), f1 _ (by omega)]
      exact hb.col y x c hy hx hc
    · intro y x hy hx
      have := row_le W hy
      rw [r2 _ (by omega), f3 _ (by omega), f2 _ (by omega), f1 _ (by omega)]
      exact hb.fac y x hy hx
  · intro y x c hy hx hc
    have := row_le (W * 3) (show y < H - 1 by omega)
    rw [r2 _ (by omega), f3 _ (by omega), f2 _ (by omega), f1 _ (by omega)]
    exact ht.col y x c (by omega) hx hc
  · intro y x hy hx
    have := row_le W (show y < H - 1 by omega)
    rw [r2 _ (by omega), f3 _ (by omega), f2 _ (by omega), f1 _ (by omega)]
    exact ht.fac y x (by omega) hx
  · intro y x c hy hy' hx hc
    obtain rfl : y = H - 1 := by omega
    rw [show (H - 1) * (W * 3) + 3 * x + c = ((H - 1) * W + x) * 3 + c by omega, r1 x c hx hc,
      g3 x c hx hc, gfac x hx, f3 _ (by omega), f2 _ (by omega), f1 _ (by omega)]
    simp only [out_col, hsub, btt_col]
    rw [← ht.col (H - 1) x c (by omega) hx hc]
    congr 4
    omega
  · intro y x hy hy' hx
    obtain rfl : y = H - 1 := by omega
    rw [r2 _ (by omega), ← gfac x hx]
    exact buf_congr b3 (by omega)
  · intro x hx
    rw [r2 _ (by omega), f3 _ (by omega), f2 _ (by omega), g1 x hx]
    simp only [btt_fac]
  · intro x c hx hc
    rw [r2 _ (by omega)]
    simp only [btt_col]
    rw [← g3 x c hx hc]
    exact buf_congr b3 (by omega)

/-- One row of the bottom-to-top sweep. -/
theorem v_bwd_row_spec (img : Nat → Nat) (tbl : Nat → K) (alpha_h alpha_v : K) (W H : Nat)
    (b : Nat → K) (y j : Nat) (hyj : y + j + 2 = H)
    (h : BttInv img tbl alpha_h alpha_v W H j b) :
    BttInv img tbl alpha_h alpha_v W H (j + 1)
      (v_bwd_row img tbl alpha_v (1 - alpha_v) W H 3 y b) := by
  have hH3 := rows_total W H
  have hH1 := rows_total1 W H
  have hA := row_le W (show y < H by omega)
  have hA3 := row_le (W * 3) (show y < H by omega)
  have hy : H - 2 - j = y := by omega
  have hy' : H - 1 - y = j + 1 := by omega
  have hs := v_bwd_loop_spec img tbl alpha_v W
    ({ buf := b, tpy := (y + 1) * (W * 3), tcy := y * (W * 3),
       xcy := W * H * 3 + y * (W * 3),
       ycy_ := W * H * 3 + W * H * 3 + W * H + W * H,
       ypy_ := W * H * 3 + W * H * 3 + W * H + W * H + W * 3,
       out_ := y * (W * 3),
       xcf := W * H * 3 + W * H * 3 + y * W,
       ycf_ := W * H * 3 + W * H * 3 + W * H + W * H + W * 3 + W * 3,
       ypf_ := W * H * 3 + W * H * 3 + W * H + W * H + W * 3 + W * 3 + W,
       factor_ := W * H * 3 + W * H * 3 + W * H + y * W } : VBwd K)
    (by constructor <;> simp only <;> omega)
  obtain ⟨s, hsdef⟩ : ∃ s, s = loopUp 0 (fun _ s => v_bwd_step img tbl alpha_v (1 - alpha_v) 3 s) W
    ({ buf := b, tpy := (y + 1) * (W * 3), tcy := y * (W * 3),
       xcy := W * H * 3 + y * (W * 3),
       ycy_ := W * H * 3 + W * H * 3 + W * H + W * H,
       ypy_ := W * H * 3 + W * H * 3 + W * H + W * H + W * 3,
       out_ := y * (W * 3),
       xcf := W * H * 3 + W * H * 3 + y * W,
       ycf_ := W * H * 3 + W * H * 3 + W * H + W * H + W * 3 + W * 3,
       ypf_ := W * H * 3 + W * H * 3 + W * H + W * H + W * 3 + W * 3 + W,
       factor_ := W * H * 3 + W * H * 3 + W * H + y * W } : VBwd K) := ⟨_, rfl⟩
  have e : v_bwd_row img tbl alpha_v (1 - alpha_v) W H 3 y b
      = memcpy (memcpy s.buf (W * H * 3 + W * H * 3 + W * H + W * H + W * 3)
          (W * H * 3 + W * H * 3 + W * H + W * H) (W * 3))
          (W * H * 3 + W * H * 3 + W * H + W * H + W * 3 + W * 3 + W)
          (W * H * 3 + W * H * 3 + W * H + W * H + W * 3 + W * 3) W := by
    simp only [v_bwd_row, layout_img_out_f, layout_img_temp, layout_map_factor_a,
      layout_map_factor_b, layout_slice_factor_a, layout_slice_factor_b, layout_line_factor_a,
      layout_line_factor_b, Nat.zero_add, hsdef]
  rw [← hsdef] at hs
  obtain ⟨-, -, -, -, -, -, -, -, -, -, hline, hfac, hslice, hcol, hframe⟩ := hs
  simp only at hline hfac hslice hcol hframe
  have fcc : ∀ x, x < W → bwd_fcc img tbl alpha_v
      ({ buf := b, tpy := (y + 1) * (W * 3), tcy := y * (W * 3),
         xcy := W * H * 3 + y * (W * 3),
         ycy_ := W * H * 3 + W * H * 3 + W * H + W * H,
         ypy_ := W * H * 3 + W * H * 3 + W * H + W * H + W * 3,
         out_ := y * (W * 3),
         xcf := W * H * 3 + W * H * 3 + y * W,
         ycf_ := W * H * 3 + W * H * 3 + W * H + W * H + W * 3 + W * 3,
         ypf_ := W * H * 3 + W * H * 3 + W * H + W * H + W * 3 + W * 3 + W,
         factor_ := W * H * 3 + W * H * 3 + W * H + y * W } : VBwd K) x
      = btt_fac img tbl alpha_h alpha_v W H x (j + 1) := by
    intro x hx
    simp only [bwd_fcc, btt_fac, hy]
    rw [h.hd.fac y x (by omega) hx, h.line x hx]
  have ycc : ∀ x c, x < W → c < 3 → bwd_ycc img tbl alpha_v
      ({ buf := b, tpy := (y + 1) * (W * 3), tcy := y * (W * 3),
         xcy := W * H * 3 + y * (W * 3),
         ycy_ := W * H * 3 + W * H * 3 + W * H + W * H,
         ypy_ := W * H * 3 + W * H * 3 + W * H + W * H + W * 3,
         out_ := y * (W * 3),
         xcf := W * H * 3 + W * H * 3 + y * W,
         ycf_ := W * H * 3 + W * H * 3 + W * H + W * H + W * 3 + W * 3,
         ypf_ := W * H * 3 + W * H * 3 + W * H + W * H + W * 3 + W * 3 + W,
         factor_ := W * H * 3 + W * H * 3 + W * H + y * W } : VBwd K) x c
      = btt_col img tbl alpha_h alpha_v W H x c (j + 1) := by
    intro x c hx hc
    simp only [bwd_ycc, btt_col, hy]
    rw [h.hd.col y x c (by omega) hx hc, h.slice x c hx hc]
  rw [e]
  generalize s.buf = sb at hline hfac hslice hcol hframe ⊢
  constructor
  · constructor
    · intro y' x c hy' hx hc
      have := row_le (W * 3) hy'
      rw [memcpy_out _ _ _ _ (by omega), memcpy_out _ _ _ _ (by omega),
        hframe _ (by omega) (by omega) (by omega) (by omega)]
      exact h.hd.col y' x c hy' hx hc
    · intro y' x hy' hx
      have := row_le W hy'
      rw [memcpy_out _ _ _ _ (by omega), memcpy_out _ _ _ _ (by omega),
        hframe _ (by omega) (by omega) (by omega) (by omega)]
      exact h.hd.fac y' x hy' hx
  · intro y' x c hy' hx hc
    have := row_le (W * 3) (show y' < y by omega)
    rw [memcpy_out _ _ _ _ (by omega), memcpy_out _ _ _ _ (by omega),
      hframe _ (by omega) (by omega) (by omega) (by omega)]
    exact h.col_todo y' x c (by omega) hx hc
  · intro y' x hy' hx
    have := row_le W (show y' < y by omega)
    rw [memcpy_out _ _ _ _ (by omega), memcpy_out _ _ _ _ (by omega),
      hframe _ (by omega) (by omega) (by omega) (by omega)]
    exact h.fac_todo y' x (by omega) hx
  · intro y' x c hy1 hy2 hx hc
    have := row_le (W * 3) hy1
    rw [memcpy_out _ _ _ _ (by omega), memcpy_out _ _ _ _ (by omega)]
    rcases Nat.lt_or_ge y y' with hlt | hge
    · have := row_le (W * 3) hlt
      rw [hframe _ (by omega) (by omega) (by omega) (by omega)]
      exact h.col_done y' x c hy1 (by omega) hx hc
    · obtain rfl : y' = y := by omega
      rw [hcol x c hx hc, fcc x hx, ycc x c hx hc, h.col_todo y' x c (by omega) hx hc,
        h.fac_todo y' x (by omega) hx]
      simp only [out_col, out_fac, hy']
  · intro y' x hy1 hy2 hx
    have := row_le W hy1
    rw [memcpy_out _ _ _ _ (by omega), memcpy_out _ _ _ _ (by omega)]
    rcases Nat.lt_or_ge y y' with hlt | hge
    · have := row_le W hlt
      rw [hframe _ (by omega) (by omega) (by omega) (by omega)]
      exact h.fac_done y' x hy1 (by omega) hx
    · obtain rfl : y' = y := by omega
      rw [hfac x hx, fcc x hx, h.fac_todo y' x (by omega) hx]
      simp only [out_fac, hy']
  · intro x hx
    rw [memcpy_in _ _ _ _ (by omega) (by omega), memcpy_out _ _ _ _ (by omega), ← fcc x hx,
      ← hline x hx]
    exact buf_congr sb (by omega)
  · intro x c hx hc
    rw [memcpy_out _ _ _ _ (by omega), memcpy_in _ _ _ _ (by omega) (by omega), ← ycc x c hx hc,
      ← hslice x c hx hc]
    exact buf_congr sb (by omega)

/-- State of the scratch buffer after the bottom-to-top sweep. -/
theorem v_bwd_pass_spec (img : Nat → Nat) (tbl : Nat → K) (alpha_h alpha_v : K) (W H : Nat)
    (b : Nat → K) (hH : 1 ≤ H) (h : BttInv img tbl alpha_h alpha_v W H 0 b) :
    BttInv img tbl alpha_h alpha_v W H (H - 1) (v_bwd_pass img tbl alpha_v W H 3 b) := by
  simp only [v_bwd_pass]
  apply loopDown_inv (fun i s => BttInv img tbl alpha_h alpha_v W H (H - 1 - i) s)
  · rw [Nat.sub_self]; exact h
  · intro i s hi hs
    have := v_bwd_row_spec img tbl alpha_h alpha_v W H s i (H - 1 - (i + 1)) (by omega) hs
    have e : H - 1 - (i + 1) + 1 = H - 1 - i := by omega
    rw [e] at this
    exact this

/-- State of the scratch buffer on reaching the quantization loop. -/
theorem sweeps_spec (img : Nat → Nat) (tbl : Nat → K) (alpha_h alpha_v : K) (W H : Nat)
    (buf : Nat → K) (hW : 1 ≤ W) (hH : 1 ≤ H) :
    BttInv img tbl alpha_h alpha_v W H (H - 1) (sweeps img tbl alpha_h alpha_v W H 3 buf) := by
  have h1 := h_pass_spec img tbl alpha_h W H buf hW
  have hd : HDone img tbl alpha_h W H (h_pass img tbl alpha_h W H 3 buf) := ⟨h1.1, h1.2.1⟩
  have h2 := v_fwd_pass_spec img tbl alpha_h alpha_v W H _ hH hd
  have h3 := v_last_row_spec img tbl alpha_h alpha_v W H _ hH h2.1 h2.2
  exact v_bwd_pass_spec img tbl alpha_h alpha_v W H _ hH h3

end Simulation

/-! ## The image on return -/

section Output

variable {K : Type} [LinearOrderedField K] [FloorRing K]

theorem fill_spec {α : Type} (f : Nat → α) (m0 : Nat → α) (n k : Nat) :
    loopUp 0 (fun i m => store m i (f i)) n m0 k = if k < n then f k else m0 k := by
  induction n with
  | zero => simp [loopUp]
  | succ n ih =>
    simp only [loopUp, Nat.zero_add]
    by_cases h : k = n
    · subst h
      rw [store_eq _ _ rfl, if_pos (Nat.lt_succ_self _)]
    · rw [store_ne _ _ h, ih]
      by_cases h2 : k < n
      · rw [if_pos h2, if_pos (by omega)]
      · rw [if_neg h2, if_neg (by omega)]

theorem quantize_spec (W H C : Nat) (img : Nat → Nat) (buf : Nat → K) (k : Nat) :
    quantize W H C img buf k = if k < W * H * C then to_uchar (buf k) else img k := by
  simp only [quantize, layout_img_out_f, Nat.zero_add]
  exact fill_spec (fun i => to_uchar (buf i)) img (W * H * C) k

/-- Every index below `W * H * 3` is sample `c` of a pixel `(x, y)`. -/
theorem pixel_index (W H i : Nat) (hi : i < W * H * 3) :
    ∃ y x c, y < H ∧ x < W ∧ c < 3 ∧ i = y * (W * 3) + 3 * x + c := by
  have hW : 0 < W * 3 := by
    rcases Nat.eq_zero_or_pos W with h | h
    · subst h; simp at hi
    · omega
  refine ⟨i / (W * 3), i % (W * 3) / 3, i % 3, ?_, ?_, ?_, ?_⟩
  · rw [Nat.div_lt_iff_lt_mul hW]
    have := rows_total W H
    omega
  · have := Nat.mod_lt i hW
    omega
  · omega
  · have := Nat.div_add_mod i (W * 3)
    have e : i / (W * 3) * (W * 3) = W * 3 * (i / (W * 3)) := Nat.mul_comm _ _
    have h3 : i % (W * 3) % 3 = i % 3 := Nat.mod_mod_of_dvd i (dvd_mul_left 3 W)
    omega

/-- The image on return: each sample is the truncated closed-form value. -/
theorem filter_passes_spec (img : Nat → Nat) (tbl : Nat → K) (alpha_h alpha_v : K) (W H : Nat)
    (buf : Nat → K) (hW : 1 ≤ W) (hH : 1 ≤ H) (y x c : Nat) (hy : y < H) (hx : x < W)
    (hc : c < 3) :
    filter_passes img tbl alpha_h alpha_v W H 3 buf (y * (W * 3) + 3 * x + c)
      = to_uchar (out_col img tbl alpha_h alpha_v W H y x c) := by
  have h := sweeps_spec img tbl alpha_h alpha_v W H buf hW hH
  have h1 := row_le (W * 3) hy
  have h2 := rows_total W H
  simp only [filter_passes]
  rw [quantize_spec, if_pos (by omega), h.col_done y x c hy (by omega) hx hc]

/-- Outside the image the storage is left as it was. -/
theorem filter_passes_frame (img : Nat → Nat) (tbl : Nat → K) (alpha_h alpha_v : K) (W H : Nat)
    (buf : Nat → K) (k : Nat) (hk : W * H * 3 ≤ k) :
    filter_passes img tbl alpha_h alpha_v W H 3 buf k = img k := by
  simp only [filter_passes]
  rw [quantize_spec, if_neg (by omega)]

/-- The image on return does not depend on the initial content of the scratch buffer. -/
theorem filter_passes_buf (img : Nat → Nat) (tbl : Nat → K) (alpha_h alpha_v : K) (W H : Nat)
    (buf buf' : Nat → K) (hW : 1 ≤ W) (hH : 1 ≤ H) :
    filter_passes img tbl alpha_h alpha_v W H 3 buf
      = filter_passes img tbl alpha_h alpha_v W H 3 buf' := by
  funext k
  rcases Nat.lt_or_ge k (W * H * 3) with hk | hk
  · obtain ⟨y, x, c, hy, hx, hc, rfl⟩ := pixel_index W H k hk
    rw [filter_passes_spec img tbl alpha_h alpha_v W H buf hW hH y x c hy hx hc,
      filter_passes_spec img tbl alpha_h alpha_v W H buf' hW hH y x c hy hx hc]
  · rw [filter_passes_frame _ _ _ _ _ _ _ _ hk, filter_passes_frame _ _ _ _ _ _ _ _ hk]

end Output

/-! ## Uniform gray images -/

section Flat

variable {K : Type} [LinearOrderedField K]

theorem abs_diff_self (a : Nat) : abs_diff a a = 0 := by
  simp [abs_diff]

theorem range_dist_zero : range_dist 0 0 0 = 0 := by
  simp [range_dist]

theorem decay_rev_same (img : Nat → Nat) (tbl : Nat → K) (alpha : K) (p q : Nat)
    (h0 : img p = img q) (h1 : img (p + 1) = img (q + 1)) (h2 : img (p + 2) = img (q + 2))
    (ht : tbl 0 = 1) : decay_rev img tbl alpha p q = alpha := by
  simp only [decay_rev, h0, h1, h2, abs_diff_self, range_dist_zero, ht, one_mul]

end Flat

theorem range_table_zero (sigma_range : ℝ) : range_table sigma_range 0 = 1 := by
  simp [range_table]

/-- The input copy made by `recursive_bf`. -/
theorem copy_spec (img_in out0 : Nat → Nat) (n k : Nat) :
    loopUp 0 (fun i out => store out i (img_in i)) n out0 k
      = if k < n then img_in k else out0 k :=
  fill_spec img_in out0 n k

/-! ## Bounds on factors and colours -/

section Bounds

variable {K : Type} [LinearOrderedField K]

theorem abs_diff_lt (a b : Nat) : abs_diff a b < 256 := by
  simp only [abs_diff]
  exact Nat.mod_lt _ (by norm_num)

/-- Every index used to read the range table is below 256. -/
theorem range_dist_le (a b c d e f : Nat) :
    range_dist (abs_diff a b) (abs_diff c d) (abs_diff e f) ≤ 255 := by
  have h1 := abs_diff_lt a b
  have h2 := abs_diff_lt c d
  have h3 := abs_diff_lt e f
  simp only [range_dist, Nat.shiftLeft_eq, Nat.shiftRight_eq_div_pow]
  omega

end Bounds

/-! ## Range table, decay coefficients, buffer -/

theorem decay_pos (sigma_spatial : ℝ) (n : Nat) : 0 < decay sigma_spatial n := by
  simp only [decay]
  exact Real.exp_pos _

theorem decay_lt_one (sigma_spatial : ℝ) (h : 0 < sigma_spatial) (n : Nat) (hn : 1 ≤ n) :
    decay sigma_spatial n < 1 := by
  simp only [decay]
  rw [Real.exp_lt_one_iff]
  have h1 : (0 : ℝ) < (n : ℝ) := by exact_mod_cast hn
  have h2 : (0 : ℝ) < Real.sqrt 2 := Real.sqrt_pos.mpr (by norm_num)
  have h3 : (0 : ℝ) < sigma_spatial * (n : ℝ) := mul_pos h h1
  rw [neg_div]
  exact neg_neg_of_pos (div_pos h2 h3)

/-- C5. With three channels and width and height of at least 1, the image `_recursive_bf`
returns is the same for every scratch buffer argument (external or absent) and every initial
content of the buffer. -/
theorem C5_buffer_independent (img : Nat → Nat) (sigma_spatial sigma_range : ℝ) (W H : Nat)
    (hW : 1 ≤ W) (hH : 1 ≤ H) (buffer buffer' : Option (Nat → ℝ)) (fresh fresh' : Nat → ℝ) :
    _recursive_bf img sigma_spatial sigma_range W H 3 buffer fresh
      = _recursive_bf img sigma_spatial sigma_range W H 3 buffer' fresh' := by
  simp only [_recursive_bf]
  exact filter_passes_buf img _ _ _ W H _ _ hW hH

/-- Witness of C5: an external buffer against an internal one on a 2x2 image. -/
theorem C5_buffer_independent_witness :
    _recursive_bf (fun i => i % 7) (3 / 100) (1 / 10) 2 2 3 (some (fun k => (k : ℝ))) (fun _ => 0)
      = _recursive_bf (fun i => i % 7) (3 / 100) (1 / 10) 2 2 3 none (fun _ => 1) :=
  C5_buffer_independent (fun i => i % 7) (3 / 100) (1 / 10) 2 2 (by norm_num) (by norm_num)
    (some (fun k => (k : ℝ))) none (fun _ => 0) (fun _ => 1)

/-! ## Images of width 2 and height 1 -/

section TwoByOne

variable {K : Type} [LinearOrderedField K]

theorem half_quot (N D : K) :
    1 / 2 * (1 / 2 * N + 1 / 2 * N) / (1 / 2 * (1 / 2 * D + 1 / 2 * D)) = N / D := by
  have hN : 1 / 2 * (1 / 2 * N + 1 / 2 * N) = 1 / 2 * N := by ring
  have hD : 1 / 2 * (1 / 2 * D + 1 / 2 * D) = 1 / 2 * D := by ring
  rw [hN, hD, mul_div_mul_left _ _ (by norm_num : (1 / 2 : K) ≠ 0)]

/-- Closed form of the first pixel of an image of width 2 and height 1. -/
theorem out_col_2x1_left (img : Nat → Nat) (tbl : Nat → K) (alpha_h alpha_v : K) (c : Nat) :
    out_col img tbl alpha_h alpha_v 2 1 0 0 c
      = ((img c : K) + ((1 - alpha_h) * (img c : K) + decay_rev img tbl alpha_h 0 3 * (img 3 : K)))
        / (1 + ((1 - alpha_h) + decay_rev img tbl alpha_h 0 3)) := by
  simp only [out_col, out_fac, ttb_col, ttb_fac, btt_col, btt_fac, h_col, h_fac, ltr_col, ltr_fac,
    rtl_col, rtl_fac]
  norm_num
  exact half_quot _ _

/-- Closed form of the second pixel of an image of width 2 and height 1. -/
theorem out_col_2x1_right (img : Nat → Nat) (tbl : Nat → K) (alpha_h alpha_v : K) (c : Nat) :
    out_col img tbl alpha_h alpha_v 2 1 0 1 c
      = (((1 - alpha_h) * (img (3 + c) : K) + decay_at img tbl alpha_h 3 0 * (img c : K))
          + (img (3 + c) : K))
        / (((1 - alpha_h) + decay_at img tbl alpha_h 3 0) + 1) := by
  simp only [out_col, out_fac, ttb_col, ttb_fac, btt_col, btt_fac, h_col, h_fac, ltr_col, ltr_fac,
    rtl_col, rtl_fac]
  norm_num
  exact half_quot _ _

variable [FloorRing K]

theorem filter_2x1_left (img : Nat → Nat) (tbl : Nat → K) (alpha_h alpha_v : K)
    (buf : Nat → K) (c : Nat) (hc : c < 3) :
    filter_passes img tbl alpha_h alpha_v 2 1 3 buf c
      = to_uchar (out_col img tbl alpha_h alpha_v 2 1 0 0 c) := by
  have h := filter_passes_spec img tbl alpha_h alpha_v 2 1 buf (by norm_num) (by norm_num)
    0 0 c (by norm_num) (by norm_num) hc
  simp only [Nat.zero_mul, Nat.mul_zero, Nat.zero_add] at h
  exact h

theorem filter_2x1_right (img : Nat → Nat) (tbl : Nat → K) (alpha_h alpha_v : K)
    (buf : Nat → K) (c : Nat) (hc : c < 3) :
    filter_passes img tbl alpha_h alpha_v 2 1 3 buf (3 + c)
      = to_uchar (out_col img tbl alpha_h alpha_v 2 1 0 1 c) := by
  have h := filter_passes_spec img tbl alpha_h alpha_v 2 1 buf (by norm_num) (by norm_num)
    0 1 c (by norm_num) (by norm_num) hc
  simp only [Nat.zero_mul, Nat.mul_one, Nat.zero_add] at h
  exact h

theorem to_uchar_lt {v : K} {n : Nat} (hn : 0 < n) (h : v < n) : to_uchar v < n := by
  simp only [to_uchar]
  have : ⌊v⌋₊ < n := (Nat.floor_lt' (by omega)).mpr h
  exact lt_of_le_of_lt (Nat.mod_le _ _) this

end TwoByOne

theorem sqrt_two_le : Real.sqrt 2 ≤ 3 / 2 := by
  rw [Real.sqrt_le_left (by norm_num)]
  norm_num

/-- Decay of the horizontal pass for `sigma_spatial = 1` and width 2. -/
theorem decay_one_two_ge : 1 / 4 ≤ decay 1 2 := by
  simp only [decay]
  have h := Real.add_one_le_exp (-Real.sqrt 2 / (1 * ((2 : Nat) : ℝ)))
  have h2 := sqrt_two_le
  have e : -Real.sqrt 2 / (1 * ((2 : Nat) : ℝ)) = -(Real.sqrt 2 / 2) := by
    push_cast; ring
  rw [e] at h ⊢
  linarith

/-! ## The step image -/

theorem copy6 (img_in out0 : Nat → Nat) (k : Nat) (hk : k < 6) :
    loopUp 0 (fun i out => store out i (img_in i)) (2 * 1 * 3) out0 k = img_in k := by
  rw [copy_spec, if_pos (by omega)]

/-! ## Uniform colour images and unvalidated input -/

/-- C2, the code at the failing input: on the uniform image of colour (255,0,0), width 2,
height 1, with both sigmas 1, the third sample of the first output pixel is at least 31,
while the third sample of both input pixels is 0. -/
theorem C2_overshoot_red_image :
    31 ≤ recursive_bf img_red (fun _ => 0) 1 1 2 1 3 none (fun _ => 0) 2
    ∧ img_red 2 = 0 ∧ img_red 5 = 0 := by
  refine ⟨?_, by decide, by decide⟩
  simp only [recursive_bf, _recursive_bf]
  rw [filter_2x1_left _ _ _ _ _ 2 (by norm_num), out_col_2x1_left]
  generalize himg : loopUp 0 (fun i out => store out i (img_red i)) (2 * 1 * 3) (fun _ => 0)
    = img
  have hv : ∀ k, k < 6 → img k = img_red k := by
    intro k hk; rw [← himg]; exact copy6 img_red _ k hk
  have i0 : img 0 = 255 := hv 0 (by norm_num)
  have i1 : img 1 = 0 := hv 1 (by norm_num)
  have i2 : img 2 = 0 := hv 2 (by norm_num)
  have i3 : img 3 = 255 := hv 3 (by norm_num)
  have i4 : img 4 = 0 := hv 4 (by norm_num)
  have i5 : img 5 = 0 := hv 5 (by norm_num)
  have e1 : decay_rev img (range_table 1) (decay 1 2) 0 3 = decay 1 2 :=
    decay_rev_same img _ _ 0 3 (by rw [i0, i3]) (by rw [i1, i4]) (by rw [i2, i5])
      (range_table_zero 1)
  rw [e1, i2, i3]
  have a0 := decay_one_two_ge
  have a1 := decay_lt_one 1 (by norm_num) 2 (by norm_num)
  generalize decay 1 2 = a at a0 a1
  have hval : ((0 : Nat) : ℝ) + ((1 - a) * ((0 : Nat) : ℝ) + a * ((255 : Nat) : ℝ))
      = 255 * a := by push_cast; ring
  have hden : (1 : ℝ) + (1 - a + a) = 2 := by ring
  rw [hval, hden]
  have h1 : ((31 : Nat) : ℝ) ≤ 255 * a / 2 := by push_cast; linarith
  have h2 : 255 * a / 2 < 256 := by linarith
  simp only [to_uchar]
  have f1 : 31 ≤ ⌊255 * a / 2⌋₊ := Nat.le_floor h1
  have f2 : ⌊255 * a / 2⌋₊ < 256 := (Nat.floor_lt' (by norm_num)).mpr (by exact_mod_cast h2)
  omega

/-- C4, the code at the failing input: on the uniform image of colour (0,0,255), width 2,
height 1, with both sigmas 1, the third sample of the first output pixel is below 255, the
value of that input sample. -/
theorem C4_flat_blue_image_changed :
    recursive_bf img_blue (fun _ => 0) 1 1 2 1 3 none (fun _ => 0) 2 < 255
    ∧ img_blue 2 = 255 := by
  refine ⟨?_, by decide⟩
  simp only [recursive_bf, _recursive_bf]
  rw [filter_2x1_left _ _ _ _ _ 2 (by norm_num), out_col_2x1_left]
  generalize himg : loopUp 0 (fun i out => store out i (img_blue i)) (2 * 1 * 3) (fun _ => 0)
    = img
  have hv : ∀ k, k < 6 → img k = img_blue k := by
    intro k hk; rw [← himg]; exact copy6 img_blue _ k hk
  have i0 : img 0 = 0 := hv 0 (by norm_num)
  have i1 : img 1 = 0 := hv 1 (by norm_num)
  have i2 : img 2 = 255 := hv 2 (by norm_num)
  have i3 : img 3 = 0 := hv 3 (by norm_num)
  have i4 : img 4 = 0 := hv 4 (by norm_num)
  have i5 : img 5 = 255 := hv 5 (by norm_num)
  have e1 : decay_rev img (range_table 1) (decay 1 2) 0 3 = decay 1 2 :=
    decay_rev_same img _ _ 0 3 (by rw [i0, i3]) (by rw [i1, i4]) (by rw [i2, i5])
      (range_table_zero 1)
  rw [e1, i2, i3]
  have a0 := decay_pos 1 2
  generalize decay 1 2 = a at a0
  have hval : ((255 : Nat) : ℝ) + ((1 - a) * ((255 : Nat) : ℝ) + a * ((0 : Nat) : ℝ))
      = 510 - 255 * a := by push_cast; ring
  have hden : (1 : ℝ) + (1 - a + a) = 2 := by ring
  rw [hval, hden]
  exact to_uchar_lt (by norm_num) (by push_cast; linarith)

/-! ## Decay coefficients and range distances -/

/-- On 8-bit samples `abs_diff` is the absolute difference. -/
theorem abs_diff_le (a b : Nat) (ha : a ≤ 255) (hb : b ≤ 255) :
    abs_diff a b = max a b - min a b := by
  simp only [abs_diff]
  omega

/-- The shifts of `range_dist` as arithmetic. -/
theorem range_dist_eq (dr dg db : Nat) : range_dist dr dg db = (2 * dr + dg + db) / 4 := by
  simp only [range_dist, Nat.shiftLeft_eq, Nat.shiftRight_eq_div_pow]
  omega

/-- C20: for two pixels with samples in 0..255 the per-channel differences are the absolute
differences, the distance `((dr << 1) + dg + db) >> 2` is `(2 * dr + dg + db) / 4` and at
most 255; it is 0 between a pixel and itself, and it is 255 exactly when all three
differences are 255. The distances of both horizontal sweeps, in every state, and the
distance between the pixels at any two offsets of an image are at most 255. -/
theorem C20_range_dist_in_table (r1 g1 b1 r2 g2 b2 : Nat) (img : Nat → Nat) (s : HRow ℝ) (p q : Nat)
    (hr1 : r1 ≤ 255) (hg1 : g1 ≤ 255) (hb1 : b1 ≤ 255)
    (hr2 : r2 ≤ 255) (hg2 : g2 ≤ 255) (hb2 : b2 ≤ 255) :
    (abs_diff r1 r2 = max r1 r2 - min r1 r2 ∧ abs_diff g1 g2 = max g1 g2 - min g1 g2
      ∧ abs_diff b1 b2 = max b1 b2 - min b1 b2)
    ∧ range_dist (abs_diff r1 r2) (abs_diff g1 g2) (abs_diff b1 b2)
      = (2 * abs_diff r1 r2 + abs_diff g1 g2 + abs_diff b1 b2) / 4
    ∧ range_dist (abs_diff r1 r2) (abs_diff g1 g2) (abs_diff b1 b2) ≤ 255
    ∧ range_dist (abs_diff r1 r1) (abs_diff g1 g1) (abs_diff b1 b1) = 0
    ∧ (range_dist (abs_diff r1 r2) (abs_diff g1 g2) (abs_diff b1 b2) = 255
      ↔ abs_diff r1 r2 = 255 ∧ abs_diff g1 g2 = 255 ∧ abs_diff b1 b2 = 255)
    ∧ h_fwd_range_dist img s ≤ 255 ∧ h_bwd_range_dist img s ≤ 255
    ∧ pixel_dist img p q ≤ 255 := by
  have e1 := abs_diff_le r1 r2 hr1 hr2
  have e2 := abs_diff_le g1 g2 hg1 hg2
  have e3 := abs_diff_le b1 b2 hb1 hb2
  have l1 := abs_diff_lt r1 r2
  have l2 := abs_diff_lt g1 g2
  have l3 := abs_diff_lt b1 b2
  refine ⟨⟨e1, e2, e3⟩, range_dist_eq _ _ _, range_dist_le _ _ _ _ _ _, ?_, ?_,
    range_dist_le _ _ _ _ _ _, range_dist_le _ _ _ _ _ _, range_dist_le _ _ _ _ _ _⟩
  · rw [abs_diff_self, abs_diff_self, abs_diff_self]; exact range_dist_zero
  · rw [range_dist_eq]
    generalize abs_diff r1 r2 = dr at l1
    generalize abs_diff g1 g2 = dg at l2
    generalize abs_diff b1 b2 = db at l3
    omega

/-- Witness of C20: the pixels (255,255,255) and (0,0,0). -/
theorem C20_range_dist_in_table_witness :
    (abs_diff 255 0 = max 255 0 - min 255 0 ∧ abs_diff 255 0 = max 255 0 - min 255 0
      ∧ abs_diff 255 0 = max 255 0 - min 255 0)
    ∧ range_dist (abs_diff 255 0) (abs_diff 255 0) (abs_diff 255 0)
      = (2 * abs_diff 255 0 + abs_diff 255 0 + abs_diff 255 0) / 4
    ∧ range_dist (abs_diff 255 0) (abs_diff 255 0) (abs_diff 255 0) ≤ 255
    ∧ range_dist (abs_diff 255 255) (abs_diff 255 255) (abs_diff 255 255) = 0
    ∧ (range_dist (abs_diff 255 0) (abs_diff 255 0) (abs_diff 255 0) = 255
      ↔ abs_diff 255 0 = 255 ∧ abs_diff 255 0 = 255 ∧ abs_diff 255 0 = 255)
    ∧ h_fwd_range_dist img_step (h_init img_step 6 0 12 (fun _ => (0 : ℝ))) ≤ 255
    ∧ h_bwd_range_dist img_step (h_init img_step 6 0 12 (fun _ => (0 : ℝ))) ≤ 255
    ∧ pixel_dist img_step 3 0 ≤ 255 :=
  C20_range_dist_in_table 255 255 255 0 0 0 img_step (h_init img_step 6 0 12 (fun _ => 0)) 3 0
    (by norm_num) (by norm_num) (by norm_num) (by norm_num) (by norm_num) (by norm_num)

/-! ## The horizontal sweeps, row by row -/

section Rows

variable {K : Type} [Add K] [Sub K] [Mul K] [Div K] [NatCast K] [One K]

omit [Add K] [Sub K] [Div K] [NatCast K] [One K] in
theorem decay_at_eq (img : Nat → Nat) (tbl : Nat → K) (alpha : K) (p q : Nat) :
    decay_at img tbl alpha p q = tbl (pixel_dist img p q) * alpha := rfl

/-- The left-to-right sweep of row `y` stores the values of `ltr_col` and `ltr_fac`. -/
theorem h_ltr_row (img : Nat → Nat) (tbl : Nat → K) (alpha : K) (W H : Nat) (buf : Nat → K)
    (y : Nat) (hW : 1 ≤ W) (hy : y < H) :
    FwdInv img tbl alpha ((layout W H 3).img_temp + y * (W * 3)) (y * (W * 3))
      ((layout W H 3).map_factor_a + y * W) buf (W - 1)
      (h_ltr img tbl alpha (1 - alpha) W ((layout W H 3).img_temp + y * (W * 3)) (y * (W * 3))
        ((layout W H 3).map_factor_a + y * W) buf) := by
  apply h_ltr_inv _ _ _ _ _ _ _ _ hW
  rw [layout_img_temp, layout_map_factor_a]
  have h1 := row_le (W * 3) hy
  have h2 := rows_total W H
  omega

end Rows

section Turn

variable {K : Type} [Add K] [Sub K] [Mul K] [Div K] [NatCast K] [One K]

/-- State of row `y` on entering the right-to-left loop. -/
theorem h_turn_row (img : Nat → Nat) (tbl : Nat → K) (alpha : K) (W H : Nat) (buf : Nat → K)
    (y : Nat) (hW : 1 ≤ W) (hy : y < H) :
    BwdInv img tbl alpha W ((layout W H 3).img_temp + y * (W * 3)) (y * (W * 3))
      ((layout W H 3).map_factor_a + y * W) buf 0
      (h_turn img (h_ltr img tbl alpha (1 - alpha) W ((layout W H 3).img_temp + y * (W * 3))
        (y * (W * 3)) ((layout W H 3).map_factor_a + y * W) buf)) := by
  apply h_turn_inv _ _ _ _ _ _ _ _ _ hW _ (h_ltr_row img tbl alpha W H buf y hW hy)
  rw [layout_img_temp, layout_map_factor_a]
  have h1 := row_le (W * 3) hy
  have h2 := rows_total W H
  omega

/-- The range distance of the first iteration of the right-to-left loop of row `y` doubles
the difference of the third samples of the last two pixels. -/
theorem h_bwd_range_dist_first (img : Nat → Nat) (tbl : Nat → K) (alpha : K) (W H : Nat)
    (buf : Nat → K) (y : Nat) (hW : 2 ≤ W) (hy : y < H) :
    h_bwd_range_dist img
      (h_turn img (h_ltr img tbl alpha (1 - alpha) W ((layout W H 3).img_temp + y * (W * 3))
        (y * (W * 3)) ((layout W H 3).map_factor_a + y * W) buf))
      = pixel_dist_rev img (y * (W * 3) + 3 * (W - 2)) (y * (W * 3) + 3 * (W - 1)) := by
  have h := h_turn_row img tbl alpha W H buf y (by omega) hy
  simp only [h_bwd_range_dist, pixel_dist_rev, h.texture_x, h.tpr, h.tpg, h.tpb]
  have e1 : y * (W * 3) + 3 * (W - 1 - 0) - 1 = y * (W * 3) + 3 * (W - 2) + 2 := by omega
  have e2 : y * (W * 3) + 3 * (W - 1 - 0) - 2 = y * (W * 3) + 3 * (W - 2) + 1 := by omega
  have e3 : y * (W * 3) + 3 * (W - 1 - 0) - 3 = y * (W * 3) + 3 * (W - 2) := by omega
  rw [e1, e2, e3, Nat.sub_zero]

end Turn

/-- C13, the code at the failing input: on the image of width 2 with pixels (0,0,0) and
(4,0,0) the right-to-left sweep computes the distance 1 between pixels 0 and 1, while
`(2 * dr + dg + db) / 4` is 2, the distance the left-to-right sweep computes. -/
theorem C13_rtl_distance_r4 :
    h_bwd_range_dist img_r4
        (h_turn img_r4 (h_ltr img_r4 (range_table 1) (decay 1 2) (1 - decay 1 2) 2
          ((layout 2 1 3).img_temp + 0 * (2 * 3)) (0 * (2 * 3))
          ((layout 2 1 3).map_factor_a + 0 * 2) (fun _ => 0))) = 1
    ∧ pixel_dist img_r4 0 3 = 2
    ∧ h_fwd_range_dist img_r4
        (h_init img_r4 ((layout 2 1 3).img_temp + 0 * (2 * 3)) (0 * (2 * 3))
          ((layout 2 1 3).map_factor_a + 0 * 2) (fun _ => (0 : ℝ))) = 2 := by
  refine ⟨?_, by decide, ?_⟩
  · rw [h_bwd_range_dist_first img_r4 (range_table 1) (decay 1 2) 2 1 (fun _ => 0) 0
      (by norm_num) (by norm_num)]
    decide
  · simp only [h_fwd_range_dist, h_init]
    decide

/-- C14, the code at the failing input: on the uniform image of colour (255,0,0), width 2,
the three registers of the right-to-left sweep all hold 255, the first sample of the last
pixel, on entering the loop, although the second and third sample of that pixel are 0; the
iteration at column 0 pairs the register `ypr` with the sample at offset 2. -/
theorem C14_seed_red_image :
    (h_turn img_red (h_ltr img_red (range_table 1) (decay 1 2) (1 - decay 1 2) 2
        ((layout 2 1 3).img_temp + 0 * (2 * 3)) (0 * (2 * 3))
        ((layout 2 1 3).map_factor_a + 0 * 2) (fun _ => 0))).ypr = 255
    ∧ (h_turn img_red (h_ltr img_red (range_table 1) (decay 1 2) (1 - decay 1 2) 2
        ((layout 2 1 3).img_temp + 0 * (2 * 3)) (0 * (2 * 3))
        ((layout 2 1 3).map_factor_a + 0 * 2) (fun _ => 0))).ypg = 255
    ∧ (h_turn img_red (h_ltr img_red (range_table 1) (decay 1 2) (1 - decay 1 2) 2
        ((layout 2 1 3).img_temp + 0 * (2 * 3)) (0 * (2 * 3))
        ((layout 2 1 3).map_factor_a + 0 * 2) (fun _ => 0))).ypb = 255
    ∧ img_red (3 + 0) = 255 ∧ img_red (3 + 1) = 0 ∧ img_red (3 + 2) = 0
    ∧ (h_turn img_red (h_ltr img_red (range_table 1) (decay 1 2) (1 - decay 1 2) 2
        ((layout 2 1 3).img_temp + 0 * (2 * 3)) (0 * (2 * 3))
        ((layout 2 1 3).map_factor_a + 0 * 2) (fun _ => 0))).in_x - 1 = 2
    ∧ (h_bwd_step img_red (range_table 1) (decay 1 2) (1 - decay 1 2)
        (h_turn img_red (h_ltr img_red (range_table 1) (decay 1 2) (1 - decay 1 2) 2
          ((layout 2 1 3).img_temp + 0 * (2 * 3)) (0 * (2 * 3))
          ((layout 2 1 3).map_factor_a + 0 * 2) (fun _ => 0)))).ypr
      = (1 - decay 1 2) * (img_red 2 : ℝ) + range_table 1 0 * decay 1 2 * 255 := by
  have h := h_turn_row img_red (range_table 1) (decay 1 2) 2 1 (fun _ => 0) 0 (by norm_num)
    (by norm_num)
  have hd := h_bwd_range_dist_first img_red (range_table 1) (decay 1 2) 2 1 (fun _ => 0) 0
    (by norm_num) (by norm_num)
  have e : ((img_red (0 * (2 * 3) + 3 * (2 - 1)) : Nat) : ℝ) = 255 := by
    have : img_red (0 * (2 * 3) + 3 * (2 - 1)) = 255 := by decide
    rw [this]; norm_num
  have hx : (h_turn img_red (h_ltr img_red (range_table 1) (decay 1 2) (1 - decay 1 2) 2
        ((layout 2 1 3).img_temp + 0 * (2 * 3)) (0 * (2 * 3))
        ((layout 2 1 3).map_factor_a + 0 * 2) (fun _ => 0))).in_x - 1 = 2 := by
    rw [h.in_x]
  have hr := h.ypr
  have hg := h.ypg
  have hb := h.ypb
  simp only [rtl_col] at hr hg hb
  rw [e] at hr hg hb
  refine ⟨hr, hg, hb, by decide, by decide, by decide, hx, ?_⟩
  have hstep : ∀ s : HRow ℝ, (h_bwd_step img_red (range_table 1) (decay 1 2) (1 - decay 1 2) s).ypr
      = (1 - decay 1 2) * (img_red (s.in_x - 1) : ℝ)
        + range_table 1 (h_bwd_range_dist img_red s) * decay 1 2 * s.ypr := fun _ => rfl
  rw [hstep, hx, hr, hd]
  have hz : pixel_dist_rev img_red (0 * (2 * 3) + 3 * (2 - 2)) (0 * (2 * 3) + 3 * (2 - 1)) = 0 := by
    decide
  rw [hz]

/-- C15: for every row `y` and channel `c`, after the horizontal pass the value at the last
column is `0.5 * (forward_color + input)` and the factor is `0.5 * (forward_factor + 1)`,
where the forward values are those the left-to-right sweep of that row stores at column
`W - 1`, whatever the buffer on entering the row. -/
theorem C15_last_column {K : Type} [LinearOrderedField K] (img : Nat → Nat) (tbl : Nat → K)
    (alpha : K) (W H : Nat) (buf b : Nat → K) (y c : Nat) (hW : 1 ≤ W) (hy : y < H)
    (hc : c < 3) :
    h_pass img tbl alpha W H 3 buf ((layout W H 3).img_temp + y * (W * 3) + 3 * (W - 1) + c)
      = 1 / 2 * ((h_ltr img tbl alpha (1 - alpha) W ((layout W H 3).img_temp + y * (W * 3))
            (y * (W * 3)) ((layout W H 3).map_factor_a + y * W) b).buf
          ((layout W H 3).img_temp + y * (W * 3) + 3 * (W - 1) + c)
        + (img (y * (W * 3) + 3 * (W - 1) + c) : K))
    ∧ h_pass img tbl alpha W H 3 buf ((layout W H 3).map_factor_a + y * W + (W - 1))
      = 1 / 2 * ((h_ltr img tbl alpha (1 - alpha) W ((layout W H 3).img_temp + y * (W * 3))
            (y * (W * 3)) ((layout W H 3).map_factor_a + y * W) b).buf
          ((layout W H 3).map_factor_a + y * W + (W - 1)) + 1) := by
  have h := h_ltr_row img tbl alpha W H b y hW hy
  have hp := h_pass_spec img tbl alpha W H buf hW
  rw [h.col (W - 1) c (le_refl _) hc, h.fac (W - 1) (le_refl _)]
  rw [layout_img_temp, layout_map_factor_a]
  rw [hp.1 y (W - 1) c hy (by omega) hc, hp.2.1 y (W - 1) hy (by omega)]
  simp only [h_col, h_fac]
  rw [if_pos (by omega), Nat.sub_self]
  simp only [rtl_fac]
  exact ⟨trivial, trivial⟩

/-- Witness of C15: the step image, last column of row 0, sample 1, over the rationals. -/
theorem C15_last_column_witness :
    h_pass img_step (fun d => 1 / ((d : ℚ) + 1)) (1 / 2) 2 1 3 (fun _ => 0)
        ((layout 2 1 3).img_temp + 0 * (2 * 3) + 3 * (2 - 1) + 1)
      = 1 / 2 * ((h_ltr img_step (fun d => 1 / ((d : ℚ) + 1)) (1 / 2) (1 - 1 / 2) 2
            ((layout 2 1 3).img_temp + 0 * (2 * 3))
            (0 * (2 * 3)) ((layout 2 1 3).map_factor_a + 0 * 2) (fun _ => 7)).buf
          ((layout 2 1 3).img_temp + 0 * (2 * 3) + 3 * (2 - 1) + 1)
        + (img_step (0 * (2 * 3) + 3 * (2 - 1) + 1) : ℚ))
    ∧ h_pass img_step (fun d => 1 / ((d : ℚ) + 1)) (1 / 2) 2 1 3 (fun _ => 0)
        ((layout 2 1 3).map_factor_a + 0 * 2 + (2 - 1))
      = 1 / 2 * ((h_ltr img_step (fun d => 1 / ((d : ℚ) + 1)) (1 / 2) (1 - 1 / 2) 2
            ((layout 2 1 3).img_temp + 0 * (2 * 3))
            (0 * (2 * 3)) ((layout 2 1 3).map_factor_a + 0 * 2) (fun _ => 7)).buf
          ((layout 2 1 3).map_factor_a + 0 * 2 + (2 - 1)) + 1) :=
  C15_last_column img_step (fun d => 1 / ((d : ℚ) + 1)) (1 / 2) 2 1 (fun _ => 0) (fun _ => 7)
    0 1 (by norm_num) (by norm_num) (by norm_num)

/-! ## Mirrored and flipped images -/

theorem mirror_red (i : Nat) : mirror_lr 2 img_red i = img_red i := by
  simp only [mirror_lr, img_red]
  have e : (i / (2 * 3) * (2 * 3) + 3 * (2 - 1 - i % (2 * 3) / 3) + i % 3) % 3 = i % 3 := by
    omega
  rw [e]

/-- Third sample of the first output pixel for an input that is uniformly (255,0,0). -/
theorem red_out_left (img_in : Nat → Nat) (hin : ∀ k, k < 6 → img_in k = img_red k) :
    31 ≤ recursive_bf img_in (fun _ => 0) 1 1 2 1 3 none (fun _ => 0) 2 := by
  simp only [recursive_bf, _recursive_bf]
  rw [filter_2x1_left _ _ _ _ _ 2 (by norm_num), out_col_2x1_left]
  generalize himg : loopUp 0 (fun i out => store out i (img_in i)) (2 * 1 * 3) (fun _ => 0)
    = img
  have hv : ∀ k, k < 6 → img k = img_red k := by
    intro k hk; rw [← himg, copy6 img_in _ k hk]; exact hin k hk
  have i0 : img 0 = 255 := hv 0 (by norm_num)
  have i1 : img 1 = 0 := hv 1 (by norm_num)
  have i2 : img 2 = 0 := hv 2 (by norm_num)
  have i3 : img 3 = 255 := hv 3 (by norm_num)
  have i4 : img 4 = 0 := hv 4 (by norm_num)
  have i5 : img 5 = 0 := hv 5 (by norm_num)
  have e1 : decay_rev img (range_table 1) (decay 1 2) 0 3 = decay 1 2 :=
    decay_rev_same img _ _ 0 3 (by rw [i0, i3]) (by rw [i1, i4]) (by rw [i2, i5])
      (range_table_zero 1)
  rw [e1, i2, i3]
  have a0 := decay_one_two_ge
  have a1 := decay_lt_one 1 (by norm_num) 2 (by norm_num)
  generalize decay 1 2 = a at a0 a1
  have hval : ((0 : Nat) : ℝ) + ((1 - a) * ((0 : Nat) : ℝ) + a * ((255 : Nat) : ℝ))
      = 255 * a := by push_cast; ring
  have hden : (1 : ℝ) + (1 - a + a) = 2 := by ring
  rw [hval, hden]
  have h1 : ((31 : Nat) : ℝ) ≤ 255 * a / 2 := by push_cast; linarith
  have h2 : 255 * a / 2 < 256 := by linarith
  simp only [to_uchar]
  have f1 : 31 ≤ ⌊255 * a / 2⌋₊ := Nat.le_floor h1
  have f2 : ⌊255 * a / 2⌋₊ < 256 := (Nat.floor_lt' (by norm_num)).mpr (by exact_mod_cast h2)
  omega

/-- Third sample of the second output pixel on the uniform image of colour (255,0,0). -/
theorem red_out_right :
    recursive_bf img_red (fun _ => 0) 1 1 2 1 3 none (fun _ => 0) 5 = 0 := by
  simp only [recursive_bf, _recursive_bf]
  rw [filter_2x1_right _ _ _ _ _ 2 (by norm_num), out_col_2x1_right]
  generalize himg : loopUp 0 (fun i out => store out i (img_red i)) (2 * 1 * 3) (fun _ => 0)
    = img
  have hv : ∀ k, k < 6 → img k = img_red k := by
    intro k hk; rw [← himg]; exact copy6 img_red _ k hk
  have i2 : img 2 = 0 := hv 2 (by norm_num)
  have i5 : img (3 + 2) = 0 := hv 5 (by norm_num)
  rw [i2, i5]
  simp [to_uchar]

/-- C18, the code at the failing input: the uniform image of colour (255,0,0), width 2,
height 1, is its own left-right mirror; with both sigmas 1, sample 2 of the filtered mirrored
image is at least 31, while sample 2 of the mirror of the filtered image is 0. -/
theorem C18_mirror_red_image :
    (List.range 6).map (mirror_lr 2 img_red) = (List.range 6).map img_red
    ∧ 31 ≤ recursive_bf (mirror_lr 2 img_red) (fun _ => 0) 1 1 2 1 3 none (fun _ => 0) 2
    ∧ mirror_lr 2 (recursive_bf img_red (fun _ => 0) 1 1 2 1 3 none (fun _ => 0)) 2 = 0 := by
  refine ⟨by decide, red_out_left _ (fun k _ => mirror_red k), ?_⟩
  have e : mirror_lr 2 (recursive_bf img_red (fun _ => 0) 1 1 2 1 3 none (fun _ => 0)) 2
      = recursive_bf img_red (fun _ => 0) 1 1 2 1 3 none (fun _ => 0) 5 := by
    simp only [mirror_lr]
  rw [e]
  exact red_out_right

/-! ## Rows in reverse order -/

section Flip

variable {K : Type} [LinearOrderedField K]

theorem decay_at_congr (A B : Nat → Nat) (tbl : Nat → K) (alpha : K) (p q p' q' : Nat)
    (h0 : A p = B p') (h1 : A (p + 1) = B (p' + 1)) (h2 : A (p + 2) = B (p' + 2))
    (k0 : A q = B q') (k1 : A (q + 1) = B (q' + 1)) (k2 : A (q + 2) = B (q' + 2)) :
    decay_at A tbl alpha p q = decay_at B tbl alpha p' q' := by
  simp only [decay_at, h0, h1, h2, k0, k1, k2]

theorem decay_rev_congr (A B : Nat → Nat) (tbl : Nat → K) (alpha : K) (p q p' q' : Nat)
    (h0 : A p = B p') (h1 : A (p + 1) = B (p' + 1)) (h2 : A (p + 2) = B (p' + 2))
    (k0 : A q = B q') (k1 : A (q + 1) = B (q' + 1)) (k2 : A (q + 2) = B (q' + 2)) :
    decay_rev A tbl alpha p q = decay_rev B tbl alpha p' q' := by
  simp only [decay_rev, h0, h1, h2, k0, k1, k2]

/-- Samples of two rows that agree, addressed by column and channel. -/
theorem row_samples (A B : Nat → Nat) (W RA RB : Nat)
    (h : ∀ i, i < 3 * W → A (RA + i) = B (RB + i)) :
    (∀ x, x < W → A (RA + 3 * x) = B (RB + 3 * x))
    ∧ (∀ x, x < W → A (RA + 3 * x + 1) = B (RB + 3 * x + 1))
    ∧ (∀ x, x < W → A (RA + 3 * x + 2) = B (RB + 3 * x + 2))
    ∧ (∀ x c, x < W → c < 3 → A (RA + 3 * x + c) = B (RB + 3 * x + c)) := by
  refine ⟨fun x hx => h (3 * x) (by omega), fun x hx => ?_, fun x hx => ?_, fun x c hx hc => ?_⟩
  · have := h (3 * x + 1) (by omega)
    simp only [← Nat.add_assoc] at this
    exact this
  · have := h (3 * x + 2) (by omega)
    simp only [← Nat.add_assoc] at this
    exact this
  · have := h (3 * x + c) (by omega)
    simp only [← Nat.add_assoc] at this
    exact this

theorem ltr_congr (A B : Nat → Nat) (tbl : Nat → K) (alpha : K) (W RA RB : Nat)
    (h : ∀ i, i < 3 * W → A (RA + i) = B (RB + i)) (c : Nat) (hc : c < 3) (x : Nat)
    (hx : x < W) :
    ltr_col A tbl alpha RA c x = ltr_col B tbl alpha RB c x
    ∧ ltr_fac A tbl alpha RA x = ltr_fac B tbl alpha RB x := by
  obtain ⟨s0, s1, s2, sc⟩ := row_samples A B W RA RB h
  induction x with
  | zero =>
    have := sc 0 c hx hc
    simp only [Nat.mul_zero, Nat.add_zero] at this
    simp only [ltr_col, ltr_fac, this, and_self]
  | succ x ih =>
    obtain ⟨i1, i2⟩ := ih (by omega)
    have d := decay_at_congr A B tbl alpha (RA + 3 * (x + 1)) (RA + 3 * x) (RB + 3 * (x + 1))
      (RB + 3 * x) (s0 _ hx) (s1 _ hx) (s2 _ hx) (s0 _ (by omega)) (s1 _ (by omega))
      (s2 _ (by omega))
    simp only [ltr_col, ltr_fac, sc (x + 1) c hx hc, d, i1, i2, and_self]

theorem rtl_congr (A B : Nat → Nat) (tbl : Nat → K) (alpha : K) (W RA RB : Nat)
    (h : ∀ i, i < 3 * W → A (RA + i) = B (RB + i)) (c : Nat) (hc : c < 3) (j : Nat)
    (hj : j < W) :
    rtl_col A tbl alpha W RA c j = rtl_col B tbl alpha W RB c j
    ∧ rtl_fac A tbl alpha W RA j = rtl_fac B tbl alpha W RB j := by
  obtain ⟨s0, s1, s2, sc⟩ := row_samples A B W RA RB h
  induction j with
  | zero =>
    simp only [rtl_col, rtl_fac, s0 (W - 1) (by omega), and_self]
  | succ j ih =>
    obtain ⟨i1, i2⟩ := ih (by omega)
    have d := decay_rev_congr A B tbl alpha (RA + 3 * (W - 2 - j)) (RA + 3 * (W - 1 - j))
      (RB + 3 * (W - 2 - j)) (RB + 3 * (W - 1 - j)) (s0 _ (by omega)) (s1 _ (by omega))
      (s2 _ (by omega)) (s0 _ (by omega)) (s1 _ (by omega)) (s2 _ (by omega))
    simp only [rtl_col, rtl_fac, sc (W - 2 - j) c (by omega) hc, d, i1, i2, and_self]

/-- The horizontal pass of a row depends on the samples of that row only. -/
theorem h_congr (A B : Nat → Nat) (tbl : Nat → K) (alpha : K) (W RA RB : Nat)
    (h : ∀ i, i < 3 * W → A (RA + i) = B (RB + i)) (x c : Nat) (hx : x < W) (hc : c < 3) :
    h_col A tbl alpha W RA x c = h_col B tbl alpha W RB x c
    ∧ h_fac A tbl alpha W RA x = h_fac B tbl alpha W RB x := by
  obtain ⟨-, -, -, sc⟩ := row_samples A B W RA RB h
  obtain ⟨l1, l2⟩ := ltr_congr A B tbl alpha W RA RB h c hc x hx
  obtain ⟨r1, r2⟩ := rtl_congr A B tbl alpha W RA RB h c hc (W - 1 - x) (by omega)
  simp only [h_col, h_fac, l1, l2, r1, r2, sc x c hx hc, and_self]

/-- Closed forms of two images of which one is the other with its rows in reverse order. -/
theorem flip_closed (A B : Nat → Nat) (tbl : Nat → K) (alpha_h alpha_v : K) (W H : Nat)
    (hflip : ∀ y, y < H → ∀ i, i < 3 * W → A (y * (W * 3) + i) = B ((H - 1 - y) * (W * 3) + i))
    (x c : Nat) (hx : x < W) (hc : c < 3) (y : Nat) (hy : y < H) :
    (ttb_col A tbl alpha_h alpha_v W x c y = btt_col B tbl alpha_h alpha_v W H x c y
      ∧ ttb_fac A tbl alpha_h alpha_v W x y = btt_fac B tbl alpha_h alpha_v W H x y)
    ∧ (btt_col A tbl alpha_h alpha_v W H x c y = ttb_col B tbl alpha_h alpha_v W x c y
      ∧ btt_fac A tbl alpha_h alpha_v W H x y = ttb_fac B tbl alpha_h alpha_v W x y) := by
  have hh : ∀ y, y < H → h_col A tbl alpha_h W (y * (W * 3)) x c
      = h_col B tbl alpha_h W ((H - 1 - y) * (W * 3)) x c
      ∧ h_fac A tbl alpha_h W (y * (W * 3)) x = h_fac B tbl alpha_h W ((H - 1 - y) * (W * 3)) x :=
    fun y hy => h_congr A B tbl alpha_h W _ _ (hflip y hy) x c hx hc
  have hd : ∀ y y', y < H → y' < H →
      decay_at A tbl alpha_v (y * (W * 3) + 3 * x) (y' * (W * 3) + 3 * x)
        = decay_at B tbl alpha_v ((H - 1 - y) * (W * 3) + 3 * x)
          ((H - 1 - y') * (W * 3) + 3 * x) := by
    intro y y' hy hy'
    obtain ⟨s0, s1, s2, -⟩ := row_samples A B W _ _ (hflip y hy)
    obtain ⟨t0, t1, t2, -⟩ := row_samples A B W _ _ (hflip y' hy')
    exact decay_at_congr A B tbl alpha_v _ _ _ _ (s0 x hx) (s1 x hx) (s2 x hx) (t0 x hx)
      (t1 x hx) (t2 x hx)
  induction y with
  | zero =>
    have h0 := hh 0 hy
    have h1 := hh (H - 1) (by omega)
    rw [Nat.zero_mul, Nat.sub_zero] at h0
    rw [Nat.sub_self, Nat.zero_mul] at h1
    simp only [ttb_col, ttb_fac, btt_col, btt_fac, h0.1, h0.2, h1.1, h1.2, and_self]
  | succ y ih =>
    obtain ⟨⟨i1, i2⟩, i3, i4⟩ := ih (by omega)
    have h0 := hh (y + 1) hy
    have h1 := hh (H - 2 - y) (by omega)
    have d0 := hd (y + 1) y hy (by omega)
    have d1 := hd (H - 2 - y) (H - 2 - y + 1) (by omega) (by omega)
    have a1 : H - 1 - (y + 1) = H - 2 - y := by omega
    have a2 : H - 1 - y = H - 2 - y + 1 := by omega
    have a3 : H - 1 - (H - 2 - y) = y + 1 := by omega
    have a4 : H - 1 - (H - 2 - y + 1) = y := by omega
    rw [a1] at h0 d0
    rw [a2] at d0
    rw [a3] at h1 d1
    rw [a4] at d1
    simp only [ttb_col, ttb_fac, btt_col, btt_fac, h0.1, h0.2, h1.1, h1.2, d0, d1, i1, i2, i3, i4,
      and_self]

theorem flip_out_col (A B : Nat → Nat) (tbl : Nat → K) (alpha_h alpha_v : K) (W H : Nat)
    (hflip : ∀ y, y < H → ∀ i, i < 3 * W → A (y * (W * 3) + i) = B ((H - 1 - y) * (W * 3) + i))
    (x c : Nat) (hx : x < W) (hc : c < 3) (y : Nat) (hy : y < H) :
    out_col A tbl alpha_h alpha_v W H y x c = out_col B tbl alpha_h alpha_v W H (H - 1 - y) x c := by
  have h1 := flip_closed A B tbl alpha_h alpha_v W H hflip x c hx hc y hy
  have h2 := flip_closed A B tbl alpha_h alpha_v W H hflip x c hx hc (H - 1 - y) (by omega)
  have a : H - 1 - (H - 1 - y) = y := by omega
  simp only [out_col, out_fac, h1.1.1, h1.1.2, h2.2.1, h2.2.2, a]
  rw [add_comm (btt_col B tbl alpha_h alpha_v W H x c y),
    add_comm (btt_fac B tbl alpha_h alpha_v W H x y)]

end Flip

/-- Row and offset within the row of a sample index. -/
theorem row_index (W y r : Nat) (hr : r < W * 3) :
    (y * (W * 3) + r) / (W * 3) = y ∧ (y * (W * 3) + r) % (W * 3) = r := by
  have hW : 0 < W * 3 := by omega
  constructor
  · rw [Nat.add_comm, Nat.add_mul_div_right _ _ hW, Nat.div_eq_of_lt hr, Nat.zero_add]
  · rw [Nat.add_comm, Nat.add_mul_mod_self_right, Nat.mod_eq_of_lt hr]

/-- C19: for a 3-channel image with `W, H ≥ 1` and positive sigmas, `recursive_bf` applied to
the image with its rows in reverse order returns the rows of the filtered original image in
reverse order. -/
theorem C19_flip_commutes (img_in out0 : Nat → Nat) (sigma_spatial sigma_range : ℝ) (W H : Nat)
    (buffer : Option (Nat → ℝ)) (fresh : Nat → ℝ) (i : Nat) (hW : 1 ≤ W) (hH : 1 ≤ H)
    (_hs : 0 < sigma_spatial) (_hr : 0 < sigma_range) (hi : i < W * H * 3) :
    recursive_bf (flip_tb W H img_in) out0 sigma_spatial sigma_range W H 3 buffer fresh i
      = flip_tb W H (recursive_bf img_in out0 sigma_spatial sigma_range W H 3 buffer fresh) i := by
  obtain ⟨y, x, c, hy, hx, hc, rfl⟩ := pixel_index W H i hi
  have hidx := row_index W y (3 * x + c) (by omega)
  rw [Nat.add_assoc] at hi ⊢
  have e : flip_tb W H (recursive_bf img_in out0 sigma_spatial sigma_range W H 3 buffer fresh)
      (y * (W * 3) + (3 * x + c))
      = recursive_bf img_in out0 sigma_spatial sigma_range W H 3 buffer fresh
        ((H - 1 - y) * (W * 3) + 3 * x + c) := by
    simp only [flip_tb, hidx.1, hidx.2, Nat.add_assoc]
  rw [e, ← Nat.add_assoc]
  simp only [recursive_bf, _recursive_bf]
  rw [filter_passes_spec _ _ _ _ W H _ hW hH y x c hy hx hc,
    filter_passes_spec _ _ _ _ W H _ hW hH (H - 1 - y) x c (by omega) hx hc]
  congr 1
  apply flip_out_col _ _ _ _ _ W H _ x c hx hc y hy
  intro y' hy' r hr
  have h1 := row_le (W * 3) hy'
  have h2 := rows_total W H
  have h3 := row_le (W * 3) (show H - 1 - y' < H by omega)
  have hidx' := row_index W y' r (by omega)
  rw [copy_spec, copy_spec, if_pos (by omega), if_pos (by omega)]
  simp only [flip_tb, hidx'.1, hidx'.2]

/-- Witness of C19: the step image taken as an image of width 1 and height 2, at sample 4. -/
theorem C19_flip_commutes_witness :
    recursive_bf (flip_tb 1 2 img_step) (fun _ => 0) (3 / 100) (1 / 10) 1 2 3 none (fun _ => 0) 4
      = flip_tb 1 2 (recursive_bf img_step (fun _ => 0) (3 / 100) (1 / 10) 1 2 3 none
          (fun _ => 0)) 4 :=
  C19_flip_commutes img_step (fun _ => 0) (3 / 100) (1 / 10) 1 2 none (fun _ => 0) 4
    (by norm_num) (by norm_num) (by norm_num) (by norm_num) (by norm_num)

/-! ## The filter in single precision -/

section RoundEven

variable {K : Type} [LinearOrderedField K] [FloorRing K]

theorem round_even_eq_of_lt {x : K} {m : ℤ} (h : |x - m| < 1 / 2) : round_even x = m := by
  rw [abs_lt] at h
  obtain ⟨h1, h2⟩ := h
  by_cases hx : (m : K) ≤ x
  · have hf : ⌊x⌋ = m := by
      rw [Int.floor_eq_iff]
      exact ⟨hx, by linarith⟩
    simp only [round_even, hf]
    rw [if_pos (by linarith)]
  · push_neg at hx
    have hf : ⌊x⌋ = m - 1 := by
      rw [Int.floor_eq_iff]
      push_cast
      exact ⟨by linarith, by linarith⟩
    simp only [round_even, hf]
    push_cast
    rw [if_neg (by linarith), if_pos (by linarith)]
    ring

theorem round_even_eq_of_le {x : K} {m : ℤ} (hm : m % 2 = 0) (h : |x - m| ≤ 1 / 2) :
    round_even x = m := by
  rw [abs_le] at h
  obtain ⟨h1, h2⟩ := h
  by_cases hx : (m : K) ≤ x
  · have hf : ⌊x⌋ = m := by
      rw [Int.floor_eq_iff]
      exact ⟨hx, by linarith⟩
    simp only [round_even, hf]
    by_cases c : x - (m : K) < 1 / 2
    · rw [if_pos c]
    · rw [if_neg c, if_neg (by linarith), if_pos hm]
  · push_neg at hx
    have hf : ⌊x⌋ = m - 1 := by
      rw [Int.floor_eq_iff]
      push_cast
      exact ⟨by linarith, by linarith⟩
    simp only [round_even, hf]
    push_cast
    rw [if_neg (by linarith)]
    by_cases c : (1 / 2 : K) < x - ((m : K) - 1)
    · rw [if_pos c]; ring
    · rw [if_neg c, if_neg (by omega)]; ring

theorem round_even_intCast (m : ℤ) : round_even (m : K) = m :=
  round_even_eq_of_lt (by simp)

theorem floor_le_round_even (x : K) : ⌊x⌋ ≤ round_even x := by
  simp only [round_even]
  split_ifs <;> omega

theorem round_even_le_floor_succ (x : K) : round_even x ≤ ⌊x⌋ + 1 := by
  simp only [round_even]
  split_ifs <;> omega

/-- Rounding does not cross an integer from below. -/
theorem round_even_le {x : K} {n : ℤ} (h : x ≤ n) : round_even x ≤ n := by
  have hf : ⌊x⌋ ≤ n := Int.floor_le_floor h |>.trans (by simp)
  rcases hf.lt_or_eq with hlt | heq
  · have := round_even_le_floor_succ x
    omega
  · have hx : x = n := le_antisymm h (by rw [← heq]; exact Int.floor_le x)
    rw [hx, round_even_intCast]

/-- Rounding does not cross an integer from above. -/
theorem le_round_even {x : K} {n : ℤ} (h : (n : K) ≤ x) : n ≤ round_even x :=
  (Int.le_floor.mpr h).trans (floor_le_round_even x)

theorem round_even_spec (x : K) : |x - round_even x| ≤ 1 / 2 := by
  have h1 := Int.floor_le x
  have h2 := Int.lt_floor_add_one x
  simp only [round_even]
  split_ifs with c1 c2 c3
  · rw [abs_le]; constructor <;> linarith
  · push_cast; rw [abs_le]; constructor <;> linarith
  · rw [abs_le]; constructor <;> linarith
  · push_cast; rw [abs_le]; constructor <;> linarith

end RoundEven

section Round32

variable {K : Type} [LinearOrderedField K] [FloorRing K]

theorem log_two_eq {x : K} {e : ℤ} (h0 : (2 : K) ^ e ≤ x) (h1 : x < (2 : K) ^ (e + 1)) :
    Int.log 2 x = e := by
  have hx : 0 < x := lt_of_lt_of_le (zpow_pos (by norm_num) e) h0
  have a := (Int.zpow_le_iff_le_log (b := 2) (by norm_num) hx).mp (by exact_mod_cast h0)
  have b := (Int.lt_zpow_iff_log_lt (b := 2) (by norm_num) hx).mp (by exact_mod_cast h1)
  omega

theorem ulp_exp_normal {x : K} {e : ℤ} (he : -126 ≤ e) (h0 : (2 : K) ^ e ≤ |x|)
    (h1 : |x| < (2 : K) ^ (e + 1)) : ulp_exp x = e - 23 := by
  simp only [ulp_exp, log_two_eq h0 h1]
  omega

theorem ulp_exp_subnormal {x : K} (hx : x ≠ 0) (h1 : |x| < (2 : K) ^ (-126 : ℤ)) :
    ulp_exp x = -149 := by
  have hp : 0 < |x| := abs_pos.mpr hx
  have b : Int.log 2 |x| < -126 :=
    (Int.lt_zpow_iff_log_lt (b := 2) (by norm_num) hp).mp (by exact_mod_cast h1)
  simp only [ulp_exp]
  omega

theorem ulp_exp_ge (x : K) : -149 ≤ ulp_exp x := by
  simp only [ulp_exp]
  omega

/-- A value lies less than `2 ^ 24` units in the last place from 0. -/
theorem abs_lt_ulp (x : K) : |x| < (2 : K) ^ (ulp_exp x + 24) := by
  have h := Int.lt_zpow_succ_log_self (b := 2) (by norm_num) |x|
  have h' : |x| < (2 : K) ^ (Int.log 2 |x| + 1) := by exact_mod_cast h
  refine lt_of_lt_of_le h' (zpow_le_zpow_right₀ (by norm_num) ?_)
  simp only [ulp_exp]
  omega

/-- A value outside the subnormal range lies at least `2 ^ 23` units in the last place
from 0. -/
theorem ulp_le_abs (x : K) (hx : x ≠ 0) :
    ulp_exp x = -149 ∨ (2 : K) ^ (ulp_exp x + 23) ≤ |x| := by
  have hp : 0 < |x| := abs_pos.mpr hx
  have h := Int.zpow_log_le_self (b := 2) (by norm_num) hp
  have h' : (2 : K) ^ (Int.log 2 |x|) ≤ |x| := by exact_mod_cast h
  by_cases c : -126 ≤ Int.log 2 |x|
  · right
    have e : ulp_exp x + 23 = Int.log 2 |x| := by
      simp only [ulp_exp]; omega
    rw [e]; exact h'
  · left
    simp only [ulp_exp]; omega

theorem round32_zero : round32 (0 : K) = F32.fin 0 := by
  have h : round_even ((0 : K) / (2 : K) ^ ulp_exp (0 : K)) = 0 := by
    rw [zero_div]
    have := round_even_intCast (K := K) 0
    simpa using this
  simp only [round32, h]
  norm_num

theorem round32_eq (x : K) (k m : ℤ) (hk : ulp_exp x = k)
    (hm : round_even (x / (2 : K) ^ k) = m)
    (hr : |(m : ℚ) * (2 : ℚ) ^ k| < (2 : ℚ) ^ (128 : ℤ)) :
    round32 x = F32.fin ((m : ℚ) * (2 : ℚ) ^ k) := by
  simp only [round32, hk, hm]
  rw [if_neg (not_le.mpr hr)]

theorem Rep.nonneg {c : ℚ} (h : Rep c) : 0 ≤ c := by
  obtain ⟨M, k, -, -, rfl, -⟩ := h
  positivity

theorem round32_nonneg {x : K} {r : ℚ} (h0 : 0 ≤ x) (h : round32 x = F32.fin r) : 0 ≤ r := by
  simp only [round32] at h
  split_ifs at h with c1
  have hm : 0 ≤ round_even (x / (2 : K) ^ ulp_exp x) :=
    le_round_even (by simpa using div_nonneg h0 (zpow_pos (by norm_num : (0 : K) < 2) _).le)
  injection h with h
  rw [← h]
  have : (0 : ℚ) ≤ (round_even (x / (2 : K) ^ ulp_exp x) : ℚ) := by exact_mod_cast hm
  positivity

/-- A representable value above `x` is a whole number of units in the last place of `x`. -/
theorem ulp_exp_le_of_le_rep {x : K} {M : ℕ} {k : ℤ} (hM : M < 2 ^ 24) (hk : -149 ≤ k)
    (h0 : 0 < x) (h : x ≤ (M : K) * (2 : K) ^ k) : ulp_exp x ≤ k := by
  have he := Int.zpow_log_le_self (b := 2) (by norm_num) (abs_pos.mpr h0.ne')
  have he' : (2 : K) ^ (Int.log 2 |x|) ≤ |x| := by exact_mod_cast he
  have hlt : (2 : K) ^ (Int.log 2 |x|) < (2 : K) ^ (24 + k) := by
    calc (2 : K) ^ (Int.log 2 |x|) ≤ |x| := he'
      _ = x := abs_of_pos h0
      _ ≤ (M : K) * (2 : K) ^ k := h
      _ < (2 : K) ^ (24 : ℤ) * (2 : K) ^ k := by
          apply mul_lt_mul_of_pos_right _ (zpow_pos (by norm_num) k)
          have : (M : K) < ((2 ^ 24 : ℕ) : K) := by exact_mod_cast hM
          have h24 : (2 : K) ^ (24 : ℤ) = ((2 ^ 24 : ℕ) : K) := by norm_num
          rw [h24]
          exact this
      _ = (2 : K) ^ (24 + k) := by rw [zpow_add₀ (by norm_num)]
  have := (zpow_lt_zpow_iff_right₀ (by norm_num : (1 : K) < 2)).mp hlt
  simp only [ulp_exp]
  omega

omit [FloorRing K] in
theorem zpow_split (j k : ℤ) (h : j ≤ k) :
    (2 : K) ^ k = (2 : K) ^ (k - j).toNat * (2 : K) ^ j := by
  have e : k = ((k - j).toNat : ℤ) + j := by omega
  conv_lhs => rw [e, zpow_add₀ (by norm_num : (2 : K) ≠ 0)]
  rw [zpow_natCast]

/-- Rounding does not cross a representable value from below. -/
theorem round32_le_rep {x : K} {c : ℚ} (hc : Rep c) (h0 : 0 ≤ x) (h : x ≤ (c : K)) :
    ∃ r : ℚ, round32 x = F32.fin r ∧ 0 ≤ r ∧ r ≤ c := by
  obtain ⟨M, k, hM, hk, rfl, hlt⟩ := hc
  rcases h0.eq_or_lt with hx0 | hx0
  · rw [← hx0]
    exact ⟨0, round32_zero, le_refl _, by positivity⟩
  have hc' : x ≤ (M : K) * (2 : K) ^ k := by
    have : (((M : ℚ) * (2 : ℚ) ^ k : ℚ) : K) = (M : K) * (2 : K) ^ k := by push_cast; ring
    rw [← this]; exact h
  have hj := ulp_exp_le_of_le_rep hM hk hx0 hc'
  have hu : (0 : K) < (2 : K) ^ ulp_exp x := zpow_pos (by norm_num) _
  have hm1 : round_even (x / (2 : K) ^ ulp_exp x) ≤ (M : ℤ) * (2 : ℤ) ^ (k - ulp_exp x).toNat := by
    apply round_even_le
    rw [div_le_iff₀ hu]
    push_cast
    rw [mul_assoc, ← zpow_split _ _ hj]
    exact hc'
  have hm0 : 0 ≤ round_even (x / (2 : K) ^ ulp_exp x) :=
    le_round_even (by simpa using (div_pos hx0 hu).le)
  have hq : (round_even (x / (2 : K) ^ ulp_exp x) : ℚ) * (2 : ℚ) ^ ulp_exp x
      ≤ (M : ℚ) * (2 : ℚ) ^ k := by
    have e := zpow_split (K := ℚ) _ _ hj
    rw [e, ← mul_assoc]
    apply mul_le_mul_of_nonneg_right _ (zpow_pos (by norm_num) _).le
    have : ((round_even (x / (2 : K) ^ ulp_exp x) : ℤ) : ℚ)
        ≤ (((M : ℤ) * (2 : ℤ) ^ (k - ulp_exp x).toNat : ℤ) : ℚ) := by exact_mod_cast hm1
    simpa using this
  have hq0 : (0 : ℚ) ≤ (round_even (x / (2 : K) ^ ulp_exp x) : ℚ) * (2 : ℚ) ^ ulp_exp x := by
    have : (0 : ℚ) ≤ (round_even (x / (2 : K) ^ ulp_exp x) : ℚ) := by exact_mod_cast hm0
    positivity
  refine ⟨_, ?_, hq0, hq⟩
  simp only [round32]
  rw [if_neg]
  rw [not_le, abs_of_nonneg hq0]
  exact lt_of_le_of_lt hq hlt

end Round32

section Round32b

variable {K : Type} [LinearOrderedField K] [FloorRing K]

theorem round32_fin {x : K} {r : ℚ} (h : round32 x = F32.fin r) :
    r = (round_even (x / (2 : K) ^ ulp_exp x) : ℚ) * (2 : ℚ) ^ ulp_exp x ∧ |r| < (2 : ℚ) ^ (128 : ℤ) := by
  simp only [round32] at h
  split_ifs at h with c1
  injection h with h
  rw [← h]
  exact ⟨rfl, not_le.mp c1⟩

/-- Rounding does not cross a representable value from above. -/
theorem rep_le_round32 {x : K} {c r : ℚ} (hc : Rep c) (h : (c : K) ≤ x)
    (hr : round32 x = F32.fin r) : c ≤ r := by
  have hc0 := hc.nonneg
  obtain ⟨M, k, hM, hk, rfl, hlt⟩ := hc
  have hx0 : 0 ≤ x := le_trans (by exact_mod_cast hc0) h
  rcases Nat.eq_zero_or_pos M with hM0 | hM0
  · subst hM0
    simpa using round32_nonneg hx0 hr
  have hcpos : (0 : ℚ) < (M : ℚ) * (2 : ℚ) ^ k := by positivity
  have hxpos : 0 < x := lt_of_lt_of_le (by exact_mod_cast hcpos) h
  have hc' : (M : K) * (2 : K) ^ k ≤ x := by
    have : (((M : ℚ) * (2 : ℚ) ^ k : ℚ) : K) = (M : K) * (2 : K) ^ k := by push_cast; ring
    rw [← this]; exact h
  obtain ⟨hrv, -⟩ := round32_fin hr
  have hu : (0 : K) < (2 : K) ^ ulp_exp x := zpow_pos (by norm_num) _
  have huq : (0 : ℚ) < (2 : ℚ) ^ ulp_exp x := zpow_pos (by norm_num) _
  rw [hrv]
  by_cases hj : ulp_exp x ≤ k
  · have hm1 : (M : ℤ) * (2 : ℤ) ^ (k - ulp_exp x).toNat ≤ round_even (x / (2 : K) ^ ulp_exp x) := by
      apply le_round_even
      rw [le_div_iff₀ hu]
      push_cast
      rw [mul_assoc, ← zpow_split _ _ hj]
      exact hc'
    have e := zpow_split (K := ℚ) _ _ hj
    rw [e, ← mul_assoc]
    apply mul_le_mul_of_nonneg_right _ huq.le
    have : ((((M : ℤ) * (2 : ℤ) ^ (k - ulp_exp x).toNat : ℤ)) : ℚ)
        ≤ ((round_even (x / (2 : K) ^ ulp_exp x) : ℤ) : ℚ) := by exact_mod_cast hm1
    simpa using this
  · push_neg at hj
    rcases ulp_le_abs x hxpos.ne' with h149 | hge
    · have := ulp_exp_ge x
      omega
    rw [abs_of_pos hxpos] at hge
    have hm1 : (2 : ℤ) ^ 23 ≤ round_even (x / (2 : K) ^ ulp_exp x) := by
      apply le_round_even
      rw [le_div_iff₀ hu]
      push_cast
      have : (2 : K) ^ (ulp_exp x + 23) = 8388608 * (2 : K) ^ ulp_exp x := by
        rw [zpow_add₀ (by norm_num : (2 : K) ≠ 0)]
        norm_num
        ring
      rw [← this]; exact hge
    have h1 : (M : ℚ) * (2 : ℚ) ^ k ≤ (2 : ℚ) ^ (24 : ℕ) * (2 : ℚ) ^ k := by
      apply mul_le_mul_of_nonneg_right _ (zpow_pos (by norm_num) _).le
      exact_mod_cast hM.le
    have h2 : (2 : ℚ) ^ (24 : ℕ) * (2 : ℚ) ^ k ≤ (2 : ℚ) ^ (23 : ℕ) * (2 : ℚ) ^ ulp_exp x := by
      rw [← zpow_natCast, ← zpow_add₀ (by norm_num), ← zpow_natCast, ← zpow_add₀ (by norm_num)]
      apply zpow_le_zpow_right₀ (by norm_num)
      push_cast; omega
    have h3 : (2 : ℚ) ^ (23 : ℕ) * (2 : ℚ) ^ ulp_exp x
        ≤ (round_even (x / (2 : K) ^ ulp_exp x) : ℚ) * (2 : ℚ) ^ ulp_exp x := by
      apply mul_le_mul_of_nonneg_right _ huq.le
      exact_mod_cast hm1
    linarith

/-- A representable value converts to itself. -/
theorem round32_of_rep {c : ℚ} (hc : Rep c) : round32 (c : K) = F32.fin c := by
  obtain ⟨r, hr, -, hle⟩ := round32_le_rep hc (x := (c : K)) (by exact_mod_cast hc.nonneg)
    (le_refl _)
  have := rep_le_round32 hc (le_refl _) hr
  rw [hr, le_antisymm hle this]

/-- The result of a conversion is representable. -/
theorem round32_rep {x : K} {r : ℚ} (h0 : 0 ≤ x) (h : round32 x = F32.fin r) : Rep r := by
  obtain ⟨hrv, hlt⟩ := round32_fin h
  have hr0 := round32_nonneg h0 h
  rw [abs_of_nonneg hr0] at hlt
  have hu : (0 : K) < (2 : K) ^ ulp_exp x := zpow_pos (by norm_num) _
  have hm0 : 0 ≤ round_even (x / (2 : K) ^ ulp_exp x) :=
    le_round_even (by simpa using div_nonneg h0 hu.le)
  have hm1 : round_even (x / (2 : K) ^ ulp_exp x) ≤ (2 : ℤ) ^ 24 := by
    apply round_even_le
    rw [div_le_iff₀ hu]
    push_cast
    have h1 := abs_lt_ulp x
    rw [abs_of_nonneg h0] at h1
    have : (2 : K) ^ (ulp_exp x + 24) = 16777216 * (2 : K) ^ ulp_exp x := by
      rw [zpow_add₀ (by norm_num : (2 : K) ≠ 0)]
      norm_num
      ring
    rw [← this]; exact h1.le
  rcases hm1.lt_or_eq with hlt24 | heq
  · refine ⟨(round_even (x / (2 : K) ^ ulp_exp x)).toNat, ulp_exp x, ?_, ulp_exp_ge x, ?_, hlt⟩
    · omega
    · rw [hrv]
      congr 1
      have : ((round_even (x / (2 : K) ^ ulp_exp x)).toNat : ℤ)
          = round_even (x / (2 : K) ^ ulp_exp x) := Int.toNat_of_nonneg hm0
      exact_mod_cast this.symm
  · refine ⟨2 ^ 23, ulp_exp x + 1, by norm_num, ?_, ?_, hlt⟩
    · have := ulp_exp_ge x; omega
    · rw [hrv, heq, zpow_add₀ (by norm_num)]
      push_cast
      ring

/-- The error of a conversion is at most half a unit in the last place. -/
theorem round32_err {x : K} {r : ℚ} (h : round32 x = F32.fin r) :
    |x - (r : K)| ≤ (2 : K) ^ ulp_exp x / 2 := by
  obtain ⟨hrv, -⟩ := round32_fin h
  have hu : (0 : K) < (2 : K) ^ ulp_exp x := zpow_pos (by norm_num) _
  have hs := round_even_spec (x / (2 : K) ^ ulp_exp x)
  have e : x - (r : K)
      = (x / (2 : K) ^ ulp_exp x - (round_even (x / (2 : K) ^ ulp_exp x) : K))
        * (2 : K) ^ ulp_exp x := by
    rw [hrv]
    push_cast
    field_simp
    ring
  rw [e, abs_mul, abs_of_pos hu]
  calc _ ≤ 1 / 2 * (2 : K) ^ ulp_exp x := mul_le_mul_of_nonneg_right hs hu.le
    _ = _ := by ring

end Round32b

section Round32c

variable {K : Type} [LinearOrderedField K] [FloorRing K]

theorem rep_mk (M : ℕ) (k : ℤ) (hM : M < 2 ^ 24) (hk : -149 ≤ k) (hk2 : k ≤ 104) :
    Rep ((M : ℚ) * (2 : ℚ) ^ k) := by
  refine ⟨M, k, hM, hk, rfl, ?_⟩
  calc (M : ℚ) * (2 : ℚ) ^ k < (2 : ℚ) ^ (24 : ℤ) * (2 : ℚ) ^ k := by
        apply mul_lt_mul_of_pos_right _ (zpow_pos (by norm_num) k)
        have : (M : ℚ) < ((2 ^ 24 : ℕ) : ℚ) := by exact_mod_cast hM
        have h24 : (2 : ℚ) ^ (24 : ℤ) = ((2 ^ 24 : ℕ) : ℚ) := by norm_num
        rw [h24]
        exact this
    _ = (2 : ℚ) ^ (24 + k) := by rw [zpow_add₀ (by norm_num)]
    _ ≤ (2 : ℚ) ^ (128 : ℤ) := zpow_le_zpow_right₀ (by norm_num) (by omega)

theorem rep_natCast (n : ℕ) (h : n < 2 ^ 24) : Rep (n : ℚ) := by
  have := rep_mk n 0 h (by norm_num) (by norm_num)
  simpa using this

theorem rep_zero : Rep 0 := by simpa using rep_natCast 0 (by norm_num)

theorem rep_one : Rep 1 := by simpa using rep_natCast 1 (by norm_num)

theorem rep_two : Rep 2 := by simpa using rep_natCast 2 (by norm_num)

/-- Powers of two from `2 ^ (-149)` to `2 ^ 127` are representable. -/
theorem rep_two_zpow (k : ℤ) (hk : -149 ≤ k) (hk2 : k ≤ 104) : Rep ((2 : ℚ) ^ k) := by
  have := rep_mk 1 k (by norm_num) hk hk2
  simpa using this

/-- A conversion of a non-negative value is finite or `+inf`. -/
theorem round32_cases {x : K} (h0 : 0 ≤ x) :
    round32 x = F32.pinf ∨ ∃ r : ℚ, round32 x = F32.fin r ∧ Rep r := by
  by_cases c : (2 : ℚ) ^ (128 : ℤ)
      ≤ |(round_even (x / (2 : K) ^ ulp_exp x) : ℚ) * (2 : ℚ) ^ ulp_exp x|
  · rcases h0.eq_or_lt with hx | hx
    · exfalso
      rw [← hx] at c
      have h : round_even ((0 : K) / (2 : K) ^ ulp_exp (0 : K)) = 0 := by
        rw [zero_div]
        have := round_even_intCast (K := K) 0
        simpa using this
      rw [h] at c
      norm_num at c
    · left
      simp only [round32]
      rw [if_pos c, if_pos hx]
  · right
    have h : round32 x = F32.fin ((round_even (x / (2 : K) ^ ulp_exp x) : ℚ) * (2 : ℚ) ^ ulp_exp x) := by
      simp only [round32]
      rw [if_neg c]
    exact ⟨_, h, round32_rep h0 h⟩

/-- A conversion of a value of magnitude below `2 ^ (-150)` is 0. -/
theorem round32_tiny {x : K} (h0 : 0 ≤ x) (h : x < (2 : K) ^ (-150 : ℤ)) :
    round32 x = F32.fin 0 := by
  rcases h0.eq_or_lt with hx | hx
  · rw [← hx]; exact round32_zero
  have hlt : |x| < (2 : K) ^ (-126 : ℤ) := by
    rw [abs_of_pos hx]
    exact lt_of_lt_of_le h (zpow_le_zpow_right₀ (by norm_num) (by norm_num))
  have hk := ulp_exp_subnormal hx.ne' hlt
  have hm : round_even (x / (2 : K) ^ (-149 : ℤ)) = 0 := by
    apply round_even_eq_of_lt
    have hu : (0 : K) < (2 : K) ^ (-149 : ℤ) := zpow_pos (by norm_num) _
    have e : (2 : K) ^ (-150 : ℤ) = 1 / 2 * (2 : K) ^ (-149 : ℤ) := by
      rw [show (-149 : ℤ) = -150 + 1 by norm_num, zpow_add₀ (by norm_num : (2 : K) ≠ 0)]
      norm_num
    rw [Int.cast_zero, sub_zero, abs_of_nonneg (div_nonneg hx.le hu.le), div_lt_iff₀ hu, ← e]
    exact h
  have := round32_eq x (-149) 0 hk hm (by norm_num)
  simpa using this

theorem ulp_exp_le_of_lt_one {x : K} (h0 : 0 < x) (h1 : x < 1) : ulp_exp x ≤ -24 := by
  have hp : 0 < |x| := abs_pos.mpr h0.ne'
  have b : Int.log 2 |x| < 0 :=
    (Int.lt_zpow_iff_log_lt (b := 2) (by norm_num) hp).mp (by
      rw [abs_of_pos h0, zpow_zero]; exact h1)
  simp only [ulp_exp]
  omega

/-- A conversion of a value within `2 ^ (-25)` of 1 is 1. -/
theorem round32_near_one {x : K} (h : |x - 1| ≤ (2 : K) ^ (-25 : ℤ)) :
    round32 x = F32.fin 1 := by
  rw [abs_le] at h
  obtain ⟨h1, h2⟩ := h
  have e25 : (2 : K) ^ (-25 : ℤ) = 1 / 33554432 := by norm_num
  rw [e25] at h1 h2
  by_cases c : 1 ≤ x
  · have hk : ulp_exp x = 0 - 23 := by
      apply ulp_exp_normal (by norm_num)
      · rw [abs_of_nonneg (by linarith), zpow_zero]; exact c
      · rw [abs_of_nonneg (by linarith)]; norm_num; linarith
    have hm : round_even (x / (2 : K) ^ (0 - 23 : ℤ)) = 8388608 := by
      apply round_even_eq_of_lt
      have e : (2 : K) ^ (0 - 23 : ℤ) = 1 / 8388608 := by norm_num
      rw [e, abs_lt]
      push_cast
      constructor <;> linarith
    have := round32_eq x (0 - 23) 8388608 hk hm (by norm_num)
    rw [this]
    norm_num
  · push_neg at c
    have hx0 : 0 < x := by linarith
    have hk : ulp_exp x = -1 - 23 := by
      apply ulp_exp_normal (by norm_num)
      · rw [abs_of_pos hx0]; norm_num; linarith
      · rw [abs_of_pos hx0]; norm_num; exact c
    have hm : round_even (x / (2 : K) ^ (-1 - 23 : ℤ)) = 16777216 := by
      apply round_even_eq_of_le (by norm_num)
      have e : (2 : K) ^ (-1 - 23 : ℤ) = 1 / 16777216 := by norm_num
      rw [e, abs_le]
      push_cast
      constructor <;> linarith
    have := round32_eq x (-1 - 23) 16777216 hk hm (by norm_num)
    rw [this]
    norm_num

/-- A conversion of a value in `[0, 1 + 2 ^ (-24)]` is at most 1. -/
theorem round32_le_one {x : K} (h0 : 0 ≤ x) (h : x ≤ 1 + (2 : K) ^ (-24 : ℤ)) :
    ∃ r : ℚ, round32 x = F32.fin r ∧ Rep r ∧ r ≤ 1 := by
  by_cases c : x ≤ 1
  · obtain ⟨r, hr, -, hle⟩ := round32_le_rep rep_one h0 (by simpa using c)
    exact ⟨r, hr, round32_rep h0 hr, hle⟩
  · push_neg at c
    have e24 : (2 : K) ^ (-24 : ℤ) = 1 / 16777216 := by norm_num
    rw [e24] at h
    have hk : ulp_exp x = 0 - 23 := by
      apply ulp_exp_normal (by norm_num)
      · rw [abs_of_nonneg h0, zpow_zero]; exact c.le
      · rw [abs_of_nonneg h0]; norm_num; linarith
    have hm : round_even (x / (2 : K) ^ (0 - 23 : ℤ)) = 8388608 := by
      apply round_even_eq_of_le (by norm_num)
      have e : (2 : K) ^ (0 - 23 : ℤ) = 1 / 8388608 := by norm_num
      rw [e, abs_le]
      push_cast
      constructor <;> linarith
    have := round32_eq x (0 - 23) 8388608 hk hm (by norm_num)
    refine ⟨1, ?_, rep_one, le_refl _⟩
    rw [this]
    norm_num

end Round32c

namespace F32

theorem add_fin (a b : ℚ) : (fin a + fin b : F32) = round32 (a + b) := rfl

theorem mul_fin (a b : ℚ) : (fin a * fin b : F32) = round32 (a * b) := rfl

theorem sub_fin (a b : ℚ) : (fin a - fin b : F32) = round32 (a - b) := by
  show add (fin a) (neg (fin b)) = _
  simp only [neg, add, sub_eq_add_neg]

theorem div_fin (a b : ℚ) (hb : b ≠ 0) : (fin a / fin b : F32) = round32 (a / b) := by
  show div (fin a) (fin b) = _
  simp only [div, if_neg hb]

theorem one_eq : (1 : F32) = fin 1 := rfl

theorem round32_rat {c : ℚ} (hc : Rep c) : round32 c = fin c := by
  have := round32_of_rep (K := ℚ) hc
  simpa using this

theorem natCast_eq (n : ℕ) (h : n < 2 ^ 24) : ((n : ℕ) : F32) = fin n :=
  round32_rat (rep_natCast n h)

theorem two_eq : (2 : F32) = fin 2 := by
  have := natCast_eq 2 (by norm_num)
  simpa using this

theorem half_eq : (1 / 2 : F32) = fin (1 / 2) := by
  rw [one_eq, two_eq, div_fin _ _ (by norm_num)]
  apply round32_rat
  have := rep_two_zpow (-1) (by norm_num) (by norm_num)
  simpa using this

theorem in01_one : In01 1 1 := ⟨rfl, rep_one, le_refl _⟩

theorem in01_mul {x y : F32} {a b : ℚ} (hx : In01 x a) (hy : In01 y b) :
    ∃ c, In01 (x * y) c ∧ c ≤ a ∧ c ≤ b ∧ ∀ l, Rep l → l ≤ a * b → l ≤ c := by
  obtain ⟨rfl, ra, a1⟩ := hx
  obtain ⟨rfl, rb, b1⟩ := hy
  have a0 := ra.nonneg
  have b0 := rb.nonneg
  have hab : 0 ≤ a * b := mul_nonneg a0 b0
  obtain ⟨r, hr, -, hle⟩ := round32_le_rep ra (x := a * b) hab (by
    rw [Rat.cast_id]; nlinarith)
  obtain ⟨r', hr', -, hle'⟩ := round32_le_rep rb (x := a * b) hab (by
    rw [Rat.cast_id]; nlinarith)
  rw [hr] at hr'
  injection hr' with e
  subst e
  refine ⟨r, ⟨by rw [mul_fin, hr], round32_rep hab hr, by linarith⟩, hle, hle', ?_⟩
  intro l hl hla
  exact rep_le_round32 hl (by rw [Rat.cast_id]; exact hla) hr

theorem in01_one_sub {x : F32} {a : ℚ} (hx : In01 x a) :
    ∃ i, In01 (1 - x) i ∧ i ≤ 1 - a + 1 / 33554432 ∧ ∀ l, Rep l → l ≤ 1 - a → l ≤ i := by
  obtain ⟨rfl, ra, a1⟩ := hx
  have a0 := ra.nonneg
  have h0 : 0 ≤ 1 - a := by linarith
  obtain ⟨r, hr, hr0, hle⟩ := round32_le_rep rep_one (x := 1 - a) h0 (by
    rw [Rat.cast_id]; linarith)
  refine ⟨r, ⟨by rw [one_eq, sub_fin, hr], round32_rep h0 hr, hle⟩, ?_,
    fun l hl hla => rep_le_round32 hl (by rw [Rat.cast_id]; exact hla) hr⟩
  rcases a0.eq_or_lt with ha | ha
  · have e : round32 (1 - a) = fin 1 := by
      rw [← ha, sub_zero]; exact round32_rat rep_one
    rw [hr] at e
    injection e with e
    rw [e, ← ha]
    norm_num
  rcases h0.eq_or_lt with hz | hz
  · have e : round32 (1 - a) = fin 0 := by rw [← hz]; exact round32_zero
    rw [hr] at e
    injection e with e
    rw [e]
    linarith
  · have herr := round32_err hr
    have hj := ulp_exp_le_of_lt_one hz (by linarith)
    have hu : (2 : ℚ) ^ ulp_exp (1 - a) ≤ (2 : ℚ) ^ (-24 : ℤ) :=
      zpow_le_zpow_right₀ (by norm_num) hj
    have e24 : (2 : ℚ) ^ (-24 : ℤ) = 1 / 16777216 := by norm_num
    rw [e24] at hu
    rw [Rat.cast_id, abs_le] at herr
    linarith [herr.1, herr.2]

/-- Sum of two floats of `[0, 1]` whose exact sum is at most `1 + 2 ^ (-24)`. -/
theorem in01_add {x y : F32} {a b : ℚ} (hx : In01 x a) (hy : In01 y b)
    (h : a + b ≤ 1 + 1 / 16777216) :
    ∃ c, In01 (x + y) c ∧ ∀ l, Rep l → l ≤ a + b → l ≤ c := by
  obtain ⟨rfl, ra, a1⟩ := hx
  obtain ⟨rfl, rb, b1⟩ := hy
  have hab : 0 ≤ a + b := add_nonneg ra.nonneg rb.nonneg
  obtain ⟨r, hr, rr, hle⟩ := round32_le_one hab (by
    have e24 : (2 : ℚ) ^ (-24 : ℤ) = 1 / 16777216 := by norm_num
    rw [e24]; exact h)
  refine ⟨r, ⟨by rw [add_fin, hr], rr, hle⟩, ?_⟩
  intro l hl hla
  exact rep_le_round32 hl (by rw [Rat.cast_id]; exact hla) hr

/-- Mean of two floats of `[0, 1]`. -/
theorem in01_avg {x y : F32} {a b : ℚ} (hx : In01 x a) (hy : In01 y b) :
    ∃ c, In01 (1 / 2 * (x + y)) c ∧ ∀ l, Rep l → 2 * l ≤ a + b → l ≤ c := by
  obtain ⟨rfl, ra, a1⟩ := hx
  obtain ⟨rfl, rb, b1⟩ := hy
  have hab : 0 ≤ a + b := add_nonneg ra.nonneg rb.nonneg
  obtain ⟨s, hs, hs0, hs2⟩ := round32_le_rep rep_two (x := a + b) hab (by
    rw [Rat.cast_id]; linarith)
  have rs := round32_rep hab hs
  have hh : 0 ≤ 1 / 2 * s := by linarith
  obtain ⟨r, hr, hr0, hr1⟩ := round32_le_rep rep_one (x := 1 / 2 * s) hh (by
    rw [Rat.cast_id]; linarith)
  refine ⟨r, ⟨by rw [half_eq, add_fin, hs, mul_fin, hr], round32_rep hh hr, hr1⟩, ?_⟩
  intro l hl hla
  have h2l : Rep (2 * l) := by
    obtain ⟨M, k, hM, hk, rfl, hlt⟩ := hl
    refine ⟨M, k + 1, hM, by omega, ?_, ?_⟩
    · rw [zpow_add₀ (by norm_num)]; ring
    · have : 2 * ((M : ℚ) * (2 : ℚ) ^ k) ≤ a + b := hla
      have h128 : (2 : ℚ) < (2 : ℚ) ^ (128 : ℤ) := by norm_num
      linarith
  have h1 : 2 * l ≤ s := rep_le_round32 h2l (by rw [Rat.cast_id]; exact hla) hs
  exact rep_le_round32 hl (by rw [Rat.cast_id]; linarith) hr

end F32

section Mono

variable {K : Type} [LinearOrderedField K] [FloorRing K]

end Mono

section ExactRounding

open F32

/-! ## Evaluating a conversion -/

/-- Conversion of a normal value `x` with unit in the last place `u = 2 ^ k`: the result is
the multiple `r = m * u` of `u` within less than `u / 2` of `x`. -/
theorem round32_at {x : ℚ} (k m : ℤ) (u r : ℚ) (hu : (2 : ℚ) ^ k = u) (hk : -149 ≤ k)
    (hk2 : k ≤ 100) (h0 : 8388608 * u ≤ x) (h1 : x < 16777216 * u) (hr : r = m * u)
    (hm1 : r - u / 2 < x) (hm2 : x < r + u / 2) : round32 x = F32.fin r := by
  have hu0 : 0 < u := by rw [← hu]; positivity
  have hx0 : 0 < x := by nlinarith
  have e23 : (2 : ℚ) ^ (k + 23) = 8388608 * u := by
    rw [zpow_add₀ (by norm_num), hu]; norm_num; ring
  have e24 : (2 : ℚ) ^ (k + 23 + 1) = 16777216 * u := by
    rw [zpow_add₀ (by norm_num), e23]; norm_num; ring
  have hue : ulp_exp x = k := by
    have := ulp_exp_normal (x := x) (e := k + 23) (by omega)
      (by rw [abs_of_pos hx0, e23]; exact h0) (by rw [abs_of_pos hx0, e24]; exact h1)
    omega
  have hre : round_even (x / (2 : ℚ) ^ k) = m := by
    apply round_even_eq_of_lt
    rw [hu, abs_lt]
    constructor
    · rw [lt_sub_iff_add_lt, lt_div_iff₀ hu0]
      rw [hr] at hm1
      linarith
    · rw [sub_lt_iff_lt_add, div_lt_iff₀ hu0]
      rw [hr] at hm2
      linarith
  rw [round32_eq x k m hue hre, hu, hr]
  rw [hu, ← hr]
  have hrpos : 0 < r := by linarith
  rw [abs_of_pos hrpos]
  have h100 : (2 : ℚ) ^ k ≤ (2 : ℚ) ^ (100 : ℤ) := zpow_le_zpow_right₀ (by norm_num) hk2
  rw [hu] at h100
  have e100 : (2 : ℚ) ^ (100 : ℤ) = 1267650600228229401496703205376 := by norm_num
  have e128 : (2 : ℚ) ^ (128 : ℤ) = 340282366920938463463374607431768211456 := by norm_num
  rw [e100] at h100
  rw [e128]
  linarith

/-- Conversion of a normal value `x` at most `u / 2` away from the even multiple `r = m * u`
of the unit in the last place `u = 2 ^ k`. -/
theorem round32_at_even {x : ℚ} (k m : ℤ) (u r : ℚ) (hu : (2 : ℚ) ^ k = u) (hk : -149 ≤ k)
    (hk2 : k ≤ 100) (h0 : 8388608 * u ≤ x) (h1 : x < 16777216 * u) (hr : r = m * u)
    (hev : m % 2 = 0) (hm1 : r - u / 2 ≤ x) (hm2 : x ≤ r + u / 2) : round32 x = F32.fin r := by
  have hu0 : 0 < u := by rw [← hu]; positivity
  have hx0 : 0 < x := by nlinarith
  have e23 : (2 : ℚ) ^ (k + 23) = 8388608 * u := by
    rw [zpow_add₀ (by norm_num), hu]; norm_num; ring
  have e24 : (2 : ℚ) ^ (k + 23 + 1) = 16777216 * u := by
    rw [zpow_add₀ (by norm_num), e23]; norm_num; ring
  have hue : ulp_exp x = k := by
    have := ulp_exp_normal (x := x) (e := k + 23) (by omega)
      (by rw [abs_of_pos hx0, e23]; exact h0) (by rw [abs_of_pos hx0, e24]; exact h1)
    omega
  have hre : round_even (x / (2 : ℚ) ^ k) = m := by
    apply round_even_eq_of_le hev
    rw [hu, abs_le]
    constructor
    · rw [le_sub_iff_add_le, le_div_iff₀ hu0]
      rw [hr] at hm1
      linarith
    · rw [sub_le_iff_le_add, div_le_iff₀ hu0]
      rw [hr] at hm2
      linarith
  rw [round32_eq x k m hue hre, hu, hr]
  rw [hu, ← hr]
  have hrpos : 0 < r := by linarith
  rw [abs_of_pos hrpos]
  have h100 : (2 : ℚ) ^ k ≤ (2 : ℚ) ^ (100 : ℤ) := zpow_le_zpow_right₀ (by norm_num) hk2
  rw [hu] at h100
  have e100 : (2 : ℚ) ^ (100 : ℤ) = 1267650600228229401496703205376 := by norm_num
  have e128 : (2 : ℚ) ^ (128 : ℤ) = 340282366920938463463374607431768211456 := by norm_num
  rw [e100] at h100
  rw [e128]
  linarith

/-- The `float` nearest 0.03. -/
theorem round32_003 : round32 (3 / 100 : ℚ) = F32.fin (16106127 / 536870912) :=
  round32_at (-29) 16106127 (1 / 536870912) _ (by norm_num) (by norm_num) (by norm_num)
    (by norm_num) (by norm_num) (by norm_num) (by norm_num) (by norm_num)

/-- The `float` nearest 0.1. -/
theorem round32_01 : round32 (1 / 10 : ℚ) = F32.fin (13421773 / 134217728) :=
  round32_at (-27) 13421773 (1 / 134217728) _ (by norm_num) (by norm_num) (by norm_num)
    (by norm_num) (by norm_num) (by norm_num) (by norm_num) (by norm_num)

theorem rep_003 : Rep (16106127 / 536870912) := by
  have := rep_mk 16106127 (-29) (by norm_num) (by norm_num) (by norm_num)
  have e : ((16106127 : ℕ) : ℚ) * (2 : ℚ) ^ (-29 : ℤ) = 16106127 / 536870912 := by norm_num
  rwa [e] at this

theorem rep_01 : Rep (13421773 / 134217728) := by
  have := rep_mk 13421773 (-27) (by norm_num) (by norm_num) (by norm_num)
  have e : ((13421773 : ℕ) : ℚ) * (2 : ℚ) ^ (-27 : ℤ) = 13421773 / 134217728 := by norm_num
  rwa [e] at this

/-! ## A window for the decay coefficient -/

theorem sqrt_two_bounds : (141421356 / 100000000 : ℝ) < Real.sqrt 2
    ∧ Real.sqrt 2 < (141421357 / 100000000 : ℝ) := by
  constructor
  · rw [Real.lt_sqrt (by norm_num)]
    norm_num
  · rw [Real.sqrt_lt' (by norm_num)]
    norm_num

/-- Bounds of `exp(-t)` for `t` slightly above `17 * log 2`. -/
theorem exp_window (t : ℝ) (h1 : 17 * Real.log 2 + 11 / 10000 ≤ t)
    (h2 : t ≤ 17 * Real.log 2 + 18 / 10000) :
    (511 / 67108864 : ℝ) ≤ Real.exp (-t) ∧ Real.exp (-t) ≤ (1023 / 134217728 : ℝ) := by
  have e17 : Real.exp (-(17 * Real.log 2)) = 1 / 131072 := by
    rw [Real.exp_neg]
    have : Real.exp (17 * Real.log 2) = Real.exp (Real.log 2) ^ 17 := by
      have := Real.exp_nat_mul (Real.log 2) 17
      simpa using this
    rw [this, Real.exp_log (by norm_num)]
    norm_num
  have hsplit : Real.exp (-t) = Real.exp (-(17 * Real.log 2)) * Real.exp (-(t - 17 * Real.log 2)) := by
    rw [← Real.exp_add]
    congr 1
    ring
  have hd1 : 11 / 10000 ≤ t - 17 * Real.log 2 := by linarith
  have hd2 : t - 17 * Real.log 2 ≤ 18 / 10000 := by linarith
  have hlo : 1 - (t - 17 * Real.log 2) ≤ Real.exp (-(t - 17 * Real.log 2)) := by
    have := Real.add_one_le_exp (-(t - 17 * Real.log 2))
    linarith
  have hhi : Real.exp (-(t - 17 * Real.log 2)) ≤ 1 / (1 + (t - 17 * Real.log 2)) := by
    rw [Real.exp_neg, one_div]
    apply inv_anti₀ (by linarith)
    have := Real.add_one_le_exp (t - 17 * Real.log 2)
    linarith
  have hhi2 : 1 / (1 + (t - 17 * Real.log 2)) ≤ (1023 / 1024 : ℝ) := by
    rw [div_le_iff₀ (by linarith)]
    linarith
  rw [hsplit, e17]
  constructor
  · linarith
  · linarith

/-- The float `alpha` for a product `sigma_spatial * n` close to 0.12: it lies between
`2 ^ (-17) - 2 ^ (-26)` and `2 ^ (-17) - 2 ^ (-27)`. -/
theorem exp_sqrt_window (p : ℚ) (h1 : 1199999 / 10000000 ≤ p) (h2 : p ≤ 1200028 / 10000000) :
    ∃ a, round32 (Real.exp (-(Real.sqrt 2 / (p : ℝ)))) = F32.fin a ∧ Rep a
      ∧ 511 / 67108864 ≤ a ∧ a ≤ 1023 / 134217728 := by
  have hp1 : (1199999 / 10000000 : ℝ) ≤ (p : ℝ) := by
    have : ((1199999 / 10000000 : ℚ) : ℝ) ≤ (p : ℝ) := Rat.cast_le.mpr h1
    push_cast at this
    exact this
  have hp2 : (p : ℝ) ≤ (1200028 / 10000000 : ℝ) := by
    have : (p : ℝ) ≤ ((1200028 / 10000000 : ℚ) : ℝ) := Rat.cast_le.mpr h2
    push_cast at this
    exact this
  have hp0 : (0 : ℝ) < (p : ℝ) := by linarith
  obtain ⟨s1, s2⟩ := sqrt_two_bounds
  have l1 := Real.log_two_gt_d9
  have l2 := Real.log_two_lt_d9
  have t1 : 17 * Real.log 2 + 11 / 10000 ≤ Real.sqrt 2 / (p : ℝ) := by
    rw [le_div_iff₀ hp0]
    nlinarith
  have t2 : Real.sqrt 2 / (p : ℝ) ≤ 17 * Real.log 2 + 18 / 10000 := by
    rw [div_le_iff₀ hp0]
    nlinarith
  obtain ⟨w1, w2⟩ := exp_window _ t1 t2
  have r1 : Rep (511 / 67108864) := by
    have := rep_mk 511 (-26) (by norm_num) (by norm_num) (by norm_num)
    have e : ((511 : ℕ) : ℚ) * (2 : ℚ) ^ (-26 : ℤ) = 511 / 67108864 := by norm_num
    rwa [e] at this
  have r2 : Rep (1023 / 134217728) := by
    have := rep_mk 1023 (-27) (by norm_num) (by norm_num) (by norm_num)
    have e : ((1023 : ℕ) : ℚ) * (2 : ℚ) ^ (-27 : ℤ) = 1023 / 134217728 := by norm_num
    rwa [e] at this
  have hlo : 0 ≤ Real.exp (-(Real.sqrt 2 / (p : ℝ))) := (Real.exp_pos _).le
  obtain ⟨r, hr, -, hle⟩ := round32_le_rep r2 hlo (by push_cast; exact w2)
  exact ⟨r, hr, round32_rep hlo hr, rep_le_round32 r1 (by push_cast; exact w1) hr, hle⟩

end ExactRounding

section ExpBounds

open F32

theorem exp_neg_le_half_pow (x : ℝ) (n : ℕ) (h : (n : ℝ) ≤ x) :
    Real.exp (-x) ≤ (1 / 2 : ℝ) ^ n := by
  have h1 : (2 : ℝ) ≤ Real.exp 1 := by
    have := Real.add_one_le_exp 1
    linarith
  have h2 : Real.exp (n : ℝ) = Real.exp 1 ^ n := by
    rw [← Real.exp_nat_mul, mul_one]
  have h3 : (2 : ℝ) ^ n ≤ Real.exp (n : ℝ) := by
    rw [h2]; exact pow_le_pow_left₀ (by norm_num) h1 n
  have h4 : Real.exp (-x) ≤ Real.exp (-(n : ℝ)) := Real.exp_le_exp.mpr (by linarith)
  have h5 : Real.exp (-(n : ℝ)) ≤ (1 / 2 : ℝ) ^ n := by
    rw [Real.exp_neg, one_div, inv_pow]
    exact inv_anti₀ (by positivity) h3
  linarith

/-- The exponential of a value below -151 converts to 0. -/
theorem round32_exp_tiny (x : ℝ) (h : 151 ≤ x) : round32 (Real.exp (-x)) = F32.fin 0 := by
  apply round32_tiny (Real.exp_pos _).le
  have := exp_neg_le_half_pow x 151 (by exact_mod_cast h)
  refine lt_of_le_of_lt this ?_
  norm_num

/-- The exponential of a value in `[-2 ^ (-25), 0]` converts to 1. -/
theorem round32_exp_near_one (x : ℝ) (h0 : 0 ≤ x) (h : x ≤ (2 : ℝ) ^ (-25 : ℤ)) :
    round32 (Real.exp (-x)) = F32.fin 1 := by
  apply round32_near_one
  have h1 : Real.exp (-x) ≤ 1 := Real.exp_le_one_iff.mpr (by linarith)
  have h2 : 1 - x ≤ Real.exp (-x) := by
    have := Real.add_one_le_exp (-x)
    linarith
  rw [abs_le]
  constructor <;> linarith

/-- The exponential of a value that is not positive converts to a float in `[0, 1]`. -/
theorem round32_exp_in01 (x : ℝ) (h0 : 0 ≤ x) :
    ∃ a, round32 (Real.exp (-x)) = F32.fin a ∧ Rep a ∧ a ≤ 1 := by
  have h1 : Real.exp (-x) ≤ 1 := Real.exp_le_one_iff.mpr (by linarith)
  obtain ⟨r, hr, -, hle⟩ := round32_le_rep rep_one (Real.exp_pos (-x)).le (by simpa using h1)
  exact ⟨r, hr, round32_rep (Real.exp_pos _).le hr, hle⟩

/-- Conversion of a width or height of at least 1 to `float`. -/
theorem natCast_cases (n : ℕ) (hn : 1 ≤ n) :
    ((n : ℕ) : F32) = F32.pinf ∨ ∃ r, ((n : ℕ) : F32) = F32.fin r ∧ Rep r ∧ 1 ≤ r := by
  have h0 : (0 : ℚ) ≤ (n : ℚ) := Nat.cast_nonneg n
  rcases round32_cases h0 with h | ⟨r, hr, rr⟩
  · left; exact h
  · right
    refine ⟨r, hr, rr, rep_le_round32 rep_one ?_ hr⟩
    rw [Rat.cast_id]
    exact_mod_cast hn

/-- The product `sigma_spatial * n` for a positive float `sigma_spatial` and `n ≥ 1`. -/
theorem sigma_mul_cases (q : ℚ) (hq : Rep q) (hpos : 0 < q) (n : ℕ) (hn : 1 ≤ n) :
    F32.fin q * ((n : ℕ) : F32) = F32.pinf
      ∨ ∃ p, F32.fin q * ((n : ℕ) : F32) = F32.fin p ∧ Rep p ∧ q ≤ p := by
  rcases natCast_cases n hn with h | ⟨r, hr, rr, r1⟩
  · left
    rw [h]
    show F32.mul (F32.fin q) F32.pinf = _
    simp only [F32.mul, if_neg hpos.ne', signed_inf, decide_eq_true hpos, if_true]
  · rw [hr, mul_fin]
    have h0 : 0 ≤ q * r := by nlinarith [rr.nonneg]
    rcases round32_cases h0 with h | ⟨p, hp, rp⟩
    · left; exact h
    · right
      refine ⟨p, hp, rp, rep_le_round32 hq ?_ hp⟩
      rw [Rat.cast_id]
      nlinarith

/-- The decay coefficient of a positive float `sigma_spatial` is a float in `[0, 1]`. -/
theorem decay_f32_in01 (q : ℚ) (hq : Rep q) (hpos : 0 < q) (n : ℕ) (hn : 1 ≤ n) :
    ∃ a, In01 (decay_f32 (F32.fin q) n) a := by
  rcases sigma_mul_cases q hq hpos n hn with h | ⟨p, hp, rp, hle⟩
  · simp only [decay_f32, h]
    exact ⟨1, in01_one⟩
  · have hp0 : 0 < p := lt_of_lt_of_le hpos hle
    simp only [decay_f32, hp, if_neg hp0.ne']
    have e : -Real.sqrt 2 / (p : ℝ) = -(Real.sqrt 2 / (p : ℝ)) := by ring
    rw [e]
    obtain ⟨a, ha, ra, a1⟩ := round32_exp_in01 (Real.sqrt 2 / (p : ℝ))
      (div_nonneg (Real.sqrt_nonneg 2) (by exact_mod_cast hp0.le))
    exact ⟨a, ha, ra, a1⟩

end ExpBounds

section DecayFloat

open F32

section Neg

variable {K : Type} [LinearOrderedField K] [FloorRing K]

theorem round_even_neg (y : K) : round_even (-y) = -round_even y := by
  have hs := round_even_spec y
  rcases hs.lt_or_eq with hlt | heq
  · apply round_even_eq_of_lt
    push_cast
    rw [show -y - -(round_even y : K) = -(y - round_even y) by ring, abs_neg]
    exact hlt
  · apply round_even_eq_of_le
    · have hpar : round_even y % 2 = 0 := by
        have h1 := Int.floor_le y
        have h2 := Int.lt_floor_add_one y
        simp only [round_even] at heq ⊢
        split_ifs at heq ⊢ with c1 c2 c3
        · rw [abs_of_nonneg (by linarith)] at heq; linarith
        · push_cast at heq
          rw [abs_of_nonpos (by linarith)] at heq; linarith
        · exact c3
        · omega
      omega
    · push_cast
      rw [show -y - -(round_even y : K) = -(y - round_even y) by ring, abs_neg]
      exact hs

theorem ulp_exp_neg (x : K) : ulp_exp (-x) = ulp_exp x := by
  simp only [ulp_exp, abs_neg]

/-- Conversion commutes with negation. -/
theorem round32_neg (x : K) : round32 (-x) = F32.neg (round32 x) := by
  simp only [round32, ulp_exp_neg, neg_div, round_even_neg]
  push_cast
  rw [neg_mul, abs_neg]
  by_cases c : (2 : ℚ) ^ (128 : ℤ)
      ≤ |(round_even (x / (2 : K) ^ ulp_exp x) : ℚ) * (2 : ℚ) ^ ulp_exp x|
  · rw [if_pos c, if_pos c]
    have hx : x ≠ 0 := by
      intro h
      rw [h, zero_div] at c
      have e : round_even (0 : K) = 0 := by
        have := round_even_intCast (K := K) 0
        simpa using this
      rw [e] at c
      norm_num at c
    rcases lt_or_gt_of_ne hx with h | h
    · rw [if_pos (by linarith), if_neg (by linarith)]; rfl
    · rw [if_neg (by linarith), if_pos h]; rfl
  · rw [if_neg c, if_neg c]; rfl

end Neg

theorem decay_f32_of_fin (s : F32) (n : ℕ) (p : ℚ) (h : s * ((n : ℕ) : F32) = F32.fin p)
    (hp : p ≠ 0) : decay_f32 s n = round32 (Real.exp (-(Real.sqrt 2 / (p : ℝ)))) := by
  simp only [decay_f32, h, if_neg hp]
  congr 2
  ring

theorem natCast_three : ((3 : ℕ) : F32) = F32.fin 3 := by
  have := natCast_eq 3 (by norm_num)
  simpa using this

/-- The decay coefficient for `sigma_spatial = 2 ^ (-9)` and width 3 is 0. -/
theorem decay_f32_zero : decay_f32 (F32.fin (1 / 512)) 3 = F32.fin 0 := by
  have ep : F32.fin (1 / 512) * ((3 : ℕ) : F32) = F32.fin (3 / 512) := by
    rw [natCast_three, mul_fin]
    have h := round32_rat (rep_mk 3 (-9) (by norm_num) (by norm_num) (by norm_num))
    have e : ((3 : ℕ) : ℚ) * (2 : ℚ) ^ (-9 : ℤ) = 3 / 512 := by norm_num
    rw [e] at h
    rw [← h]
    norm_num
  rw [decay_f32_of_fin _ _ _ ep (by norm_num)]
  have hs : (1 : ℝ) ≤ Real.sqrt 2 := by
    rw [show (1 : ℝ) = Real.sqrt 1 by simp]
    exact Real.sqrt_le_sqrt (by norm_num)
  apply round32_exp_tiny
  have e : Real.sqrt 2 / ((3 / 512 : ℚ) : ℝ) = Real.sqrt 2 * 512 / 3 := by
    push_cast; field_simp
  rw [e]
  linarith

/-- The decay coefficient for `sigma_spatial = 2 ^ 27` and width 3 is 1. -/
theorem decay_f32_one : decay_f32 (F32.fin 134217728) 3 = F32.fin 1 := by
  have ep : F32.fin 134217728 * ((3 : ℕ) : F32) = F32.fin 402653184 := by
    rw [natCast_three, mul_fin]
    have h := round32_rat (rep_mk 3 27 (by norm_num) (by norm_num) (by norm_num))
    have e : ((3 : ℕ) : ℚ) * (2 : ℚ) ^ (27 : ℤ) = 402653184 := by norm_num
    rw [e] at h
    rw [← h]
    norm_num
  rw [decay_f32_of_fin _ _ _ ep (by norm_num)]
  have hs : Real.sqrt 2 ≤ 3 / 2 := sqrt_two_le
  have hs0 : 0 ≤ Real.sqrt 2 := Real.sqrt_nonneg 2
  apply round32_exp_near_one _ (by positivity)
  have e25 : (2 : ℝ) ^ (-25 : ℤ) = 1 / 33554432 := by norm_num
  have e : Real.sqrt 2 / ((402653184 : ℚ) : ℝ) = Real.sqrt 2 / 402653184 := by
    push_cast; ring
  rw [e25, e]
  linarith

end DecayFloat

section RangeTableFloat

open F32

section Between

variable {K : Type} [LinearOrderedField K] [FloorRing K]

/-- Conversion keeps a value between two representable bounds. -/
theorem round32_between {x : K} {lo hi : ℚ} (hlo : Rep lo) (hhi : Rep hi) (h1 : (lo : K) ≤ x)
    (h2 : x ≤ (hi : K)) : ∃ r, round32 x = F32.fin r ∧ Rep r ∧ lo ≤ r ∧ r ≤ hi := by
  have h0 : 0 ≤ x := le_trans (by exact_mod_cast hlo.nonneg) h1
  obtain ⟨r, hr, -, hle⟩ := round32_le_rep hhi h0 h2
  exact ⟨r, hr, round32_rep h0 hr, rep_le_round32 hlo h1 hr, hle⟩

end Between

theorem natCast_255 : ((255 : ℕ) : F32) = F32.fin 255 := by
  have := natCast_eq 255 (by norm_num)
  simpa using this

/-- The table entry in terms of the rounded reciprocal `v` and the rounded product `w`. -/
theorem range_table_f32_eq (s : F32) (d : ℕ) (v w : ℚ) (hd : d < 2 ^ 24)
    (hv : (1 : F32) / (s * ((255 : ℕ) : F32)) = F32.fin v)
    (hw : round32 ((d : ℚ) * v) = F32.fin w) :
    range_table_f32 s d = round32 (Real.exp (-(w : ℝ))) := by
  simp only [range_table_f32, hv, natCast_eq d hd, F32.neg, mul_fin]
  rw [neg_mul, round32_neg, hw]
  simp only [F32.neg, exp_f32]
  push_cast
  rfl

/-- The reciprocal `inv_sigma_range` for a float `sigma_range` in `[2 ^ (-64), 2 ^ 64]`. -/
theorem inv_sigma_range_fin (q : ℚ) (hq : Rep q) (h1 : (2 : ℚ) ^ (-64 : ℤ) ≤ q)
    (h2 : q ≤ (2 : ℚ) ^ (64 : ℤ)) :
    ∃ v, (1 : F32) / (F32.fin q * ((255 : ℕ) : F32)) = F32.fin v ∧ Rep v
      ∧ (2 : ℚ) ^ (-72 : ℤ) ≤ v ∧ v ≤ (2 : ℚ) ^ (64 : ℤ) := by
  have _ := hq
  have e1 : (2 : ℚ) ^ (-64 : ℤ) = 1 / 18446744073709551616 := by norm_num
  have e2 : (2 : ℚ) ^ (64 : ℤ) = 18446744073709551616 := by norm_num
  have e3 : (2 : ℚ) ^ (72 : ℤ) = 4722366482869645213696 := by norm_num
  have e4 : (2 : ℚ) ^ (-72 : ℤ) = 1 / 4722366482869645213696 := by norm_num
  obtain ⟨p, hp, rp, p1, p2⟩ := round32_between (x := q * 255)
    (rep_two_zpow (-64) (by norm_num) (by norm_num))
    (rep_two_zpow 72 (by norm_num) (by norm_num))
    (by rw [Rat.cast_id]; rw [e1] at h1 ⊢; linarith)
    (by rw [Rat.cast_id]; rw [e2] at h2; rw [e3]; linarith)
  rw [e1] at p1
  rw [e3] at p2
  have hp0 : 0 < p := by linarith
  obtain ⟨v, hv, rv, v1, v2⟩ := round32_between (x := 1 / p)
    (rep_two_zpow (-72) (by norm_num) (by norm_num))
    (rep_two_zpow 64 (by norm_num) (by norm_num))
    (by rw [Rat.cast_id, e4, div_le_div_iff₀ (by norm_num) hp0]; linarith)
    (by rw [Rat.cast_id, e2, div_le_iff₀ hp0]; nlinarith)
  refine ⟨v, ?_, rv, v1, v2⟩
  rw [natCast_255, mul_fin, hp, one_eq, div_fin _ _ hp0.ne', hv]

/-- Entries of the table for a float `sigma_range` in `[2 ^ (-64), 2 ^ 64]`: entry 0 is 1 and
every entry up to 255 is a float in `[0, 1]`. -/
theorem range_table_f32_in01 (q : ℚ) (hq : Rep q) (h1 : (2 : ℚ) ^ (-64 : ℤ) ≤ q)
    (h2 : q ≤ (2 : ℚ) ^ (64 : ℤ)) :
    range_table_f32 (F32.fin q) 0 = F32.fin 1
    ∧ ∀ d, d ≤ 255 → ∃ t, In01 (range_table_f32 (F32.fin q) d) t := by
  obtain ⟨v, hv, rv, v1, v2⟩ := inv_sigma_range_fin q hq h1 h2
  have e2 : (2 : ℚ) ^ (64 : ℤ) = 18446744073709551616 := by norm_num
  have e3 : (2 : ℚ) ^ (72 : ℤ) = 4722366482869645213696 := by norm_num
  rw [e2] at v2
  have hv0 := rv.nonneg
  constructor
  · rw [range_table_f32_eq _ 0 v 0 (by norm_num) hv (by
      rw [Nat.cast_zero, zero_mul]; exact round32_zero)]
    rw [Rat.cast_zero, neg_zero, Real.exp_zero]
    have := round32_of_rep (K := ℝ) rep_one
    simpa using this
  · intro d hd
    have hdq : (d : ℚ) ≤ 255 := by exact_mod_cast hd
    have hd0 : (0 : ℚ) ≤ (d : ℚ) := Nat.cast_nonneg d
    obtain ⟨w, hw, rw', -, -⟩ := round32_between (x := (d : ℚ) * v) rep_zero
      (rep_two_zpow 72 (by norm_num) (by norm_num))
      (by rw [Rat.cast_id]; exact_mod_cast mul_nonneg hd0 hv0)
      (by rw [Rat.cast_id, e3]; nlinarith)
    rw [range_table_f32_eq _ d v w (by omega) hv hw]
    obtain ⟨t, ht, rt, t1⟩ := round32_exp_in01 (w : ℝ) (by exact_mod_cast rw'.nonneg)
    exact ⟨t, ht, rt, t1⟩

/-- For `sigma_range = 2 ^ (-8)` the entries from 151 on are 0. -/
theorem range_table_f32_zero (d : ℕ) (hd : 151 ≤ d) (hd2 : d ≤ 255) :
    range_table_f32 (F32.fin (1 / 256)) d = F32.fin 0 := by
  have hq : Rep (1 / 256 : ℚ) := by
    have := rep_two_zpow (-8) (by norm_num) (by norm_num)
    norm_num at this
    simpa using this
  have ep : F32.fin (1 / 256) * ((255 : ℕ) : F32) = F32.fin (255 / 256) := by
    rw [natCast_255, mul_fin]
    have h := round32_rat (rep_mk 255 (-8) (by norm_num) (by norm_num) (by norm_num))
    have e : ((255 : ℕ) : ℚ) * (2 : ℚ) ^ (-8 : ℤ) = 255 / 256 := by norm_num
    rw [e] at h
    rw [← h]
    norm_num
  obtain ⟨v, hv, rv, v1, v2⟩ := round32_between (x := (1 : ℚ) / (255 / 256)) rep_one rep_two
    (by rw [Rat.cast_id]; norm_num) (by rw [Rat.cast_id]; norm_num)
  have hv' : (1 : F32) / (F32.fin (1 / 256) * ((255 : ℕ) : F32)) = F32.fin v := by
    rw [ep, one_eq, div_fin _ _ (by norm_num), hv]
  have hdq : (d : ℚ) ≤ 255 := by exact_mod_cast hd2
  have hdq1 : (151 : ℚ) ≤ (d : ℚ) := by exact_mod_cast hd
  have r151 : Rep 151 := by simpa using rep_natCast 151 (by norm_num)
  have r512 : Rep 512 := by simpa using rep_natCast 512 (by norm_num)
  obtain ⟨w, hw, rw', w1, -⟩ := round32_between (x := (d : ℚ) * v) r151 r512
    (by rw [Rat.cast_id]; nlinarith)
    (by rw [Rat.cast_id]; nlinarith)
  rw [range_table_f32_eq _ d v w (by omega) hv' hw]
  exact round32_exp_tiny _ (by exact_mod_cast w1)

end RangeTableFloat

/-! ## Uniform images, in any arithmetic -/

section Uniform

variable {K : Type} [Add K] [Sub K] [Mul K] [Div K] [NatCast K] [One K]

omit [Add K] [Sub K] [Div K] [NatCast K] [One K] in
theorem decay_at_uniform (img : Nat → Nat) (tbl : Nat → K) (alpha : K) (p q : Nat)
    (h : same_pixel img p q) : decay_at img tbl alpha p q = tbl 0 * alpha := by
  obtain ⟨h0, h1, h2⟩ := h
  simp only [decay_at, h0, h1, h2, abs_diff_self, range_dist_zero]

omit [Add K] [Sub K] [Div K] [NatCast K] [One K] in
theorem decay_rev_uniform (img : Nat → Nat) (tbl : Nat → K) (alpha : K) (p q : Nat)
    (h : same_pixel img p q) : decay_rev img tbl alpha p q = tbl 0 * alpha := by
  obtain ⟨h0, h1, h2⟩ := h
  simp only [decay_rev, h0, h1, h2, abs_diff_self, range_dist_zero]

omit [Div K] [NatCast K] in
theorem ltr_fac_uniform (img : Nat → Nat) (tbl : Nat → K) (alpha : K) (W R : Nat)
    (hrow : uniform_row img W R) (hB : (1 - alpha) + tbl 0 * alpha * 1 = 1) (x : Nat)
    (hx : x < W) : ltr_fac img tbl alpha R x = 1 := by
  induction x with
  | zero => rfl
  | succ x ih =>
    simp only [ltr_fac, decay_at_uniform img tbl alpha _ _ (hrow (x + 1) x hx (by omega)),
      ih (by omega)]
    exact hB

omit [Div K] [NatCast K] in
theorem rtl_fac_uniform (img : Nat → Nat) (tbl : Nat → K) (alpha : K) (W R : Nat)
    (hrow : uniform_row img W R) (hB : (1 - alpha) + tbl 0 * alpha * 1 = 1) (j : Nat)
    (hj : j < W) : rtl_fac img tbl alpha W R j = 1 := by
  induction j with
  | zero => rfl
  | succ j ih =>
    simp only [rtl_fac, decay_rev_uniform img tbl alpha _ _
      (hrow (W - 2 - j) (W - 1 - j) (by omega) (by omega)), ih (by omega)]
    exact hB

theorem h_fac_uniform (img : Nat → Nat) (tbl : Nat → K) (alpha : K) (W R : Nat)
    (hrow : uniform_row img W R) (hB : (1 - alpha) + tbl 0 * alpha * 1 = 1)
    (hD : (1 / 2 : K) * (1 + 1) = 1) (x : Nat) (hx : x < W) :
    h_fac img tbl alpha W R x = 1 := by
  simp only [h_fac, ltr_fac_uniform img tbl alpha W R hrow hB x hx,
    rtl_fac_uniform img tbl alpha W R hrow hB (W - 1 - x) (by omega)]
  exact hD

/-- On a uniform image every factor is 1, given that the factor recursions of both passes
and the mean map 1 to 1. -/
theorem out_fac_uniform (img : Nat → Nat) (tbl : Nat → K) (alpha_h alpha_v : K) (W H : Nat)
    (himg : uniform_image img W H)
    (hB : (1 - alpha_h) + tbl 0 * alpha_h * 1 = 1)
    (hD : (1 / 2 : K) * (1 + 1) = 1)
    (hF : (1 - alpha_v) * 1 + tbl 0 * alpha_v * 1 = 1)
    (x : Nat) (hx : x < W) (y : Nat) (hy : y < H) :
    h_fac img tbl alpha_h W (y * (W * 3)) x = 1
    ∧ ttb_fac img tbl alpha_h alpha_v W x y = 1
    ∧ btt_fac img tbl alpha_h alpha_v W H x y = 1
    ∧ out_fac img tbl alpha_h alpha_v W H y x = 1 := by
  have hfac : ∀ y, y < H → h_fac img tbl alpha_h W (y * (W * 3)) x = 1 := fun y hy =>
    h_fac_uniform img tbl alpha_h W _ (fun a b ha hb => himg y y a b hy hy ha hb) hB hD x hx
  have httb : ∀ y, y < H → ttb_fac img tbl alpha_h alpha_v W x y = 1 := by
    intro y
    induction y with
    | zero =>
      intro h0
      have f0 := hfac 0 h0
      rw [Nat.zero_mul] at f0
      simp only [ttb_fac, f0]
    | succ y ih =>
      intro h1
      simp only [ttb_fac, hfac (y + 1) h1,
        decay_at_uniform img tbl alpha_v _ _ (himg (y + 1) y x x h1 (by omega) hx hx),
        ih (by omega)]
      exact hF
  have hbtt : ∀ j, j < H → btt_fac img tbl alpha_h alpha_v W H x j = 1 := by
    intro j
    induction j with
    | zero =>
      intro h0
      simp only [btt_fac, hfac (H - 1) (by omega)]
    | succ j ih =>
      intro h1
      simp only [btt_fac, hfac (H - 2 - j) (by omega),
        decay_at_uniform img tbl alpha_v _ _
          (himg (H - 2 - j) (H - 2 - j + 1) x x (by omega) (by omega) hx hx), ih (by omega)]
      exact hF
  refine ⟨hfac y hy, httb y hy, hbtt y hy, ?_⟩
  simp only [out_fac, httb y hy, hbtt (H - 1 - y) (by omega)]
  exact hD

/-- On a uniform gray image of level `v` every normalised value is `v`, given that the
recursions of both passes, the mean and the division by 1 map `v` to `v`. -/
theorem out_col_gray (img : Nat → Nat) (tbl : Nat → K) (alpha_h alpha_v : K) (W H v : Nat)
    (himg : ∀ i, i < W * H * 3 → img i = v)
    (hA : (1 - alpha_h) * (v : K) + tbl 0 * alpha_h * (v : K) = (v : K))
    (hB : (1 - alpha_h) + tbl 0 * alpha_h * 1 = 1)
    (hC : (1 / 2 : K) * ((v : K) + (v : K)) = (v : K))
    (hD : (1 / 2 : K) * (1 + 1) = 1)
    (hE : (1 - alpha_v) * (v : K) + tbl 0 * alpha_v * (v : K) = (v : K))
    (hF : (1 - alpha_v) * 1 + tbl 0 * alpha_v * 1 = 1)
    (hG : (v : K) / 1 = (v : K))
    (x c : Nat) (hx : x < W) (hc : c < 3) (y : Nat) (hy : y < H) :
    out_col img tbl alpha_h alpha_v W H y x c = (v : K) := by
  have hval : ∀ y x c, y < H → x < W → c < 3 → img (y * (W * 3) + 3 * x + c) = v := by
    intro y x c hy hx hc
    have h1 := row_le (W * 3) hy
    have h2 := rows_total W H
    exact himg _ (by omega)
  have hsame : ∀ y y' x x', y < H → y' < H → x < W → x' < W →
      same_pixel img (y * (W * 3) + 3 * x) (y' * (W * 3) + 3 * x') := by
    intro y y' x x' hy hy' hx hx'
    have a0 := hval y x 0 hy hx (by norm_num)
    have a1 := hval y x 1 hy hx (by norm_num)
    have a2 := hval y x 2 hy hx (by norm_num)
    have b0 := hval y' x' 0 hy' hx' (by norm_num)
    have b1 := hval y' x' 1 hy' hx' (by norm_num)
    have b2 := hval y' x' 2 hy' hx' (by norm_num)
    rw [Nat.add_zero] at a0 b0
    exact ⟨by rw [a0, b0], by rw [a1, b1], by rw [a2, b2]⟩
  have hfacs := fun x hx y hy =>
    out_fac_uniform img tbl alpha_h alpha_v W H hsame hB hD hF x hx y hy
  have hltr : ∀ y, y < H → ∀ x, x < W →
      ltr_col img tbl alpha_h (y * (W * 3)) c x = (v : K) := by
    intro y hy x
    induction x with
    | zero =>
      intro h0
      have := hval y 0 c hy h0 hc
      rw [Nat.mul_zero, Nat.add_zero] at this
      simp only [ltr_col, this]
    | succ x ih =>
      intro h1
      simp only [ltr_col, hval y (x + 1) c hy h1 hc,
        decay_at_uniform img tbl alpha_h _ _ (hsame y y (x + 1) x hy hy h1 (by omega)),
        ih (by omega)]
      exact hA
  have hrtl : ∀ y, y < H → ∀ j, j < W →
      rtl_col img tbl alpha_h W (y * (W * 3)) c j = (v : K) := by
    intro y hy j
    induction j with
    | zero =>
      intro h0
      have := hval y (W - 1) 0 hy (by omega) (by norm_num)
      rw [Nat.add_zero] at this
      simp only [rtl_col, this]
    | succ j ih =>
      intro h1
      simp only [rtl_col, hval y (W - 2 - j) c hy (by omega) hc,
        decay_rev_uniform img tbl alpha_h _ _
          (hsame y y (W - 2 - j) (W - 1 - j) hy hy (by omega) (by omega)), ih (by omega)]
      exact hA
  have hcol : ∀ y, y < H → h_col img tbl alpha_h W (y * (W * 3)) x c = (v : K) := by
    intro y hy
    simp only [h_col, hltr y hy x hx, hval y x c hy hx hc, hrtl y hy (W - 1 - x) (by omega)]
    split_ifs <;> exact hC
  have httb : ∀ y, y < H → ttb_col img tbl alpha_h alpha_v W x c y = (v : K) := by
    intro y
    induction y with
    | zero =>
      intro h0
      have c0 := hcol 0 h0
      rw [Nat.zero_mul] at c0
      simp only [ttb_col, c0]
    | succ y ih =>
      intro h1
      simp only [ttb_col, hcol (y + 1) h1,
        decay_at_uniform img tbl alpha_v _ _ (hsame (y + 1) y x x h1 (by omega) hx hx),
        ih (by omega)]
      exact hE
  have hbtt : ∀ j, j < H → btt_col img tbl alpha_h alpha_v W H x c j = (v : K) := by
    intro j
    induction j with
    | zero =>
      intro h0
      simp only [btt_col, hcol (H - 1) (by omega)]
    | succ j ih =>
      intro h1
      simp only [btt_col, hcol (H - 2 - j) (by omega),
        decay_at_uniform img tbl alpha_v _ _
          (hsame (H - 2 - j) (H - 2 - j + 1) x x (by omega) (by omega) hx hx), ih (by omega)]
      exact hE
  simp only [out_col, httb y hy, hbtt (H - 1 - y) (by omega), (hfacs x hx y hy).2.2.2, hC]
  exact hG

end Uniform

section FactorInterval

open F32

/-! ## Factors in single precision -/

/-- The decay between two pixels is a float of `[0, 1]`, at most `alpha`. -/
theorem decay_at_in01 (img : Nat → Nat) (tbl : Nat → F32) (alpha : F32) (a : ℚ)
    (ha : In01 alpha a) (ht : ∀ d, d ≤ 255 → ∃ t, In01 (tbl d) t) (p q : Nat) :
    ∃ e, In01 (decay_at img tbl alpha p q) e ∧ e ≤ a := by
  obtain ⟨t, ht⟩ := ht _ (range_dist_le (img p) (img q) (img (p + 1)) (img (q + 1))
    (img (p + 2)) (img (q + 2)))
  obtain ⟨c, hc, -, hca, -⟩ := in01_mul ht ha
  exact ⟨c, hc, hca⟩

theorem decay_rev_in01 (img : Nat → Nat) (tbl : Nat → F32) (alpha : F32) (a : ℚ)
    (ha : In01 alpha a) (ht : ∀ d, d ≤ 255 → ∃ t, In01 (tbl d) t) (p q : Nat) :
    ∃ e, In01 (decay_rev img tbl alpha p q) e ∧ e ≤ a := by
  obtain ⟨t, ht⟩ := ht _ (range_dist_le (img (p + 2)) (img (q + 2)) (img (p + 1)) (img (q + 1))
    (img p) (img q))
  obtain ⟨c, hc, -, hca, -⟩ := in01_mul ht ha
  exact ⟨c, hc, hca⟩

/-- One step of a horizontal factor recursion stays in `[lo, 1]`. -/
theorem fac_step_h {alpha d f : F32} {a e g lo : ℚ} (ha : In01 alpha a) (hd : In01 d e)
    (hea : e ≤ a) (hf : In01 f g) (rlo : Rep lo) (hlo : lo ≤ 1 - a) :
    ∃ r, In01 ((1 - alpha) + d * f) r ∧ lo ≤ r := by
  obtain ⟨i, hi, hiu, hil⟩ := in01_one_sub ha
  obtain ⟨c, hc, hce, -, -⟩ := in01_mul hd hf
  obtain ⟨r, hr, hrl⟩ := in01_add hi hc (by linarith)
  refine ⟨r, hr, hrl lo rlo ?_⟩
  have := hil lo rlo hlo
  have := hc.2.1.nonneg
  linarith

/-- One step of a vertical factor recursion stays in `[lo, 1]`. -/
theorem fac_step_v {alpha h d f : F32} {a hh e g lh lv lo : ℚ} (ha : In01 alpha a)
    (hh1 : In01 h hh) (hd : In01 d e) (hea : e ≤ a) (hf : In01 f g)
    (rlv : Rep lv) (rlo : Rep lo) (hlv : lv ≤ 1 - a) (hlh : lh ≤ hh) (h0 : 0 ≤ lh)
    (hlo : lo ≤ lv * lh) :
    ∃ r, In01 ((1 - alpha) * h + d * f) r ∧ lo ≤ r := by
  obtain ⟨i, hi, hiu, hil⟩ := in01_one_sub ha
  obtain ⟨m, hm, hmi, hmh, hml⟩ := in01_mul hi hh1
  obtain ⟨c, hc, hce, -, -⟩ := in01_mul hd hf
  obtain ⟨r, hr, hrl⟩ := in01_add hm hc (by linarith)
  refine ⟨r, hr, hrl lo rlo ?_⟩
  have h1 := hil lv rlv hlv
  have h2 : lo ≤ m := hml lo rlo (by
    have : lv * lh ≤ i * hh := mul_le_mul h1 hlh h0 hi.2.1.nonneg
    linarith)
  have := hc.2.1.nonneg
  linarith

/-- The mean of two factors of `[lo, 1]` is in `[lo, 1]`. -/
theorem fac_avg {x y : F32} {a b lo : ℚ} (hx : In01 x a) (hy : In01 y b) (rlo : Rep lo)
    (h1 : lo ≤ a) (h2 : lo ≤ b) : ∃ r, In01 (1 / 2 * (x + y)) r ∧ lo ≤ r := by
  obtain ⟨r, hr, hrl⟩ := in01_avg hx hy
  exact ⟨r, hr, hrl lo rlo (by linarith)⟩

/-- All factors are floats of `[0, 1]`, with lower bounds `lh` for the horizontal and `lo`
for the vertical ones, whenever `lh <= 1 - alpha_h`, `lv <= 1 - alpha_v`, `lo <= lv * lh`. -/
theorem factors_in01 (img : Nat → Nat) (tbl : Nat → F32) (alpha_h alpha_v : F32)
    (ah av lh lv lo : ℚ) (W H : Nat)
    (hh : In01 alpha_h ah) (hv : In01 alpha_v av) (ht : ∀ d, d ≤ 255 → ∃ t, In01 (tbl d) t)
    (rlh : Rep lh) (rlv : Rep lv) (rlo : Rep lo) (h1 : lh ≤ 1 - ah) (h2 : lv ≤ 1 - av)
    (h3 : lo ≤ lv * lh) (h4 : lo ≤ lh) :
    (∀ R x, ∃ g, In01 (ltr_fac img tbl alpha_h R x) g ∧ lh ≤ g)
    ∧ (∀ R x, ∃ g, In01 (h_fac img tbl alpha_h W R x) g ∧ lh ≤ g)
    ∧ (∀ x y, ∃ g, In01 (ttb_fac img tbl alpha_h alpha_v W x y) g ∧ lo ≤ g)
    ∧ (∀ y x, ∃ g, In01 (out_fac img tbl alpha_h alpha_v W H y x) g ∧ lo ≤ g) := by
  have ah0 := hh.2.1.nonneg
  have lh1 : lh ≤ 1 := by linarith
  have hltr : ∀ R x, ∃ g, In01 (ltr_fac img tbl alpha_h R x) g ∧ lh ≤ g := by
    intro R x
    induction x with
    | zero => exact ⟨1, in01_one, lh1⟩
    | succ x ih =>
      obtain ⟨g, hg, -⟩ := ih
      obtain ⟨e, he, hea⟩ := decay_at_in01 img tbl alpha_h ah hh ht (R + 3 * (x + 1)) (R + 3 * x)
      exact fac_step_h hh he hea hg rlh h1
  have hrtl : ∀ R j, ∃ g, In01 (rtl_fac img tbl alpha_h W R j) g ∧ lh ≤ g := by
    intro R j
    induction j with
    | zero => exact ⟨1, in01_one, lh1⟩
    | succ j ih =>
      obtain ⟨g, hg, -⟩ := ih
      obtain ⟨e, he, hea⟩ := decay_rev_in01 img tbl alpha_h ah hh ht (R + 3 * (W - 2 - j))
        (R + 3 * (W - 1 - j))
      exact fac_step_h hh he hea hg rlh h1
  have hhf : ∀ R x, ∃ g, In01 (h_fac img tbl alpha_h W R x) g ∧ lh ≤ g := by
    intro R x
    obtain ⟨a, ha, hal⟩ := hltr R x
    obtain ⟨b, hb, hbl⟩ := hrtl R (W - 1 - x)
    exact fac_avg ha hb rlh hal hbl
  have httb : ∀ x y, ∃ g, In01 (ttb_fac img tbl alpha_h alpha_v W x y) g ∧ lo ≤ g := by
    intro x y
    induction y with
    | zero =>
      obtain ⟨g, hg, hgl⟩ := hhf 0 x
      exact ⟨g, hg, by linarith⟩
    | succ y ih =>
      obtain ⟨g, hg, -⟩ := ih
      obtain ⟨f, hf, hfl⟩ := hhf ((y + 1) * (W * 3)) x
      obtain ⟨e, he, hea⟩ := decay_at_in01 img tbl alpha_v av hv ht
        ((y + 1) * (W * 3) + 3 * x) (y * (W * 3) + 3 * x)
      exact fac_step_v hv hf he hea hg rlv rlo h2 hfl rlh.nonneg h3
  have hbtt : ∀ x j, ∃ g, In01 (btt_fac img tbl alpha_h alpha_v W H x j) g ∧ lo ≤ g := by
    intro x j
    induction j with
    | zero =>
      obtain ⟨g, hg, hgl⟩ := hhf ((H - 1) * (W * 3)) x
      exact ⟨g, hg, by linarith⟩
    | succ j ih =>
      obtain ⟨g, hg, -⟩ := ih
      obtain ⟨f, hf, hfl⟩ := hhf ((H - 2 - j) * (W * 3)) x
      obtain ⟨e, he, hea⟩ := decay_at_in01 img tbl alpha_v av hv ht
        ((H - 2 - j) * (W * 3) + 3 * x) ((H - 2 - j + 1) * (W * 3) + 3 * x)
      exact fac_step_v hv hf he hea hg rlv rlo h2 hfl rlh.nonneg h3
  refine ⟨hltr, hhf, httb, ?_⟩
  intro y x
  obtain ⟨a, ha, hal⟩ := httb x y
  obtain ⟨b, hb, hbl⟩ := hbtt x (H - 1 - y)
  exact fac_avg ha hb rlo hal hbl

end FactorInterval

section FactorFixed

open F32

/-! ## Fixed points of the recursions in single precision -/

theorem in01_unit {x : F32} {g : ℚ} (h : In01 x g) : x = F32.fin g ∧ 0 ≤ g ∧ g ≤ 1 :=
  ⟨h.1, h.2.1.nonneg, h.2.2⟩

theorem one_mul_fin {a : ℚ} (ha : Rep a) : (1 : F32) * F32.fin a = F32.fin a := by
  rw [one_eq, mul_fin, one_mul]
  exact round32_rat ha

theorem mul_one_fin {a : ℚ} (ha : Rep a) : F32.fin a * (1 : F32) = F32.fin a := by
  rw [one_eq, mul_fin, mul_one]
  exact round32_rat ha

theorem div_one_fin {a : ℚ} (ha : Rep a) : F32.fin a / (1 : F32) = F32.fin a := by
  rw [one_eq, div_fin _ _ one_ne_zero, div_one]
  exact round32_rat ha

/-- The difference `1 - x` of a float `x` of `[0, 1]` is within `2 ^ (-25)` of `1 - a`. -/
theorem in01_one_sub_lower {x : F32} {a i : ℚ} (hx : In01 x a) (hi : 1 - x = F32.fin i) :
    1 - a - 1 / 33554432 ≤ i := by
  obtain ⟨rfl, ra, a1⟩ := hx
  have a0 := ra.nonneg
  have h0 : 0 ≤ 1 - a := by linarith
  rw [one_eq, sub_fin] at hi
  rcases h0.eq_or_lt with hz | hz
  · have e : round32 (1 - a) = F32.fin 0 := by rw [← hz]; exact round32_zero
    rw [hi] at e
    injection e with e
    rw [e]
    linarith
  rcases a0.eq_or_lt with ha | ha
  · have e : round32 (1 - a) = F32.fin 1 := by
      rw [← ha, sub_zero]; exact round32_rat rep_one
    rw [hi] at e
    injection e with e
    rw [e, ← ha]
    norm_num
  · have herr := round32_err hi
    have hj := ulp_exp_le_of_lt_one hz (by linarith)
    have hu : (2 : ℚ) ^ ulp_exp (1 - a) ≤ (2 : ℚ) ^ (-24 : ℤ) :=
      zpow_le_zpow_right₀ (by norm_num) hj
    have e24 : (2 : ℚ) ^ (-24 : ℤ) = 1 / 16777216 := by norm_num
    rw [e24] at hu
    rw [Rat.cast_id, abs_le] at herr
    linarith [herr.1, herr.2]

/-- The float sum `(1 - alpha) + alpha` is 1 for every float `alpha` of `[0, 1]`. -/
theorem one_sub_add_self {alpha : F32} {a : ℚ} (ha : In01 alpha a) :
    (1 - alpha) + alpha = 1 := by
  obtain ⟨i, hi, hiu, -⟩ := in01_one_sub ha
  have hl := in01_one_sub_lower ha hi.1
  rw [hi.1, ha.1, add_fin, one_eq]
  apply round32_near_one
  have e25 : (2 : ℚ) ^ (-25 : ℤ) = 1 / 33554432 := by norm_num
  rw [e25, abs_le]
  constructor <;> linarith

/-- The factor recursion of the horizontal pass maps 1 to 1 when the table entry is 1. -/
theorem fac_fix_h {alpha t : F32} {a : ℚ} (ha : In01 alpha a) (ht : t = 1) :
    (1 - alpha) + t * alpha * 1 = 1 := by
  have e : t * alpha * 1 = alpha := by
    rw [ht, ha.1, one_mul_fin ha.2.1, mul_one_fin ha.2.1]
  rw [e]
  exact one_sub_add_self ha

/-- The factor recursion of the vertical pass maps 1 to 1 when the table entry is 1. -/
theorem fac_fix_v {alpha t : F32} {a : ℚ} (ha : In01 alpha a) (ht : t = 1) :
    (1 - alpha) * 1 + t * alpha * 1 = 1 := by
  have e : t * alpha * 1 = alpha := by
    rw [ht, ha.1, one_mul_fin ha.2.1, mul_one_fin ha.2.1]
  obtain ⟨i, hi, -, -⟩ := in01_one_sub ha
  have e2 : (1 - alpha) * 1 = 1 - alpha := by
    rw [hi.1, mul_one_fin hi.2.1]
  rw [e, e2]
  exact one_sub_add_self ha

theorem half_two : (1 / 2 : F32) * (1 + 1) = 1 := by
  rw [half_eq, one_eq, add_fin]
  have e : (1 : ℚ) + 1 = 2 := by norm_num
  rw [e, round32_rat rep_two, mul_fin]
  have e2 : (1 / 2 : ℚ) * 2 = 1 := by norm_num
  rw [e2]
  exact round32_rat rep_one

end FactorFixed

section SpikeImage

open F32

/-! ## Bounds on the stored factors in single precision -/

theorem zero_add_zero : (F32.fin 0 + F32.fin 0 : F32) = F32.fin 0 := by
  rw [add_fin, add_zero]
  exact round32_zero

theorem zero_mul_fin (a : ℚ) : (F32.fin 0 * F32.fin a : F32) = F32.fin 0 := by
  rw [mul_fin, zero_mul]
  exact round32_zero

theorem one_sub_one : (1 - F32.fin 1 : F32) = F32.fin 0 := by
  rw [one_eq, sub_fin, sub_self]
  exact round32_zero

theorem half_zero : (1 / 2 : F32) * F32.fin 0 = F32.fin 0 := by
  rw [half_eq, mul_fin, mul_zero]
  exact round32_zero

theorem natCast_one : ((1 : ℕ) : F32) = F32.fin 1 := by
  have := natCast_eq 1 (by norm_num)
  simpa using this

/-- The decay coefficient for `sigma_spatial = 2 ^ 27` and height 1 is 1. -/
theorem decay_f32_one_h1 : decay_f32 (F32.fin 134217728) 1 = F32.fin 1 := by
  have ep : F32.fin 134217728 * ((1 : ℕ) : F32) = F32.fin 134217728 := by
    rw [natCast_one, mul_fin, mul_one]
    have h := round32_rat (rep_two_zpow 27 (by norm_num) (by norm_num))
    have e : (2 : ℚ) ^ (27 : ℤ) = 134217728 := by norm_num
    rw [e] at h
    exact h
  rw [decay_f32_of_fin _ _ _ ep (by norm_num)]
  have hs : Real.sqrt 2 ≤ 3 / 2 := sqrt_two_le
  have hs0 : 0 ≤ Real.sqrt 2 := Real.sqrt_nonneg 2
  apply round32_exp_near_one _ (by positivity)
  have e25 : (2 : ℝ) ^ (-25 : ℤ) = 1 / 33554432 := by norm_num
  have e : Real.sqrt 2 / ((134217728 : ℚ) : ℝ) = Real.sqrt 2 / 134217728 := by
    push_cast; ring
  rw [e25, e]
  linarith

/-- A factor step with `alpha = 1` and a table entry 0 gives 0. -/
theorem fac_step_zero (t f : F32) (g : ℚ) (ht : t = F32.fin 0) (hf : f = F32.fin g) :
    (1 - F32.fin 1) + t * F32.fin 1 * f = F32.fin 0 := by
  rw [ht, hf, one_sub_one, zero_mul_fin, zero_mul_fin, zero_add_zero]

/-- On the image `img_spike` with `alpha = 1` and table entry 255 equal to 0, the factors of
the middle pixel are 0 in both horizontal sweeps. -/
theorem spike_h_fac (tbl : Nat → F32) (ht : tbl 255 = F32.fin 0) :
    ltr_fac img_spike tbl (F32.fin 1) 0 1 = F32.fin 0
    ∧ h_fac img_spike tbl (F32.fin 1) 3 0 1 = F32.fin 0 := by
  have d1 : range_dist (abs_diff (img_spike (0 + 3 * (0 + 1))) (img_spike (0 + 3 * 0)))
      (abs_diff (img_spike (0 + 3 * (0 + 1) + 1)) (img_spike (0 + 3 * 0 + 1)))
      (abs_diff (img_spike (0 + 3 * (0 + 1) + 2)) (img_spike (0 + 3 * 0 + 2))) = 255 := by
    decide
  have d2 : range_dist
      (abs_diff (img_spike (0 + 3 * (3 - 2 - 0) + 2)) (img_spike (0 + 3 * (3 - 1 - 0) + 2)))
      (abs_diff (img_spike (0 + 3 * (3 - 2 - 0) + 1)) (img_spike (0 + 3 * (3 - 1 - 0) + 1)))
      (abs_diff (img_spike (0 + 3 * (3 - 2 - 0))) (img_spike (0 + 3 * (3 - 1 - 0)))) = 255 := by
    decide
  have l1 : ltr_fac img_spike tbl (F32.fin 1) 0 1 = F32.fin 0 := by
    show (1 - F32.fin 1) + decay_at img_spike tbl (F32.fin 1) (0 + 3 * (0 + 1)) (0 + 3 * 0)
      * ltr_fac img_spike tbl (F32.fin 1) 0 0 = F32.fin 0
    simp only [decay_at, d1]
    exact fac_step_zero _ _ 1 ht rfl
  have r1 : rtl_fac img_spike tbl (F32.fin 1) 3 0 1 = F32.fin 0 := by
    show (1 - F32.fin 1) + decay_rev img_spike tbl (F32.fin 1) (0 + 3 * (3 - 2 - 0))
      (0 + 3 * (3 - 1 - 0)) * rtl_fac img_spike tbl (F32.fin 1) 3 0 0 = F32.fin 0
    simp only [decay_rev, d2]
    exact fac_step_zero _ _ 1 ht rfl
  refine ⟨l1, ?_⟩
  show (1 / 2 : F32) * (ltr_fac img_spike tbl (F32.fin 1) 0 1
    + rtl_fac img_spike tbl (F32.fin 1) 3 0 (3 - 1 - 1)) = F32.fin 0
  rw [l1, r1, zero_add_zero, half_zero]

/-- On the image `img_spike` with both decay coefficients 1 and table entry 255 equal to 0,
the divisor of the middle pixel is 0. -/
theorem spike_out_fac (tbl : Nat → F32) (ht : tbl 255 = F32.fin 0) :
    out_fac img_spike tbl (F32.fin 1) (F32.fin 1) 3 1 0 1 = F32.fin 0 := by
  have h := (spike_h_fac tbl ht).2
  show (1 / 2 : F32) * (h_fac img_spike tbl (F32.fin 1) 3 0 1
    + h_fac img_spike tbl (F32.fin 1) 3 ((1 - 1) * (3 * 3)) 1) = F32.fin 0
  rw [show (1 - 1) * (3 * 3) = 0 from rfl, h, zero_add_zero, half_zero]

/-- C8, as stated, fails in `float` arithmetic: on the image of width 3 and height 1 with
pixels (0,0,0), (255,255,255), (0,0,0), `sigma_spatial = 2 ^ 27` and `sigma_range = 2 ^ (-8)`,
the decay coefficient is 1, `1 - alpha` is 0 and entry 255 of the table is 0, so the factor
the left-to-right sweep stores in `map_factor_a` for the middle pixel is 0, and so is the
divisor in `map_factor_b` at the end of the vertical pass. -/
theorem C8_counterexample :
    (h_ltr img_spike (range_table_f32 (F32.fin (1 / 256))) (decay_f32 (F32.fin 134217728) 3)
        (1 - decay_f32 (F32.fin 134217728) 3) 3 ((layout 3 1 3).img_temp + 0 * (3 * 3))
        (0 * (3 * 3)) ((layout 3 1 3).map_factor_a + 0 * 3) (fun _ => F32.fin 0)).buf
        ((layout 3 1 3).map_factor_a + 0 * 3 + 1) = F32.fin 0
    ∧ sweeps img_spike (range_table_f32 (F32.fin (1 / 256))) (decay_f32 (F32.fin 134217728) 3)
        (decay_f32 (F32.fin 134217728) 1) 3 1 3 (fun _ => F32.fin 0)
        ((layout 3 1 3).map_factor_b + 0 * 3 + 1) = F32.fin 0 := by
  have ht := range_table_f32_zero 255 (by norm_num) (le_refl _)
  rw [decay_f32_one, decay_f32_one_h1]
  constructor
  · have h := h_ltr_row img_spike (range_table_f32 (F32.fin (1 / 256))) (F32.fin 1) 3 1
      (fun _ => F32.fin 0) 0 (by norm_num) (by norm_num)
    rw [h.fac 1 (by norm_num)]
    exact (spike_h_fac _ ht).1
  · have hs := sweeps_spec img_spike (range_table_f32 (F32.fin (1 / 256))) (F32.fin 1)
      (F32.fin 1) 3 1 (fun _ => F32.fin 0) (by norm_num) (by norm_num)
    have e : (layout 3 1 3).map_factor_b + 0 * 3 + 1 = 3 * 1 * 3 + 3 * 1 * 3 + 3 * 1 + 0 * 3 + 1 := by
      rw [layout_map_factor_b]
    rw [e, hs.fac_done 0 1 (by norm_num) (by norm_num) (by norm_num)]
    exact spike_out_fac _ ht

/-- C8. For a three-channel image of width and height at least 1, a positive finite float
`sigma_spatial` and a float `sigma_range` in `[2 ^ (-64), 2 ^ 64]`, every normalisation factor
`_recursive_bf` stores in `float` arithmetic is a finite float in `[0, 1]`: in `map_factor_a`
on leaving the left-to-right loop of a row (whatever content `b` the buffer had on entering
the row) and after the horizontal pass, and in `map_factor_b` after the top-to-bottom sweep
and after the bottom-to-top sweep. -/
theorem C8_factor_bounds (img : Nat → Nat) (sigma_spatial sigma_range : ℚ) (W H : Nat)
    (buf b : Nat → F32) (hW : 1 ≤ W) (hH : 1 ≤ H)
    (hs : Rep sigma_spatial) (hs0 : 0 < sigma_spatial)
    (hr : Rep sigma_range) (hr1 : (2 : ℚ) ^ (-64 : ℤ) ≤ sigma_range)
    (hr2 : sigma_range ≤ (2 : ℚ) ^ (64 : ℤ))
    (y x : Nat) (hy : y < H) (hx : x < W) :
    (∃ f : ℚ, (h_ltr img (range_table_f32 (F32.fin sigma_range))
          (decay_f32 (F32.fin sigma_spatial) W) (1 - decay_f32 (F32.fin sigma_spatial) W) W
          ((layout W H 3).img_temp + y * (W * 3)) (y * (W * 3))
          ((layout W H 3).map_factor_a + y * W) b).buf ((layout W H 3).map_factor_a + y * W + x)
        = F32.fin f ∧ 0 ≤ f ∧ f ≤ 1)
    ∧ (∃ f : ℚ, h_pass img (range_table_f32 (F32.fin sigma_range))
          (decay_f32 (F32.fin sigma_spatial) W) W H 3 buf
          ((layout W H 3).map_factor_a + y * W + x) = F32.fin f ∧ 0 ≤ f ∧ f ≤ 1)
    ∧ (∃ f : ℚ, v_fwd_pass img (range_table_f32 (F32.fin sigma_range))
          (decay_f32 (F32.fin sigma_spatial) H) W H 3
          (v_init W H 3 (h_pass img (range_table_f32 (F32.fin sigma_range))
            (decay_f32 (F32.fin sigma_spatial) W) W H 3 buf))
          ((layout W H 3).map_factor_b + y * W + x) = F32.fin f ∧ 0 ≤ f ∧ f ≤ 1)
    ∧ (∃ f : ℚ, sweeps img (range_table_f32 (F32.fin sigma_range))
          (decay_f32 (F32.fin sigma_spatial) W) (decay_f32 (F32.fin sigma_spatial) H)
          W H 3 buf ((layout W H 3).map_factor_b + y * W + x) = F32.fin f ∧ 0 ≤ f ∧ f ≤ 1) := by
  obtain ⟨ah, hah⟩ := decay_f32_in01 sigma_spatial hs hs0 W hW
  obtain ⟨av, hav⟩ := decay_f32_in01 sigma_spatial hs hs0 H hH
  have ht := (range_table_f32_in01 sigma_range hr hr1 hr2).2
  obtain ⟨f1, f2, f3, f4⟩ := factors_in01 img (range_table_f32 (F32.fin sigma_range))
    (decay_f32 (F32.fin sigma_spatial) W) (decay_f32 (F32.fin sigma_spatial) H) ah av 0 0 0 W H
    hah hav ht rep_zero rep_zero rep_zero (by linarith [hah.2.2]) (by linarith [hav.2.2])
    (by norm_num) (le_refl _)
  have hH3 := rows_total W H
  have hA3 := row_le (W * 3) hy
  have hp := h_pass_spec img (range_table_f32 (F32.fin sigma_range))
    (decay_f32 (F32.fin sigma_spatial) W) W H buf hW
  have hd : HDone img (range_table_f32 (F32.fin sigma_range))
      (decay_f32 (F32.fin sigma_spatial) W) W H
      (h_pass img (range_table_f32 (F32.fin sigma_range))
        (decay_f32 (F32.fin sigma_spatial) W) W H 3 buf) := ⟨hp.1, hp.2.1⟩
  have hv := v_fwd_pass_spec img (range_table_f32 (F32.fin sigma_range))
    (decay_f32 (F32.fin sigma_spatial) W) (decay_f32 (F32.fin sigma_spatial) H) W H _ hH hd
  have hsw := sweeps_spec img (range_table_f32 (F32.fin sigma_range))
    (decay_f32 (F32.fin sigma_spatial) W) (decay_f32 (F32.fin sigma_spatial) H) W H buf hW hH
  simp only [layout_img_temp, layout_map_factor_a, layout_map_factor_b]
  refine ⟨?_, ?_, ?_, ?_⟩
  · have hl := h_ltr_inv img (range_table_f32 (F32.fin sigma_range))
      (decay_f32 (F32.fin sigma_spatial) W) W
      (W * H * 3 + y * (W * 3)) (y * (W * 3)) (W * H * 3 + W * H * 3 + y * W) b hW (by omega)
    rw [hl.fac x (by omega)]
    obtain ⟨g, hg, -⟩ := f1 (y * (W * 3)) x
    exact ⟨g, in01_unit hg⟩
  · rw [hp.2.1 y x hy hx]
    obtain ⟨g, hg, -⟩ := f2 (y * (W * 3)) x
    exact ⟨g, in01_unit hg⟩
  · rw [hv.2.fac y x hy hx]
    obtain ⟨g, hg, -⟩ := f3 x y
    exact ⟨g, in01_unit hg⟩
  · simp only [sweeps] at hsw ⊢
    rw [hsw.fac_done y x hy (by omega) hx]
    obtain ⟨g, hg, -⟩ := f4 y x
    exact ⟨g, in01_unit hg⟩

end SpikeImage

section QuantizeFloat

open F32

/-! ## The image on return in single precision -/

theorem quantize_loop_f32 (f : Nat → Option Nat) (v : Nat → Nat) (img : Nat → Nat) (n : Nat)
    (h : ∀ i, i < n → f i = some (v i)) :
    loopUp 0 (fun i r => r.bind fun img => (f i).map fun x => store img i x) n (some img)
      = some (fun k => if k < n then v k else img k) := by
  induction n with
  | zero => simp [loopUp]
  | succ n ih =>
    simp only [loopUp, Nat.zero_add]
    rw [ih (fun i hi => h i (Nat.lt_succ_of_lt hi)), h n (Nat.lt_succ_self n)]
    simp only [Option.some_bind, Option.map_some']
    congr 1
    funext k
    by_cases hk : k = n
    · subst hk
      rw [store_eq _ _ rfl, if_pos (Nat.lt_succ_self _)]
    · rw [store_ne _ _ hk]
      by_cases h2 : k < n
      · rw [if_pos h2, if_pos (by omega)]
      · rw [if_neg h2, if_neg (by omega)]

/-- The image on return when every conversion is defined. -/
theorem quantize_f32_spec (W H C : Nat) (img : Nat → Nat) (buf : Nat → F32) (v : Nat → Nat)
    (h : ∀ i, i < W * H * C → to_uchar_f32 (buf i) = some (v i)) :
    quantize_f32 W H C img buf = some (fun k => if k < W * H * C then v k else img k) := by
  simp only [quantize_f32, layout_img_out_f, Nat.zero_add]
  exact quantize_loop_f32 (fun i => to_uchar_f32 (buf i)) v img (W * H * C) h

/-- The image `filter_passes_f32` returns, when every conversion is defined. -/
theorem filter_passes_f32_spec (img : Nat → Nat) (tbl : Nat → F32) (alpha_h alpha_v : F32)
    (W H : Nat) (buf : Nat → F32) (v : Nat → Nat) (hW : 1 ≤ W) (hH : 1 ≤ H)
    (h : ∀ y x c, y < H → x < W → c < 3 →
      to_uchar_f32 (out_col img tbl alpha_h alpha_v W H y x c)
        = some (v (y * (W * 3) + 3 * x + c))) :
    filter_passes_f32 img tbl alpha_h alpha_v W H 3 buf
      = some (fun k => if k < W * H * 3 then v k else img k) := by
  have hs := sweeps_spec img tbl alpha_h alpha_v W H buf hW hH
  simp only [filter_passes_f32]
  apply quantize_f32_spec
  intro i hi
  obtain ⟨y, x, c, hy, hx, hc, rfl⟩ := pixel_index W H i hi
  rw [hs.col_done y x c hy (by omega) hx hc]
  exact h y x c hy hx hc

theorem to_uchar_f32_nat (n : ℕ) (h : n < 256) : to_uchar_f32 (F32.fin n) = some n := by
  have h1 : (-1 : ℚ) < (n : ℚ) := by
    have : (0 : ℚ) ≤ (n : ℚ) := Nat.cast_nonneg n
    linarith
  have h2 : (n : ℚ) < 256 := by exact_mod_cast h
  simp only [to_uchar_f32, if_pos (And.intro h1 h2), Nat.floor_natCast]

/-! ## Gray images with `alpha` just below `2 ^ (-17)` -/

/-- The float `1 - alpha` for `alpha` just below `2 ^ (-17)`. -/
theorem one_sub_window {a : ℚ} (h1 : 511 / 67108864 ≤ a) (h2 : a ≤ 1023 / 134217728) :
    (1 : F32) - F32.fin a = F32.fin (131071 / 131072) := by
  rw [one_eq, sub_fin]
  exact round32_at (-24) 16777088 (1 / 16777216) _ (by norm_num) (by norm_num) (by norm_num)
    (by linarith) (by linarith) (by norm_num) (by linarith) (by linarith)

theorem natCast_131 : ((131 : ℕ) : F32) = F32.fin 131 := by
  have := natCast_eq 131 (by norm_num)
  simpa using this

theorem natCast_100 : ((100 : ℕ) : F32) = F32.fin 100 := by
  have := natCast_eq 100 (by norm_num)
  simpa using this

/-- One step of a colour recursion on a gray image of level 131: the result is
`131 - 2 ^ (-16)` when the value before is a float in `[130, 131]`. -/
theorem gray131_step {a prev : ℚ} (ra : Rep a) (h1 : 511 / 67108864 ≤ a)
    (h2 : a ≤ 1023 / 134217728) (p1 : 130 ≤ prev) (p2 : prev ≤ 131) :
    (1 - F32.fin a) * ((131 : ℕ) : F32) + (1 : F32) * F32.fin a * F32.fin prev
      = F32.fin (8585215 / 65536) := by
  rw [one_sub_window h1 h2, natCast_131, one_mul_fin ra, mul_fin, mul_fin]
  have e1 : round32 (131071 / 131072 * 131 : ℚ) = F32.fin (8585150 / 65536) :=
    round32_at_even (-16) 8585150 (1 / 65536) _ (by norm_num) (by norm_num) (by norm_num)
      (by norm_num) (by norm_num) (by norm_num) (by norm_num) (by norm_num) (by norm_num)
  have rlo : Rep (66430 / 67108864) := by
    have := rep_mk 66430 (-26) (by norm_num) (by norm_num) (by norm_num)
    have e : ((66430 : ℕ) : ℚ) * (2 : ℚ) ^ (-26 : ℤ) = 66430 / 67108864 := by norm_num
    rwa [e] at this
  have rhi : Rep (134013 / 134217728) := by
    have := rep_mk 134013 (-27) (by norm_num) (by norm_num) (by norm_num)
    have e : ((134013 : ℕ) : ℚ) * (2 : ℚ) ^ (-27 : ℤ) = 134013 / 134217728 := by norm_num
    rwa [e] at this
  have a0 : 0 ≤ a := ra.nonneg
  obtain ⟨p, hp, -, q1, q2⟩ := round32_between (x := a * prev) rlo rhi
    (by rw [Rat.cast_id]; nlinarith) (by rw [Rat.cast_id]; nlinarith)
  rw [e1, hp, add_fin]
  exact round32_at (-16) 8585215 (1 / 65536) _ (by norm_num) (by norm_num) (by norm_num)
    (by linarith) (by linarith) (by norm_num) (by linarith) (by linarith)

/-- One step of a colour recursion on a gray image of level 100 keeps the level. -/
theorem gray100_step {a : ℚ} (ra : Rep a) (h1 : 511 / 67108864 ≤ a)
    (h2 : a ≤ 1023 / 134217728) :
    (1 - F32.fin a) * ((100 : ℕ) : F32) + (1 : F32) * F32.fin a * ((100 : ℕ) : F32)
      = ((100 : ℕ) : F32) := by
  rw [one_sub_window h1 h2, natCast_100, one_mul_fin ra, mul_fin, mul_fin]
  have e1 : round32 (131071 / 131072 * 100 : ℚ) = F32.fin (13107100 / 131072) :=
    round32_at (-17) 13107100 (1 / 131072) _ (by norm_num) (by norm_num) (by norm_num)
      (by norm_num) (by norm_num) (by norm_num) (by norm_num) (by norm_num)
  have rlo : Rep (51100 / 67108864) := by
    have := rep_mk 51100 (-26) (by norm_num) (by norm_num) (by norm_num)
    have e : ((51100 : ℕ) : ℚ) * (2 : ℚ) ^ (-26 : ℤ) = 51100 / 67108864 := by norm_num
    rwa [e] at this
  have rhi : Rep (102300 / 134217728) := by
    have := rep_mk 102300 (-27) (by norm_num) (by norm_num) (by norm_num)
    have e : ((102300 : ℕ) : ℚ) * (2 : ℚ) ^ (-27 : ℤ) = 102300 / 134217728 := by norm_num
    rwa [e] at this
  have a0 : 0 ≤ a := ra.nonneg
  obtain ⟨p, hp, -, q1, q2⟩ := round32_between (x := a * 100) rlo rhi
    (by rw [Rat.cast_id]; linarith) (by rw [Rat.cast_id]; linarith)
  rw [e1, hp, add_fin]
  exact round32_at (-17) 13107200 (1 / 131072) _ (by norm_num) (by norm_num) (by norm_num)
    (by linarith) (by linarith) (by norm_num) (by linarith) (by linarith)

theorem half_add_self {q : ℚ} (rq : Rep q) (h : q ≤ 256) :
    (1 / 2 : F32) * (F32.fin q + F32.fin q) = F32.fin q := by
  have r2 : Rep (q + q) := by
    obtain ⟨M, k, hM, hk, rfl, hlt⟩ := rq
    refine ⟨M, k + 1, hM, by omega, ?_, ?_⟩
    · rw [zpow_add₀ (by norm_num)]; ring
    · have h128 : (512 : ℚ) < (2 : ℚ) ^ (128 : ℤ) := by norm_num
      linarith
  rw [add_fin, round32_rat r2, half_eq, mul_fin]
  have e : (1 / 2 : ℚ) * (q + q) = q := by ring
  rw [e]
  exact round32_rat rq

/-- The mean of 131 and `131 - 2 ^ (-16)` is 131 in `float` arithmetic. -/
theorem half_131_w : (1 / 2 : F32) * (F32.fin 131 + F32.fin (8585215 / 65536)) = F32.fin 131 := by
  rw [add_fin]
  have e1 : round32 (131 + 8585215 / 65536 : ℚ) = F32.fin 262 :=
    round32_at_even (-15) 8585216 (1 / 32768) _ (by norm_num) (by norm_num) (by norm_num)
      (by norm_num) (by norm_num) (by norm_num) (by norm_num) (by norm_num) (by norm_num)
  rw [e1, half_eq, mul_fin]
  have e : (1 / 2 : ℚ) * 262 = 131 := by norm_num
  rw [e]
  exact round32_rat (by simpa using rep_natCast 131 (by norm_num))

theorem half_w_131 : (1 / 2 : F32) * (F32.fin (8585215 / 65536) + F32.fin 131) = F32.fin 131 := by
  rw [add_fin, add_comm, ← add_fin]
  exact half_131_w

theorem rep_w131 : Rep (8585215 / 65536) := by
  have := rep_mk 8585215 (-16) (by norm_num) (by norm_num) (by norm_num)
  have e : ((8585215 : ℕ) : ℚ) * (2 : ℚ) ^ (-16 : ℤ) = 8585215 / 65536 := by norm_num
  rwa [e] at this

theorem rep_131 : Rep 131 := by simpa using rep_natCast 131 (by norm_num)

end QuantizeFloat

section GrayRow

open F32

/-! ## The gray image of level 131, width 3 and height 1 -/

/-- Normalised values of the image of width 3 and height 1 with all samples 131, for a
horizontal `alpha` just below `2 ^ (-17)`: 131 at the two outer pixels and `131 - 2 ^ (-16)`
at the middle pixel. -/
theorem gray131_out (img : Nat → Nat) (himg : ∀ i, i < 9 → img i = 131) (tbl : Nat → F32)
    (ht : tbl 0 = 1) (a : ℚ) (ra : Rep a) (h1 : 511 / 67108864 ≤ a) (h2 : a ≤ 1023 / 134217728)
    (alpha_v : F32) (av : ℚ) (hv : In01 alpha_v av) (c : Nat) (hc : c < 3) :
    out_col img tbl (F32.fin a) alpha_v 3 1 0 0 c = F32.fin 131
    ∧ out_col img tbl (F32.fin a) alpha_v 3 1 0 1 c = F32.fin (8585215 / 65536)
    ∧ out_col img tbl (F32.fin a) alpha_v 3 1 0 2 c = F32.fin 131 := by
  have ha : In01 (F32.fin a) a := ⟨rfl, ra, by linarith⟩
  have hcast : ∀ i, i < 9 → ((img i : ℕ) : F32) = ((131 : ℕ) : F32) := by
    intro i hi
    rw [himg i hi]
  have hsame : ∀ p q, p + 2 < 9 → q + 2 < 9 → same_pixel img p q := by
    intro p q hp hq
    refine ⟨?_, ?_, ?_⟩
    · rw [himg p (by omega), himg q (by omega)]
    · rw [himg (p + 1) (by omega), himg (q + 1) (by omega)]
    · rw [himg (p + 2) (by omega), himg (q + 2) (by omega)]
  have huni : uniform_image img 3 1 := by
    intro y y' x x' hy hy' hx hx'
    apply hsame <;> omega
  have hfac : ∀ x, x < 3 → out_fac img tbl (F32.fin a) alpha_v 3 1 0 x = 1 := fun x hx =>
    (out_fac_uniform img tbl (F32.fin a) alpha_v 3 1 huni (fac_fix_h ha ht) half_two
      (fac_fix_v hv ht) x hx 0 (by norm_num)).2.2.2
  have hltr : ∀ x, x < 3 →
      ltr_col img tbl (F32.fin a) 0 c x
        = if x = 0 then F32.fin 131 else F32.fin (8585215 / 65536) := by
    intro x
    induction x with
    | zero =>
      intro _
      simp only [ltr_col]
      rw [hcast (0 + c) (by omega), natCast_131]
      exact (if_pos trivial).symm
    | succ x ih =>
      intro hx
      simp only [ltr_col]
      rw [hcast (0 + 3 * (x + 1) + c) (by omega),
        decay_at_uniform img tbl _ (0 + 3 * (x + 1)) (0 + 3 * x)
          (hsame _ _ (by omega) (by omega)),
        ht, ih (by omega), if_neg (Nat.succ_ne_zero x)]
      by_cases h0 : x = 0
      · rw [if_pos h0]
        exact gray131_step ra h1 h2 (by norm_num) (by norm_num)
      · rw [if_neg h0]
        exact gray131_step ra h1 h2 (by norm_num) (by norm_num)
  have hrtl : ∀ j, j < 3 →
      rtl_col img tbl (F32.fin a) 3 0 c j
        = if j = 0 then F32.fin 131 else F32.fin (8585215 / 65536) := by
    intro j
    induction j with
    | zero =>
      intro _
      simp only [rtl_col]
      rw [hcast (0 + 3 * (3 - 1)) (by omega), natCast_131]
      exact (if_pos trivial).symm
    | succ j ih =>
      intro hj
      simp only [rtl_col]
      rw [hcast (0 + 3 * (3 - 2 - j) + c) (by omega),
        decay_rev_uniform img tbl _ (0 + 3 * (3 - 2 - j)) (0 + 3 * (3 - 1 - j))
          (hsame _ _ (by omega) (by omega)),
        ht, ih (by omega), if_neg (Nat.succ_ne_zero j)]
      by_cases h0 : j = 0
      · rw [if_pos h0]
        exact gray131_step ra h1 h2 (by norm_num) (by norm_num)
      · rw [if_neg h0]
        exact gray131_step ra h1 h2 (by norm_num) (by norm_num)
  have l0 : ltr_col img tbl (F32.fin a) 0 c 0 = F32.fin 131 := by
    rw [hltr 0 (by norm_num)]
    exact if_pos rfl
  have l1 : ltr_col img tbl (F32.fin a) 0 c 1 = F32.fin (8585215 / 65536) := by
    rw [hltr 1 (by norm_num)]
    exact if_neg (by norm_num)
  have l2 : ltr_col img tbl (F32.fin a) 0 c 2 = F32.fin (8585215 / 65536) := by
    rw [hltr 2 (by norm_num)]
    exact if_neg (by norm_num)
  have r1 : rtl_col img tbl (F32.fin a) 3 0 c (3 - 1 - 1) = F32.fin (8585215 / 65536) := by
    rw [hrtl (3 - 1 - 1) (by norm_num)]
    exact if_neg (by norm_num)
  have r2 : rtl_col img tbl (F32.fin a) 3 0 c (3 - 1 - 0) = F32.fin (8585215 / 65536) := by
    rw [hrtl (3 - 1 - 0) (by norm_num)]
    exact if_neg (by norm_num)
  have hh0 : h_col img tbl (F32.fin a) 3 0 0 c = F32.fin 131 := by
    simp only [h_col]
    rw [if_neg (by norm_num), l0, r2]
    exact half_131_w
  have hh1 : h_col img tbl (F32.fin a) 3 0 1 c = F32.fin (8585215 / 65536) := by
    simp only [h_col]
    rw [if_neg (by norm_num), l1, r1]
    exact half_add_self rep_w131 (by norm_num)
  have hh2 : h_col img tbl (F32.fin a) 3 0 2 c = F32.fin 131 := by
    simp only [h_col]
    rw [if_pos (by norm_num), l2, hcast (0 + 3 * 2 + c) (by omega), natCast_131]
    exact half_w_131
  have hout : ∀ x, x < 3 → ∀ q, Rep q → q ≤ 256 →
      h_col img tbl (F32.fin a) 3 0 x c = F32.fin q →
      out_col img tbl (F32.fin a) alpha_v 3 1 0 x c = F32.fin q := by
    intro x hx q rq hq hh
    simp only [out_col, ttb_col, btt_col]
    rw [hfac x hx, show (1 - 1) * (3 * 3) = 0 from rfl, hh, half_add_self rq hq]
    exact div_one_fin rq
  exact ⟨hout 0 (by norm_num) 131 rep_131 (by norm_num) hh0,
    hout 1 (by norm_num) _ rep_w131 (by norm_num) hh1,
    hout 2 (by norm_num) 131 rep_131 (by norm_num) hh2⟩

end GrayRow

section GrayImage

open F32

/-! ## Sigmas 0.03, 0.04 and 0.1 -/

/-- The `float` nearest 0.04. -/
theorem round32_004 : round32 (4 / 100 : ℚ) = F32.fin (5368709 / 134217728) :=
  round32_at (-28) 10737418 (1 / 268435456) _ (by norm_num) (by norm_num) (by norm_num)
    (by norm_num) (by norm_num) (by norm_num) (by norm_num) (by norm_num)

theorem rep_012 : Rep (16106127 / 134217728) := by
  have := rep_mk 16106127 (-27) (by norm_num) (by norm_num) (by norm_num)
  have e : ((16106127 : ℕ) : ℚ) * (2 : ℚ) ^ (-27 : ℤ) = 16106127 / 134217728 := by norm_num
  rwa [e] at this

theorem rep_004 : Rep (5368709 / 134217728) := by
  have := rep_mk 5368709 (-27) (by norm_num) (by norm_num) (by norm_num)
  have e : ((5368709 : ℕ) : ℚ) * (2 : ℚ) ^ (-27 : ℤ) = 5368709 / 134217728 := by norm_num
  rwa [e] at this

theorem natCast_four : ((4 : ℕ) : F32) = F32.fin 4 := by
  have := natCast_eq 4 (by norm_num)
  simpa using this

/-- The decay coefficient for `sigma_spatial = 0.04f` and width 3 is just below
`2 ^ (-17)`. -/
theorem decay_004_3 : ∃ a, decay_f32 (round32 (4 / 100 : ℚ)) 3 = F32.fin a ∧ Rep a
    ∧ 511 / 67108864 ≤ a ∧ a ≤ 1023 / 134217728 := by
  have ep : round32 (4 / 100 : ℚ) * ((3 : ℕ) : F32) = F32.fin (16106127 / 134217728) := by
    rw [round32_004, natCast_three, mul_fin]
    have e : (5368709 / 134217728 : ℚ) * 3 = 16106127 / 134217728 := by norm_num
    rw [e]
    exact round32_rat rep_012
  rw [decay_f32_of_fin _ _ _ ep (by norm_num)]
  exact exp_sqrt_window _ (by norm_num) (by norm_num)

/-- The decay coefficient for `sigma_spatial = 0.03f` and width or height 4 is just below
`2 ^ (-17)`. -/
theorem decay_003_4 : ∃ a, decay_f32 (round32 (3 / 100 : ℚ)) 4 = F32.fin a ∧ Rep a
    ∧ 511 / 67108864 ≤ a ∧ a ≤ 1023 / 134217728 := by
  have ep : round32 (3 / 100 : ℚ) * ((4 : ℕ) : F32) = F32.fin (16106127 / 134217728) := by
    rw [round32_003, natCast_four, mul_fin]
    have e : (16106127 / 536870912 : ℚ) * 4 = 16106127 / 134217728 := by norm_num
    rw [e]
    exact round32_rat rep_012
  rw [decay_f32_of_fin _ _ _ ep (by norm_num)]
  exact exp_sqrt_window _ (by norm_num) (by norm_num)

/-- Entry 0 of the table for `sigma_range = 0.1f` is 1, and the entries are floats of
`[0, 1]`. -/
theorem table_01 : range_table_f32 (round32 (1 / 10 : ℚ)) 0 = 1
    ∧ ∀ d, d ≤ 255 → ∃ t, In01 (range_table_f32 (round32 (1 / 10 : ℚ)) d) t := by
  rw [round32_01]
  exact range_table_f32_in01 _ rep_01 (by norm_num) (by norm_num)

theorem to_uchar_w131 : to_uchar_f32 (F32.fin (8585215 / 65536)) = some 130 := by
  have h : (-1 : ℚ) < 8585215 / 65536 ∧ (8585215 / 65536 : ℚ) < 256 := by
    constructor <;> norm_num
  simp only [to_uchar_f32, if_pos h]
  congr 1
  rw [Nat.floor_eq_iff (by norm_num)]
  constructor <;> norm_num

/-! ## Gray images -/

/-- C1, as stated, fails in `float` arithmetic: on the image of width 3 and height 1 with
all samples 131, `sigma_spatial = 0.04f` and `sigma_range = 0.1f`, `recursive_bf` returns
131 131 131 130 130 130 131 131 131; the three samples of the middle pixel are changed. -/
theorem C1_counterexample :
    ∃ out, recursive_bf_f32 (fun _ => 131) (fun _ => 0) (round32 (4 / 100 : ℚ))
        (round32 (1 / 10 : ℚ)) 3 1 3 none (fun _ => F32.fin 0) = some out
      ∧ (List.range 9).map out = [131, 131, 131, 130, 130, 130, 131, 131, 131] := by
  obtain ⟨a, ha, ra, a1, a2⟩ := decay_004_3
  obtain ⟨av, hav⟩ : ∃ av, In01 (decay_f32 (round32 (4 / 100 : ℚ)) 1) av := by
    rw [round32_004]
    exact decay_f32_in01 _ rep_004 (by norm_num) 1 (le_refl _)
  have hcopy : ∀ k, k < 9 →
      loopUp 0 (fun i out => store out i ((fun _ => 131) i)) (3 * 1 * 3) (fun _ => 0) k
        = 131 := by
    intro k hk
    rw [copy_spec, if_pos (by omega)]
  have hres : recursive_bf_f32 (fun _ => 131) (fun _ => 0) (round32 (4 / 100 : ℚ))
      (round32 (1 / 10 : ℚ)) 3 1 3 none (fun _ => F32.fin 0)
      = some (fun k => if k < 3 * 1 * 3 then (fun k => if k / 3 = 1 then 130 else 131) k
          else loopUp 0 (fun i out => store out i ((fun _ => 131) i)) (3 * 1 * 3)
            (fun _ => 0) k) := by
    simp only [recursive_bf_f32, _recursive_bf_f32]
    rw [ha]
    apply filter_passes_f32_spec _ _ _ _ 3 1 _ (fun k => if k / 3 = 1 then 130 else 131)
      (by norm_num) (by norm_num)
    intro y x c hy hx hc
    have hy0 : y = 0 := by omega
    subst hy0
    obtain ⟨g0, g1, g2⟩ := gray131_out _ hcopy _ table_01.1 a ra a1 a2 _ av hav c hc
    have hx3 : x = 0 ∨ x = 1 ∨ x = 2 := by omega
    rcases hx3 with rfl | rfl | rfl
    · rw [g0, if_neg (by omega)]
      exact to_uchar_f32_nat 131 (by norm_num)
    · rw [g1, if_pos (by omega)]
      exact to_uchar_w131
    · rw [g2, if_neg (by omega)]
      exact to_uchar_f32_nat 131 (by norm_num)
  refine ⟨_, hres, ?_⟩
  simp only [List.range, List.range.loop, List.map]
  norm_num

/-- C1, amended to the instance of the specification, in `float` arithmetic: on the 4x4 image
with all samples 100, with `sigma_spatial = 0.03f` and `sigma_range = 0.1f`, `recursive_bf`
returns the image unchanged, whatever the content of the scratch storage and the previous
content of the output. -/
theorem C1_gray_unchanged (out0 : Nat → Nat) (buffer : Option (Nat → F32))
    (fresh : Nat → F32) :
    ∃ out, recursive_bf_f32 (fun _ => 100) out0 (round32 (3 / 100 : ℚ))
        (round32 (1 / 10 : ℚ)) 4 4 3 buffer fresh = some out
      ∧ ∀ k, k < 48 → out k = 100 := by
  obtain ⟨a, ha, ra, a1, a2⟩ := decay_003_4
  have hin : In01 (F32.fin a) a := ⟨rfl, ra, by linarith⟩
  have hcopy : ∀ k, k < 4 * 4 * 3 →
      loopUp 0 (fun i out => store out i ((fun _ => 100) i)) (4 * 4 * 3) out0 k = 100 := by
    intro k hk
    rw [copy_spec, if_pos hk]
  have ht := table_01.1
  have hstep : (1 - F32.fin a) * ((100 : ℕ) : F32)
      + range_table_f32 (round32 (1 / 10 : ℚ)) 0 * F32.fin a * ((100 : ℕ) : F32)
      = ((100 : ℕ) : F32) := by
    rw [ht]
    exact gray100_step ra a1 a2
  have r100 : Rep 100 := by simpa using rep_natCast 100 (by norm_num)
  have hres : recursive_bf_f32 (fun _ => 100) out0 (round32 (3 / 100 : ℚ))
      (round32 (1 / 10 : ℚ)) 4 4 3 buffer fresh
      = some (fun k => if k < 4 * 4 * 3 then (fun _ => 100) k
          else loopUp 0 (fun i out => store out i ((fun _ => 100) i)) (4 * 4 * 3) out0 k) := by
    simp only [recursive_bf_f32, _recursive_bf_f32]
    rw [ha]
    apply filter_passes_f32_spec _ _ _ _ 4 4 _ (fun _ => 100) (by norm_num) (by norm_num)
    intro y x c hy hx hc
    rw [out_col_gray _ _ _ _ 4 4 100 hcopy hstep (fac_fix_h hin ht)
      (by rw [natCast_100]; exact half_add_self r100 (by norm_num)) half_two hstep
      (fac_fix_v hin ht) (by rw [natCast_100]; exact div_one_fin r100) x c hx hc y hy,
      natCast_100]
    exact to_uchar_f32_nat 100 (by norm_num)
  refine ⟨_, hres, ?_⟩
  intro k hk
  simp only
  rw [if_pos (by omega)]

/-! ## Normalised values -/

end GrayImage

section TableDecay

open F32

theorem rep_half : Rep (1 / 2) := by
  have := rep_two_zpow (-1) (by norm_num) (by norm_num)
  have e : (2 : ℚ) ^ (-1 : ℤ) = 1 / 2 := by norm_num
  rwa [e] at this

theorem rep_eighth : Rep (1 / 8) := by
  have := rep_two_zpow (-3) (by norm_num) (by norm_num)
  have e : (2 : ℚ) ^ (-3 : ℤ) = 1 / 8 := by norm_num
  rwa [e] at this

theorem rep_inv32 : Rep (1 / 32) := by
  have := rep_two_zpow (-5) (by norm_num) (by norm_num)
  have e : (2 : ℚ) ^ (-5 : ℤ) = 1 / 32 := by norm_num
  rwa [e] at this

/-! ## Range table and decay coefficients in single precision -/

/-- C11, as stated, fails in `float` arithmetic: for width 3 the decay coefficient is 0 when
`sigma_spatial = 2 ^ (-9)` and 1 when `sigma_spatial = 2 ^ 27`. -/
theorem C11_counterexample :
    decay_f32 (F32.fin (1 / 512)) 3 = F32.fin 0
    ∧ decay_f32 (F32.fin 134217728) 3 = F32.fin 1 :=
  ⟨decay_f32_zero, decay_f32_one⟩

/-- The decay coefficient in terms of the float product `sigma_spatial * n`: 1 when the
product overflows, else the float nearest `exp(-sqrt(2) / p)`. -/
theorem decay_f32_cases (q : ℚ) (hq : Rep q) (hpos : 0 < q) (n : ℕ) (hn : 1 ≤ n) :
    (F32.fin q * ((n : ℕ) : F32) = F32.pinf ∧ decay_f32 (F32.fin q) n = F32.fin 1)
    ∨ ∃ p : ℚ, 0 < p ∧ F32.fin q * ((n : ℕ) : F32) = F32.fin p
      ∧ decay_f32 (F32.fin q) n = round32 (Real.exp (-(Real.sqrt 2 / (p : ℝ)))) := by
  rcases sigma_mul_cases q hq hpos n hn with h | ⟨p, hp, -, hle⟩
  · left
    refine ⟨h, ?_⟩
    simp only [decay_f32, h]
  · right
    have hp0 : 0 < p := lt_of_lt_of_le hpos hle
    exact ⟨p, hp0, hp, decay_f32_of_fin _ _ _ hp hp0.ne'⟩

/-- C11, amended, in `float` arithmetic: for every positive finite float `sigma_spatial` and
width and height of at least 1, the decay coefficients `_recursive_bf` passes to the
horizontal and to the vertical pass are finite floats in `[0, 1]`, both bounds being
reached for some inputs: each is 1 when the float product `p = sigma_spatial * n` overflows
and else the float nearest `exp(-sqrt(2) / p)`. -/
theorem C11_decay_in_unit_interval (img : Nat → Nat) (sigma_spatial : ℚ) (sigma_range : F32)
    (W H : Nat) (buffer fresh : Nat → F32)
    (hs : Rep sigma_spatial) (hs0 : 0 < sigma_spatial) (hW : 1 ≤ W) (hH : 1 ≤ H) :
    (∃ a : ℚ, decay_f32 (F32.fin sigma_spatial) W = F32.fin a ∧ 0 ≤ a ∧ a ≤ 1)
    ∧ (∃ a : ℚ, decay_f32 (F32.fin sigma_spatial) H = F32.fin a ∧ 0 ≤ a ∧ a ≤ 1)
    ∧ ((F32.fin sigma_spatial * ((W : ℕ) : F32) = F32.pinf
        ∧ decay_f32 (F32.fin sigma_spatial) W = F32.fin 1)
      ∨ ∃ p : ℚ, 0 < p ∧ F32.fin sigma_spatial * ((W : ℕ) : F32) = F32.fin p
        ∧ decay_f32 (F32.fin sigma_spatial) W
          = round32 (Real.exp (-(Real.sqrt 2 / (p : ℝ)))))
    ∧ ((F32.fin sigma_spatial * ((H : ℕ) : F32) = F32.pinf
        ∧ decay_f32 (F32.fin sigma_spatial) H = F32.fin 1)
      ∨ ∃ p : ℚ, 0 < p ∧ F32.fin sigma_spatial * ((H : ℕ) : F32) = F32.fin p
        ∧ decay_f32 (F32.fin sigma_spatial) H
          = round32 (Real.exp (-(Real.sqrt 2 / (p : ℝ)))))
    ∧ _recursive_bf_f32 img (F32.fin sigma_spatial) sigma_range W H 3 (some buffer) fresh
      = filter_passes_f32 img (range_table_f32 sigma_range) (decay_f32 (F32.fin sigma_spatial) W)
          (decay_f32 (F32.fin sigma_spatial) H) W H 3 buffer := by
  obtain ⟨a, ha⟩ := decay_f32_in01 sigma_spatial hs hs0 W hW
  obtain ⟨b, hb⟩ := decay_f32_in01 sigma_spatial hs hs0 H hH
  exact ⟨⟨a, in01_unit ha⟩, ⟨b, in01_unit hb⟩, decay_f32_cases sigma_spatial hs hs0 W hW,
    decay_f32_cases sigma_spatial hs hs0 H hH, rfl⟩

/-- Witness of C11 (amended): `sigma_spatial = 2 ^ (-5)`, width 4, height 2. -/
theorem C11_decay_in_unit_interval_witness :
    (∃ a : ℚ, decay_f32 (F32.fin (1 / 32)) 4 = F32.fin a ∧ 0 ≤ a ∧ a ≤ 1)
    ∧ (∃ a : ℚ, decay_f32 (F32.fin (1 / 32)) 2 = F32.fin a ∧ 0 ≤ a ∧ a ≤ 1)
    ∧ ((F32.fin (1 / 32) * ((4 : ℕ) : F32) = F32.pinf
        ∧ decay_f32 (F32.fin (1 / 32)) 4 = F32.fin 1)
      ∨ ∃ p : ℚ, 0 < p ∧ F32.fin (1 / 32) * ((4 : ℕ) : F32) = F32.fin p
        ∧ decay_f32 (F32.fin (1 / 32)) 4 = round32 (Real.exp (-(Real.sqrt 2 / (p : ℝ)))))
    ∧ ((F32.fin (1 / 32) * ((2 : ℕ) : F32) = F32.pinf
        ∧ decay_f32 (F32.fin (1 / 32)) 2 = F32.fin 1)
      ∨ ∃ p : ℚ, 0 < p ∧ F32.fin (1 / 32) * ((2 : ℕ) : F32) = F32.fin p
        ∧ decay_f32 (F32.fin (1 / 32)) 2 = round32 (Real.exp (-(Real.sqrt 2 / (p : ℝ)))))
    ∧ _recursive_bf_f32 img_step (F32.fin (1 / 32)) (F32.fin (1 / 8)) 4 2 3
        (some (fun _ => F32.fin 0)) (fun _ => F32.fin 0)
      = filter_passes_f32 img_step (range_table_f32 (F32.fin (1 / 8)))
          (decay_f32 (F32.fin (1 / 32)) 4) (decay_f32 (F32.fin (1 / 32)) 2) 4 2 3
          (fun _ => F32.fin 0) :=
  C11_decay_in_unit_interval img_step (1 / 32) (F32.fin (1 / 8)) 4 2 (fun _ => F32.fin 0)
    (fun _ => F32.fin 0) rep_inv32 (by norm_num) (by norm_num) (by norm_num)

/-! ## Witnesses for the factor bounds -/

/-- Witness of C8 (amended): a 2x2 image, pixel (1,1), `sigma_spatial = 2 ^ (-5)`,
`sigma_range = 2 ^ (-3)`. -/
theorem C8_factor_bounds_witness :
    (∃ f : ℚ, (h_ltr (fun i => 10 * i) (range_table_f32 (F32.fin (1 / 8)))
          (decay_f32 (F32.fin (1 / 32)) 2) (1 - decay_f32 (F32.fin (1 / 32)) 2) 2
          ((layout 2 2 3).img_temp + 1 * (2 * 3)) (1 * (2 * 3))
          ((layout 2 2 3).map_factor_a + 1 * 2) (fun _ => F32.fin 7)).buf
          ((layout 2 2 3).map_factor_a + 1 * 2 + 1)
        = F32.fin f ∧ 0 ≤ f ∧ f ≤ 1)
    ∧ (∃ f : ℚ, h_pass (fun i => 10 * i) (range_table_f32 (F32.fin (1 / 8)))
          (decay_f32 (F32.fin (1 / 32)) 2) 2 2 3 (fun _ => F32.fin 0)
          ((layout 2 2 3).map_factor_a + 1 * 2 + 1) = F32.fin f ∧ 0 ≤ f ∧ f ≤ 1)
    ∧ (∃ f : ℚ, v_fwd_pass (fun i => 10 * i) (range_table_f32 (F32.fin (1 / 8)))
          (decay_f32 (F32.fin (1 / 32)) 2) 2 2 3
          (v_init 2 2 3 (h_pass (fun i => 10 * i) (range_table_f32 (F32.fin (1 / 8)))
            (decay_f32 (F32.fin (1 / 32)) 2) 2 2 3 (fun _ => F32.fin 0)))
          ((layout 2 2 3).map_factor_b + 1 * 2 + 1) = F32.fin f ∧ 0 ≤ f ∧ f ≤ 1)
    ∧ (∃ f : ℚ, sweeps (fun i => 10 * i) (range_table_f32 (F32.fin (1 / 8)))
          (decay_f32 (F32.fin (1 / 32)) 2) (decay_f32 (F32.fin (1 / 32)) 2)
          2 2 3 (fun _ => F32.fin 0) ((layout 2 2 3).map_factor_b + 1 * 2 + 1)
        = F32.fin f ∧ 0 ≤ f ∧ f ≤ 1) :=
  C8_factor_bounds (fun i => 10 * i) (1 / 32) (1 / 8) 2 2 (fun _ => F32.fin 0)
    (fun _ => F32.fin 7) (by norm_num) (by norm_num) rep_inv32 (by norm_num) rep_eighth
    (by norm_num) (by norm_num) 1 1 (by norm_num) (by norm_num)

end TableDecay

section UniformFloat

open F32

/-! ## Where a factor equals 1, in single precision -/

/-- On a uniform image every stored horizontal factor and every final vertical factor is 1
in `float` arithmetic, whenever entry 0 of the table is 1 and the decay coefficients are
floats of `[0, 1]`. -/
theorem uniform_factors_f32 (img : Nat → Nat) (tbl : Nat → F32) (alpha_h alpha_v : F32)
    (ah av : ℚ) (W H : Nat) (buf : Nat → F32) (hW : 1 ≤ W) (hH : 1 ≤ H)
    (himg : uniform_image img W H) (ht : tbl 0 = 1) (hh : In01 alpha_h ah)
    (hv : In01 alpha_v av) (y x : Nat) (hy : y < H) (hx : x < W) :
    h_pass img tbl alpha_h W H 3 buf ((layout W H 3).map_factor_a + y * W + x) = F32.fin 1
    ∧ sweeps img tbl alpha_h alpha_v W H 3 buf ((layout W H 3).map_factor_b + y * W + x)
      = F32.fin 1 := by
  have hp := h_pass_spec img tbl alpha_h W H buf hW
  have hsw := sweeps_spec img tbl alpha_h alpha_v W H buf hW hH
  have hf := out_fac_uniform img tbl alpha_h alpha_v W H himg (fac_fix_h hh ht) half_two
    (fac_fix_v hv ht) x hx y hy
  rw [layout_map_factor_a, layout_map_factor_b, hp.2.1 y x hy hx,
    hsw.fac_done y x hy (by omega) hx, hf.1, hf.2.2.2]
  exact ⟨rfl, rfl⟩

/-- C17, as stated, fails, in `float` arithmetic too: on the uniform gray 3x3 image with
`sigma_spatial = 0.03f` and `sigma_range = 0.1f`, the stored horizontal factor and the final
vertical factor at the centre pixel (1, 1) are both 1, and the centre is neither in the
first or last column nor in the first or last row. -/
theorem C17_counterexample :
    h_pass (fun _ => 100) (range_table_f32 (round32 (1 / 10 : ℚ)))
        (decay_f32 (round32 (3 / 100 : ℚ)) 3) 3 3 3 (fun _ => F32.fin 0)
        ((layout 3 3 3).map_factor_a + 1 * 3 + 1) = F32.fin 1
    ∧ sweeps (fun _ => 100) (range_table_f32 (round32 (1 / 10 : ℚ)))
        (decay_f32 (round32 (3 / 100 : ℚ)) 3) (decay_f32 (round32 (3 / 100 : ℚ)) 3) 3 3 3
        (fun _ => F32.fin 0) ((layout 3 3 3).map_factor_b + 1 * 3 + 1) = F32.fin 1
    ∧ (0 < 1 ∧ 1 < 3 - 1) := by
  obtain ⟨a, ha⟩ : ∃ a, In01 (decay_f32 (round32 (3 / 100 : ℚ)) 3) a := by
    rw [round32_003]
    exact decay_f32_in01 _ rep_003 (by norm_num) 3 (by norm_num)
  have h := uniform_factors_f32 (fun _ => 100) (range_table_f32 (round32 (1 / 10 : ℚ)))
    (decay_f32 (round32 (3 / 100 : ℚ)) 3) (decay_f32 (round32 (3 / 100 : ℚ)) 3) a a 3 3
    (fun _ => F32.fin 0) (by norm_num) (by norm_num)
    (fun _ _ _ _ _ _ _ _ => ⟨rfl, rfl, rfl⟩) table_01.1 ha ha 1 1 (by norm_num) (by norm_num)
  exact ⟨h.1, h.2, by norm_num, by norm_num⟩

/-- C17, amended, in `float` arithmetic: for a positive finite float `sigma_spatial` and a
float `sigma_range` in `[2 ^ (-64), 2 ^ 64]`, the factor the left-to-right sweep stores at
column 0 of every row, its seed, is 1; and on every image whose pixels are all equal the
stored horizontal factor and the final vertical factor are 1 at every pixel, interior
pixels included. -/
theorem C17_factor_one (img : Nat → Nat) (sigma_spatial sigma_range : ℚ) (W H : Nat)
    (buf b : Nat → F32) (y x : Nat) (hs : Rep sigma_spatial) (hs0 : 0 < sigma_spatial)
    (hr : Rep sigma_range) (hr1 : (2 : ℚ) ^ (-64 : ℤ) ≤ sigma_range)
    (hr2 : sigma_range ≤ (2 : ℚ) ^ (64 : ℤ))
    (hW : 1 ≤ W) (hH : 1 ≤ H) (hy : y < H) (hx : x < W) :
    (h_ltr img (range_table_f32 (F32.fin sigma_range)) (decay_f32 (F32.fin sigma_spatial) W)
        (1 - decay_f32 (F32.fin sigma_spatial) W) W ((layout W H 3).img_temp + y * (W * 3))
        (y * (W * 3)) ((layout W H 3).map_factor_a + y * W) b).buf
        ((layout W H 3).map_factor_a + y * W + 0) = F32.fin 1
    ∧ (uniform_image img W H →
      h_pass img (range_table_f32 (F32.fin sigma_range)) (decay_f32 (F32.fin sigma_spatial) W)
          W H 3 buf ((layout W H 3).map_factor_a + y * W + x) = F32.fin 1
      ∧ sweeps img (range_table_f32 (F32.fin sigma_range)) (decay_f32 (F32.fin sigma_spatial) W)
          (decay_f32 (F32.fin sigma_spatial) H) W H 3 buf
          ((layout W H 3).map_factor_b + y * W + x) = F32.fin 1) := by
  obtain ⟨ah, hah⟩ := decay_f32_in01 sigma_spatial hs hs0 W hW
  obtain ⟨av, hav⟩ := decay_f32_in01 sigma_spatial hs hs0 H hH
  have ht : range_table_f32 (F32.fin sigma_range) 0 = 1 :=
    (range_table_f32_in01 sigma_range hr hr1 hr2).1
  constructor
  · have h := h_ltr_row img (range_table_f32 (F32.fin sigma_range))
      (decay_f32 (F32.fin sigma_spatial) W) W H b y hW hy
    rw [h.fac 0 (by omega)]
    rfl
  · intro himg
    exact uniform_factors_f32 img _ _ _ ah av W H buf hW hH himg ht hah hav y x hy hx

/-- Witness of C17 (amended): the uniform gray 3x3 image, centre pixel, `sigma_spatial =
2 ^ (-5)`, `sigma_range = 2 ^ (-3)`. -/
theorem C17_factor_one_witness :
    (h_ltr (fun _ => 100) (range_table_f32 (F32.fin (1 / 8))) (decay_f32 (F32.fin (1 / 32)) 3)
        (1 - decay_f32 (F32.fin (1 / 32)) 3) 3 ((layout 3 3 3).img_temp + 1 * (3 * 3))
        (1 * (3 * 3)) ((layout 3 3 3).map_factor_a + 1 * 3) (fun _ => F32.fin 7)).buf
        ((layout 3 3 3).map_factor_a + 1 * 3 + 0) = F32.fin 1
    ∧ h_pass (fun _ => 100) (range_table_f32 (F32.fin (1 / 8))) (decay_f32 (F32.fin (1 / 32)) 3)
        3 3 3 (fun _ => F32.fin 0) ((layout 3 3 3).map_factor_a + 1 * 3 + 1) = F32.fin 1
    ∧ sweeps (fun _ => 100) (range_table_f32 (F32.fin (1 / 8))) (decay_f32 (F32.fin (1 / 32)) 3)
        (decay_f32 (F32.fin (1 / 32)) 3) 3 3 3 (fun _ => F32.fin 0)
        ((layout 3 3 3).map_factor_b + 1 * 3 + 1) = F32.fin 1 :=
  ⟨(C17_factor_one (fun _ => 100) (1 / 32) (1 / 8) 3 3 (fun _ => F32.fin 0)
      (fun _ => F32.fin 7) 1 1 rep_inv32 (by norm_num) rep_eighth (by norm_num) (by norm_num)
      (by norm_num) (by norm_num) (by norm_num) (by norm_num)).1,
    (C17_factor_one (fun _ => 100) (1 / 32) (1 / 8) 3 3 (fun _ => F32.fin 0)
      (fun _ => F32.fin 7) 1 1 rep_inv32 (by norm_num) rep_eighth (by norm_num) (by norm_num)
      (by norm_num) (by norm_num) (by norm_num) (by norm_num)).2
      (fun _ _ _ _ _ _ _ _ => ⟨rfl, rfl, rfl⟩)⟩

end UniformFloat

section LeftToRight

open F32

/-! ## The left-to-right recurrence in single precision -/

theorem rep_quarter : Rep (1 / 4) := by
  have := rep_two_zpow (-2) (by norm_num) (by norm_num)
  have e : (2 : ℚ) ^ (-2 : ℤ) = 1 / 4 := by norm_num
  rwa [e] at this

theorem rep_three_quarters : Rep (3 / 4) := by
  have := rep_mk 3 (-2) (by norm_num) (by norm_num) (by norm_num)
  have e : ((3 : ℕ) : ℚ) * (2 : ℚ) ^ (-2 : ℤ) = 3 / 4 := by norm_num
  rwa [e] at this

theorem natCast_two : ((2 : ℕ) : F32) = F32.fin 2 := by
  have := natCast_eq 2 (by norm_num)
  simpa using this

/-- The decay coefficient for `sigma_spatial = 1` and width 2 lies in `[1/4, 3/4]`. -/
theorem decay_1_2 : ∃ a, decay_f32 (F32.fin 1) 2 = F32.fin a ∧ Rep a
    ∧ 1 / 4 ≤ a ∧ a ≤ 3 / 4 := by
  have ep : F32.fin 1 * ((2 : ℕ) : F32) = F32.fin 2 := by
    rw [natCast_two, mul_fin, one_mul]
    exact round32_rat rep_two
  rw [decay_f32_of_fin _ _ _ ep (by norm_num)]
  obtain ⟨s1, s2⟩ := sqrt_two_bounds
  have e : Real.sqrt 2 / ((2 : ℚ) : ℝ) = Real.sqrt 2 / 2 := by push_cast; ring
  rw [e]
  have hlo : (1 / 4 : ℝ) ≤ Real.exp (-(Real.sqrt 2 / 2)) := by
    have := Real.add_one_le_exp (-(Real.sqrt 2 / 2))
    linarith
  have hhi : Real.exp (-(Real.sqrt 2 / 2)) ≤ (3 / 4 : ℝ) := by
    rw [Real.exp_neg]
    have h1 := Real.add_one_le_exp (Real.sqrt 2 / 2)
    have h2 : (4 / 3 : ℝ) ≤ Real.exp (Real.sqrt 2 / 2) := by linarith
    have h3 : (Real.exp (Real.sqrt 2 / 2))⁻¹ ≤ (4 / 3 : ℝ)⁻¹ := inv_anti₀ (by norm_num) h2
    have e2 : (4 / 3 : ℝ)⁻¹ = 3 / 4 := by norm_num
    linarith
  exact round32_between rep_quarter rep_three_quarters (by push_cast; exact hlo)
    (by push_cast; exact hhi)

/-- Entry 255 of the table for `sigma_range = 2 ^ (-3)` is at most `2 ^ (-7)`. -/
theorem table_eighth_255 : ∃ t, range_table_f32 (F32.fin (1 / 8)) 255 = F32.fin t ∧ Rep t
    ∧ t ≤ 1 / 128 := by
  have r1 : Rep (255 / 8) := by
    have := rep_mk 255 (-3) (by norm_num) (by norm_num) (by norm_num)
    have e : ((255 : ℕ) : ℚ) * (2 : ℚ) ^ (-3 : ℤ) = 255 / 8 := by norm_num
    rwa [e] at this
  have r16 : Rep (1 / 16) := by
    have := rep_two_zpow (-4) (by norm_num) (by norm_num)
    have e : (2 : ℚ) ^ (-4 : ℤ) = 1 / 16 := by norm_num
    rwa [e] at this
  have r7 : Rep 7 := by simpa using rep_natCast 7 (by norm_num)
  have r16' : Rep 16 := by simpa using rep_natCast 16 (by norm_num)
  have r128 : Rep (1 / 128) := by
    have := rep_two_zpow (-7) (by norm_num) (by norm_num)
    have e : (2 : ℚ) ^ (-7 : ℤ) = 1 / 128 := by norm_num
    rwa [e] at this
  obtain ⟨v, hv, -, v1, v2⟩ := round32_between (x := (1 : ℚ) / (255 / 8)) rep_inv32 r16
    (by rw [Rat.cast_id]; norm_num) (by rw [Rat.cast_id]; norm_num)
  have hinv : (1 : F32) / (F32.fin (1 / 8) * ((255 : ℕ) : F32)) = F32.fin v := by
    rw [natCast_255, mul_fin]
    have e : (1 / 8 : ℚ) * 255 = 255 / 8 := by norm_num
    rw [e, round32_rat r1, one_eq, div_fin _ _ (by norm_num), hv]
  obtain ⟨w, hw, -, w1, w2⟩ := round32_between (x := ((255 : ℕ) : ℚ) * v) r7 r16'
    (by rw [Rat.cast_id]; push_cast; linarith) (by rw [Rat.cast_id]; push_cast; linarith)
  rw [range_table_f32_eq _ 255 v w (by norm_num) hinv hw]
  have hw7 : ((7 : ℕ) : ℝ) ≤ (w : ℝ) := by
    have : ((7 : ℚ) : ℝ) ≤ (w : ℝ) := Rat.cast_le.mpr w1
    push_cast at this ⊢
    exact this
  have hexp := exp_neg_le_half_pow (w : ℝ) 7 hw7
  have h0 : 0 ≤ Real.exp (-(w : ℝ)) := (Real.exp_pos _).le
  obtain ⟨t, ht, -, hle⟩ := round32_le_rep r128 h0 (by
    push_cast
    have e : ((1 : ℝ) / 2) ^ 7 = 1 / 128 := by norm_num
    rw [e] at hexp
    exact hexp)
  exact ⟨t, ht, round32_rep h0 ht, hle⟩

/-- C12, as stated, fails, in `float` arithmetic too: on the image with pixels (0,0,0) and
(255,255,255), `sigma_spatial = 1` and `sigma_range = 2 ^ (-3)`, the factor the left-to-right
sweep stores at column 1 is at most 97/128, while `(1 - a) + a * factor[0]` with
`a = alpha_h * table[distance(1, 0)]` is 1. -/
theorem C12_counterexample :
    ¬ ((h_ltr img_step (range_table_f32 (F32.fin (1 / 8))) (decay_f32 (F32.fin 1) 2)
          (1 - decay_f32 (F32.fin 1) 2) 2
          ((layout 2 1 3).img_temp + 0 * (2 * 3)) (0 * (2 * 3))
          ((layout 2 1 3).map_factor_a + 0 * 2) (fun _ => F32.fin 0)).buf
        ((layout 2 1 3).map_factor_a + 0 * 2 + 1)
      = (1 - decay_f32 (F32.fin 1) 2
            * range_table_f32 (F32.fin (1 / 8)) (pixel_dist img_step 3 0))
        + decay_f32 (F32.fin 1) 2 * range_table_f32 (F32.fin (1 / 8)) (pixel_dist img_step 3 0)
          * (h_ltr img_step (range_table_f32 (F32.fin (1 / 8))) (decay_f32 (F32.fin 1) 2)
              (1 - decay_f32 (F32.fin 1) 2) 2
              ((layout 2 1 3).img_temp + 0 * (2 * 3)) (0 * (2 * 3))
              ((layout 2 1 3).map_factor_a + 0 * 2) (fun _ => F32.fin 0)).buf
            ((layout 2 1 3).map_factor_a + 0 * 2 + 0)) := by
  have h := h_ltr_row img_step (range_table_f32 (F32.fin (1 / 8))) (decay_f32 (F32.fin 1) 2)
    2 1 (fun _ => F32.fin 0) 0 (by norm_num) (by norm_num)
  have f1 := h.fac 1 (by norm_num)
  have f0 := h.fac 0 (by norm_num)
  rw [f1, f0]
  simp only [ltr_fac, decay_at_eq]
  have hd : pixel_dist img_step (0 * (2 * 3) + 3 * (0 + 1)) (0 * (2 * 3) + 3 * 0) = 255 := by
    decide
  have hd' : pixel_dist img_step 3 0 = 255 := by decide
  simp only [hd, hd']
  obtain ⟨a, ha, ra, a1, a2⟩ := decay_1_2
  obtain ⟨t, ht, rt, t1⟩ := table_eighth_255
  have hA : In01 (F32.fin a) a := ⟨rfl, ra, by linarith⟩
  have hT : In01 (F32.fin t) t := ⟨rfl, rt, by linarith⟩
  rw [ha, ht]
  -- the stored value
  obtain ⟨i, hi, hi0, hi34⟩ := round32_le_rep rep_three_quarters (x := 1 - a) (by linarith)
    (by rw [Rat.cast_id]; linarith)
  have hi' : (1 : F32) - F32.fin a = F32.fin i := by rw [one_eq, sub_fin]; exact hi
  obtain ⟨m, hm, hmt, -, -⟩ := in01_mul hT hA
  have r97 : Rep (97 / 128) := by
    have := rep_mk 97 (-7) (by norm_num) (by norm_num) (by norm_num)
    have e : ((97 : ℕ) : ℚ) * (2 : ℚ) ^ (-7 : ℤ) = 97 / 128 := by norm_num
    rwa [e] at this
  obtain ⟨s, hs, -, hs97⟩ := round32_le_rep r97 (x := i + m)
    (add_nonneg hi0 hm.2.1.nonneg) (by rw [Rat.cast_id]; linarith)
  have hstored : (1 - F32.fin a) + F32.fin t * F32.fin a * 1 = F32.fin s := by
    rw [hi', hm.1, mul_one_fin hm.2.1, add_fin]
    exact hs
  -- the value of the claimed recurrence
  obtain ⟨m', hm', -⟩ := in01_mul hA hT
  have hclaim : (1 - F32.fin a * F32.fin t) + F32.fin a * F32.fin t * 1 = 1 := by
    rw [hm'.1, mul_one_fin hm'.2.1]
    have := one_sub_add_self hm'
    rw [hm'.1] at this
    exact this
  rw [hstored, hclaim, one_eq]
  intro e
  injection e with e
  rw [e] at hs97
  norm_num at hs97

/-- C12, amended: in the left-to-right sweep of row `y`, with `a = table[distance(x+1, x)] *
alpha_h`, the stored values satisfy `color[x+1] = (1 - alpha_h) * input[x+1] + a * color[x]`
for each channel and `factor[x+1] = (1 - alpha_h) + a * factor[x]`, with seeds
`color[0] = input[0]` and `factor[0] = 1`; the operations are those of the arithmetic `K`,
in particular the rounded ones of `float`. -/
theorem C12_ltr_recurrence {K : Type} [Add K] [Sub K] [Mul K] [Div K] [NatCast K] [One K]
    (img : Nat → Nat) (tbl : Nat → K)
    (alpha : K) (W H : Nat) (buf : Nat → K) (y x c : Nat) (hy : y < H) (hx : x + 1 < W)
    (hc : c < 3) :
    (h_ltr img tbl alpha (1 - alpha) W ((layout W H 3).img_temp + y * (W * 3)) (y * (W * 3))
        ((layout W H 3).map_factor_a + y * W) buf).buf
      ((layout W H 3).img_temp + y * (W * 3) + 3 * (x + 1) + c)
      = (1 - alpha) * (img (y * (W * 3) + 3 * (x + 1) + c) : K)
        + tbl (pixel_dist img (y * (W * 3) + 3 * (x + 1)) (y * (W * 3) + 3 * x)) * alpha
          * (h_ltr img tbl alpha (1 - alpha) W ((layout W H 3).img_temp + y * (W * 3))
              (y * (W * 3)) ((layout W H 3).map_factor_a + y * W) buf).buf
            ((layout W H 3).img_temp + y * (W * 3) + 3 * x + c)
    ∧ (h_ltr img tbl alpha (1 - alpha) W ((layout W H 3).img_temp + y * (W * 3)) (y * (W * 3))
        ((layout W H 3).map_factor_a + y * W) buf).buf
      ((layout W H 3).map_factor_a + y * W + (x + 1))
      = (1 - alpha)
        + tbl (pixel_dist img (y * (W * 3) + 3 * (x + 1)) (y * (W * 3) + 3 * x)) * alpha
          * (h_ltr img tbl alpha (1 - alpha) W ((layout W H 3).img_temp + y * (W * 3))
              (y * (W * 3)) ((layout W H 3).map_factor_a + y * W) buf).buf
            ((layout W H 3).map_factor_a + y * W + x)
    ∧ (h_ltr img tbl alpha (1 - alpha) W ((layout W H 3).img_temp + y * (W * 3)) (y * (W * 3))
        ((layout W H 3).map_factor_a + y * W) buf).buf
      ((layout W H 3).img_temp + y * (W * 3) + 3 * 0 + c) = (img (y * (W * 3) + c) : K)
    ∧ (h_ltr img tbl alpha (1 - alpha) W ((layout W H 3).img_temp + y * (W * 3)) (y * (W * 3))
        ((layout W H 3).map_factor_a + y * W) buf).buf
      ((layout W H 3).map_factor_a + y * W + 0) = 1 := by
  have h := h_ltr_row img tbl alpha W H buf y (by omega) hy
  rw [h.col (x + 1) c (by omega) hc, h.col x c (by omega) hc, h.col 0 c (by omega) hc,
    h.fac (x + 1) (by omega), h.fac x (by omega), h.fac 0 (by omega)]
  simp only [ltr_col, ltr_fac, decay_at_eq]
  exact ⟨trivial, trivial, trivial, trivial⟩

/-- Witness of C12 (amended): the step image, row 0, column 1, sample 0, in `float`
arithmetic with `sigma_spatial = 1` and `sigma_range = 2 ^ (-3)`. -/
theorem C12_ltr_recurrence_witness :
    (h_ltr img_step (range_table_f32 (F32.fin (1 / 8))) (decay_f32 (F32.fin 1) 2)
        (1 - decay_f32 (F32.fin 1) 2) 2
        ((layout 2 1 3).img_temp + 0 * (2 * 3)) (0 * (2 * 3))
        ((layout 2 1 3).map_factor_a + 0 * 2) (fun _ => F32.fin 0)).buf
      ((layout 2 1 3).img_temp + 0 * (2 * 3) + 3 * (0 + 1) + 0)
      = (1 - decay_f32 (F32.fin 1) 2) * (img_step (0 * (2 * 3) + 3 * (0 + 1) + 0) : F32)
        + range_table_f32 (F32.fin (1 / 8))
            (pixel_dist img_step (0 * (2 * 3) + 3 * (0 + 1)) (0 * (2 * 3) + 3 * 0))
          * decay_f32 (F32.fin 1) 2
          * (h_ltr img_step (range_table_f32 (F32.fin (1 / 8))) (decay_f32 (F32.fin 1) 2)
              (1 - decay_f32 (F32.fin 1) 2) 2
              ((layout 2 1 3).img_temp + 0 * (2 * 3))
              (0 * (2 * 3)) ((layout 2 1 3).map_factor_a + 0 * 2) (fun _ => F32.fin 0)).buf
            ((layout 2 1 3).img_temp + 0 * (2 * 3) + 3 * 0 + 0)
    ∧ (h_ltr img_step (range_table_f32 (F32.fin (1 / 8))) (decay_f32 (F32.fin 1) 2)
        (1 - decay_f32 (F32.fin 1) 2) 2
        ((layout 2 1 3).img_temp + 0 * (2 * 3)) (0 * (2 * 3))
        ((layout 2 1 3).map_factor_a + 0 * 2) (fun _ => F32.fin 0)).buf
      ((layout 2 1 3).map_factor_a + 0 * 2 + (0 + 1))
      = (1 - decay_f32 (F32.fin 1) 2)
        + range_table_f32 (F32.fin (1 / 8))
            (pixel_dist img_step (0 * (2 * 3) + 3 * (0 + 1)) (0 * (2 * 3) + 3 * 0))
          * decay_f32 (F32.fin 1) 2
          * (h_ltr img_step (range_table_f32 (F32.fin (1 / 8))) (decay_f32 (F32.fin 1) 2)
              (1 - decay_f32 (F32.fin 1) 2) 2
              ((layout 2 1 3).img_temp + 0 * (2 * 3))
              (0 * (2 * 3)) ((layout 2 1 3).map_factor_a + 0 * 2) (fun _ => F32.fin 0)).buf
            ((layout 2 1 3).map_factor_a + 0 * 2 + 0)
    ∧ (h_ltr img_step (range_table_f32 (F32.fin (1 / 8))) (decay_f32 (F32.fin 1) 2)
        (1 - decay_f32 (F32.fin 1) 2) 2
        ((layout 2 1 3).img_temp + 0 * (2 * 3)) (0 * (2 * 3))
        ((layout 2 1 3).map_factor_a + 0 * 2) (fun _ => F32.fin 0)).buf
      ((layout 2 1 3).img_temp + 0 * (2 * 3) + 3 * 0 + 0)
        = (img_step (0 * (2 * 3) + 0) : F32)
    ∧ (h_ltr img_step (range_table_f32 (F32.fin (1 / 8))) (decay_f32 (F32.fin 1) 2)
        (1 - decay_f32 (F32.fin 1) 2) 2
        ((layout 2 1 3).img_temp + 0 * (2 * 3)) (0 * (2 * 3))
        ((layout 2 1 3).map_factor_a + 0 * 2) (fun _ => F32.fin 0)).buf
      ((layout 2 1 3).map_factor_a + 0 * 2 + 0) = 1 :=
  C12_ltr_recurrence img_step (range_table_f32 (F32.fin (1 / 8))) (decay_f32 (F32.fin 1) 2)
    2 1 (fun _ => F32.fin 0) 0 0 0 (by norm_num) (by norm_num) (by norm_num)

end LeftToRight

section VerticalResult

open F32

/-! ## The result of the vertical pass -/

/-- C16: let `bh` be the buffer after the horizontal pass and `b1` the buffer after the
top-to-bottom sweep. For every pixel `(x, y)` and channel `c`, the value the vertical pass
leaves in `img_out_f` is `0.5 * (forward_accum + backward_accum) / (0.5 * (forward_factor +
backward_factor))`. The forward values are those of `b1` in `img_out_f` and `map_factor_b`:
in row 0 they are the colour and factor of `bh`, and in row `k + 1` they combine the colour
and factor of `bh` in that row, weighted by `1 - alpha_v`, with the forward values of row
`k`, weighted by `table[distance] * alpha_v`. The backward values are those of the
bottom-to-top recursion `btt_col`, `btt_fac` at row `y`, whose seeds are the colour and
factor of `bh` in the last row and whose step `j + 1` combines the values of `bh` in row
`H - 2 - j` with the step before. In the last row the value is
`0.5 * (forward_accum + h) / (0.5 * (forward_factor + hf))` with `h`, `hf` the colour and
factor of `bh` at that pixel. The operations are those of the arithmetic `K`, in particular
the rounded ones of `float`. -/
theorem C16_vertical_result {K : Type} [Add K] [Sub K] [Mul K] [Div K] [NatCast K] [One K]
    (img : Nat → Nat) (tbl : Nat → K)
    (alpha_h alpha_v : K) (W H : Nat) (buf : Nat → K) (y x c j k : Nat) (hW : 1 ≤ W)
    (hH : 1 ≤ H) (hy : y < H) (hx : x < W) (hc : c < 3) :
    sweeps img tbl alpha_h alpha_v W H 3 buf ((layout W H 3).img_out_f + y * (W * 3) + 3 * x + c)
      = 1 / 2 * (v_fwd_pass img tbl alpha_v W H 3 (v_init W H 3
              (h_pass img tbl alpha_h W H 3 buf))
            ((layout W H 3).img_out_f + y * (W * 3) + 3 * x + c)
          + btt_col img tbl alpha_h alpha_v W H x c (H - 1 - y))
        / (1 / 2 * (v_fwd_pass img tbl alpha_v W H 3 (v_init W H 3
              (h_pass img tbl alpha_h W H 3 buf))
            ((layout W H 3).map_factor_b + y * W + x)
          + btt_fac img tbl alpha_h alpha_v W H x (H - 1 - y)))
    ∧ v_fwd_pass img tbl alpha_v W H 3 (v_init W H 3 (h_pass img tbl alpha_h W H 3 buf))
        ((layout W H 3).img_out_f + 0 * (W * 3) + 3 * x + c)
      = h_pass img tbl alpha_h W H 3 buf ((layout W H 3).img_temp + 0 * (W * 3) + 3 * x + c)
    ∧ v_fwd_pass img tbl alpha_v W H 3 (v_init W H 3 (h_pass img tbl alpha_h W H 3 buf))
        ((layout W H 3).map_factor_b + 0 * W + x)
      = h_pass img tbl alpha_h W H 3 buf ((layout W H 3).map_factor_a + 0 * W + x)
    ∧ (k + 1 < H →
      v_fwd_pass img tbl alpha_v W H 3 (v_init W H 3 (h_pass img tbl alpha_h W H 3 buf))
          ((layout W H 3).img_out_f + (k + 1) * (W * 3) + 3 * x + c)
        = (1 - alpha_v) * h_pass img tbl alpha_h W H 3 buf
              ((layout W H 3).img_temp + (k + 1) * (W * 3) + 3 * x + c)
          + tbl (pixel_dist img ((k + 1) * (W * 3) + 3 * x) (k * (W * 3) + 3 * x)) * alpha_v
            * v_fwd_pass img tbl alpha_v W H 3 (v_init W H 3 (h_pass img tbl alpha_h W H 3 buf))
                ((layout W H 3).img_out_f + k * (W * 3) + 3 * x + c))
    ∧ (k + 1 < H →
      v_fwd_pass img tbl alpha_v W H 3 (v_init W H 3 (h_pass img tbl alpha_h W H 3 buf))
          ((layout W H 3).map_factor_b + (k + 1) * W + x)
        = (1 - alpha_v) * h_pass img tbl alpha_h W H 3 buf
              ((layout W H 3).map_factor_a + (k + 1) * W + x)
          + tbl (pixel_dist img ((k + 1) * (W * 3) + 3 * x) (k * (W * 3) + 3 * x)) * alpha_v
            * v_fwd_pass img tbl alpha_v W H 3 (v_init W H 3 (h_pass img tbl alpha_h W H 3 buf))
                ((layout W H 3).map_factor_b + k * W + x))
    ∧ btt_col img tbl alpha_h alpha_v W H x c 0
      = h_pass img tbl alpha_h W H 3 buf ((layout W H 3).img_temp + (H - 1) * (W * 3) + 3 * x + c)
    ∧ btt_fac img tbl alpha_h alpha_v W H x 0
      = h_pass img tbl alpha_h W H 3 buf ((layout W H 3).map_factor_a + (H - 1) * W + x)
    ∧ btt_col img tbl alpha_h alpha_v W H x c (j + 1)
      = (1 - alpha_v) * h_pass img tbl alpha_h W H 3 buf
            ((layout W H 3).img_temp + (H - 2 - j) * (W * 3) + 3 * x + c)
        + tbl (pixel_dist img ((H - 2 - j) * (W * 3) + 3 * x)
            ((H - 2 - j + 1) * (W * 3) + 3 * x)) * alpha_v
          * btt_col img tbl alpha_h alpha_v W H x c j
    ∧ btt_fac img tbl alpha_h alpha_v W H x (j + 1)
      = (1 - alpha_v) * h_pass img tbl alpha_h W H 3 buf
            ((layout W H 3).map_factor_a + (H - 2 - j) * W + x)
        + tbl (pixel_dist img ((H - 2 - j) * (W * 3) + 3 * x)
            ((H - 2 - j + 1) * (W * 3) + 3 * x)) * alpha_v
          * btt_fac img tbl alpha_h alpha_v W H x j
    ∧ sweeps img tbl alpha_h alpha_v W H 3 buf
        ((layout W H 3).img_out_f + (H - 1) * (W * 3) + 3 * x + c)
      = 1 / 2 * (v_fwd_pass img tbl alpha_v W H 3 (v_init W H 3
              (h_pass img tbl alpha_h W H 3 buf))
            ((layout W H 3).img_out_f + (H - 1) * (W * 3) + 3 * x + c)
          + h_pass img tbl alpha_h W H 3 buf
            ((layout W H 3).img_temp + (H - 1) * (W * 3) + 3 * x + c))
        / (1 / 2 * (v_fwd_pass img tbl alpha_v W H 3 (v_init W H 3
              (h_pass img tbl alpha_h W H 3 buf))
            ((layout W H 3).map_factor_b + (H - 1) * W + x)
          + h_pass img tbl alpha_h W H 3 buf
            ((layout W H 3).map_factor_a + (H - 1) * W + x))) := by
  have hp := h_pass_spec img tbl alpha_h W H buf hW
  have hd : HDone img tbl alpha_h W H (h_pass img tbl alpha_h W H 3 buf) := ⟨hp.1, hp.2.1⟩
  have hv := (v_fwd_pass_spec img tbl alpha_h alpha_v W H _ hH hd).2
  have hs := sweeps_spec img tbl alpha_h alpha_v W H buf hW hH
  rw [layout_img_out_f, layout_img_temp, layout_map_factor_a, layout_map_factor_b]
  simp only [Nat.zero_add]
  refine ⟨?_, ?_, ?_, ?_, ?_, ?_, ?_, ?_, ?_, ?_⟩
  · rw [hs.col_done y x c hy (by omega) hx hc, hv.col y x c hy hx hc, hv.fac y x hy hx]
    rfl
  · rw [hv.col 0 x c (by omega) hx hc, hp.1 0 x c (by omega) hx hc]
    simp only [ttb_col, Nat.zero_mul]
  · rw [hv.fac 0 x (by omega) hx, hp.2.1 0 x (by omega) hx]
    simp only [ttb_fac, Nat.zero_mul]
  · intro hk
    rw [hv.col (k + 1) x c hk hx hc, hv.col k x c (by omega) hx hc,
      hp.1 (k + 1) x c hk hx hc]
    rfl
  · intro hk
    rw [hv.fac (k + 1) x hk hx, hv.fac k x (by omega) hx, hp.2.1 (k + 1) x hk hx]
    rfl
  · rw [hp.1 (H - 1) x c (by omega) hx hc]
    rfl
  · rw [hp.2.1 (H - 1) x (by omega) hx]
    rfl
  · rw [hp.1 (H - 2 - j) x c (by omega) hx hc]
    rfl
  · rw [hp.2.1 (H - 2 - j) x (by omega) hx]
    rfl
  · rw [hs.col_done (H - 1) x c (by omega) (by omega) hx hc,
      hv.col (H - 1) x c (by omega) hx hc, hv.fac (H - 1) x (by omega) hx,
      hp.1 (H - 1) x c (by omega) hx hc, hp.2.1 (H - 1) x (by omega) hx]
    simp only [out_col, out_fac, Nat.sub_self, btt_col, btt_fac]

/-- Witness of C16: the step image taken with width 2 and height 2, pixel (1, 0), sample 2,
in `float` arithmetic with `sigma_spatial = 2 ^ (-5)` and `sigma_range = 2 ^ (-3)`: the
value left in `img_out_f` and the step of the top-to-bottom recursion from row 0 to row 1. -/
theorem C16_vertical_result_witness :
    sweeps img_step (range_table_f32 (F32.fin (1 / 8))) (decay_f32 (F32.fin (1 / 32)) 2)
        (decay_f32 (F32.fin (1 / 32)) 2) 2 2 3 (fun _ => F32.fin 0)
        ((layout 2 2 3).img_out_f + 0 * (2 * 3) + 3 * 1 + 2)
      = 1 / 2 * (v_fwd_pass img_step (range_table_f32 (F32.fin (1 / 8)))
              (decay_f32 (F32.fin (1 / 32)) 2) 2 2 3 (v_init 2 2 3
              (h_pass img_step (range_table_f32 (F32.fin (1 / 8)))
                (decay_f32 (F32.fin (1 / 32)) 2) 2 2 3 (fun _ => F32.fin 0)))
            ((layout 2 2 3).img_out_f + 0 * (2 * 3) + 3 * 1 + 2)
          + btt_col img_step (range_table_f32 (F32.fin (1 / 8)))
              (decay_f32 (F32.fin (1 / 32)) 2) (decay_f32 (F32.fin (1 / 32)) 2) 2 2 1 2
              (2 - 1 - 0))
        / (1 / 2 * (v_fwd_pass img_step (range_table_f32 (F32.fin (1 / 8)))
              (decay_f32 (F32.fin (1 / 32)) 2) 2 2 3 (v_init 2 2 3
              (h_pass img_step (range_table_f32 (F32.fin (1 / 8)))
                (decay_f32 (F32.fin (1 / 32)) 2) 2 2 3 (fun _ => F32.fin 0)))
            ((layout 2 2 3).map_factor_b + 0 * 2 + 1)
          + btt_fac img_step (range_table_f32 (F32.fin (1 / 8)))
              (decay_f32 (F32.fin (1 / 32)) 2) (decay_f32 (F32.fin (1 / 32)) 2) 2 2 1
              (2 - 1 - 0)))
    ∧ v_fwd_pass img_step (range_table_f32 (F32.fin (1 / 8)))
          (decay_f32 (F32.fin (1 / 32)) 2) 2 2 3 (v_init 2 2 3
          (h_pass img_step (range_table_f32 (F32.fin (1 / 8)))
            (decay_f32 (F32.fin (1 / 32)) 2) 2 2 3 (fun _ => F32.fin 0)))
          ((layout 2 2 3).img_out_f + (0 + 1) * (2 * 3) + 3 * 1 + 2)
        = (1 - decay_f32 (F32.fin (1 / 32)) 2)
            * h_pass img_step (range_table_f32 (F32.fin (1 / 8)))
                (decay_f32 (F32.fin (1 / 32)) 2) 2 2 3 (fun _ => F32.fin 0)
              ((layout 2 2 3).img_temp + (0 + 1) * (2 * 3) + 3 * 1 + 2)
          + range_table_f32 (F32.fin (1 / 8))
              (pixel_dist img_step ((0 + 1) * (2 * 3) + 3 * 1) (0 * (2 * 3) + 3 * 1))
            * decay_f32 (F32.fin (1 / 32)) 2
            * v_fwd_pass img_step (range_table_f32 (F32.fin (1 / 8)))
                (decay_f32 (F32.fin (1 / 32)) 2) 2 2 3 (v_init 2 2 3
                (h_pass img_step (range_table_f32 (F32.fin (1 / 8)))
                  (decay_f32 (F32.fin (1 / 32)) 2) 2 2 3 (fun _ => F32.fin 0)))
                ((layout 2 2 3).img_out_f + 0 * (2 * 3) + 3 * 1 + 2) :=
  ⟨(C16_vertical_result img_step (range_table_f32 (F32.fin (1 / 8)))
      (decay_f32 (F32.fin (1 / 32)) 2) (decay_f32 (F32.fin (1 / 32)) 2) 2 2
      (fun _ => F32.fin 0) 0 1 2 0 0 (by norm_num) (by norm_num) (by norm_num) (by norm_num)
      (by norm_num)).1,
    (C16_vertical_result img_step (range_table_f32 (F32.fin (1 / 8)))
      (decay_f32 (F32.fin (1 / 32)) 2) (decay_f32 (F32.fin (1 / 32)) 2) 2 2
      (fun _ => F32.fin 0) 0 1 2 0 0 (by norm_num) (by norm_num) (by norm_num) (by norm_num)
      (by norm_num)).2.2.2.1 (by norm_num)⟩

end VerticalResult

section StepFloat

open F32

/-! ## The step image with a tiny decay coefficient -/

theorem exp_neg_le_pow (x : ℝ) (n : ℕ) (h : (n : ℝ) ≤ x) :
    Real.exp (-x) ≤ (10 / 27 : ℝ) ^ n := by
  have h1 : (27 / 10 : ℝ) ≤ Real.exp 1 := by
    have := Real.exp_one_gt_d9
    linarith
  have h2 : Real.exp (n : ℝ) = Real.exp 1 ^ n := by
    rw [← Real.exp_nat_mul, mul_one]
  have h3 : (27 / 10 : ℝ) ^ n ≤ Real.exp (n : ℝ) := by
    rw [h2]; exact pow_le_pow_left₀ (by norm_num) h1 n
  have h4 : Real.exp (-x) ≤ Real.exp (-(n : ℝ)) := Real.exp_le_exp.mpr (by linarith)
  have h5 : Real.exp (-(n : ℝ)) ≤ (10 / 27 : ℝ) ^ n := by
    rw [Real.exp_neg]
    have e : (10 / 27 : ℝ) ^ n = ((27 / 10 : ℝ) ^ n)⁻¹ := by
      rw [← inv_pow]; norm_num
    rw [e]
    exact inv_anti₀ (by positivity) h3
  linarith

theorem rep_2_25 : Rep (1 / 33554432) := by
  have := rep_two_zpow (-25) (by norm_num) (by norm_num)
  have e : (2 : ℚ) ^ (-25 : ℤ) = 1 / 33554432 := by norm_num
  rwa [e] at this

theorem rep_2_17 : Rep (1 / 131072) := by
  have := rep_two_zpow (-17) (by norm_num) (by norm_num)
  have e : (2 : ℚ) ^ (-17 : ℤ) = 1 / 131072 := by norm_num
  rwa [e] at this

theorem rep_255 : Rep 255 := by simpa using rep_natCast 255 (by norm_num)

/-- The decay coefficient for `sigma_spatial = 0.03f` and width 2 is at most `2 ^ (-25)`. -/
theorem decay_003_2 : ∃ a, decay_f32 (round32 (3 / 100 : ℚ)) 2 = F32.fin a ∧ Rep a
    ∧ a ≤ 1 / 33554432 := by
  have r : Rep (16106127 / 268435456) := by
    have := rep_mk 16106127 (-28) (by norm_num) (by norm_num) (by norm_num)
    have e : ((16106127 : ℕ) : ℚ) * (2 : ℚ) ^ (-28 : ℤ) = 16106127 / 268435456 := by norm_num
    rwa [e] at this
  have ep : round32 (3 / 100 : ℚ) * ((2 : ℕ) : F32) = F32.fin (16106127 / 268435456) := by
    rw [round32_003, natCast_two, mul_fin]
    have e : (16106127 / 536870912 : ℚ) * 2 = 16106127 / 268435456 := by norm_num
    rw [e]
    exact round32_rat r
  rw [decay_f32_of_fin _ _ _ ep (by norm_num)]
  obtain ⟨s1, s2⟩ := sqrt_two_bounds
  have hx : ((23 : ℕ) : ℝ) ≤ Real.sqrt 2 / ((16106127 / 268435456 : ℚ) : ℝ) := by
    rw [le_div_iff₀ (by push_cast; norm_num)]
    push_cast
    linarith
  have hexp := exp_neg_le_pow _ 23 hx
  have h0 : 0 ≤ Real.exp (-(Real.sqrt 2 / ((16106127 / 268435456 : ℚ) : ℝ))) :=
    (Real.exp_pos _).le
  obtain ⟨t, ht, -, hle⟩ := round32_le_rep rep_2_25 h0 (by
    push_cast at hexp ⊢
    refine le_trans hexp ?_
    norm_num)
  exact ⟨t, ht, round32_rep h0 ht, hle⟩

/-- The float `1 - alpha` is 1 for `alpha` at most `2 ^ (-25)`. -/
theorem one_sub_tiny {a : ℚ} (ra : Rep a) (h : a ≤ 1 / 33554432) :
    (1 : F32) - F32.fin a = 1 := by
  rw [one_eq, sub_fin]
  apply round32_near_one
  have e25 : (2 : ℚ) ^ (-25 : ℤ) = 1 / 33554432 := by norm_num
  have a0 := ra.nonneg
  rw [e25, abs_le]
  constructor <;> linarith

/-- The float sum `1 + m` is 1 for `m` at most `2 ^ (-25)`. -/
theorem one_add_tiny {m : ℚ} (rm : Rep m) (h : m ≤ 1 / 33554432) :
    (1 : F32) + F32.fin m = 1 := by
  rw [one_eq, add_fin]
  apply round32_near_one
  have e25 : (2 : ℚ) ^ (-25 : ℤ) = 1 / 33554432 := by norm_num
  have m0 := rm.nonneg
  rw [e25, abs_le]
  constructor <;> linarith

theorem zero_add_fin {q : ℚ} (rq : Rep q) : (F32.fin 0 + F32.fin q : F32) = F32.fin q := by
  rw [add_fin, zero_add]
  exact round32_rat rq

theorem add_zero_fin {q : ℚ} (rq : Rep q) : (F32.fin q + F32.fin 0 : F32) = F32.fin q := by
  rw [add_fin, add_zero]
  exact round32_rat rq

theorem mul_zero_fin (a : ℚ) : (F32.fin a * F32.fin 0 : F32) = F32.fin 0 := by
  rw [mul_fin, mul_zero]
  exact round32_zero

theorem natCast_zero_f32 : ((0 : ℕ) : F32) = F32.fin 0 := by
  have := natCast_eq 0 (by norm_num)
  simpa using this

/-- Normalised values of the step image when the horizontal `alpha` is at most `2 ^ (-25)`:
a float in `[0, 2 ^ (-17)]` at the first pixel and 255 at the second. -/
theorem step_out_tiny (img : Nat → Nat) (himg : ∀ i, i < 6 → img i = img_step i)
    (tbl : Nat → F32) (ht : ∀ d, d ≤ 255 → ∃ t, In01 (tbl d) t) (a : ℚ) (ra : Rep a)
    (h1 : a ≤ 1 / 33554432) (alpha_v : F32) (c : Nat) (hc : c < 3) :
    (∃ q, out_col img tbl (F32.fin a) alpha_v 2 1 0 0 c = F32.fin q ∧ Rep q ∧ q ≤ 1 / 131072)
    ∧ out_col img tbl (F32.fin a) alpha_v 2 1 0 1 c = F32.fin 255 := by
  have ha : In01 (F32.fin a) a := ⟨rfl, ra, by linarith⟩
  have hlow : ∀ i, i < 3 → ((img i : ℕ) : F32) = F32.fin 0 := by
    intro i hi
    rw [himg i (by omega)]
    simp only [img_step]
    rw [if_pos hi, natCast_zero_f32]
  have hhigh : ∀ i, 3 ≤ i → i < 6 → ((img i : ℕ) : F32) = F32.fin 255 := by
    intro i hi hi6
    rw [himg i hi6]
    simp only [img_step]
    rw [if_neg (by omega), natCast_255]
  have hi1 := one_sub_tiny ra h1
  -- the left-to-right sweep
  have l0 : ltr_col img tbl (F32.fin a) 0 c 0 = F32.fin 0 := by
    simp only [ltr_col]
    exact hlow (0 + c) (by omega)
  have l1 : ltr_col img tbl (F32.fin a) 0 c 1 = F32.fin 255 := by
    show (1 - F32.fin a) * ((img (0 + 3 * (0 + 1) + c) : ℕ) : F32)
      + decay_at img tbl (F32.fin a) (0 + 3 * (0 + 1)) (0 + 3 * 0)
        * ltr_col img tbl (F32.fin a) 0 c 0 = F32.fin 255
    obtain ⟨e, he, -⟩ := decay_at_in01 img tbl (F32.fin a) a ha ht (0 + 3 * (0 + 1)) (0 + 3 * 0)
    rw [hi1, hhigh _ (by omega) (by omega), l0, he.1, mul_zero_fin, one_mul_fin rep_255,
      add_zero_fin rep_255]
  have lf1 : ltr_fac img tbl (F32.fin a) 0 1 = 1 := by
    show (1 - F32.fin a) + decay_at img tbl (F32.fin a) (0 + 3 * (0 + 1)) (0 + 3 * 0)
      * ltr_fac img tbl (F32.fin a) 0 0 = 1
    obtain ⟨e, he, hea⟩ := decay_at_in01 img tbl (F32.fin a) a ha ht (0 + 3 * (0 + 1)) (0 + 3 * 0)
    have : ltr_fac img tbl (F32.fin a) 0 0 = 1 := rfl
    rw [hi1, this, he.1, mul_one_fin he.2.1]
    exact one_add_tiny he.2.1 (by linarith)
  -- the right-to-left sweep
  have r0 : rtl_col img tbl (F32.fin a) 2 0 c 0 = F32.fin 255 := by
    simp only [rtl_col]
    exact hhigh _ (by omega) (by omega)
  obtain ⟨q1, hr1, rq1, hq1⟩ : ∃ q, rtl_col img tbl (F32.fin a) 2 0 c 1 = F32.fin q ∧ Rep q
      ∧ q ≤ 1 / 131072 := by
    show ∃ q, (1 - F32.fin a) * ((img (0 + 3 * (2 - 2 - 0) + c) : ℕ) : F32)
      + decay_rev img tbl (F32.fin a) (0 + 3 * (2 - 2 - 0)) (0 + 3 * (2 - 1 - 0))
        * rtl_col img tbl (F32.fin a) 2 0 c 0 = F32.fin q ∧ Rep q ∧ q ≤ 1 / 131072
    obtain ⟨e, he, hea⟩ := decay_rev_in01 img tbl (F32.fin a) a ha ht (0 + 3 * (2 - 2 - 0))
      (0 + 3 * (2 - 1 - 0))
    obtain ⟨p, hp, rp, -, p2⟩ := round32_between (x := e * 255) rep_zero rep_2_17
      (by rw [Rat.cast_id]; exact by linarith [mul_nonneg he.2.1.nonneg (by norm_num : (0 : ℚ) ≤ 255)])
      (by rw [Rat.cast_id]; linarith)
    refine ⟨p, ?_, rp, p2⟩
    rw [hi1, hlow _ (by omega), r0, he.1, mul_fin, hp, one_eq, mul_zero_fin, zero_add_fin rp]
  have rf1 : rtl_fac img tbl (F32.fin a) 2 0 1 = 1 := by
    show (1 - F32.fin a) + decay_rev img tbl (F32.fin a) (0 + 3 * (2 - 2 - 0))
      (0 + 3 * (2 - 1 - 0)) * rtl_fac img tbl (F32.fin a) 2 0 0 = 1
    obtain ⟨e, he, hea⟩ := decay_rev_in01 img tbl (F32.fin a) a ha ht (0 + 3 * (2 - 2 - 0))
      (0 + 3 * (2 - 1 - 0))
    have : rtl_fac img tbl (F32.fin a) 2 0 0 = 1 := rfl
    rw [hi1, this, he.1, mul_one_fin he.2.1]
    exact one_add_tiny he.2.1 (by linarith)
  -- the horizontal pass
  obtain ⟨q0, hh0, rq0, hq0⟩ : ∃ q, h_col img tbl (F32.fin a) 2 0 0 c = F32.fin q ∧ Rep q
      ∧ q ≤ 1 / 131072 := by
    simp only [h_col]
    rw [if_neg (by norm_num), l0, show (2 - 1 - 0 : ℕ) = 1 from rfl, hr1, zero_add_fin rq1,
      half_eq, mul_fin]
    obtain ⟨p, hp, rp, -, p2⟩ := round32_between (x := 1 / 2 * q1) rep_zero rep_2_17
      (by rw [Rat.cast_id]; linarith [rq1.nonneg]) (by rw [Rat.cast_id]; linarith [rq1.nonneg])
    exact ⟨p, hp, rp, p2⟩
  have hh1 : h_col img tbl (F32.fin a) 2 0 1 c = F32.fin 255 := by
    simp only [h_col]
    rw [if_pos (by norm_num), l1, hhigh _ (by omega) (by omega)]
    exact half_add_self rep_255 (by norm_num)
  have hf0 : h_fac img tbl (F32.fin a) 2 0 0 = 1 := by
    show (1 / 2 : F32) * (ltr_fac img tbl (F32.fin a) 0 0
      + rtl_fac img tbl (F32.fin a) 2 0 (2 - 1 - 0)) = 1
    have : ltr_fac img tbl (F32.fin a) 0 0 = 1 := rfl
    rw [this, show (2 - 1 - 0 : ℕ) = 1 from rfl, rf1]
    exact half_two
  have hf1 : h_fac img tbl (F32.fin a) 2 0 1 = 1 := by
    show (1 / 2 : F32) * (ltr_fac img tbl (F32.fin a) 0 1
      + rtl_fac img tbl (F32.fin a) 2 0 (2 - 1 - 1)) = 1
    have : rtl_fac img tbl (F32.fin a) 2 0 (2 - 1 - 1) = 1 := rfl
    rw [this, lf1]
    exact half_two
  have hout : ∀ x, h_fac img tbl (F32.fin a) 2 0 x = 1 → ∀ q, Rep q → q ≤ 256 →
      h_col img tbl (F32.fin a) 2 0 x c = F32.fin q →
      out_col img tbl (F32.fin a) alpha_v 2 1 0 x c = F32.fin q := by
    intro x hf q rq hq hh
    simp only [out_col, out_fac, ttb_col, btt_col, ttb_fac, btt_fac]
    rw [show (1 - 1) * (2 * 3) = 0 from rfl, hh, hf, half_add_self rq hq, half_two]
    exact div_one_fin rq
  exact ⟨⟨q0, hout 0 hf0 q0 rq0 (by linarith) hh0, rq0, hq0⟩,
    hout 1 hf1 255 rep_255 (by norm_num) hh1⟩

theorem to_uchar_f32_small {q : ℚ} (rq : Rep q) (h : q ≤ 1 / 131072) :
    to_uchar_f32 (F32.fin q) = some 0 := by
  have q0 := rq.nonneg
  have hh : (-1 : ℚ) < q ∧ q < 256 := ⟨by linarith, by linarith⟩
  simp only [to_uchar_f32, if_pos hh]
  congr 1
  rw [Nat.floor_eq_zero]
  linarith

/-- The image `recursive_bf` returns in `float` arithmetic on the step image with
`sigma_spatial = 0.03f` and `sigma_range = 0.1f`. -/
theorem step_result_f32 :
    recursive_bf_f32 img_step (fun _ => 0) (round32 (3 / 100 : ℚ)) (round32 (1 / 10 : ℚ))
        2 1 3 none (fun _ => F32.fin 0)
      = some (fun k => if k < 2 * 1 * 3 then (fun k => if k < 3 then 0 else 255) k
          else loopUp 0 (fun i out => store out i (img_step i)) (2 * 1 * 3) (fun _ => 0) k) := by
  obtain ⟨a, ha, ra, a1⟩ := decay_003_2
  have hcopy : ∀ k, k < 6 →
      loopUp 0 (fun i out => store out i (img_step i)) (2 * 1 * 3) (fun _ => 0) k
        = img_step k := by
    intro k hk
    rw [copy_spec, if_pos (by omega)]
  simp only [recursive_bf_f32, _recursive_bf_f32]
  rw [ha]
  apply filter_passes_f32_spec _ _ _ _ 2 1 _ (fun k => if k < 3 then 0 else 255)
    (by norm_num) (by norm_num)
  intro y x c hy hx hc
  have hy0 : y = 0 := by omega
  subst hy0
  obtain ⟨⟨q, g0, rq, hq⟩, g1⟩ := step_out_tiny _ hcopy _ table_01.2 a ra a1
    (decay_f32 (round32 (3 / 100 : ℚ)) 1) c hc
  have hx2 : x = 0 ∨ x = 1 := by omega
  rcases hx2 with rfl | rfl
  · rw [g0, if_pos (by omega)]
    exact to_uchar_f32_small rq hq
  · rw [g1, if_neg (by omega)]
    exact to_uchar_f32_nat 255 (by norm_num)

/-- C3, as stated, fails, in `float` arithmetic too: on the image with pixels (0,0,0) and
(255,255,255), `sigma_spatial = 0.03f` and `sigma_range = 0.1f`, `recursive_bf` returns an
image whose sample 0 is 0 and whose sample 3 is 255, neither strictly between 0 and 255. -/
theorem C3_counterexample :
    ∃ out, recursive_bf_f32 img_step (fun _ => 0) (round32 (3 / 100 : ℚ))
        (round32 (1 / 10 : ℚ)) 2 1 3 none (fun _ => F32.fin 0) = some out
      ∧ ¬ (0 < out 0 ∧ out 0 < 255) ∧ ¬ (0 < out 3 ∧ out 3 < 255) := by
  refine ⟨_, step_result_f32, ?_, ?_⟩
  · simp only
    rw [if_pos (by norm_num), if_pos (by norm_num)]
    norm_num
  · simp only
    rw [if_pos (by norm_num), if_neg (by norm_num)]
    norm_num

/-- C3, amended, in `float` arithmetic: on the image with pixels (0,0,0) and
(255,255,255), `sigma_spatial = 0.03f` and `sigma_range = 0.1f`, `recursive_bf` returns the
samples 0,0,0,255,255,255: every output sample equals the input sample of its position, so
it lies between the two input values of its channel, bounds included. -/
theorem C3_step_output :
    ∃ out, recursive_bf_f32 img_step (fun _ => 0) (round32 (3 / 100 : ℚ))
        (round32 (1 / 10 : ℚ)) 2 1 3 none (fun _ => F32.fin 0) = some out
      ∧ (List.range 6).map out = [0, 0, 0, 255, 255, 255] := by
  refine ⟨_, step_result_f32, ?_⟩
  simp only [List.range, List.range.loop, List.map]
  norm_num

end StepFloat

theorem wrap32_id (z : Int) (h0 : -2147483648 ≤ z) (h1 : z ≤ 2147483647) : wrap32 z = z := by
  simp only [wrap32]
  omega

/-- The `int` sizes are the mathematical ones when the element count fits in an `int`. -/
theorem sizes32_fit (W H C : Nat)
    (hfit : (W * H * C + W * H + W * C + W) * 2 ≤ 2147483647) :
    sizes32 W H C = Sizes32.mk ((W * H : Nat) : Int) ((W * C : Nat) : Int)
      ((W * H * C : Nat) : Int) ((buffer_size W H C : Nat) : Int) := by
  have e1 : (W : Int) * (H : Int) = ((W * H : Nat) : Int) := by push_cast; ring
  have e2 : (W : Int) * (C : Int) = ((W * C : Nat) : Int) := by push_cast; ring
  have e3 : ((W * H : Nat) : Int) * (C : Int) = ((W * H * C : Nat) : Int) := by push_cast; ring
  have w1 : wrap32 ((W * H : Nat) : Int) = ((W * H : Nat) : Int) :=
    wrap32_id _ (by omega) (by omega)
  have w2 : wrap32 ((W * C : Nat) : Int) = ((W * C : Nat) : Int) :=
    wrap32_id _ (by omega) (by omega)
  have w3 : wrap32 ((W * H * C : Nat) : Int) = ((W * H * C : Nat) : Int) :=
    wrap32_id _ (by omega) (by omega)
  have a1 : ((W * H * C : Nat) : Int) + ((W * H : Nat) : Int)
      = ((W * H * C + W * H : Nat) : Int) := by push_cast; ring
  have w4 : wrap32 ((W * H * C + W * H : Nat) : Int) = ((W * H * C + W * H : Nat) : Int) :=
    wrap32_id _ (by omega) (by omega)
  have a2 : ((W * H * C + W * H : Nat) : Int) + ((W * C : Nat) : Int)
      = ((W * H * C + W * H + W * C : Nat) : Int) := by push_cast; ring
  have w5 : wrap32 ((W * H * C + W * H + W * C : Nat) : Int)
      = ((W * H * C + W * H + W * C : Nat) : Int) := wrap32_id _ (by omega) (by omega)
  have a3 : ((W * H * C + W * H + W * C : Nat) : Int) + (W : Int)
      = ((W * H * C + W * H + W * C + W : Nat) : Int) := by push_cast; ring
  have w6 : wrap32 ((W * H * C + W * H + W * C + W : Nat) : Int)
      = ((W * H * C + W * H + W * C + W : Nat) : Int) := wrap32_id _ (by omega) (by omega)
  have a4 : ((W * H * C + W * H + W * C + W : Nat) : Int) * 2
      = (((W * H * C + W * H + W * C + W) * 2 : Nat) : Int) := by push_cast; ring
  have w7 : wrap32 (((W * H * C + W * H + W * C + W) * 2 : Nat) : Int)
      = (((W * H * C + W * H + W * C + W) * 2 : Nat) : Int) := wrap32_id _ (by omega) (by omega)
  simp only [sizes32, buffer_size, e1, e2, w1, w2, e3, w3, a1, w4, a2, w5, a3, w6, a4, w7]

/-- C6, as stated, fails for the `int` sizes of the code: for width and height 16384 and 3
channels the element count `(W*H*C + W*H + W*C + W) * 2` is 2147614720, above the largest
`int`, and the count the code computes is negative; for width and height 46341 and one
channel `width * height` itself is negative. -/
theorem C6_counterexample :
    (sizes32 16384 16384 3).count = -2147352576
    ∧ buffer_size 16384 16384 3 = 2147614720
    ∧ (sizes32 46341 46341 1).width_height = -2147479015 := by
  refine ⟨?_, ?_, ?_⟩
  · simp only [sizes32, wrap32]
    norm_num
  · simp only [buffer_size]
  · simp only [sizes32, wrap32]
    norm_num

/-- C6, amended: for every `W, H, C` (in particular `W, H, C >= 1`) whose element count
`(W*H*C + W*H + W*C + W) * 2` fits in an `int`, the `int` sizes and the eight offsets the
code computes are the mathematical ones; the eight regions start at offset 0, each starts
where the previous one ends, they are pairwise disjoint, and an index lies in one of them
exactly when it is below `2 * (W*H*C + W*H + W*C + W)`, the documented buffer size. -/
theorem C6_layout (W H C : Nat)
    (hfit : (W * H * C + W * H + W * C + W) * 2 ≤ 2147483647) :
    (sizes32 W H C).count = ((buffer_size W H C : Nat) : Int)
    ∧ layout32 W H C
      = [(((layout W H C).img_out_f : Nat) : Int), (((layout W H C).img_temp : Nat) : Int),
          (((layout W H C).map_factor_a : Nat) : Int), (((layout W H C).map_factor_b : Nat) : Int),
          (((layout W H C).slice_factor_a : Nat) : Int),
          (((layout W H C).slice_factor_b : Nat) : Int),
          (((layout W H C).line_factor_a : Nat) : Int),
          (((layout W H C).line_factor_b : Nat) : Int)]
    ∧ (layout W H C).img_out_f = 0
    ∧ (layout W H C).img_temp = (layout W H C).img_out_f + W * H * C
    ∧ (layout W H C).map_factor_a = (layout W H C).img_temp + W * H * C
    ∧ (layout W H C).map_factor_b = (layout W H C).map_factor_a + W * H
    ∧ (layout W H C).slice_factor_a = (layout W H C).map_factor_b + W * H
    ∧ (layout W H C).slice_factor_b = (layout W H C).slice_factor_a + W * C
    ∧ (layout W H C).line_factor_a = (layout W H C).slice_factor_b + W * C
    ∧ (layout W H C).line_factor_b = (layout W H C).line_factor_a + W
    ∧ (layout W H C).line_factor_b + W = buffer_size W H C
    ∧ buffer_size W H C = 2 * (W * H * C + W * H + W * C + W)
    ∧ List.Pairwise (fun r s => r.1 + r.2 ≤ s.1) (regions W H C)
    ∧ (∀ k, k < buffer_size W H C ↔ ∃ r ∈ regions W H C, r.1 ≤ k ∧ k < r.1 + r.2) := by
  have hs := sizes32_fit W H C hfit
  refine ⟨by rw [hs], ?_, rfl, rfl, rfl, rfl, rfl, rfl, rfl, rfl, ?_, ?_, ?_, ?_⟩
  · simp only [layout32, hs, layout]
    push_cast
    simp only [zero_add]
  · simp only [layout, buffer_size]; omega
  · simp only [buffer_size]; omega
  · simp only [regions, layout, List.pairwise_cons, List.mem_cons, List.mem_singleton,
      Prod.forall, Prod.mk.injEq, List.not_mem_nil, List.Pairwise.nil, or_false]
    refine ⟨?_, ?_, ?_, ?_, ?_, ?_, ?_, ?_⟩
    · intro a b h; omega
    · intro a b h; omega
    · intro a b h; omega
    · intro a b h; omega
    · intro a b h; omega
    · intro a b h; omega
    · intro a b h; omega
    · exact ⟨fun _ _ h => h.elim, trivial⟩
  · intro k
    simp only [regions, layout, buffer_size, List.mem_cons, List.mem_singleton,
      List.not_mem_nil, or_false]
    constructor
    · intro hk
      by_cases h1 : k < W * H * C
      · exact ⟨_, Or.inl rfl, by simp only; omega⟩
      by_cases h2 : k < W * H * C + W * H * C
      · exact ⟨_, Or.inr (Or.inl rfl), by simp only; omega⟩
      by_cases h3 : k < W * H * C + W * H * C + W * H
      · exact ⟨_, Or.inr (Or.inr (Or.inl rfl)), by simp only; omega⟩
      by_cases h4 : k < W * H * C + W * H * C + W * H + W * H
      · exact ⟨_, Or.inr (Or.inr (Or.inr (Or.inl rfl))), by simp only; omega⟩
      by_cases h5 : k < W * H * C + W * H * C + W * H + W * H + W * C
      · exact ⟨_, Or.inr (Or.inr (Or.inr (Or.inr (Or.inl rfl)))), by simp only; omega⟩
      by_cases h6 : k < W * H * C + W * H * C + W * H + W * H + W * C + W * C
      · exact ⟨_, Or.inr (Or.inr (Or.inr (Or.inr (Or.inr (Or.inl rfl))))), by simp only; omega⟩
      by_cases h7 : k < W * H * C + W * H * C + W * H + W * H + W * C + W * C + W
      · exact ⟨_, Or.inr (Or.inr (Or.inr (Or.inr (Or.inr (Or.inr (Or.inl rfl)))))),
          by simp only; omega⟩
      · exact ⟨_, Or.inr (Or.inr (Or.inr (Or.inr (Or.inr (Or.inr (Or.inr rfl)))))),
          by simp only; omega⟩
    · rintro ⟨r, hr, h1, h2⟩
      rcases hr with rfl | rfl | rfl | rfl | rfl | rfl | rfl | rfl <;> simp only at h1 h2 <;> omega

/-- Witness of C6 (amended): a 640x480 image with 3 channels. -/
theorem C6_layout_witness :
    (sizes32 (640 : Nat) (480 : Nat) (3 : Nat)).count = ((buffer_size 640 480 3 : Nat) : Int)
    ∧ buffer_size 640 480 3 = 2 * (640 * 480 * 3 + 640 * 480 + 640 * 3 + 640) :=
  ⟨(C6_layout 640 480 3 (by norm_num)).1,
    (C6_layout 640 480 3 (by norm_num)).2.2.2.2.2.2.2.2.2.2.2.1⟩

section NegativeRange

open F32

/-! ## A negative `sigma_range` -/

/-- Error of a conversion of a value of at most `2 ^ 23` units `u = 2 ^ k`. -/
theorem round32_abs_err {x r : ℚ} (k : ℤ) (u : ℚ) (hu : (2 : ℚ) ^ k = u) (hk : -149 ≤ k)
    (h0 : 0 ≤ x) (hx : x ≤ 8388608 * u) (hr : round32 x = F32.fin r) : |x - r| ≤ u / 2 := by
  rcases h0.eq_or_lt with hz | hz
  · rw [← hz, round32_zero] at hr
    injection hr with hr
    rw [← hz, ← hr]
    have : (0 : ℚ) < u := by rw [← hu]; positivity
    simp only [sub_self, abs_zero]
    linarith
  have hj : ulp_exp x ≤ k := by
    apply ulp_exp_le_of_le_rep (M := 8388608) (by norm_num) hk hz
    rw [hu]
    push_cast
    exact hx
  have herr := round32_err hr
  have hle : (2 : ℚ) ^ ulp_exp x ≤ (2 : ℚ) ^ k := zpow_le_zpow_right₀ (by norm_num) hj
  rw [hu] at hle
  rw [Rat.cast_id] at herr
  linarith

theorem half_add_self_big {q : ℚ} (rq : Rep q) (h : q ≤ 1024) :
    (1 / 2 : F32) * (F32.fin q + F32.fin q) = F32.fin q := by
  have r2 : Rep (q + q) := by
    obtain ⟨M, k, hM, hk, rfl, hlt⟩ := rq
    refine ⟨M, k + 1, hM, by omega, ?_, ?_⟩
    · rw [zpow_add₀ (by norm_num)]; ring
    · have h128 : (2048 : ℚ) < (2 : ℚ) ^ (128 : ℤ) := by norm_num
      linarith
  rw [add_fin, round32_rat r2, half_eq, mul_fin]
  have e : (1 / 2 : ℚ) * (q + q) = q := by ring
  rw [e]
  exact round32_rat rq

theorem exp_two_le : Real.exp 2 ≤ 8 := by
  have h1 := Real.exp_one_lt_d9
  have e : Real.exp 2 = Real.exp 1 * Real.exp 1 := by
    rw [← Real.exp_add]; norm_num
  rw [e]
  have h0 : 0 < Real.exp 1 := Real.exp_pos 1
  nlinarith

theorem rep_8 : Rep 8 := by simpa using rep_natCast 8 (by norm_num)

theorem rep_6 : Rep 6 := by simpa using rep_natCast 6 (by norm_num)

/-- Entries of the table for a float `sigma_range = -q` with `1 <= q <= 2 ^ 64`: floats in
`[1, 8]`. -/
theorem table_neg (q : ℚ) (q1 : 1 ≤ q) (q2 : q ≤ (2 : ℚ) ^ (64 : ℤ)) (d : ℕ)
    (hd : d ≤ 255) :
    ∃ t, range_table_f32 (F32.fin (-q)) d = F32.fin t ∧ Rep t ∧ 1 ≤ t ∧ t ≤ 8 := by
  have e64 : (2 : ℚ) ^ (64 : ℤ) = 18446744073709551616 := by norm_num
  have e72 : (2 : ℚ) ^ (72 : ℤ) = 4722366482869645213696 := by norm_num
  rw [e64] at q2
  have r128 : Rep (1 / 128) := by
    have := rep_two_zpow (-7) (by norm_num) (by norm_num)
    have e : (2 : ℚ) ^ (-7 : ℤ) = 1 / 128 := by norm_num
    rwa [e] at this
  obtain ⟨p, hp, rp, p1, p2⟩ := round32_between (x := q * 255) rep_255
    (rep_two_zpow 72 (by norm_num) (by norm_num))
    (by rw [Rat.cast_id]; linarith) (by rw [Rat.cast_id, e72]; linarith)
  have hp0 : 0 < p := by linarith
  obtain ⟨v, hv, rv, -, v2⟩ := round32_between (x := 1 / p) rep_zero r128
    (by rw [Rat.cast_id]; positivity)
    (by rw [Rat.cast_id, div_le_div_iff₀ hp0 (by norm_num)]; linarith)
  have hv0 := rv.nonneg
  have hdq : (d : ℚ) ≤ 255 := by exact_mod_cast hd
  have hd0 : (0 : ℚ) ≤ (d : ℚ) := Nat.cast_nonneg d
  obtain ⟨w, hw, rw', -, w2⟩ := round32_between (x := (d : ℚ) * v) rep_zero rep_two
    (by rw [Rat.cast_id]; exact_mod_cast mul_nonneg hd0 hv0)
    (by rw [Rat.cast_id]; nlinarith)
  have hw0 := rw'.nonneg
  have hmul : F32.fin (-q) * ((255 : ℕ) : F32) = F32.fin (-p) := by
    rw [natCast_255, mul_fin, neg_mul, round32_neg, hp]
    rfl
  have hinv : (1 : F32) / (F32.fin (-q) * ((255 : ℕ) : F32)) = F32.fin (-v) := by
    rw [hmul, one_eq, div_fin _ _ (by linarith)]
    have e : (1 : ℚ) / -p = -(1 / p) := by rw [div_neg]
    rw [e, round32_neg, hv]
    rfl
  have harg : F32.neg ((d : ℕ) : F32) * ((1 : F32) / (F32.fin (-q) * ((255 : ℕ) : F32)))
      = F32.fin w := by
    rw [hinv, natCast_eq d (by omega)]
    show F32.fin (-(d : ℚ)) * F32.fin (-v) = F32.fin w
    rw [mul_fin, neg_mul_neg]
    exact hw
  have hw2R : (w : ℝ) ≤ 2 := by exact_mod_cast w2
  have hw0R : (0 : ℝ) ≤ (w : ℝ) := by exact_mod_cast hw0
  have hex1 : (1 : ℝ) ≤ Real.exp (w : ℝ) := by
    have := Real.add_one_le_exp (w : ℝ)
    linarith
  have hex2 : Real.exp (w : ℝ) ≤ 8 := le_trans (Real.exp_le_exp.mpr hw2R) exp_two_le
  obtain ⟨t, ht, rt, t1, t2⟩ := round32_between (x := Real.exp (w : ℝ)) rep_one rep_8
    (by push_cast; exact hex1) (by push_cast; exact hex2)
  refine ⟨t, ?_, rt, t1, t2⟩
  simp only [range_table_f32]
  rw [harg]
  exact ht

theorem rep_765_4 : Rep (765 / 4) := by
  have := rep_mk 765 (-2) (by norm_num) (by norm_num) (by norm_num)
  have e : ((765 : ℕ) : ℚ) * (2 : ℚ) ^ (-2 : ℤ) = 765 / 4 := by norm_num
  rwa [e] at this

theorem rep_27_4 : Rep (27 / 4) := by
  have := rep_mk 27 (-2) (by norm_num) (by norm_num) (by norm_num)
  have e : ((27 : ℕ) : ℚ) * (2 : ℚ) ^ (-2 : ℤ) = 27 / 4 := by norm_num
  rwa [e] at this

theorem rep_below_one : Rep (16777215 / 16777216) := by
  have := rep_mk 16777215 (-24) (by norm_num) (by norm_num) (by norm_num)
  have e : ((16777215 : ℕ) : ℚ) * (2 : ℚ) ^ (-24 : ℤ) = 16777215 / 16777216 := by norm_num
  rwa [e] at this

theorem rep_1785_4 : Rep (1785 / 4) := by
  have := rep_mk 1785 (-2) (by norm_num) (by norm_num) (by norm_num)
  have e : ((1785 : ℕ) : ℚ) * (2 : ℚ) ^ (-2 : ℤ) = 1785 / 4 := by norm_num
  rwa [e] at this

theorem rep_15_8 : Rep (15 / 8) := by
  have := rep_mk 15 (-3) (by norm_num) (by norm_num) (by norm_num)
  have e : ((15 : ℕ) : ℚ) * (2 : ℚ) ^ (-3 : ℤ) = 15 / 8 := by norm_num
  rwa [e] at this

theorem rep_15_16 : Rep (15 / 16) := by
  have := rep_mk 15 (-4) (by norm_num) (by norm_num) (by norm_num)
  have e : ((15 : ℕ) : ℚ) * (2 : ℚ) ^ (-4 : ℤ) = 15 / 16 := by norm_num
  rwa [e] at this

/-- The float `1 - alpha` for `alpha` in `[1/4, 3/4]`. -/
theorem neg_one_sub {a : ℚ} (ra : Rep a) (a1 : 1 / 4 ≤ a) (a2 : a ≤ 3 / 4) :
    ∃ i, (1 : F32) - F32.fin a = F32.fin i ∧ Rep i ∧ 1 / 4 ≤ i ∧ i ≤ 3 / 4
      ∧ 1 - a - 1 / 33554432 ≤ i := by
  have ha : In01 (F32.fin a) a := ⟨rfl, ra, by linarith⟩
  obtain ⟨i, hi, ri, i1, i2⟩ := round32_between (x := 1 - a) rep_quarter rep_three_quarters
    (by rw [Rat.cast_id]; linarith) (by rw [Rat.cast_id]; linarith)
  have hi' : (1 : F32) - F32.fin a = F32.fin i := by rw [one_eq, sub_fin]; exact hi
  exact ⟨i, hi', ri, i1, i2, in01_one_sub_lower ha hi'⟩

/-- The product of a table entry in `[1, 8]` and `alpha` in `[1/4, 3/4]`. -/
theorem neg_decay {a : ℚ} (ra : Rep a) (a1 : 1 / 4 ≤ a) (a2 : a ≤ 3 / 4) (tbl : Nat → F32)
    (ht : ∀ d, d ≤ 255 → ∃ t, tbl d = F32.fin t ∧ Rep t ∧ 1 ≤ t ∧ t ≤ 8) (d : Nat)
    (hd : d ≤ 255) :
    ∃ m, tbl d * F32.fin a = F32.fin m ∧ Rep m ∧ a ≤ m ∧ m ≤ 6 := by
  obtain ⟨t, htt, rt, t1, t2⟩ := ht d hd
  obtain ⟨m, hm, rm, m1, m2⟩ := round32_between (x := t * a) ra rep_6
    (by rw [Rat.cast_id]; nlinarith) (by rw [Rat.cast_id]; nlinarith)
  exact ⟨m, by rw [htt, mul_fin]; exact hm, rm, m1, m2⟩

/-- Arithmetic of the first pixel: the quotient of the averaged colour by the averaged
factor is at most 213. -/
theorem neg_ratio {i n R G N0 S0 D0 : ℚ} (i1 : 1 / 4 ≤ i) (n2 : n ≤ 6)
    (hR : n * 255 - R ≥ -(1 / 4096 / 2)) (hG : i + n - G ≤ 1 / 1048576 / 2)
    (hN : 1 / 2 * R - N0 ≥ -(1 / 8192 / 2)) (hS : 1 + G - S0 ≤ 1 / 1048576 / 2)
    (hD : 1 / 2 * S0 - D0 ≤ 1 / 2097152 / 2) : N0 ≤ 213 * D0 := by
  linarith

/-- Horizontal colour and factor of the first pixel of the step image. -/
theorem step_first_neg (img : Nat → Nat) (himg : ∀ i, i < 6 → img i = img_step i)
    (tbl : Nat → F32) (ht : ∀ d, d ≤ 255 → ∃ t, tbl d = F32.fin t ∧ Rep t ∧ 1 ≤ t ∧ t ≤ 8)
    (a : ℚ) (ra : Rep a) (a1 : 1 / 4 ≤ a) (a2 : a ≤ 3 / 4) (c : Nat) (hc : c < 3) :
    ∃ N D, h_col img tbl (F32.fin a) 2 0 0 c = F32.fin N
      ∧ h_fac img tbl (F32.fin a) 2 0 0 = F32.fin D
      ∧ Rep N ∧ Rep D ∧ N ≤ 765 ∧ 1 / 2 ≤ D ∧ D ≤ 8 ∧ N ≤ 213 * D := by
  have hlow : ∀ i, i < 3 → ((img i : ℕ) : F32) = F32.fin 0 := by
    intro i hi
    rw [himg i (by omega)]
    simp only [img_step]
    rw [if_pos hi, natCast_zero_f32]
  have hhigh : ∀ i, 3 ≤ i → i < 6 → ((img i : ℕ) : F32) = F32.fin 255 := by
    intro i hi hi6
    rw [himg i hi6]
    simp only [img_step]
    rw [if_neg (by omega), natCast_255]
  have e21 : (2 : ℚ) ^ (-21 : ℤ) = 1 / 2097152 := by norm_num
  have e20 : (2 : ℚ) ^ (-20 : ℤ) = 1 / 1048576 := by norm_num
  have e12 : (2 : ℚ) ^ (-12 : ℤ) = 1 / 4096 := by norm_num
  have e13 : (2 : ℚ) ^ (-13 : ℤ) = 1 / 8192 := by norm_num
  obtain ⟨i, hi', ri, i1, i2, i3⟩ := neg_one_sub ra a1 a2
  obtain ⟨n, hn, rn, n1, n2⟩ := neg_decay ra a1 a2 tbl ht _
    (range_dist_le (img (0 + 3 * (2 - 2 - 0) + 2))
      (img (0 + 3 * (2 - 1 - 0) + 2)) (img (0 + 3 * (2 - 2 - 0) + 1))
      (img (0 + 3 * (2 - 1 - 0) + 1)) (img (0 + 3 * (2 - 2 - 0))) (img (0 + 3 * (2 - 1 - 0))))
  have l0 : ltr_col img tbl (F32.fin a) 0 c 0 = F32.fin 0 := by
    simp only [ltr_col]
    exact hlow (0 + c) (by omega)
  have r0 : rtl_col img tbl (F32.fin a) 2 0 c 0 = F32.fin 255 := by
    simp only [rtl_col]
    exact hhigh _ (by omega) (by omega)
  have r1530 : Rep 1530 := by simpa using rep_natCast 1530 (by norm_num)
  obtain ⟨R, hR, rR, -, R2⟩ := round32_between (x := n * 255) rep_zero r1530
    (by rw [Rat.cast_id]; linarith) (by rw [Rat.cast_id]; linarith)
  have hRerr := round32_abs_err (-12) _ e12 (by norm_num) (by linarith : (0 : ℚ) ≤ n * 255)
    (by linarith) hR
  have r1 : rtl_col img tbl (F32.fin a) 2 0 c 1 = F32.fin R := by
    show (1 - F32.fin a) * ((img (0 + 3 * (2 - 2 - 0) + c) : ℕ) : F32)
      + decay_rev img tbl (F32.fin a) (0 + 3 * (2 - 2 - 0)) (0 + 3 * (2 - 1 - 0))
        * rtl_col img tbl (F32.fin a) 2 0 c 0 = F32.fin R
    simp only [decay_rev]
    rw [hi', hlow _ (by omega), r0, hn, mul_zero_fin, mul_fin, hR, zero_add_fin rR]
  obtain ⟨G, hG, rG, -, G2⟩ := round32_between (x := i + n) rep_below_one rep_27_4
    (by rw [Rat.cast_id]; linarith) (by rw [Rat.cast_id]; linarith)
  have hGerr := round32_abs_err (-20) _ e20 (by norm_num) (by linarith : (0 : ℚ) ≤ i + n)
    (by linarith) hG
  have rf1 : rtl_fac img tbl (F32.fin a) 2 0 1 = F32.fin G := by
    show (1 - F32.fin a) + decay_rev img tbl (F32.fin a) (0 + 3 * (2 - 2 - 0))
      (0 + 3 * (2 - 1 - 0)) * rtl_fac img tbl (F32.fin a) 2 0 0 = F32.fin G
    have : rtl_fac img tbl (F32.fin a) 2 0 0 = 1 := rfl
    simp only [decay_rev]
    rw [hi', this, hn, mul_one_fin rn, add_fin]
    exact hG
  have r765' : Rep 765 := by simpa using rep_natCast 765 (by norm_num)
  obtain ⟨N0, hN0, rN0, -, N02⟩ := round32_between (x := 1 / 2 * R) rep_zero r765'
    (by rw [Rat.cast_id]; linarith [rR.nonneg]) (by rw [Rat.cast_id]; linarith)
  have hN0err := round32_abs_err (-13) _ e13 (by norm_num)
    (by linarith [rR.nonneg] : (0 : ℚ) ≤ 1 / 2 * R) (by linarith) hN0
  have hh0 : h_col img tbl (F32.fin a) 2 0 0 c = F32.fin N0 := by
    simp only [h_col]
    rw [if_neg (by norm_num), l0, show (2 - 1 - 0 : ℕ) = 1 from rfl, r1, zero_add_fin rR,
      half_eq, mul_fin]
    exact hN0
  obtain ⟨S0, hS0, rS0, S01, S02⟩ := round32_between (x := 1 + G) rep_one rep_8
    (by rw [Rat.cast_id]; linarith [rG.nonneg]) (by rw [Rat.cast_id]; linarith)
  have hS0err := round32_abs_err (-20) _ e20 (by norm_num)
    (by linarith [rG.nonneg] : (0 : ℚ) ≤ 1 + G) (by linarith) hS0
  obtain ⟨D0, hD0, rD0, D01, D02⟩ := round32_between (x := 1 / 2 * S0) rep_half rep_8
    (by rw [Rat.cast_id]; linarith) (by rw [Rat.cast_id]; linarith)
  have hD0err := round32_abs_err (-21) _ e21 (by norm_num)
    (by linarith : (0 : ℚ) ≤ 1 / 2 * S0) (by linarith) hD0
  have hf0 : h_fac img tbl (F32.fin a) 2 0 0 = F32.fin D0 := by
    show (1 / 2 : F32) * (ltr_fac img tbl (F32.fin a) 0 0
      + rtl_fac img tbl (F32.fin a) 2 0 (2 - 1 - 0)) = F32.fin D0
    have : ltr_fac img tbl (F32.fin a) 0 0 = 1 := rfl
    rw [this, show (2 - 1 - 0 : ℕ) = 1 from rfl, rf1, half_eq, one_eq, add_fin, hS0, mul_fin]
    exact hD0
  rw [abs_le] at hRerr hGerr hN0err hS0err hD0err
  exact ⟨N0, D0, hh0, hf0, rN0, rD0, N02, D01, D02,
    neg_ratio i1 n2 hRerr.1 hGerr.2 hN0err.1 hS0err.2 hD0err.2⟩

/-- Horizontal colour and factor of the second pixel of the step image. -/
theorem step_second_neg (img : Nat → Nat) (himg : ∀ i, i < 6 → img i = img_step i)
    (tbl : Nat → F32) (ht : ∀ d, d ≤ 255 → ∃ t, tbl d = F32.fin t ∧ Rep t ∧ 1 ≤ t ∧ t ≤ 8)
    (a : ℚ) (ra : Rep a) (a1 : 1 / 4 ≤ a) (a2 : a ≤ 3 / 4) (c : Nat) (hc : c < 3) :
    ∃ N D, h_col img tbl (F32.fin a) 2 0 1 c = F32.fin N
      ∧ h_fac img tbl (F32.fin a) 2 0 1 = F32.fin D
      ∧ Rep N ∧ Rep D ∧ N ≤ 224 ∧ 15 / 16 ≤ D ∧ D ≤ 8 := by
  have hlow : ∀ i, i < 3 → ((img i : ℕ) : F32) = F32.fin 0 := by
    intro i hi
    rw [himg i (by omega)]
    simp only [img_step]
    rw [if_pos hi, natCast_zero_f32]
  have hhigh : ∀ i, 3 ≤ i → i < 6 → ((img i : ℕ) : F32) = F32.fin 255 := by
    intro i hi hi6
    rw [himg i hi6]
    simp only [img_step]
    rw [if_neg (by omega), natCast_255]
  obtain ⟨i, hi', ri, i1, i2, i3⟩ := neg_one_sub ra a1 a2
  obtain ⟨m, hm, rm, m1, m2⟩ := neg_decay ra a1 a2 tbl ht _
    (range_dist_le (img (0 + 3 * (0 + 1))) (img (0 + 3 * 0))
      (img (0 + 3 * (0 + 1) + 1)) (img (0 + 3 * 0 + 1)) (img (0 + 3 * (0 + 1) + 2))
      (img (0 + 3 * 0 + 2)))
  have l0 : ltr_col img tbl (F32.fin a) 0 c 0 = F32.fin 0 := by
    simp only [ltr_col]
    exact hlow (0 + c) (by omega)
  obtain ⟨L, hL, rL, -, L2⟩ := round32_between (x := i * 255) rep_zero rep_765_4
    (by rw [Rat.cast_id]; linarith) (by rw [Rat.cast_id]; linarith)
  have l1 : ltr_col img tbl (F32.fin a) 0 c 1 = F32.fin L := by
    show (1 - F32.fin a) * ((img (0 + 3 * (0 + 1) + c) : ℕ) : F32)
      + decay_at img tbl (F32.fin a) (0 + 3 * (0 + 1)) (0 + 3 * 0)
        * ltr_col img tbl (F32.fin a) 0 c 0 = F32.fin L
    simp only [decay_at]
    rw [hi', hhigh _ (by omega) (by omega), l0, hm, mul_zero_fin, mul_fin, hL,
      add_zero_fin rL]
  obtain ⟨F, hF, rF, F1, F2⟩ := round32_between (x := i + m) rep_below_one rep_27_4
    (by rw [Rat.cast_id]; linarith) (by rw [Rat.cast_id]; linarith)
  have lf1 : ltr_fac img tbl (F32.fin a) 0 1 = F32.fin F := by
    show (1 - F32.fin a) + decay_at img tbl (F32.fin a) (0 + 3 * (0 + 1)) (0 + 3 * 0)
      * ltr_fac img tbl (F32.fin a) 0 0 = F32.fin F
    have : ltr_fac img tbl (F32.fin a) 0 0 = 1 := rfl
    simp only [decay_at]
    rw [hi', this, hm, mul_one_fin rm, add_fin]
    exact hF
  obtain ⟨S1, hS1, rS1, -, S12⟩ := round32_between (x := L + 255) rep_zero rep_1785_4
    (by rw [Rat.cast_id]; linarith [rL.nonneg]) (by rw [Rat.cast_id]; linarith)
  have r224 : Rep 224 := by simpa using rep_natCast 224 (by norm_num)
  obtain ⟨N1, hN1, rN1, -, N12⟩ := round32_between (x := 1 / 2 * S1) rep_zero r224
    (by rw [Rat.cast_id]; linarith [rS1.nonneg]) (by rw [Rat.cast_id]; linarith)
  have hh1 : h_col img tbl (F32.fin a) 2 0 1 c = F32.fin N1 := by
    simp only [h_col]
    rw [if_pos (by norm_num), l1, hhigh _ (by omega) (by omega), add_fin, hS1, half_eq,
      mul_fin]
    exact hN1
  obtain ⟨T1, hT1, rT1, T11, T12⟩ := round32_between (x := F + 1) rep_15_8 rep_8
    (by rw [Rat.cast_id]; linarith) (by rw [Rat.cast_id]; linarith)
  obtain ⟨D1, hD1, rD1, D11, D12⟩ := round32_between (x := 1 / 2 * T1) rep_15_16 rep_8
    (by rw [Rat.cast_id]; linarith) (by rw [Rat.cast_id]; linarith)
  have hf1 : h_fac img tbl (F32.fin a) 2 0 1 = F32.fin D1 := by
    show (1 / 2 : F32) * (ltr_fac img tbl (F32.fin a) 0 1
      + rtl_fac img tbl (F32.fin a) 2 0 (2 - 1 - 1)) = F32.fin D1
    have : rtl_fac img tbl (F32.fin a) 2 0 (2 - 1 - 1) = 1 := rfl
    rw [this, lf1, half_eq, one_eq, add_fin, hT1, mul_fin]
    exact hD1
  exact ⟨N1, D1, hh1, hf1, rN1, rD1, N12, D11, D12⟩

/-- Normalised values of the step image for a horizontal `alpha` in `[1/4, 3/4]` and table
entries in `[1, 8]`: floats in `[0, 213]` at the first pixel and in `[0, 239]` at the
second. -/
theorem step_out_neg (img : Nat → Nat) (himg : ∀ i, i < 6 → img i = img_step i)
    (tbl : Nat → F32) (ht : ∀ d, d ≤ 255 → ∃ t, tbl d = F32.fin t ∧ Rep t ∧ 1 ≤ t ∧ t ≤ 8)
    (a : ℚ) (ra : Rep a) (a1 : 1 / 4 ≤ a) (a2 : a ≤ 3 / 4) (alpha_v : F32) (c : Nat)
    (hc : c < 3) :
    (∃ r, out_col img tbl (F32.fin a) alpha_v 2 1 0 0 c = F32.fin r ∧ 0 ≤ r ∧ r ≤ 213)
    ∧ (∃ r, out_col img tbl (F32.fin a) alpha_v 2 1 0 1 c = F32.fin r ∧ 0 ≤ r ∧ r ≤ 239) := by
  have hout : ∀ x N D, Rep N → N ≤ 1024 → Rep D → D ≤ 1024 →
      h_col img tbl (F32.fin a) 2 0 x c = F32.fin N →
      h_fac img tbl (F32.fin a) 2 0 x = F32.fin D →
      out_col img tbl (F32.fin a) alpha_v 2 1 0 x c = F32.fin N / F32.fin D := by
    intro x N D rN hN rD hD hh hf
    simp only [out_col, out_fac, ttb_col, btt_col, ttb_fac, btt_fac]
    rw [show (1 - 1) * (2 * 3) = 0 from rfl, hh, hf, half_add_self_big rN hN,
      half_add_self_big rD hD]
  have r213 : Rep 213 := by simpa using rep_natCast 213 (by norm_num)
  have r239 : Rep 239 := by simpa using rep_natCast 239 (by norm_num)
  obtain ⟨N0, D0, hh0, hf0, rN0, rD0, N02, D01, D02, hrat⟩ :=
    step_first_neg img himg tbl ht a ra a1 a2 c hc
  obtain ⟨N1, D1, hh1, hf1, rN1, rD1, N12, D11, D12⟩ :=
    step_second_neg img himg tbl ht a ra a1 a2 c hc
  constructor
  · rw [hout 0 N0 D0 rN0 (by linarith) rD0 (by linarith) hh0 hf0,
      div_fin _ _ (by linarith)]
    have hD0pos : 0 < D0 := by linarith
    have hq0 : 0 ≤ N0 / D0 := div_nonneg rN0.nonneg hD0pos.le
    exact round32_le_rep r213 (x := N0 / D0) hq0 (by
      rw [Rat.cast_id, div_le_iff₀ hD0pos]
      exact_mod_cast hrat)
  · rw [hout 1 N1 D1 rN1 (by linarith) rD1 (by linarith) hh1 hf1,
      div_fin _ _ (by linarith)]
    have hD1pos : 0 < D1 := by linarith
    have hq1 : 0 ≤ N1 / D1 := div_nonneg rN1.nonneg hD1pos.le
    exact round32_le_rep r239 (x := N1 / D1) hq1 (by
      rw [Rat.cast_id, div_le_iff₀ hD1pos]
      linarith)

end NegativeRange

section NoValidation

open F32

/-! ## Unvalidated input in single precision -/

/-- The filter returns an image when every normalised value converts; each returned sample
has the property `P` the conversion gives it. -/
theorem filter_passes_f32_some (img : Nat → Nat) (tbl : Nat → F32) (alpha_h alpha_v : F32)
    (W H : Nat) (buf : Nat → F32) (P : Nat → Nat → Prop) (hW : 1 ≤ W) (hH : 1 ≤ H)
    (h : ∀ y x c, y < H → x < W → c < 3 →
      ∃ n, to_uchar_f32 (out_col img tbl alpha_h alpha_v W H y x c) = some n
        ∧ P (y * (W * 3) + 3 * x + c) n) :
    ∃ out, filter_passes_f32 img tbl alpha_h alpha_v W H 3 buf = some out
      ∧ ∀ k, k < W * H * 3 → P k (out k) := by
  have hs := sweeps_spec img tbl alpha_h alpha_v W H buf hW hH
  have hv : ∀ i, i < W * H * 3 →
      ∃ n, to_uchar_f32 (sweeps img tbl alpha_h alpha_v W H 3 buf i) = some n ∧ P i n := by
    intro i hi
    obtain ⟨y, x, c, hy, hx, hc, rfl⟩ := pixel_index W H i hi
    rw [hs.col_done y x c hy (by omega) hx hc]
    exact h y x c hy hx hc
  have hq := quantize_f32_spec W H 3 img (sweeps img tbl alpha_h alpha_v W H 3 buf)
    (fun i => (to_uchar_f32 (sweeps img tbl alpha_h alpha_v W H 3 buf i)).getD 0) (by
      intro i hi
      obtain ⟨n, hn, -⟩ := hv i hi
      simp only [hn, Option.getD_some])
  refine ⟨_, hq, ?_⟩
  intro k hk
  obtain ⟨n, hn, hP⟩ := hv k hk
  simp only [if_pos hk, hn, Option.getD_some]
  exact hP

theorem to_uchar_f32_le {r : ℚ} (B : ℕ) (h0 : 0 ≤ r) (h1 : r ≤ (B : ℚ)) (hB : B < 256) :
    ∃ n, to_uchar_f32 (F32.fin r) = some n ∧ n ≤ B := by
  have hB' : (B : ℚ) < 256 := by exact_mod_cast hB
  have hh : (-1 : ℚ) < r ∧ r < 256 := ⟨by linarith, by linarith⟩
  refine ⟨⌊r⌋₊, by simp only [to_uchar_f32, if_pos hh], ?_⟩
  have := Nat.floor_mono h1
  rwa [Nat.floor_natCast] at this

/-- The image `recursive_bf` returns on the step image for `sigma_spatial = 1` and a float
`sigma_range = -q` with `1 <= q <= 2 ^ 64`. -/
theorem step_neg_result (q : ℚ) (q1 : 1 ≤ q) (q2 : q ≤ (2 : ℚ) ^ (64 : ℤ))
    (out0 : Nat → Nat) (buffer : Option (Nat → F32)) (fresh : Nat → F32) :
    ∃ out, recursive_bf_f32 img_step out0 (F32.fin 1) (F32.fin (-q)) 2 1 3 buffer fresh
        = some out
      ∧ ∀ k, k < 2 * 1 * 3 → (k < 3 → out k ≤ 213) ∧ (3 ≤ k → out k ≤ 239) := by
  obtain ⟨a, ha, ra, a1, a2⟩ := decay_1_2
  have hcopy : ∀ k, k < 6 →
      loopUp 0 (fun i out => store out i (img_step i)) (2 * 1 * 3) out0 k = img_step k := by
    intro k hk
    rw [copy_spec, if_pos (by omega)]
  simp only [recursive_bf_f32, _recursive_bf_f32]
  rw [ha]
  apply filter_passes_f32_some _ _ _ _ 2 1 _
    (fun k n => (k < 3 → n ≤ 213) ∧ (3 ≤ k → n ≤ 239)) (by norm_num) (by norm_num)
  intro y x c hy hx hc
  have hy0 : y = 0 := by omega
  subst hy0
  obtain ⟨⟨r0, g0, r00, r02⟩, ⟨r1, g1, r10, r12⟩⟩ := step_out_neg _ hcopy _
    (table_neg q q1 q2) a ra a1 a2 (decay_f32 (F32.fin 1) 1) c hc
  have hx2 : x = 0 ∨ x = 1 := by omega
  rcases hx2 with rfl | rfl
  · rw [g0]
    obtain ⟨n, hn, hle⟩ := to_uchar_f32_le 213 r00 (by exact_mod_cast r02) (by norm_num)
    exact ⟨n, hn, fun _ => hle, fun h3 => by omega⟩
  · rw [g1]
    obtain ⟨n, hn, hle⟩ := to_uchar_f32_le 239 r10 (by exact_mod_cast r12) (by norm_num)
    exact ⟨n, hn, fun h3 => by omega, fun _ => hle⟩

/-- C9, as stated, fails, in `float` arithmetic too: with `sigma_range = -1` nothing is
rejected; `recursive_bf` returns an image, the step image filtered: output sample 3 differs
from the input sample. -/
theorem C9_counterexample :
    (-1 : ℚ) ≤ 0
    ∧ ∃ out, recursive_bf_f32 img_step (fun _ => 0) (F32.fin 1) (F32.fin (-1)) 2 1 3 none
        (fun _ => F32.fin 0) = some out
      ∧ out 3 ≠ img_step 3 := by
  refine ⟨by norm_num, ?_⟩
  obtain ⟨out, ho, hk⟩ := step_neg_result 1 (le_refl _) (by norm_num) (fun _ => 0) none
    (fun _ => F32.fin 0)
  refine ⟨out, ho, ?_⟩
  have h3 := (hk 3 (by norm_num)).2 (le_refl _)
  have e : img_step 3 = 255 := by decide
  rw [e]
  omega

/-- C9, amended, in `float` arithmetic: `recursive_bf` checks nothing and has no
rejected-input result. For the step image, `sigma_spatial = 1` and every float
`sigma_range = -q` with `1 <= q <= 2 ^ 64`, whatever the previous content of the output and
the content of the scratch storage (passed in or fresh), it returns an image, the input
filtered: the samples of the first pixel are at most 213 and those of the second pixel are
at most 239, below the input value 255. The length of a buffer passed in is not described
by the storage maps and is not part of the statement. -/
theorem C9_no_validation (q : ℚ) (out0 : Nat → Nat) (buffer : Option (Nat → F32))
    (fresh : Nat → F32) (rq : Rep q) (q1 : 1 ≤ q) (q2 : q ≤ (2 : ℚ) ^ (64 : ℤ)) :
    ∃ out, recursive_bf_f32 img_step out0 (F32.fin 1) (F32.fin (-q)) 2 1 3 buffer fresh
        = some out
      ∧ (∀ k, k < 3 → out k ≤ 213)
      ∧ (∀ k, 3 ≤ k → k < 6 → out k ≤ 239 ∧ out k < img_step k) := by
  have _ := rq
  obtain ⟨out, ho, hk⟩ := step_neg_result q q1 q2 out0 buffer fresh
  refine ⟨out, ho, fun k h3 => (hk k (by omega)).1 h3, ?_⟩
  intro k h3 h6
  have hle := (hk k (by omega)).2 h3
  have e : img_step k = 255 := by
    simp only [img_step]
    rw [if_neg (by omega)]
  rw [e]
  exact ⟨hle, by omega⟩

/-- Witness of C9 (amended): `sigma_range = -2`, an external buffer holding 7 everywhere;
samples 0 and 3 of the returned image. -/
theorem C9_no_validation_witness :
    ∃ out, recursive_bf_f32 img_step (fun _ => 0) (F32.fin 1) (F32.fin (-2)) 2 1 3
        (some (fun _ => F32.fin 7)) (fun _ => F32.fin 0) = some out
      ∧ out 0 ≤ 213 ∧ out 3 ≤ 239 ∧ out 3 < img_step 3 :=
  (C9_no_validation 2 (fun _ => 0) (some (fun _ => F32.fin 7)) (fun _ => F32.fin 0) rep_two
    (by norm_num) (by norm_num)).elim
    fun out h => ⟨out, h.1, h.2.1 0 (by norm_num), h.2.2 3 (by norm_num) (by norm_num)⟩

end NoValidation

end RBF
